import Mathlib

set_option maxHeartbeats 4000000
set_option linter.unusedSectionVars false
set_option linter.unusedVariables false
set_option linter.deprecated false
set_option linter.unnecessarySimpa false

/-!
Verification of the indexable ordered set structures of `automerge-backend`
(`src/automerge-backend/src/ordered_set.rs`): the order-statistic `SkipList`,
the reference `VecOrderedSet`, the `OrdDelta` overlay, and the geometric
`random_level` draw.

The Rust code is shallowly embedded: `&mut self` methods become functions
returning the new state, `Result<(), AutomergeError>` becomes
`Except AutomergeError Unit` paired with the (possibly partially updated)
state, panics and potential divergence (fuelled loops) are modelled by an
outer `Option` with `none` for "the call does not return normally".
Writes `v[i] = x` to a vector index that would be out of bounds (a panic in
Rust that is unreachable under the structure's invariant) are modelled by
`List.set` / `modifyAt`, which leave the list unchanged out of range.
-/

namespace Automerge

variable {K : Type} [DecidableEq K]

/-- `AutomergeError::SkipListError(String)` from `error.rs` (only this
variant is used by `ordered_set.rs`). -/
inductive AutomergeError where
  | skipListError (msg : String)
deriving DecidableEq

/-- `struct Link<K> { key: Option<K>, count: usize }`. -/
structure Link (K : Type) where
  key : Option K
  count : Nat
deriving DecidableEq

/-- `struct Node<K> { next: Vec<Link<K>>, prev: Vec<Link<K>>, level: usize, is_head: bool }`. -/
structure Node (K : Type) where
  next : List (Link K)
  prev : List (Link K)
  level : Nat
  is_head : Bool
deriving DecidableEq

/-- `impl AddAssign for Link`: `self = { key: other.key, count: self.count + other.count }`. -/
def Link.add (self other : Link K) : Link K :=
  { key := other.key, count := self.count + other.count }

/-- `xs[i] = f xs[i]`, leaving `xs` unchanged when `i` is out of range. -/
def modifyAt (xs : List (Link K)) (i : Nat) (f : Link K → Link K) : List (Link K) :=
  match xs.get? i with
  | none => xs
  | some x => xs.set i (f x)

/-- `Node::successor`: `next[0].key`, or `None` when `next` is empty. -/
def Node.successor (n : Node K) : Option K :=
  match n.next with
  | [] => none
  | l :: _ => l.key

/-- The `for` loop of `Node::insert_after`, over levels
`from_level, from_level+1, …` (`steps` iterations). -/
def insAfterLoop (new_key : K) (new_level distance : Nat) :
    Nat → Nat → List (Link K) → List (Link K)
  | _, 0, nx => nx
  | lvl, steps + 1, nx =>
    let nx' :=
      if lvl < new_level then
        (if nx.length = lvl then nx ++ [⟨some new_key, distance⟩]
         else nx.set lvl ⟨some new_key, distance⟩)
      else
        modifyAt nx lvl (fun lk => { lk with count := lk.count + 1 })
    insAfterLoop new_key new_level distance (lvl + 1) steps nx'

/-- `Node::insert_after`. -/
def Node.insert_after (n : Node K) (new_key : K) (new_level from_level distance : Nat) :
    Except AutomergeError (Node K) :=
  if new_level > n.level ∧ n.is_head = false then
    .error (.skipListError "Cannot increase the level of a non-head node")
  else
    let lvl := max n.level new_level
    .ok { n with level := lvl,
                 next := insAfterLoop new_key new_level distance from_level (lvl - from_level) n.next }

/-- The `for` loop of `Node::insert_before`. -/
def insBeforeLoop (new_key : K) (new_level distance : Nat) :
    Nat → Nat → List (Link K) → List (Link K)
  | _, 0, pv => pv
  | lvl, steps + 1, pv =>
    let pv' :=
      if lvl < new_level then pv.set lvl ⟨some new_key, distance⟩
      else modifyAt pv lvl (fun lk => { lk with count := lk.count + 1 })
    insBeforeLoop new_key new_level distance (lvl + 1) steps pv'

/-- `Node::insert_before`. -/
def Node.insert_before (n : Node K) (new_key : K) (new_level from_level distance : Nat) :
    Except AutomergeError (Node K) :=
  if new_level > n.level then
    .error (.skipListError "Cannot increase the level on insert-before")
  else
    .ok { n with prev := insBeforeLoop new_key new_level distance from_level (n.level - from_level) n.prev }

/-- The `for` loop of `Node::remove_after` / `Node::remove_before`:
iterates over `links.enumerate().take(node_level).skip(from_level)`. -/
def remLinksLoop (links : List (Link K)) (removed_level : Nat) :
    Nat → Nat → List (Link K) → List (Link K)
  | _, 0, nx => nx
  | lvl, steps + 1, nx =>
    let nx' :=
      if lvl < removed_level then nx.set lvl (links.getD lvl ⟨none, 0⟩)
      else modifyAt nx lvl (fun lk => { lk with count := lk.count - 1 })
    remLinksLoop links removed_level (lvl + 1) steps nx'

/-- `Node::remove_after`. -/
def Node.remove_after (n : Node K) (from_level removed_level : Nat) (links : List (Link K)) :
    Node K :=
  { n with next := remLinksLoop links removed_level from_level (min n.level links.length - from_level) n.next }

/-- `Node::remove_before`. -/
def Node.remove_before (n : Node K) (from_level removed_level : Nat) (links : List (Link K)) :
    Node K :=
  { n with prev := remLinksLoop links removed_level from_level (min n.level links.length - from_level) n.prev }

/-- Lookup in the key→node association (`im_rc::HashMap::get`). -/
def getN : List (K × Node K) → K → Option (Node K)
  | [], _ => none
  | (a, nd) :: t, k => if a = k then some nd else getN t k

/-- `HashMap::contains_key`. -/
def containsN (m : List (K × Node K)) (k : K) : Bool :=
  (getN m k).isSome

/-- `HashMap::insert` (replaces an existing entry, otherwise adds one). -/
def setN : List (K × Node K) → K → Node K → List (K × Node K)
  | [], k, nd => [(k, nd)]
  | (a, b) :: t, k, nd => if a = k then (k, nd) :: t else (a, b) :: setN t k nd

/-- `HashMap::remove`: the removed value (if any) and the remaining map. -/
def removeN : List (K × Node K) → K → Option (Node K × List (K × Node K))
  | [], _ => none
  | (a, b) :: t, k =>
    if a = k then some (b, t)
    else (removeN t k).map (fun r => (r.1, (a, b) :: r.2))

/-- `struct SkipList<K> { nodes, head, len }` (the `ThreadRng` field is not
state that the algorithms read; the drawn level is passed explicitly to the
insertion operations, and `random_level` is modelled as a pure function of
the drawn 32-bit value). -/
structure SkipList (K : Type) where
  nodes : List (K × Node K)
  head : Node K
  len : Nat
deriving DecidableEq

/-- `SkipList::new`. -/
def SkipList.new : SkipList K :=
  { nodes := [], head := { next := [], prev := [], level := 1, is_head := true }, len := 0 }

/-- `SkipList::get_node`. -/
def SkipList.get_node (sl : SkipList K) (key : Option K) : Except AutomergeError (Node K) :=
  match key with
  | some k =>
    match getN sl.nodes k with
    | some nd => .ok nd
    | none => .error (.skipListError "Key not found")
  | none => .ok sl.head

/-- The `while` loop inside `SkipList::predecessors` (climbing backward links
at array index `lvl`), fuelled; `none` models divergence or an index panic. -/
def climbPrev (sl : SkipList K) (lvl : Nat) :
    Nat → Link K → Option (Except AutomergeError (Link K))
  | 0, _ => none
  | fuel + 1, link =>
    match link.key with
    | none => some (.ok link)
    | some k =>
      match getN sl.nodes k with
      | none => some (.error (.skipListError "Key not found"))
      | some node =>
        if lvl < node.level then some (.ok link)
        else if node.level < lvl then some (.error (.skipListError "Level lower than expected"))
        else
          match node.prev.get? (lvl - 1) with
          | none => none
          | some l2 => climbPrev sl lvl fuel (link.add l2)

/-- The `while` loop inside `SkipList::successors` (forward links). -/
def climbNext (sl : SkipList K) (lvl : Nat) :
    Nat → Link K → Option (Except AutomergeError (Link K))
  | 0, _ => none
  | fuel + 1, link =>
    match link.key with
    | none => some (.ok link)
    | some k =>
      match getN sl.nodes k with
      | none => some (.error (.skipListError "Key not found"))
      | some node =>
        if lvl < node.level then some (.ok link)
        else if node.level < lvl then some (.error (.skipListError "Level lower than expected"))
        else
          match node.next.get? (lvl - 1) with
          | none => none
          | some l2 => climbNext sl lvl fuel (link.add l2)

/-- The `for level in 1..max_level` loop of `SkipList::predecessors`,
producing the links for `remaining` further levels starting at `lvl`. -/
def predsAux (sl : SkipList K) : Nat → Nat → Link K → Option (Except AutomergeError (List (Link K)))
  | 0, _, _ => some (.ok [])
  | remaining + 1, lvl, link =>
    match climbPrev sl lvl (sl.nodes.length + 1) link with
    | none => none
    | some (.error e) => some (.error e)
    | some (.ok link') =>
      match predsAux sl remaining (lvl + 1) link' with
      | none => none
      | some (.error e) => some (.error e)
      | some (.ok rest) => some (.ok (link' :: rest))

/-- `SkipList::predecessors`. -/
def SkipList.predecessors (sl : SkipList K) (predecessor : Option K) (max_level : Nat) :
    Option (Except AutomergeError (List (Link K))) :=
  match predsAux sl (max_level - 1) 1 ⟨predecessor, 1⟩ with
  | none => none
  | some (.error e) => some (.error e)
  | some (.ok rest) => some (.ok (⟨predecessor, 1⟩ :: rest))

/-- The `for level in 1..max_level` loop of `SkipList::successors`. -/
def sucsAux (sl : SkipList K) : Nat → Nat → Link K → Option (Except AutomergeError (List (Link K)))
  | 0, _, _ => some (.ok [])
  | remaining + 1, lvl, link =>
    match climbNext sl lvl (sl.nodes.length + 1) link with
    | none => none
    | some (.error e) => some (.error e)
    | some (.ok link') =>
      match sucsAux sl remaining (lvl + 1) link' with
      | none => none
      | some (.error e) => some (.error e)
      | some (.ok rest) => some (.ok (link' :: rest))

/-- `SkipList::successors`. -/
def SkipList.successors (sl : SkipList K) (successor : Option K) (max_level : Nat) :
    Option (Except AutomergeError (List (Link K))) :=
  match sucsAux sl (max_level - 1) 1 ⟨successor, 1⟩ with
  | none => none
  | some (.error e) => some (.error e)
  | some (.ok rest) => some (.ok (⟨successor, 1⟩ :: rest))

/-- `self.get_node_mut(okey)? .f(...)`: apply a node transformation through a
mutable lookup, keeping the untouched state on error. -/
def updNode (nodes : List (K × Node K)) (head : Node K) (okey : Option K)
    (f : Node K → Except AutomergeError (Node K)) :
    (List (K × Node K) × Node K) × Except AutomergeError Unit :=
  match okey with
  | none =>
    match f head with
    | .ok h' => ((nodes, h'), .ok ())
    | .error e => ((nodes, head), .error e)
  | some k =>
    match getN nodes k with
    | none => ((nodes, head), .error (.skipListError "Key not found"))
    | some nd =>
      match f nd with
      | .ok nd' => ((setN nodes k nd', head), .ok ())
      | .error e => ((nodes, head), .error e)

/-- The splice loop of `SkipList::_insert_after`
(`for level in 1..(max_level + 1)` with `pre_level` / `suc_level` trackers);
`steps` counts the remaining iterations, `level` is the loop variable. -/
def insSpliceGo (key : K) (new_level max_level : Nat) (pre suc : List (Link K)) :
    Nat → Nat → Nat → Nat → List (K × Node K) → Node K →
    (List (K × Node K) × Node K) × Except AutomergeError Unit
  | 0, _, _, _, nodes, head => ((nodes, head), .ok ())
  | steps + 1, level, pre_level, suc_level, nodes, head =>
    let update_level := min level new_level
    let preBreak : Bool :=
      level = max_level ∨ (pre.get? level).map Link.key ≠ (pre.get? pre_level).map Link.key
    let st1 :=
      if preBreak then
        let pl := pre.getD pre_level ⟨none, 0⟩
        (updNode nodes head pl.key
          (fun nd => nd.insert_after key update_level pre_level pl.count), level)
      else (((nodes, head), .ok ()), pre_level)
    match st1 with
    | (((nodes1, head1), .error e), _) => ((nodes1, head1), .error e)
    | (((nodes1, head1), .ok ()), pre_level') =>
      let sucBreak : Bool :=
        (suc.getD suc_level ⟨none, 0⟩).key.isSome ∧
          (level = max_level ∨ (suc.get? level).map Link.key ≠ (suc.get? suc_level).map Link.key)
      let st2 :=
        if sucBreak then
          let sl' := suc.getD suc_level ⟨none, 0⟩
          (updNode nodes1 head1 sl'.key
            (fun nd => nd.insert_before key update_level suc_level sl'.count), level)
        else (((nodes1, head1), .ok ()), suc_level)
      match st2 with
      | (((nodes2, head2), .error e), _) => ((nodes2, head2), .error e)
      | (((nodes2, head2), .ok ()), suc_level') =>
        insSpliceGo key new_level max_level pre suc steps (level + 1) pre_level' suc_level' nodes2 head2

/-- `SkipList::_insert_after` with the drawn `random_level` passed in as
`new_level`.  Returns the final state together with the `Result`; `none`
models a panic or divergence. -/
def SkipList._insert_after (sl : SkipList K) (predecessor : Option K) (key : K)
    (new_level : Nat) : Option (SkipList K × Except AutomergeError Unit) :=
  if containsN sl.nodes key then some (sl, .error (.skipListError "DuplicateKey"))
  else
    let max_level := max new_level sl.head.level
    match sl.get_node predecessor with
    | .error e => some (sl, .error e)
    | .ok nd =>
      let successor := nd.successor
      match sl.predecessors predecessor max_level with
      | none => none
      | some (.error e) => some (sl, .error e)
      | some (.ok pre) =>
        match sl.successors successor max_level with
        | none => none
        | some (.error e) => some (sl, .error e)
        | some (.ok suc) =>
          let len' := sl.len + 1
          match insSpliceGo key new_level max_level pre suc max_level 1 0 0 sl.nodes sl.head with
          | ((nodes1, head1), .error e) =>
            some ({ nodes := nodes1, head := head1, len := len' }, .error e)
          | ((nodes1, head1), .ok ()) =>
            some ({ nodes := setN nodes1 key
                      { next := suc.take new_level, prev := pre.take new_level,
                        level := new_level, is_head := false },
                    head := head1, len := len' }, .ok ())

/-- `SkipList::insert_head`. -/
def SkipList.insert_head (sl : SkipList K) (key : K) (new_level : Nat) :
    Option (SkipList K × Except AutomergeError Unit) :=
  sl._insert_after none key new_level

/-- `SkipList::insert_after`. -/
def SkipList.insert_after (sl : SkipList K) (predecessor : K) (key : K) (new_level : Nat) :
    Option (SkipList K × Except AutomergeError Unit) :=
  sl._insert_after (some predecessor) key new_level

/-- The `pre[i].count = suc[i].count = pre[i].count + suc[i].count - 1` merge
loop of `SkipList::_remove_key`, applied to one side. -/
def mergedLinks (a b : List (Link K)) : List (Link K) :=
  a.zipWith (fun x y => { x with count := x.count + y.count - 1 }) b

/-- The splice loop of `SkipList::_remove_key`. -/
def remSpliceGo (removed_level max_level : Nat) (pre suc : List (Link K)) :
    Nat → Nat → Nat → Nat → List (K × Node K) → Node K →
    (List (K × Node K) × Node K) × Except AutomergeError Unit
  | 0, _, _, _, nodes, head => ((nodes, head), .ok ())
  | steps + 1, level, pre_level, suc_level, nodes, head =>
    let update_level := min level removed_level
    let preBreak : Bool :=
      level = max_level ∨ (pre.get? level).map Link.key ≠ (pre.get? pre_level).map Link.key
    let st1 :=
      if preBreak then
        let pl := pre.getD pre_level ⟨none, 0⟩
        (updNode nodes head pl.key
          (fun nd => .ok (nd.remove_after pre_level update_level suc)), level)
      else (((nodes, head), .ok ()), pre_level)
    match st1 with
    | (((nodes1, head1), .error e), _) => ((nodes1, head1), .error e)
    | (((nodes1, head1), .ok ()), pre_level') =>
      let sucBreak : Bool :=
        (suc.getD suc_level ⟨none, 0⟩).key.isSome ∧
          (level = max_level ∨ (suc.get? level).map Link.key ≠ (suc.get? suc_level).map Link.key)
      let st2 :=
        if sucBreak then
          let sl' := suc.getD suc_level ⟨none, 0⟩
          (updNode nodes1 head1 sl'.key
            (fun nd => .ok (nd.remove_before suc_level update_level pre)), level)
        else (((nodes1, head1), .ok ()), suc_level)
      match st2 with
      | (((nodes2, head2), .error e), _) => ((nodes2, head2), .error e)
      | (((nodes2, head2), .ok ()), suc_level') =>
        remSpliceGo removed_level max_level pre suc steps (level + 1) pre_level' suc_level' nodes2 head2

/-- `SkipList::_remove_key`.  (`self.len -= 1` is `usize` subtraction; it is
modelled by truncated `Nat` subtraction, the two agree whenever the key is
present in a structure satisfying the invariant, where `len ≥ 1`.) -/
def SkipList._remove_key (sl : SkipList K) (key : K) :
    Option (SkipList K × Except AutomergeError Unit) :=
  match removeN sl.nodes key with
  | none =>
    some (sl, .error (.skipListError "The given key cannot be removed because it does not exist"))
  | some (removed, nodes0) =>
    let sl0 : SkipList K := { sl with nodes := nodes0 }
    let max_level := sl0.head.level
    match removed.prev.get? 0 with
    | none => none
    | some p0 =>
      match removed.next.get? 0 with
      | none => none
      | some n0 =>
        match sl0.predecessors p0.key max_level with
        | none => none
        | some (.error e) => some (sl0, .error e)
        | some (.ok pre) =>
          match sl0.successors n0.key max_level with
          | none => none
          | some (.error e) => some (sl0, .error e)
          | some (.ok suc) =>
            let pre' := mergedLinks pre suc
            let suc' := mergedLinks suc pre
            let len' := sl0.len - 1
            match remSpliceGo removed.level max_level pre' suc' max_level 1 0 0 sl0.nodes sl0.head with
            | ((nodes1, head1), res) =>
              some ({ nodes := nodes1, head := head1, len := len' }, res)

/-- The inner `while count + node.next[level].count > target { level -= 1 }`
of `SkipList::key_of`; `none` models the index / underflow panics. -/
def keyOfDescend (next : List (Link K)) (count target : Nat) : Nat → Option Nat
  | 0 =>
    match next.get? 0 with
    | none => none
    | some lk => if count + lk.count > target then none else some 0
  | lvl + 1 =>
    match next.get? (lvl + 1) with
    | none => none
    | some lk =>
      if count + lk.count > target then keyOfDescend next count target lvl
      else some (lvl + 1)

/-- The outer `loop` of `SkipList::key_of`, fuelled. -/
def keyOfLoop (sl : SkipList K) (target : Nat) :
    Nat → Node K → Nat → Nat → Option (Option K)
  | 0, _, _, _ => none
  | fuel + 1, node, level, count =>
    match keyOfDescend node.next count target level with
    | none => none
    | some lvl =>
      match node.next.get? lvl with
      | none => none
      | some lk =>
        let count' := count + lk.count
        if count' = target then some lk.key
        else
          match lk.key with
          | none => keyOfLoop sl target fuel sl.head lvl count'
          | some k =>
            match getN sl.nodes k with
            | none => none
            | some nd => keyOfLoop sl target fuel nd lvl count'

/-- `SkipList::key_of` (trait method).  `none` models a panic / divergence,
`some r` a normal return of `r`. -/
def SkipList.key_of (sl : SkipList K) (index : Nat) : Option (Option K) :=
  if index ≥ sl.len then some none
  else
    let target := index + 1
    keyOfLoop sl target (sl.len + 1) sl.head (sl.head.level - 1) 0

/-- The `loop` of `SkipList::index_of`, fuelled. -/
def indexOfLoop (sl : SkipList K) : Nat → K → Nat → Option (Option Nat)
  | 0, _, _ => none
  | fuel + 1, kk, count =>
    match getN sl.nodes kk with
    | none => some none
    | some node =>
      match node.prev.get? (node.level - 1) with
      | none => none
      | some lk =>
        let count' := count + lk.count
        match lk.key with
        | some k2 => indexOfLoop sl fuel k2 count'
        | none => some (some (count' - 1))

/-- `SkipList::index_of` (trait method). -/
def SkipList.index_of (sl : SkipList K) (key : K) : Option (Option Nat) :=
  if ¬ containsN sl.nodes key then some none
  else indexOfLoop sl (sl.nodes.length + 1) key 0

/-- `SkipList::remove_index` (trait method): result value and new state. -/
def SkipList.remove_index (sl : SkipList K) (index : Nat) :
    Option (Option K × SkipList K) :=
  match sl.key_of index with
  | none => none
  | some none => some (none, sl)
  | some (some key) =>
    match sl._remove_key key with
    | none => none
    | some (sl', .ok ()) => some (some key, sl')
    | some (sl', .error _) => some (none, sl')

/-- `SkipList::remove_key` (trait method); the `.unwrap()` on an `Err` from
`_remove_key` is a panic (`none`). -/
def SkipList.remove_key (sl : SkipList K) (key : K) :
    Option (Option Nat × SkipList K) :=
  match sl.index_of key with
  | none => none
  | some none => some (none, sl)
  | some (some i) =>
    match sl._remove_key key with
    | none => none
    | some (sl', .ok ()) => some (some i, sl')
    | some (_, .error _) => none

/-- `SkipList::insert_index` (trait method), with the drawn level passed in;
the `.unwrap()`s panic (`none`) on `Err` / `None`. -/
def SkipList.insert_index (sl : SkipList K) (index : Nat) (key : K) (new_level : Nat) :
    Option (Option K × SkipList K) :=
  if index = 0 then
    match sl.insert_head key new_level with
    | some (sl', .ok ()) => some (none, sl')
    | some (_, .error _) => none
    | none => none
  else
    match sl.key_of (index - 1) with
    | none => none
    | some none => none
    | some (some suc) =>
      match sl.insert_after suc key new_level with
      | some (sl', .ok ()) =>
        match sl'.key_of (index - 1) with
        | none => none
        | some r => some (r, sl')
      | some (_, .error _) => none
      | none => none

/-- `SkipList::random_level`'s `while` loop (`level < 16` caps the fuel). -/
def randomLevelLoop (rand : Nat) : Nat → Nat → Nat
  | 0, level => level
  | fuel + 1, level =>
    if rand < 2 ^ (32 - 2 * level) ∧ level < 16 then randomLevelLoop rand fuel (level + 1)
    else level

/-- `SkipList::random_level` as a function of the drawn uniform `u32`. -/
def random_level (rand : Nat) : Nat :=
  randomLevelLoop rand 16 1

/-- `struct VecOrderedSet<K> { keys: Vec<K> }`. -/
structure VecOrderedSet (K : Type) where
  keys : List K
deriving DecidableEq

/-- `VecOrderedSet::new`. -/
def VecOrderedSet.new : VecOrderedSet K := ⟨[]⟩

/-- `VecOrderedSet::remove_index`: result value and new state. -/
def VecOrderedSet.remove_index (v : VecOrderedSet K) (index : Nat) :
    Option K × VecOrderedSet K :=
  if v.keys.length > index then (v.keys.get? index, ⟨v.keys.eraseIdx index⟩)
  else (none, v)

/-- `VecOrderedSet::key_of`. -/
def VecOrderedSet.key_of (v : VecOrderedSet K) (index : Nat) : Option K :=
  v.keys.get? index

/-- `VecOrderedSet::index_of`. -/
def VecOrderedSet.index_of (v : VecOrderedSet K) (key : K) : Option Nat :=
  v.keys.findIdx? (· = key)

/-- `VecOrderedSet::insert_index`; `Vec::insert` panics (`none`) when
`index > len`. -/
def VecOrderedSet.insert_index (v : VecOrderedSet K) (index : Nat) (key : K) :
    Option (Option K × VecOrderedSet K) :=
  if index ≤ v.keys.length then
    let keys' := v.keys.insertIdx index key
    some ((if index = 0 then none else keys'.get? (index - 1)), ⟨keys'⟩)
  else none

/-- `VecOrderedSet::remove_key`. -/
def VecOrderedSet.remove_key (v : VecOrderedSet K) (key : K) :
    Option Nat × VecOrderedSet K :=
  match v.keys.findIdx? (· = key) with
  | some index => (some index, ⟨v.keys.eraseIdx index⟩)
  | none => (none, v)

/-- `struct Delta<K> { index: isize, key: Option<K> }`. -/
structure Delta (K : Type) where
  index : Int
  key : Option K
deriving DecidableEq

/-- `struct OrdDelta<'a, K> { list: Option<&'a SkipList<K>>, delta: Vec<Delta<K>> }`. -/
structure OrdDelta (K : Type) where
  list : Option (SkipList K)
  delta : List (Delta K)

/-- `OrdDelta::new`. -/
def OrdDelta.new (list : Option (SkipList K)) : OrdDelta K :=
  { list := list, delta := [] }

/-- The scan-and-insert loop of `OrdDelta::insert_index`. -/
def insDeltaList (idx : Int) (key : K) : List (Delta K) → List (Delta K)
  | [] => [⟨idx, some key⟩]
  | d :: rest =>
    if d.index ≥ idx then
      ⟨idx, some key⟩ :: (d :: rest).map (fun e => { e with index := e.index + 1 })
    else d :: insDeltaList idx key rest

/-- `OrdDelta::insert_index`. -/
def OrdDelta.insert_index (od : OrdDelta K) (index : Nat) (key : K) : OrdDelta K :=
  { od with delta := insDeltaList (index : Int) key od.delta }

/-- The scan of `OrdDelta::key_of`, returning either the found key or the
accumulated signed offset. -/
def keyOfDeltaScan (idx : Int) : List (Delta K) → Int → Option K ⊕ Int
  | [], acc => .inr acc
  | d :: rest, acc =>
    match d.key with
    | some k =>
      if d.index = idx then .inl (some k)
      else if d.index > idx then .inr acc
      else keyOfDeltaScan idx rest (acc + 1)
    | none =>
      if d.index > idx then .inr acc
      else keyOfDeltaScan idx rest (acc - 1)

/-- The `(index as isize - acc) as usize` cast (64-bit wrap-around). -/
def usizeCast (i : Int) : Nat :=
  (i % (2 ^ 64 : Int)).toNat

/-- `OrdDelta::key_of`; the outer `Option` is inherited from the base list's
(fuelled) `key_of`. -/
def OrdDelta.key_of (od : OrdDelta K) (index : Nat) : Option (Option K) :=
  match keyOfDeltaScan (index : Int) od.delta 0 with
  | .inl r => some r
  | .inr acc =>
    match od.list with
    | none => some none
    | some l => l.key_of (usizeCast ((index : Int) - acc))

/-- The scan loop of `OrdDelta::remove_index`: `seen` is the already-scanned
prefix (in order), `rest` the remainder. -/
def remDeltaScan (od : OrdDelta K) (idx : Int) :
    List (Delta K) → List (Delta K) → Option (Option K × List (Delta K))
  | _, [] =>
    match od.key_of (usizeCast idx) with
    | none => none
    | some key => some (key, od.delta ++ [⟨idx, none⟩])
  | seen, d :: rest =>
    if d.index = idx ∧ d.key.isSome then
      some (d.key, seen ++ rest.map (fun e => { e with index := e.index - 1 }))
    else if d.index > idx then
      match od.key_of (usizeCast idx) with
      | none => none
      | some key =>
        some (key, seen ++ ⟨idx, none⟩ :: (d :: rest).map (fun e => { e with index := e.index - 1 }))
    else remDeltaScan od idx (seen ++ [d]) rest

/-- `OrdDelta::remove_index`. -/
def OrdDelta.remove_index (od : OrdDelta K) (index : Nat) :
    Option (Option K × OrdDelta K) :=
  match remDeltaScan od (index : Int) [] od.delta with
  | none => none
  | some (key, delta') => some (key, { od with delta := delta' })

instance {E A : Type} [DecidableEq E] [DecidableEq A] : DecidableEq (Except E A) :=
  fun a b =>
    match a, b with
    | .error e, .error e' =>
      if h : e = e' then isTrue (by rw [h]) else isFalse (by intro hh; cases hh; exact h rfl)
    | .ok v, .ok v' =>
      if h : v = v' then isTrue (by rw [h]) else isFalse (by intro hh; cases hh; exact h rfl)
    | .error _, .ok _ => isFalse (by intro hh; cases hh)
    | .ok _, .error _ => isFalse (by intro hh; cases hh)

/-! ## The functional model

A well-formed skip list is determined by the ordered list `l` of its keys
(1-based positions; position `0` is the head sentinel), the list `lvs` of
the levels drawn for each key, and the head's level.  All links are
computed from these data. -/

/-- Key at 1-based position `j` (`none` for the sentinel position `0` and for
positions past the end). -/
def keyAt (l : List K) (j : Nat) : Option K :=
  if j = 0 then none else l.get? (j - 1)

/-- Number of steps from a position to the next position whose level exceeds
`ℓ`, where `xs` lists the levels of the following positions; one past the
end when there is none. -/
def distTo (ℓ : Nat) : List Nat → Nat
  | [] => 1
  | v :: rest => if ℓ < v then 1 else distTo ℓ rest + 1

/-- The next "anchor" after position `i`: the smallest position `j > i` with
level `> ℓ`, or `lvs.length + 1` when there is none. -/
def nAnch (lvs : List Nat) (ℓ i : Nat) : Nat :=
  i + distTo ℓ (lvs.drop i)

/-- The previous "anchor" at or before position `i`: the largest position
`j ≤ i` (with `j ≥ 1`) whose level exceeds `ℓ`, or `0` (the head) when
there is none. -/
def pAnch (lvs : List Nat) (ℓ : Nat) : Nat → Nat
  | 0 => 0
  | i + 1 => if ℓ < lvs.getD i 0 then i + 1 else pAnch lvs ℓ i

/-- The forward link of position `i` at (0-based) level `ℓ`. -/
def mkLinkNext (l : List K) (lvs : List Nat) (i ℓ : Nat) : Link K :=
  { key := keyAt l (nAnch lvs ℓ i), count := nAnch lvs ℓ i - i }

/-- The backward link of position `i` at (0-based) level `ℓ`. -/
def mkLinkPrev (l : List K) (lvs : List Nat) (i ℓ : Nat) : Link K :=
  { key := keyAt l (pAnch lvs ℓ (i - 1)), count := i - pAnch lvs ℓ (i - 1) }

/-- The node of the key of 0-based index `i` (1-based position `i + 1`). -/
def mkNode (l : List K) (lvs : List Nat) (i : Nat) : Node K :=
  { next := (List.range (lvs.getD i 0)).map (mkLinkNext l lvs (i + 1)),
    prev := (List.range (lvs.getD i 0)).map (mkLinkPrev l lvs (i + 1)),
    level := lvs.getD i 0,
    is_head := false }

/-- The head sentinel node for key list `l`, levels `lvs`, head level `H`. -/
def mkHead (l : List K) (lvs : List Nat) (H : Nat) : Node K :=
  { next := (List.range H).map (mkLinkNext l lvs 0),
    prev := [],
    level := H,
    is_head := true }

/-- Well-formedness: `sl` is exactly the skip list representing the key
sequence `l` with per-key levels `lvs`. -/
structure Wf (sl : SkipList K) (l : List K) (lvs : List Nat) : Prop where
  len_eq : sl.len = l.length
  lvs_len : lvs.length = l.length
  nodup : l.Nodup
  lv_pos : ∀ v ∈ lvs, 1 ≤ v
  lv_le : ∀ v ∈ lvs, v ≤ sl.head.level
  head_pos : 1 ≤ sl.head.level
  head_eq : sl.head = mkHead l lvs sl.head.level ∨
    (l = [] ∧ sl.head = { next := [], prev := [], level := 1, is_head := true })
  keys_perm : (sl.nodes.map Prod.fst).Perm l
  lookup_eq : ∀ i (h : i < l.length), getN sl.nodes (l.get ⟨i, h⟩) = some (mkNode l lvs i)

/-! ### Basic facts about `keyAt`, `pAnch`, `distTo`, `nAnch` -/

theorem getD_drop (lvs : List Nat) (i m : Nat) :
    (lvs.drop i).getD m 0 = lvs.getD (i + m) 0 := by
  simp [List.getD, List.getElem?_drop]

theorem keyAt_zero (l : List K) : keyAt l 0 = none := rfl

theorem keyAt_eq_none (l : List K) (j : Nat) (h : l.length < j) : keyAt l j = none := by
  unfold keyAt
  split
  · rfl
  · exact List.get?_eq_none.mpr (by omega)

theorem keyAt_isSome (l : List K) (j : Nat) (h1 : 1 ≤ j) (h2 : j ≤ l.length) :
    ∃ hlt : j - 1 < l.length, keyAt l j = some (l.get ⟨j - 1, hlt⟩) := by
  refine ⟨by omega, ?_⟩
  unfold keyAt
  split
  · omega
  · exact List.get?_eq_get (by omega)

theorem keyAt_inj (l : List K) (nd : l.Nodup) (j j' : Nat) (hj : j ≤ l.length)
    (hj' : j' ≤ l.length) (he : keyAt l j = keyAt l j') : j = j' := by
  unfold keyAt at he
  by_cases h0 : j = 0 <;> by_cases h0' : j' = 0
  · omega
  · simp only [h0, if_pos rfl, if_neg h0'] at he
    have := List.get?_eq_get (l := l) (n := j' - 1) (by omega)
    rw [this] at he
    cases he
  · simp only [h0', if_pos rfl, if_neg h0] at he
    have := List.get?_eq_get (l := l) (n := j - 1) (by omega)
    rw [this] at he
    cases he
  · simp only [if_neg h0, if_neg h0'] at he
    have h1 : j - 1 < l.length := by omega
    have := List.getElem?_inj h1 nd (by simpa [List.get?_eq_getElem?] using he)
    omega

theorem pAnch_le (lvs : List Nat) (ℓ : Nat) : ∀ i, pAnch lvs ℓ i ≤ i := by
  intro i
  induction i with
  | zero => simp [pAnch]
  | succ n ih =>
    unfold pAnch
    split
    · omega
    · omega

theorem pAnch_level (lvs : List Nat) (ℓ i : Nat) (h : 0 < pAnch lvs ℓ i) :
    ℓ < lvs.getD (pAnch lvs ℓ i - 1) 0 := by
  induction i with
  | zero => simp [pAnch] at h
  | succ n ih =>
    unfold pAnch at h ⊢
    by_cases hc : ℓ < lvs.getD n 0
    · rw [if_pos hc] at h ⊢
      rw [Nat.add_sub_cancel]
      exact hc
    · rw [if_neg hc] at h ⊢
      exact ih h

theorem pAnch_gap (lvs : List Nat) (ℓ i : Nat) :
    ∀ m, pAnch lvs ℓ i < m → m ≤ i → lvs.getD (m - 1) 0 ≤ ℓ := by
  induction i with
  | zero => intro m h1 h2; omega
  | succ n ih =>
    intro m h1 h2
    unfold pAnch at h1
    by_cases hc : ℓ < lvs.getD n 0
    · rw [if_pos hc] at h1; omega
    · rw [if_neg hc] at h1
      rcases Nat.lt_or_ge m (n + 1) with hm | hm
      · exact ih m h1 (by omega)
      · have hmn : m = n + 1 := by omega
        subst hmn
        rw [Nat.add_sub_cancel]
        omega

theorem pAnch_eq (lvs : List Nat) (ℓ i j : Nat) (hj : j ≤ i)
    (hlev : j = 0 ∨ ℓ < lvs.getD (j - 1) 0)
    (hgap : ∀ m, j < m → m ≤ i → lvs.getD (m - 1) 0 ≤ ℓ) : pAnch lvs ℓ i = j := by
  induction i with
  | zero => simp [pAnch]; omega
  | succ n ih =>
    unfold pAnch
    by_cases hc : ℓ < lvs.getD n 0
    · rw [if_pos hc]
      by_contra hne
      have h2 := hgap (n + 1) (by omega) (by omega)
      rw [Nat.add_sub_cancel] at h2
      omega
    · rw [if_neg hc]
      have hjn : j ≤ n := by
        rcases Nat.lt_or_ge j (n + 1) with h | h
        · omega
        · have hje : j = n + 1 := by omega
          subst hje
          rcases hlev with h0 | h0
          · omega
          · rw [Nat.add_sub_cancel] at h0
            omega
      exact ih hjn (fun m h1 h2 => hgap m h1 (by omega))

theorem pAnch_anti (lvs : List Nat) (ℓ ℓ' i : Nat) (h : ℓ ≤ ℓ') :
    pAnch lvs ℓ' i ≤ pAnch lvs ℓ i := by
  induction i with
  | zero => simp [pAnch]
  | succ n ih =>
    unfold pAnch
    by_cases hc : ℓ < lvs.getD n 0
    · rw [if_pos hc]
      split
      · omega
      · exact le_trans (pAnch_le lvs ℓ' n) (by omega)
    · have hc' : ¬ ℓ' < lvs.getD n 0 := by omega
      rw [if_neg hc, if_neg hc']
      exact ih

theorem pAnch_pAnch (lvs : List Nat) (ℓ ℓ' i : Nat) (h : ℓ ≤ ℓ') :
    pAnch lvs ℓ' (pAnch lvs ℓ i) = pAnch lvs ℓ' i := by
  have h1 : pAnch lvs ℓ' i ≤ pAnch lvs ℓ i := pAnch_anti lvs ℓ ℓ' i h
  refine pAnch_eq lvs ℓ' (pAnch lvs ℓ i) (pAnch lvs ℓ' i) h1 ?_ ?_
  · rcases Nat.eq_zero_or_pos (pAnch lvs ℓ' i) with h0 | h0
    · exact Or.inl h0
    · exact Or.inr (pAnch_level lvs ℓ' i h0)
  · intro m hm1 hm2
    exact pAnch_gap lvs ℓ' i m hm1 (le_trans hm2 (pAnch_le lvs ℓ i))

theorem distTo_pos (ℓ : Nat) (xs : List Nat) : 0 < distTo ℓ xs := by
  cases xs with
  | nil => simp [distTo]
  | cons v rest =>
    unfold distTo
    split
    · omega
    · omega

theorem distTo_le (ℓ : Nat) (xs : List Nat) : distTo ℓ xs ≤ xs.length + 1 := by
  induction xs with
  | nil => simp [distTo]
  | cons v rest ih =>
    unfold distTo
    split
    · simp
    · simpa using Nat.succ_le_succ ih

theorem distTo_level (ℓ : Nat) (xs : List Nat) (h : distTo ℓ xs ≤ xs.length) :
    ℓ < xs.getD (distTo ℓ xs - 1) 0 := by
  induction xs with
  | nil => simp [distTo] at h
  | cons v rest ih =>
    unfold distTo at h ⊢
    by_cases hc : ℓ < v
    · rw [if_pos hc] at h ⊢
      exact hc
    · rw [if_neg hc] at h ⊢
      have h2 : distTo ℓ rest ≤ rest.length := by
        simp only [List.length_cons] at h
        omega
      have h3 : distTo ℓ rest + 1 - 1 = (distTo ℓ rest - 1) + 1 := by
        have := distTo_pos ℓ rest
        omega
      rw [h3]
      exact ih h2

theorem distTo_gap (ℓ : Nat) (xs : List Nat) :
    ∀ d, d + 1 < distTo ℓ xs → xs.getD d 0 ≤ ℓ := by
  induction xs with
  | nil => intro d h; simp [distTo] at h
  | cons v rest ih =>
    intro d h
    unfold distTo at h
    by_cases hc : ℓ < v
    · rw [if_pos hc] at h; omega
    · rw [if_neg hc] at h
      cases d with
      | zero => exact Nat.le_of_not_lt hc
      | succ d' => exact ih d' (by omega)

theorem distTo_eq (ℓ : Nat) (xs : List Nat) (d : Nat) (hd : 1 ≤ d)
    (hle : d ≤ xs.length + 1)
    (hlev : d = xs.length + 1 ∨ ℓ < xs.getD (d - 1) 0)
    (hgap : ∀ m, m + 1 < d → xs.getD m 0 ≤ ℓ) : distTo ℓ xs = d := by
  induction xs generalizing d with
  | nil =>
    unfold distTo
    simp only [List.length_nil] at hle
    omega
  | cons v rest ih =>
    unfold distTo
    by_cases hc : ℓ < v
    · rw [if_pos hc]
      by_contra hne
      have h2 := hgap 0 (by omega)
      have h3 : (v :: rest).getD 0 0 = v := rfl
      rw [h3] at h2
      omega
    · rw [if_neg hc]
      cases d with
      | zero => omega
      | succ d' =>
        have hd' : 1 ≤ d' := by
          by_contra h0
          have hdz : d' = 0 := by omega
          subst hdz
          rcases hlev with h0' | h0'
          · simp only [List.length_cons] at h0'
            omega
          · have h3 : ℓ < (v :: rest).getD 0 0 := h0'
            have h4 : (v :: rest).getD 0 0 = v := rfl
            rw [h4] at h3
            omega
        have key := ih d' hd' (by simp only [List.length_cons] at hle; omega) ?_ ?_
        · omega
        · rcases hlev with h0 | h0
          · left
            simp only [List.length_cons] at h0
            omega
          · right
            have h3 : d' + 1 - 1 = (d' - 1) + 1 := by omega
            rw [h3] at h0
            exact h0
        · intro m hm
          exact hgap (m + 1) (by omega)

theorem nAnch_gt (lvs : List Nat) (ℓ i : Nat) : i < nAnch lvs ℓ i := by
  unfold nAnch
  have := distTo_pos ℓ (lvs.drop i)
  omega

theorem nAnch_le (lvs : List Nat) (ℓ i : Nat) (h : i ≤ lvs.length) :
    nAnch lvs ℓ i ≤ lvs.length + 1 := by
  unfold nAnch
  have := distTo_le ℓ (lvs.drop i)
  simp only [List.length_drop] at this
  omega

theorem nAnch_level (lvs : List Nat) (ℓ i : Nat) (h : nAnch lvs ℓ i ≤ lvs.length) :
    ℓ < lvs.getD (nAnch lvs ℓ i - 1) 0 := by
  have hp := distTo_pos ℓ (lvs.drop i)
  have hlt : distTo ℓ (lvs.drop i) ≤ (lvs.drop i).length := by
    rw [List.length_drop]
    unfold nAnch at h
    have := nAnch_gt lvs ℓ i
    unfold nAnch at this
    omega
  have h2 := distTo_level ℓ (lvs.drop i) hlt
  rw [getD_drop] at h2
  have h3 : i + (distTo ℓ (lvs.drop i) - 1) = nAnch lvs ℓ i - 1 := by
    unfold nAnch
    omega
  rw [h3] at h2
  exact h2

theorem nAnch_gap (lvs : List Nat) (ℓ i : Nat) :
    ∀ m, i < m → m < nAnch lvs ℓ i → lvs.getD (m - 1) 0 ≤ ℓ := by
  intro m h1 h2
  have h3 := distTo_gap ℓ (lvs.drop i) (m - 1 - i) (by unfold nAnch at h2; omega)
  rw [getD_drop] at h3
  have h4 : i + (m - 1 - i) = m - 1 := by omega
  rw [h4] at h3
  exact h3

theorem nAnch_eq (lvs : List Nat) (ℓ i j : Nat) (h1 : i < j) (h2 : j ≤ lvs.length + 1)
    (hlev : j = lvs.length + 1 ∨ ℓ < lvs.getD (j - 1) 0)
    (hgap : ∀ m, i < m → m < j → lvs.getD (m - 1) 0 ≤ ℓ) (hi : i ≤ lvs.length) :
    nAnch lvs ℓ i = j := by
  unfold nAnch
  have hd := distTo_eq ℓ (lvs.drop i) (j - i) (by omega)
      (by rw [List.length_drop]; omega) ?_ ?_
  · omega
  · rcases hlev with h0 | h0
    · left
      rw [List.length_drop]
      omega
    · right
      rw [getD_drop]
      have h5 : i + (j - i - 1) = j - 1 := by omega
      rw [h5]
      exact h0
  · intro m hm
    have h6 := hgap (i + m + 1) (by omega) (by omega)
    rw [getD_drop]
    have h7 : i + m = (i + m + 1) - 1 := by omega
    rw [h7]
    exact h6

theorem nAnch_mono (lvs : List Nat) (ℓ ℓ' i : Nat) (h : ℓ ≤ ℓ') (hi : i ≤ lvs.length) :
    nAnch lvs ℓ i ≤ nAnch lvs ℓ' i := by
  by_contra hlt
  push_neg at hlt
  have h1 := nAnch_gt lvs ℓ' i
  have h2 := nAnch_le lvs ℓ' i hi
  have h4 := nAnch_le lvs ℓ i hi
  have h3 := nAnch_level lvs ℓ' i (by omega)
  have h5 := nAnch_gap lvs ℓ i (nAnch lvs ℓ' i) h1 hlt
  omega

theorem nAnch_nAnch (lvs : List Nat) (ℓ ℓ' i : Nat) (h : ℓ ≤ ℓ')
    (hi : i ≤ lvs.length) (hj : nAnch lvs ℓ i ≤ lvs.length)
    (hlv : lvs.getD (nAnch lvs ℓ i - 1) 0 ≤ ℓ') :
    nAnch lvs ℓ' (nAnch lvs ℓ i) = nAnch lvs ℓ' i := by
  set j := nAnch lvs ℓ i with hjdef
  have hij : i < j := nAnch_gt lvs ℓ i
  have h1 : j < nAnch lvs ℓ' j := nAnch_gt lvs ℓ' j
  have h2 : nAnch lvs ℓ' j ≤ lvs.length + 1 := nAnch_le lvs ℓ' j hj
  refine Eq.symm (nAnch_eq lvs ℓ' i (nAnch lvs ℓ' j) (by omega) h2 ?_ ?_ hi)
  · rcases Nat.lt_or_ge (nAnch lvs ℓ' j) (lvs.length + 1) with hc | hc
    · exact Or.inr (nAnch_level lvs ℓ' j (by omega))
    · exact Or.inl (by omega)
  · intro m hm1 hm2
    rcases Nat.lt_or_ge m j with hc | hc
    · exact le_trans (nAnch_gap lvs ℓ i m hm1 hc) h
    · rcases Nat.eq_or_lt_of_le hc with hc2 | hc2
      · rw [← hc2]
        exact hlv
      · exact nAnch_gap lvs ℓ' j m hc2 hm2

theorem nAnch_congr (lvs : List Nat) (ℓ i i' : Nat) (hii : i ≤ i')
    (hgap2 : ∀ m, i < m → m ≤ i' → lvs.getD (m - 1) 0 ≤ ℓ) (hi' : i' ≤ lvs.length) :
    nAnch lvs ℓ i = nAnch lvs ℓ i' := by
  have h1 : i' < nAnch lvs ℓ i' := nAnch_gt lvs ℓ i'
  have h2 : nAnch lvs ℓ i' ≤ lvs.length + 1 := nAnch_le lvs ℓ i' hi'
  refine nAnch_eq lvs ℓ i (nAnch lvs ℓ i') (by omega) h2 ?_ ?_ (by omega)
  · rcases Nat.lt_or_ge (nAnch lvs ℓ i') (lvs.length + 1) with hc | hc
    · exact Or.inr (nAnch_level lvs ℓ i' (by omega))
    · exact Or.inl (by omega)
  · intro m hm1 hm2
    rcases le_or_lt m i' with hc | hc
    · exact hgap2 m hm1 hc
    · exact nAnch_gap lvs ℓ i' m hc hm2

theorem nAnch_last (lvs : List Nat) (ℓ : Nat) : nAnch lvs ℓ lvs.length = lvs.length + 1 := by
  unfold nAnch
  rw [List.drop_length]
  simp [distTo]

/-! ### Lookup and accessor helpers -/

theorem getN_mem_keys {m : List (K × Node K)} {k : K} {nd : Node K}
    (h : getN m k = some nd) : k ∈ m.map Prod.fst := by
  induction m with
  | nil => simp [getN] at h
  | cons e t ih =>
    match e with
    | (a, b) =>
      unfold getN at h
      by_cases hc : a = k
      · simp [hc]
      · rw [if_neg hc] at h
        simp [ih h]

theorem mkNode_level (l : List K) (lvs : List Nat) (i : Nat) :
    (mkNode l lvs i).level = lvs.getD i 0 := rfl

theorem mkNode_is_head (l : List K) (lvs : List Nat) (i : Nat) :
    (mkNode l lvs i).is_head = false := rfl

theorem mkNode_next_get? (l : List K) (lvs : List Nat) (i ℓ : Nat)
    (h : ℓ < lvs.getD i 0) :
    (mkNode l lvs i).next.get? ℓ = some (mkLinkNext l lvs (i + 1) ℓ) := by
  show ((List.range (lvs.getD i 0)).map (mkLinkNext l lvs (i + 1))).get? ℓ = _
  rw [List.get?_eq_getElem?, List.getElem?_map, List.getElem?_range h]
  rfl

theorem mkNode_next_get?_none (l : List K) (lvs : List Nat) (i ℓ : Nat)
    (h : lvs.getD i 0 ≤ ℓ) :
    (mkNode l lvs i).next.get? ℓ = none := by
  show ((List.range (lvs.getD i 0)).map (mkLinkNext l lvs (i + 1))).get? ℓ = _
  rw [List.get?_eq_getElem?, List.getElem?_map, List.getElem?_eq_none (by simpa using h)]
  rfl

theorem mkNode_prev_get? (l : List K) (lvs : List Nat) (i ℓ : Nat)
    (h : ℓ < lvs.getD i 0) :
    (mkNode l lvs i).prev.get? ℓ = some (mkLinkPrev l lvs (i + 1) ℓ) := by
  show ((List.range (lvs.getD i 0)).map (mkLinkPrev l lvs (i + 1))).get? ℓ = _
  rw [List.get?_eq_getElem?, List.getElem?_map, List.getElem?_range h]
  rfl

theorem mkNode_prev_get?_none (l : List K) (lvs : List Nat) (i ℓ : Nat)
    (h : lvs.getD i 0 ≤ ℓ) :
    (mkNode l lvs i).prev.get? ℓ = none := by
  show ((List.range (lvs.getD i 0)).map (mkLinkPrev l lvs (i + 1))).get? ℓ = _
  rw [List.get?_eq_getElem?, List.getElem?_map, List.getElem?_eq_none (by simpa using h)]
  rfl

theorem mkHead_level (l : List K) (lvs : List Nat) (H : Nat) :
    (mkHead l lvs H).level = H := rfl

theorem mkHead_next_get? (l : List K) (lvs : List Nat) (H ℓ : Nat) (h : ℓ < H) :
    (mkHead l lvs H).next.get? ℓ = some (mkLinkNext l lvs 0 ℓ) := by
  show ((List.range H).map (mkLinkNext l lvs 0)).get? ℓ = _
  rw [List.get?_eq_getElem?, List.getElem?_map, List.getElem?_range h]
  rfl

/-- Map hypothesis restricted to 1-based positions `≤ P`. -/
def MapsUpTo (nodes : List (K × Node K)) (l : List K) (lvs : List Nat) (P : Nat) : Prop :=
  ∀ m (hm : m < l.length), m + 1 ≤ P → getN nodes (l.get ⟨m, hm⟩) = some (mkNode l lvs m)

/-- Map hypothesis restricted to 1-based positions `≥ S`. -/
def MapsFrom (nodes : List (K × Node K)) (l : List K) (lvs : List Nat) (S : Nat) : Prop :=
  ∀ m (hm : m < l.length), S ≤ m + 1 → getN nodes (l.get ⟨m, hm⟩) = some (mkNode l lvs m)

/-! ### Characterizing the predecessor / successor walks -/

theorem climbPrev_ok (sl : SkipList K) (l : List K) (lvs : List Nat)
    (hlvs : lvs.length = l.length) (hlv1 : ∀ v ∈ lvs, 1 ≤ v) (P : Nat)
    (hmap : MapsUpTo sl.nodes l lvs P) (hP : P ≤ l.length) (lvl : Nat) (hlvl : 1 ≤ lvl) :
    ∀ fuel j c, j ≤ P → (j = 0 ∨ lvl ≤ lvs.getD (j - 1) 0) → j < fuel →
      climbPrev sl lvl fuel ⟨keyAt l j, c⟩ =
        some (.ok ⟨keyAt l (pAnch lvs lvl j), c + (j - pAnch lvs lvl j)⟩) := by
  intro fuel
  induction fuel with
  | zero => intro j c _ _ h; omega
  | succ f ih =>
    intro j c hjP hanch hfu
    cases j with
    | zero =>
      unfold climbPrev
      simp [keyAt_zero, pAnch]
    | succ jj =>
      have hjlen : jj < l.length := by omega
      obtain ⟨hlt, hkey⟩ := keyAt_isSome l (jj + 1) (by omega) (by omega)
      unfold climbPrev
      rw [hkey]
      simp only []
      have hnode := hmap jj (by omega) (by omega)
      have hget : getN sl.nodes (l.get ⟨jj + 1 - 1, hlt⟩) = some (mkNode l lvs jj) := by
        have : (⟨jj + 1 - 1, hlt⟩ : Fin l.length) = ⟨jj, by omega⟩ := by
          apply Fin.ext
          simp
        rw [this]
        exact hnode
      rw [hget]
      simp only []
      have hL : lvl ≤ lvs.getD jj 0 := by
        rcases hanch with h0 | h0
        · omega
        · simpa using h0
      rw [mkNode_level]
      by_cases hbr : lvl < lvs.getD jj 0
      · rw [if_pos hbr]
        have hpa : pAnch lvs lvl (jj + 1) = jj + 1 := by
          unfold pAnch
          rw [if_pos hbr]
        rw [hpa, hkey]
        simp
      · rw [if_neg hbr, if_neg (by omega)]
        rw [mkNode_prev_get? l lvs jj (lvl - 1) (by omega)]
        simp only []
        rw [← hkey]
        have hadd : (Link.add ⟨keyAt l (jj + 1), c⟩ (mkLinkPrev l lvs (jj + 1) (lvl - 1)))
            = (⟨keyAt l (pAnch lvs (lvl - 1) jj),
                c + (jj + 1 - pAnch lvs (lvl - 1) jj)⟩ : Link K) := rfl
        rw [hadd]
        have hj'le : pAnch lvs (lvl - 1) jj ≤ jj := pAnch_le lvs (lvl - 1) jj
        have hanch' : pAnch lvs (lvl - 1) jj = 0 ∨
            lvl ≤ lvs.getD (pAnch lvs (lvl - 1) jj - 1) 0 := by
          rcases Nat.eq_zero_or_pos (pAnch lvs (lvl - 1) jj) with h0 | h0
          · exact Or.inl h0
          · right
            have := pAnch_level lvs (lvl - 1) jj h0
            omega
        rw [ih (pAnch lvs (lvl - 1) jj) (c + (jj + 1 - pAnch lvs (lvl - 1) jj))
          (by omega) hanch' (by omega)]
        have hpp : pAnch lvs lvl (pAnch lvs (lvl - 1) jj) = pAnch lvs lvl (jj + 1) := by
          have h1 : pAnch lvs lvl (jj + 1) = pAnch lvs lvl jj := by
            show (if lvl < lvs.getD jj 0 then jj + 1 else pAnch lvs lvl jj) = pAnch lvs lvl jj
            rw [if_neg hbr]
          rw [h1]
          exact pAnch_pAnch lvs (lvl - 1) lvl jj (by omega)
        rw [hpp]
        have hpa_le : pAnch lvs lvl (jj + 1) ≤ pAnch lvs (lvl - 1) jj := by
          rw [← hpp]
          exact pAnch_le lvs lvl (pAnch lvs (lvl - 1) jj)
        have hcnt : c + (jj + 1 - pAnch lvs (lvl - 1) jj) +
            (pAnch lvs (lvl - 1) jj - pAnch lvs lvl (jj + 1)) =
            c + (jj + 1 - pAnch lvs lvl (jj + 1)) := by omega
        rw [hcnt]

theorem climbNext_ok (sl : SkipList K) (l : List K) (lvs : List Nat)
    (hlvs : lvs.length = l.length) (hlv1 : ∀ v ∈ lvs, 1 ≤ v) (S : Nat)
    (hmap : MapsFrom sl.nodes l lvs S) (lvl : Nat) (hlvl : 1 ≤ lvl) :
    ∀ fuel j c, S ≤ j → 1 ≤ j → j ≤ l.length + 1 →
      (j = l.length + 1 ∨ lvl ≤ lvs.getD (j - 1) 0) → l.length + 1 - j < fuel →
      climbNext sl lvl fuel ⟨keyAt l j, c⟩ =
        some (.ok ⟨keyAt l (nAnch lvs lvl (j - 1)),
          c + (nAnch lvs lvl (j - 1) - j)⟩) := by
  intro fuel
  induction fuel with
  | zero => intro j c _ _ _ _ h; omega
  | succ f ih =>
    intro j c hSj hj1 hjn hanch hfu
    rcases Nat.lt_or_ge l.length j with hend | hin
    · -- j = l.length + 1 : the link key is none
      have hje : j = l.length + 1 := by omega
      subst hje
      unfold climbNext
      rw [keyAt_eq_none l (l.length + 1) (by omega)]
      simp only [Nat.add_sub_cancel]
      rw [← hlvs, nAnch_last]
      rw [keyAt_eq_none l (lvs.length + 1) (by omega)]
      simp [hlvs]
    · obtain ⟨hlt, hkey⟩ := keyAt_isSome l j hj1 hin
      unfold climbNext
      rw [hkey]
      simp only []
      have hnode := hmap (j - 1) (by omega) (by omega)
      have hget : getN sl.nodes (l.get ⟨j - 1, hlt⟩) = some (mkNode l lvs (j - 1)) := by
        exact hnode
      rw [hget]
      simp only []
      have hL : lvl ≤ lvs.getD (j - 1) 0 := by
        rcases hanch with h0 | h0
        · omega
        · exact h0
      rw [mkNode_level]
      by_cases hbr : lvl < lvs.getD (j - 1) 0
      · rw [if_pos hbr]
        have hpa : nAnch lvs lvl (j - 1) = j := by
          refine nAnch_eq lvs lvl (j - 1) j (by omega) (by omega) (Or.inr hbr) ?_ (by omega)
          intro m h1 h2
          omega
        rw [hpa, hkey]
        simp
      · rw [if_neg hbr, if_neg (by omega)]
        have hLe : lvs.getD (j - 1) 0 = lvl := by omega
        have hj1' : j - 1 + 1 = j := by omega
        rw [mkNode_next_get? l lvs (j - 1) (lvl - 1) (by omega)]
        simp only []
        rw [← hkey]
        rw [hj1']
        have hadd : (Link.add ⟨keyAt l j, c⟩ (mkLinkNext l lvs j (lvl - 1)))
            = (⟨keyAt l (nAnch lvs (lvl - 1) j),
                c + (nAnch lvs (lvl - 1) j - j)⟩ : Link K) := rfl
        rw [hadd]
        have hj'gt : j < nAnch lvs (lvl - 1) j := nAnch_gt lvs (lvl - 1) j
        have hj'le : nAnch lvs (lvl - 1) j ≤ l.length + 1 := by
          have := nAnch_le lvs (lvl - 1) j (by omega)
          omega
        have hanch' : nAnch lvs (lvl - 1) j = l.length + 1 ∨
            lvl ≤ lvs.getD (nAnch lvs (lvl - 1) j - 1) 0 := by
          rcases Nat.lt_or_ge (nAnch lvs (lvl - 1) j) (l.length + 1) with h0 | h0
          · right
            have := nAnch_level lvs (lvl - 1) j (by omega)
            omega
          · exact Or.inl (by omega)
        rw [ih (nAnch lvs (lvl - 1) j) (c + (nAnch lvs (lvl - 1) j - j))
          (by omega) (by omega) hj'le hanch' (by omega)]
        have hpp : nAnch lvs lvl (nAnch lvs (lvl - 1) j - 1) = nAnch lvs lvl (j - 1) := by
          refine Eq.symm (nAnch_congr lvs lvl (j - 1) (nAnch lvs (lvl - 1) j - 1)
            (by omega) ?_ (by omega))
          intro m hm1 hm2
          rcases Nat.eq_or_lt_of_le (show j ≤ m by omega) with hc | hc
          · rw [← hc]
            omega
          · have := nAnch_gap lvs (lvl - 1) j m hc (by omega)
            omega
        rw [hpp]
        have hJ : nAnch lvs (lvl - 1) j ≤ nAnch lvs lvl (j - 1) := by
          rw [← hpp]
          have := nAnch_gt lvs lvl (nAnch lvs (lvl - 1) j - 1)
          omega
        have hcnt : c + (nAnch lvs (lvl - 1) j - j) +
            (nAnch lvs lvl (j - 1) - nAnch lvs (lvl - 1) j) =
            c + (nAnch lvs lvl (j - 1) - j) := by omega
        rw [hcnt]


theorem lv_getD_ge_one (lvs : List Nat) (hlv1 : ∀ v ∈ lvs, 1 ≤ v) (i : Nat)
    (h : i < lvs.length) : 1 ≤ lvs.getD i 0 := by
  have h2 : lvs.get? i = some (lvs.get ⟨i, h⟩) := List.get?_eq_get h
  have h3 : lvs.getD i 0 = (lvs.get? i).getD 0 := by simp [List.getD]
  rw [h3, h2]
  exact hlv1 _ (by simpa using List.get_mem lvs i h)

theorem pAnch_zero (lvs : List Nat) (hlv1 : ∀ v ∈ lvs, 1 ≤ v) (p : Nat)
    (hp : p ≤ lvs.length) : pAnch lvs 0 p = p := by
  cases p with
  | zero => rfl
  | succ pp =>
    show (if 0 < lvs.getD pp 0 then pp + 1 else pAnch lvs 0 pp) = pp + 1
    rw [if_pos (show 0 < lvs.getD pp 0 from lv_getD_ge_one lvs hlv1 pp (by omega))]

theorem nAnch_zero (lvs : List Nat) (hlv1 : ∀ v ∈ lvs, 1 ≤ v) (s : Nat)
    (hs1 : 1 ≤ s) (hs : s ≤ lvs.length + 1) : nAnch lvs 0 (s - 1) = s := by
  refine nAnch_eq lvs 0 (s - 1) s (by omega) hs ?_ (by omega) (by omega)
  rcases Nat.lt_or_ge s (lvs.length + 1) with h0 | h0
  · exact Or.inr (lv_getD_ge_one lvs hlv1 (s - 1) (by omega))
  · exact Or.inl (by omega)

/-- The formula for the `pre` array of `_insert_after` / `_remove_key`. -/
def preLink (l : List K) (lvs : List Nat) (p ℓ : Nat) : Link K :=
  ⟨keyAt l (pAnch lvs ℓ p), p + 1 - pAnch lvs ℓ p⟩

/-- The formula for the `suc` array (`s` is the 1-based position of the
immediate successor; `s - 1` is the slot being bridged). -/
def sucLink (l : List K) (lvs : List Nat) (s ℓ : Nat) : Link K :=
  ⟨keyAt l (nAnch lvs ℓ (s - 1)), nAnch lvs ℓ (s - 1) - (s - 1)⟩

theorem predsAux_succ_eq (sl : SkipList K) (rm lvl : Nat) (link link' : Link K)
    (hcl : climbPrev sl lvl (sl.nodes.length + 1) link = some (.ok link')) :
    predsAux sl (rm + 1) lvl link =
      match predsAux sl rm (lvl + 1) link' with
      | none => none
      | some (.error e) => some (.error e)
      | some (.ok rest) => some (.ok (link' :: rest)) := by
  conv_lhs => rw [predsAux]
  rw [hcl]

theorem sucsAux_succ_eq (sl : SkipList K) (rm lvl : Nat) (link link' : Link K)
    (hcl : climbNext sl lvl (sl.nodes.length + 1) link = some (.ok link')) :
    sucsAux sl (rm + 1) lvl link =
      match sucsAux sl rm (lvl + 1) link' with
      | none => none
      | some (.error e) => some (.error e)
      | some (.ok rest) => some (.ok (link' :: rest)) := by
  conv_lhs => rw [sucsAux]
  rw [hcl]

theorem predsAux_ok (sl : SkipList K) (l : List K) (lvs : List Nat)
    (hlvs : lvs.length = l.length) (hlv1 : ∀ v ∈ lvs, 1 ≤ v) (P : Nat)
    (hmap : MapsUpTo sl.nodes l lvs P) (hP : P ≤ l.length)
    (hfuelP : P ≤ sl.nodes.length) (p : Nat) (hp : p ≤ P) :
    ∀ rem lvl, 1 ≤ lvl →
      predsAux sl rem lvl (preLink l lvs p (lvl - 1)) =
        some (.ok ((List.range' lvl rem).map (preLink l lvs p))) := by
  intro rem
  induction rem with
  | zero => intro lvl _; rfl
  | succ rm ih =>
    intro lvl hlvl
    have hj := pAnch_le lvs (lvl - 1) p
    have hanch : pAnch lvs (lvl - 1) p = 0 ∨ lvl ≤ lvs.getD (pAnch lvs (lvl - 1) p - 1) 0 := by
      rcases Nat.eq_zero_or_pos (pAnch lvs (lvl - 1) p) with h0 | h0
      · exact Or.inl h0
      · right
        have := pAnch_level lvs (lvl - 1) p h0
        omega
    have hcl := climbPrev_ok sl l lvs hlvs hlv1 P hmap hP lvl hlvl (sl.nodes.length + 1)
      (pAnch lvs (lvl - 1) p) (p + 1 - pAnch lvs (lvl - 1) p) (by omega) hanch (by omega)
    have hpp : pAnch lvs lvl (pAnch lvs (lvl - 1) p) = pAnch lvs lvl p :=
      pAnch_pAnch lvs (lvl - 1) lvl p (by omega)
    have hple : pAnch lvs lvl p ≤ pAnch lvs (lvl - 1) p := by
      rw [← hpp]
      exact pAnch_le lvs lvl (pAnch lvs (lvl - 1) p)
    have hlink : (⟨keyAt l (pAnch lvs lvl (pAnch lvs (lvl - 1) p)),
        p + 1 - pAnch lvs (lvl - 1) p +
          (pAnch lvs (lvl - 1) p - pAnch lvs lvl (pAnch lvs (lvl - 1) p))⟩ : Link K)
        = preLink l lvs p ((lvl + 1) - 1) := by
      unfold preLink
      rw [hpp]
      have h9 : p + 1 - pAnch lvs (lvl - 1) p +
          (pAnch lvs (lvl - 1) p - pAnch lvs lvl p) = p + 1 - pAnch lvs lvl p := by omega
      rw [h9]
      rfl
    rw [hlink] at hcl
    have hin : (⟨keyAt l (pAnch lvs (lvl - 1) p),
        p + 1 - pAnch lvs (lvl - 1) p⟩ : Link K) = preLink l lvs p (lvl - 1) := rfl
    rw [hin] at hcl
    rw [predsAux_succ_eq sl rm lvl _ _ hcl]
    rw [ih (lvl + 1) (by omega)]
    rw [List.range'_succ]
    rfl

theorem sucsAux_ok (sl : SkipList K) (l : List K) (lvs : List Nat)
    (hlvs : lvs.length = l.length) (hlv1 : ∀ v ∈ lvs, 1 ≤ v) (S : Nat)
    (hmap : MapsFrom sl.nodes l lvs S)
    (s : Nat) (hs1 : 1 ≤ s) (hSs : S ≤ s) (hs : s ≤ l.length + 1)
    (hfuelS : l.length + 1 - s ≤ sl.nodes.length) :
    ∀ rem lvl, 1 ≤ lvl →
      sucsAux sl rem lvl (sucLink l lvs s (lvl - 1)) =
        some (.ok ((List.range' lvl rem).map (sucLink l lvs s))) := by
  intro rem
  induction rem with
  | zero => intro lvl _; rfl
  | succ rm ih =>
    intro lvl hlvl
    have hj1 : s - 1 ≤ lvs.length := by omega
    have hjgt : s - 1 < nAnch lvs (lvl - 1) (s - 1) := nAnch_gt lvs (lvl - 1) (s - 1)
    have hjle : nAnch lvs (lvl - 1) (s - 1) ≤ lvs.length + 1 := nAnch_le lvs (lvl - 1) (s - 1) hj1
    have hanch : nAnch lvs (lvl - 1) (s - 1) = l.length + 1 ∨
        lvl ≤ lvs.getD (nAnch lvs (lvl - 1) (s - 1) - 1) 0 := by
      rcases Nat.lt_or_ge (nAnch lvs (lvl - 1) (s - 1)) (lvs.length + 1) with h0 | h0
      · right
        have := nAnch_level lvs (lvl - 1) (s - 1) (by omega)
        omega
      · exact Or.inl (by omega)
    have hcl := climbNext_ok sl l lvs hlvs hlv1 S hmap lvl hlvl (sl.nodes.length + 1)
      (nAnch lvs (lvl - 1) (s - 1)) (nAnch lvs (lvl - 1) (s - 1) - (s - 1))
      (by omega) (by omega) (by omega) hanch (by omega)
    have hround : nAnch lvs lvl (nAnch lvs (lvl - 1) (s - 1) - 1)
        = nAnch lvs lvl (s - 1) := by
      rcases Nat.eq_or_lt_of_le hjgt with he | hlt
      · have h9 : nAnch lvs (lvl - 1) (s - 1) - 1 = s - 1 := by omega
        rw [h9]
      · refine Eq.symm (nAnch_congr lvs lvl (s - 1) (nAnch lvs (lvl - 1) (s - 1) - 1)
          (by omega) ?_ (by omega))
        intro m hm1 hm2
        have := nAnch_gap lvs (lvl - 1) (s - 1) m (by omega) (by omega)
        omega
    have hJ : nAnch lvs (lvl - 1) (s - 1) ≤ nAnch lvs lvl (s - 1) := by
      rw [← hround]
      have := nAnch_gt lvs lvl (nAnch lvs (lvl - 1) (s - 1) - 1)
      omega
    have hlink : (⟨keyAt l (nAnch lvs lvl (nAnch lvs (lvl - 1) (s - 1) - 1)),
        nAnch lvs (lvl - 1) (s - 1) - (s - 1) +
          (nAnch lvs lvl (nAnch lvs (lvl - 1) (s - 1) - 1) - nAnch lvs (lvl - 1) (s - 1))⟩ : Link K)
        = sucLink l lvs s ((lvl + 1) - 1) := by
      unfold sucLink
      rw [hround]
      have h9 : nAnch lvs (lvl - 1) (s - 1) - (s - 1) +
          (nAnch lvs lvl (s - 1) - nAnch lvs (lvl - 1) (s - 1))
          = nAnch lvs lvl (s - 1) - (s - 1) := by omega
      rw [h9]
      rfl
    rw [hlink] at hcl
    have hin : (⟨keyAt l (nAnch lvs (lvl - 1) (s - 1)),
        nAnch lvs (lvl - 1) (s - 1) - (s - 1)⟩ : Link K) = sucLink l lvs s (lvl - 1) := rfl
    rw [hin] at hcl
    rw [sucsAux_succ_eq sl rm lvl _ _ hcl]
    rw [ih (lvl + 1) (by omega)]
    rw [List.range'_succ]
    rfl

theorem predecessors_ok (sl : SkipList K) (l : List K) (lvs : List Nat)
    (hlvs : lvs.length = l.length) (hlv1 : ∀ v ∈ lvs, 1 ≤ v) (P : Nat)
    (hmap : MapsUpTo sl.nodes l lvs P) (hP : P ≤ l.length)
    (hfuelP : P ≤ sl.nodes.length) (p : Nat) (hp : p ≤ P) (maxl : Nat) (hmaxl : 1 ≤ maxl) :
    sl.predecessors (keyAt l p) maxl =
      some (.ok ((List.range maxl).map (preLink l lvs p))) := by
  unfold SkipList.predecessors
  have hbase : (⟨keyAt l p, 1⟩ : Link K) = preLink l lvs p 0 := by
    unfold preLink
    rw [pAnch_zero lvs hlv1 p (by omega)]
    have : p + 1 - p = 1 := by omega
    rw [this]
  have hbase' : (⟨keyAt l p, 1⟩ : Link K) = preLink l lvs p (1 - 1) := hbase
  rw [hbase']
  rw [predsAux_ok sl l lvs hlvs hlv1 P hmap hP hfuelP p hp (maxl - 1) 1 (by omega)]
  simp only []
  obtain ⟨mm, hmm⟩ : ∃ mm, maxl = mm + 1 := ⟨maxl - 1, by omega⟩
  subst hmm
  rw [List.range_eq_range']
  rw [List.range'_succ]
  simp only [Nat.add_sub_cancel, List.map_cons]

theorem successors_ok (sl : SkipList K) (l : List K) (lvs : List Nat)
    (hlvs : lvs.length = l.length) (hlv1 : ∀ v ∈ lvs, 1 ≤ v) (S : Nat)
    (hmap : MapsFrom sl.nodes l lvs S)
    (s : Nat) (hs1 : 1 ≤ s) (hSs : S ≤ s) (hs : s ≤ l.length + 1)
    (hfuelS : l.length + 1 - s ≤ sl.nodes.length) (maxl : Nat) (hmaxl : 1 ≤ maxl) :
    sl.successors (keyAt l s) maxl =
      some (.ok ((List.range maxl).map (sucLink l lvs s))) := by
  unfold SkipList.successors
  have hbase : (⟨keyAt l s, 1⟩ : Link K) = sucLink l lvs s 0 := by
    unfold sucLink
    rw [nAnch_zero lvs hlv1 s hs1 (by omega)]
    have : s - (s - 1) = 1 := by omega
    rw [this]
  have hbase' : (⟨keyAt l s, 1⟩ : Link K) = sucLink l lvs s (1 - 1) := hbase
  rw [hbase']
  rw [sucsAux_ok sl l lvs hlvs hlv1 S hmap s hs1 hSs hs hfuelS (maxl - 1) 1 (by omega)]
  simp only []
  obtain ⟨mm, hmm⟩ : ∃ mm, maxl = mm + 1 := ⟨maxl - 1, by omega⟩
  subst hmm
  rw [List.range_eq_range']
  rw [List.range'_succ]
  simp only [Nat.add_sub_cancel, List.map_cons]


/-! ### `key_of` and `index_of` on well-formed skip lists -/

theorem keyAt_eq_get? (l : List K) (j : Nat) (h : 1 ≤ j) : keyAt l j = l.get? (j - 1) := by
  unfold keyAt
  rw [if_neg (by omega)]

theorem Wf.nodes_length {sl : SkipList K} {l : List K} {lvs : List Nat}
    (hwf : Wf sl l lvs) : sl.nodes.length = l.length := by
  have h := hwf.keys_perm.length_eq
  simpa using h

theorem Wf.getN_none {sl : SkipList K} {l : List K} {lvs : List Nat}
    (hwf : Wf sl l lvs) {k : K} (hk : k ∉ l) : getN sl.nodes k = none := by
  cases h : getN sl.nodes k with
  | none => rfl
  | some nd => exact absurd (hwf.keys_perm.mem_iff.mp (getN_mem_keys h)) hk

theorem Wf.mapsUpTo {sl : SkipList K} {l : List K} {lvs : List Nat}
    (hwf : Wf sl l lvs) : MapsUpTo sl.nodes l lvs l.length :=
  fun m hm _ => hwf.lookup_eq m hm

theorem Wf.mapsFrom {sl : SkipList K} {l : List K} {lvs : List Nat}
    (hwf : Wf sl l lvs) : MapsFrom sl.nodes l lvs 1 :=
  fun m hm _ => hwf.lookup_eq m hm

theorem Wf.getN_keyAt {sl : SkipList K} {l : List K} {lvs : List Nat}
    (hwf : Wf sl l lvs) {j : Nat} {k : K} (h1 : 1 ≤ j) (h2 : j ≤ l.length)
    (hk : keyAt l j = some k) : getN sl.nodes k = some (mkNode l lvs (j - 1)) := by
  obtain ⟨hlt, he⟩ := keyAt_isSome l j h1 h2
  rw [he] at hk
  cases hk
  exact hwf.lookup_eq (j - 1) hlt

theorem keyOfDescend_zero_eq (nx : List (Link K)) (count target : Nat) (okey : Option K)
    (cnt : Nat) (h : nx.get? 0 = some ⟨okey, cnt⟩) :
    keyOfDescend nx count target 0 = if count + cnt > target then none else some 0 := by
  conv_lhs => rw [keyOfDescend]
  rw [h]

theorem keyOfDescend_succ_eq (nx : List (Link K)) (count target ll : Nat) (okey : Option K)
    (cnt : Nat) (h : nx.get? (ll + 1) = some ⟨okey, cnt⟩) :
    keyOfDescend nx count target (ll + 1) =
      if count + cnt > target then keyOfDescend nx count target ll else some (ll + 1) := by
  conv_lhs => rw [keyOfDescend]
  rw [h]

theorem keyOfDescend_ok (l : List K) (lvs : List Nat) (hlv1 : ∀ v ∈ lvs, 1 ≤ v)
    (q target : Nat) (hq : q ≤ lvs.length) (hqt : q < target) (nx : List (Link K)) :
    ∀ ℓin, (∀ ℓ, ℓ ≤ ℓin → nx.get? ℓ = some (mkLinkNext l lvs q ℓ)) →
      ∃ ℓout, keyOfDescend nx q target ℓin = some ℓout ∧ ℓout ≤ ℓin ∧
        nAnch lvs ℓout q ≤ target := by
  intro ℓin
  induction ℓin with
  | zero =>
    intro hnx
    have h0 : nAnch lvs 0 q = q + 1 := by
      have h9 := nAnch_zero lvs hlv1 (q + 1) (by omega) (by omega)
      simpa using h9
    refine ⟨0, ?_, le_refl 0, by omega⟩
    have hg : nx.get? 0 = some ⟨keyAt l (nAnch lvs 0 q), nAnch lvs 0 q - q⟩ := by
      rw [hnx 0 (le_refl 0)]
      rfl
    rw [keyOfDescend_zero_eq nx q target _ _ hg]
    rw [if_neg (by omega)]
  | succ ll ih =>
    intro hnx
    have hg : nx.get? (ll + 1)
        = some ⟨keyAt l (nAnch lvs (ll + 1) q), nAnch lvs (ll + 1) q - q⟩ := by
      rw [hnx (ll + 1) (le_refl _)]
      rfl
    have hgt := nAnch_gt lvs (ll + 1) q
    by_cases hcond : nAnch lvs (ll + 1) q > target
    · obtain ⟨ℓout, h1, h2, h3⟩ := ih (fun ℓ hℓ => hnx ℓ (by omega))
      refine ⟨ℓout, ?_, by omega, h3⟩
      rw [keyOfDescend_succ_eq nx q target ll _ _ hg]
      rw [if_pos (by omega)]
      exact h1
    · refine ⟨ll + 1, ?_, le_refl _, by omega⟩
      rw [keyOfDescend_succ_eq nx q target ll _ _ hg]
      rw [if_neg (by omega)]

theorem keyOfLoop_succ_target (sl : SkipList K) (target fuel : Nat) (node : Node K)
    (level count ℓout : Nat) (okey : Option K) (cnt : Nat)
    (hd : keyOfDescend node.next count target level = some ℓout)
    (hg : node.next.get? ℓout = some ⟨okey, cnt⟩)
    (heq : count + cnt = target) :
    keyOfLoop sl target (fuel + 1) node level count = some okey := by
  conv_lhs => rw [keyOfLoop]
  simp only [hd, hg]
  rw [if_pos heq]

theorem keyOfLoop_succ_some (sl : SkipList K) (target fuel : Nat) (node : Node K)
    (level count ℓout : Nat) (k : K) (cnt : Nat) (nd : Node K)
    (hd : keyOfDescend node.next count target level = some ℓout)
    (hg : node.next.get? ℓout = some ⟨some k, cnt⟩)
    (hne : ¬ count + cnt = target)
    (hgn : getN sl.nodes k = some nd) :
    keyOfLoop sl target (fuel + 1) node level count =
      keyOfLoop sl target fuel nd ℓout (count + cnt) := by
  conv_lhs => rw [keyOfLoop]
  simp only [hd, hg, hgn]
  rw [if_neg hne]

theorem keyOfLoop_ok (sl : SkipList K) (l : List K) (lvs : List Nat)
    (hlvs : lvs.length = l.length) (hlv1 : ∀ v ∈ lvs, 1 ≤ v)
    (hmap : MapsUpTo sl.nodes l lvs l.length)
    (target : Nat) (htn : target ≤ l.length) (ht1 : 1 ≤ target) :
    ∀ fuel q ℓin node, q < target →
      (node = if q = 0 then sl.head else mkNode l lvs (q - 1)) →
      (∀ ℓ, ℓ ≤ ℓin → node.next.get? ℓ = some (mkLinkNext l lvs q ℓ)) →
      target - q ≤ fuel →
      keyOfLoop sl target fuel node ℓin q = some (l.get? (target - 1)) := by
  intro fuel
  induction fuel with
  | zero => intro q ℓin node hq _ _ hf; omega
  | succ f ih =>
    intro q ℓin node hqt hnode hnx hf
    have hq : q ≤ lvs.length := by omega
    obtain ⟨ℓout, hdesc, hle, hna⟩ :=
      keyOfDescend_ok l lvs hlv1 q target hq hqt node.next ℓin hnx
    have hg : node.next.get? ℓout
        = some ⟨keyAt l (nAnch lvs ℓout q), nAnch lvs ℓout q - q⟩ := by
      rw [hnx ℓout hle]
      rfl
    have hjgt := nAnch_gt lvs ℓout q
    by_cases hj : nAnch lvs ℓout q = target
    · rw [keyOfLoop_succ_target sl target f node ℓin q ℓout _ _ hdesc hg (by omega)]
      rw [hj]
      rw [keyAt_eq_get? l target ht1]
    · have hjlt : nAnch lvs ℓout q < target := by omega
      have hjn : nAnch lvs ℓout q ≤ l.length := by omega
      obtain ⟨hlt2, hkey2⟩ := keyAt_isSome l (nAnch lvs ℓout q) (by omega) hjn
      rw [hkey2] at hg
      have hget : getN sl.nodes (l.get ⟨nAnch lvs ℓout q - 1, hlt2⟩)
          = some (mkNode l lvs (nAnch lvs ℓout q - 1)) :=
        hmap (nAnch lvs ℓout q - 1) hlt2 (by omega)
      rw [keyOfLoop_succ_some sl target f node ℓin q ℓout _ _ _ hdesc hg (by omega) hget]
      have hlev : ℓout < lvs.getD (nAnch lvs ℓout q - 1) 0 :=
        nAnch_level lvs ℓout q (by omega)
      have hstep : nAnch lvs ℓout q - 1 + 1 = nAnch lvs ℓout q := by omega
      have hcnt : q + (nAnch lvs ℓout q - q) = nAnch lvs ℓout q := by omega
      rw [hcnt]
      refine ih (nAnch lvs ℓout q) ℓout (mkNode l lvs (nAnch lvs ℓout q - 1)) hjlt ?_ ?_ (by omega)
      · rw [if_neg (by omega)]
      · intro ℓ hℓ
        rw [mkNode_next_get? l lvs (nAnch lvs ℓout q - 1) ℓ (by omega), hstep]

theorem keyOf_wf {sl : SkipList K} {l : List K} {lvs : List Nat}
    (hwf : Wf sl l lvs) (index : Nat) : sl.key_of index = some (l.get? index) := by
  unfold SkipList.key_of
  by_cases hlen : index ≥ sl.len
  · rw [if_pos hlen]
    rw [List.get?_eq_none.mpr (by rw [← hwf.len_eq]; omega)]
  · rw [if_neg hlen]
    have hidx : index < l.length := by rw [← hwf.len_eq]; omega
    have hne : l ≠ [] := by
      intro h
      rw [h] at hidx
      simp at hidx
    have hhead : sl.head = mkHead l lvs sl.head.level := by
      rcases hwf.head_eq with h | ⟨h0, _⟩
      · exact h
      · exact absurd h0 hne
    have hres := keyOfLoop_ok sl l lvs hwf.lvs_len hwf.lv_pos hwf.mapsUpTo
      (index + 1) (by omega) (by omega) (sl.len + 1) 0 (sl.head.level - 1) sl.head
      (by omega) (by rw [if_pos rfl]) ?_ (by omega)
    · rw [hres]
      simp
    · intro ℓ hℓ
      conv_lhs => rw [hhead]
      exact mkHead_next_get? l lvs sl.head.level ℓ (by have := hwf.head_pos; omega)

theorem indexOfLoop_succ_none (sl : SkipList K) (fuel : Nat) (kk : K) (count : Nat)
    (node : Node K) (cnt : Nat)
    (hg : getN sl.nodes kk = some node)
    (hp : node.prev.get? (node.level - 1) = some ⟨none, cnt⟩) :
    indexOfLoop sl (fuel + 1) kk count = some (some (count + cnt - 1)) := by
  conv_lhs => rw [indexOfLoop]
  simp only [hg, hp]

theorem indexOfLoop_succ_some (sl : SkipList K) (fuel : Nat) (kk : K) (count : Nat)
    (node : Node K) (k2 : K) (cnt : Nat)
    (hg : getN sl.nodes kk = some node)
    (hp : node.prev.get? (node.level - 1) = some ⟨some k2, cnt⟩) :
    indexOfLoop sl (fuel + 1) kk count = indexOfLoop sl fuel k2 (count + cnt) := by
  conv_lhs => rw [indexOfLoop]
  simp only [hg, hp]

theorem indexOfLoop_ok (sl : SkipList K) (l : List K) (lvs : List Nat)
    (hlvs : lvs.length = l.length) (hlv1 : ∀ v ∈ lvs, 1 ≤ v)
    (hmap : MapsUpTo sl.nodes l lvs l.length) :
    ∀ fuel i c k, 1 ≤ i → i ≤ l.length → i ≤ fuel → keyAt l i = some k →
      indexOfLoop sl fuel k c = some (some (c + i - 1)) := by
  intro fuel
  induction fuel with
  | zero => intro i c k h1 _ hf _; omega
  | succ f ih =>
    intro i c k h1 h2 hf hk
    have hget : getN sl.nodes k = some (mkNode l lvs (i - 1)) := by
      obtain ⟨hlt, he⟩ := keyAt_isSome l i h1 h2
      rw [he] at hk
      cases hk
      exact hmap (i - 1) hlt (by omega)
    have hL1 : 1 ≤ lvs.getD (i - 1) 0 := lv_getD_ge_one lvs hlv1 (i - 1) (by omega)
    have hi1 : i - 1 + 1 = i := by omega
    have hlev : (mkNode l lvs (i - 1)).level - 1 = lvs.getD (i - 1) 0 - 1 := rfl
    have hp : (mkNode l lvs (i - 1)).prev.get? ((mkNode l lvs (i - 1)).level - 1)
        = some ⟨keyAt l (pAnch lvs (lvs.getD (i - 1) 0 - 1) (i - 1)),
            i - pAnch lvs (lvs.getD (i - 1) 0 - 1) (i - 1)⟩ := by
      rw [hlev, mkNode_prev_get? l lvs (i - 1) (lvs.getD (i - 1) 0 - 1) (by omega)]
      unfold mkLinkPrev
      rw [hi1]
    have hjle : pAnch lvs (lvs.getD (i - 1) 0 - 1) (i - 1) ≤ i - 1 :=
      pAnch_le lvs (lvs.getD (i - 1) 0 - 1) (i - 1)
    rcases Nat.eq_zero_or_pos (pAnch lvs (lvs.getD (i - 1) 0 - 1) (i - 1)) with h0 | h0
    · rw [h0, keyAt_zero] at hp
      rw [indexOfLoop_succ_none sl f k c (mkNode l lvs (i - 1)) _ hget hp]
      have h9 : c + (i - 0) - 1 = c + i - 1 := by omega
      rw [h9]
    · obtain ⟨hlt3, hkey3⟩ :=
        keyAt_isSome l (pAnch lvs (lvs.getD (i - 1) 0 - 1) (i - 1)) (by omega) (by omega)
      rw [hkey3] at hp
      rw [indexOfLoop_succ_some sl f k c (mkNode l lvs (i - 1)) _ _ hget hp]
      rw [ih (pAnch lvs (lvs.getD (i - 1) 0 - 1) (i - 1)) (c + (i - pAnch lvs (lvs.getD (i - 1) 0 - 1) (i - 1)))
        (l.get ⟨pAnch lvs (lvs.getD (i - 1) 0 - 1) (i - 1) - 1, hlt3⟩) (by omega) (by omega) (by omega)
        (by rw [hkey3])]
      have h9 : c + (i - pAnch lvs (lvs.getD (i - 1) 0 - 1) (i - 1)) +
          pAnch lvs (lvs.getD (i - 1) 0 - 1) (i - 1) - 1 = c + i - 1 := by omega
      rw [h9]

theorem indexOf_wf_present {sl : SkipList K} {l : List K} {lvs : List Nat}
    (hwf : Wf sl l lvs) (i : Nat) (h : i < l.length) :
    sl.index_of (l.get ⟨i, h⟩) = some (some i) := by
  unfold SkipList.index_of
  have hget : getN sl.nodes (l.get ⟨i, h⟩) = some (mkNode l lvs i) := hwf.lookup_eq i h
  have hcont : containsN sl.nodes (l.get ⟨i, h⟩) = true := by
    unfold containsN
    rw [hget]
    rfl
  rw [if_neg (by rw [hcont]; simp)]
  have hkeq : keyAt l (i + 1) = some (l.get ⟨i, h⟩) := by
    obtain ⟨hlt, he⟩ := keyAt_isSome l (i + 1) (by omega) (by omega)
    rw [he]
    congr 1
  have hres := indexOfLoop_ok sl l lvs hwf.lvs_len hwf.lv_pos hwf.mapsUpTo
    (sl.nodes.length + 1) (i + 1) 0 (l.get ⟨i, h⟩) (by omega)
    (by omega) (by rw [hwf.nodes_length]; omega) hkeq
  rw [hres]
  have h9 : 0 + (i + 1) - 1 = i := by omega
  rw [h9]

theorem indexOf_wf_absent {sl : SkipList K} {l : List K} {lvs : List Nat}
    (hwf : Wf sl l lvs) {k : K} (hk : k ∉ l) : sl.index_of k = some none := by
  unfold SkipList.index_of
  rw [if_pos ?_]
  unfold containsN
  rw [hwf.getN_none hk]
  simp



/-! ### Effect of `insertIdx` on positions, keys and anchors -/

theorem get?_insertIdx_lt {α : Type} (a : α) :
    ∀ (l : List α) (p i : Nat), i < p → (l.insertIdx p a).get? i = l.get? i := by
  intro l
  induction l with
  | nil =>
    intro p i h
    cases p with
    | zero => omega
    | succ q => rw [List.insertIdx_succ_nil]
  | cons x xs ih =>
    intro p i h
    cases p with
    | zero => omega
    | succ q =>
      rw [List.insertIdx_succ_cons]
      cases i with
      | zero => rfl
      | succ m =>
        show (xs.insertIdx q a).get? m = xs.get? m
        exact ih q m (by omega)

theorem get?_insertIdx_self {α : Type} (a : α) :
    ∀ (l : List α) (p : Nat), p ≤ l.length → (l.insertIdx p a).get? p = some a := by
  intro l
  induction l with
  | nil =>
    intro p h
    simp at h
    subst h
    rfl
  | cons x xs ih =>
    intro p h
    cases p with
    | zero => rfl
    | succ q =>
      rw [List.insertIdx_succ_cons]
      show (xs.insertIdx q a).get? q = some a
      exact ih q (by simpa using h)

theorem get?_insertIdx_ge {α : Type} (a : α) :
    ∀ (l : List α) (p i : Nat), p ≤ i → p ≤ l.length →
      (l.insertIdx p a).get? (i + 1) = l.get? i := by
  intro l
  induction l with
  | nil =>
    intro p i h hp
    simp at hp
    subst hp
    cases i with
    | zero => rfl
    | succ m => rfl
  | cons x xs ih =>
    intro p i h hp
    cases p with
    | zero =>
      rfl
    | succ q =>
      rw [List.insertIdx_succ_cons]
      cases i with
      | zero => omega
      | succ m =>
        show (xs.insertIdx q a).get? (m + 1) = xs.get? m
        exact ih q m (by omega) (by simpa using hp)

theorem getD_insertIdx_lt (lvs : List Nat) (p i nl : Nat) (h : i < p) :
    (lvs.insertIdx p nl).getD i 0 = lvs.getD i 0 := by
  simp only [List.getD, ← List.get?_eq_getElem?]
  rw [get?_insertIdx_lt nl lvs p i h]

theorem getD_insertIdx_self (lvs : List Nat) (p nl : Nat) (h : p ≤ lvs.length) :
    (lvs.insertIdx p nl).getD p 0 = nl := by
  simp only [List.getD, ← List.get?_eq_getElem?]
  rw [get?_insertIdx_self nl lvs p h]
  rfl

theorem getD_insertIdx_ge (lvs : List Nat) (p i nl : Nat) (h : p ≤ i) (hp : p ≤ lvs.length) :
    (lvs.insertIdx p nl).getD (i + 1) 0 = lvs.getD i 0 := by
  simp only [List.getD, ← List.get?_eq_getElem?]
  rw [get?_insertIdx_ge nl lvs p i h hp]

theorem keyAt_insertIdx_le (l : List K) (p j : Nat) (k : K) (h : j ≤ p) :
    keyAt (l.insertIdx p k) j = keyAt l j := by
  unfold keyAt
  by_cases h0 : j = 0
  · rw [if_pos h0, if_pos h0]
  · rw [if_neg h0, if_neg h0]
    exact get?_insertIdx_lt k l p (j - 1) (by omega)

theorem keyAt_insertIdx_self (l : List K) (p : Nat) (k : K) (hp : p ≤ l.length) :
    keyAt (l.insertIdx p k) (p + 1) = some k := by
  unfold keyAt
  rw [if_neg (by omega)]
  simp only [Nat.add_sub_cancel]
  exact get?_insertIdx_self k l p hp

theorem keyAt_insertIdx_ge (l : List K) (p j : Nat) (k : K) (h : p + 1 ≤ j)
    (hp : p ≤ l.length) : keyAt (l.insertIdx p k) (j + 1) = keyAt l j := by
  unfold keyAt
  rw [if_neg (by omega), if_neg (by omega)]
  have h9 : j + 1 - 1 = (j - 1) + 1 := by omega
  rw [h9]
  exact get?_insertIdx_ge k l p (j - 1) (by omega) hp

theorem length_insertIdx_p (lvs : List Nat) (p nl : Nat) (hp : p ≤ lvs.length) :
    (lvs.insertIdx p nl).length = lvs.length + 1 :=
  List.length_insertIdx p lvs hp

theorem nAnch_le_of_anchor (lvs : List Nat) (ℓ i m : Nat) (h1 : i < m) (h2 : m ≤ lvs.length)
    (h3 : ℓ < lvs.getD (m - 1) 0) : nAnch lvs ℓ i ≤ m := by
  by_contra hlt
  push_neg at hlt
  have := nAnch_gap lvs ℓ i m h1 hlt
  omega

theorem pAnch_ge_of_anchor (lvs : List Nat) (ℓ i m : Nat) (h1 : 1 ≤ m) (h2 : m ≤ i)
    (h3 : ℓ < lvs.getD (m - 1) 0) : m ≤ pAnch lvs ℓ i := by
  by_contra hlt
  push_neg at hlt
  have := pAnch_gap lvs ℓ i m hlt h2
  omega

theorem pAnch_imp_nAnch_gt (lvs : List Nat) (ℓ p i : Nat) (h : pAnch lvs ℓ p = i)
    (hip : i ≤ p) (hp : p ≤ lvs.length) : p < nAnch lvs ℓ i := by
  by_contra hle
  push_neg at hle
  have h1 := nAnch_gt lvs ℓ i
  have h2 := nAnch_level lvs ℓ i (by omega)
  have h3 := pAnch_gap lvs ℓ p (nAnch lvs ℓ i) (by omega) hle
  omega

theorem nAnch_imp_pAnch_le (lvs : List Nat) (ℓ p j : Nat) (h : nAnch lvs ℓ p = j)
    (hpj : p < j) (hj : j ≤ lvs.length + 1) : pAnch lvs ℓ (j - 1) ≤ p := by
  by_contra hgt
  push_neg at hgt
  have h1 := pAnch_le lvs ℓ (j - 1)
  have h2 := pAnch_level lvs ℓ (j - 1) (by omega)
  have h3 := nAnch_gap lvs ℓ p (pAnch lvs ℓ (j - 1)) (by omega) (by omega)
  omega

theorem pAnch_run (lvs : List Nat) (a ℓ p i : Nat) (h : pAnch lvs a p = i)
    (hℓ : a ≤ ℓ) (hi : 1 ≤ i) (hlv : ℓ < lvs.getD (i - 1) 0) : pAnch lvs ℓ p = i := by
  refine pAnch_eq lvs ℓ p i (by rw [← h]; exact pAnch_le lvs a p) (Or.inr hlv) ?_
  intro m h1 h2
  have := pAnch_gap lvs a p m (by omega) h2
  omega

theorem nAnch_run (lvs : List Nat) (b ℓ p j : Nat) (h : nAnch lvs b p = j)
    (hℓ : b ≤ ℓ) (hj : j ≤ lvs.length) (hlv : ℓ < lvs.getD (j - 1) 0)
    (hp : p ≤ lvs.length) : nAnch lvs ℓ p = j := by
  refine nAnch_eq lvs ℓ p j (by rw [← h]; exact nAnch_gt lvs b p) (by omega)
    (Or.inr hlv) ?_ hp
  intro m h1 h2
  have := nAnch_gap lvs b p m h1 (by omega)
  omega

theorem pAnch_insertIdx_le (lvs : List Nat) (p nl ℓ : Nat) :
    ∀ j, j ≤ p → pAnch (lvs.insertIdx p nl) ℓ j = pAnch lvs ℓ j := by
  intro j
  induction j with
  | zero => intro _; rfl
  | succ m ih =>
    intro h
    show (if ℓ < (lvs.insertIdx p nl).getD m 0 then m + 1 else pAnch (lvs.insertIdx p nl) ℓ m)
      = pAnch lvs ℓ (m + 1)
    rw [getD_insertIdx_lt lvs p m nl (by omega)]
    show _ = (if ℓ < lvs.getD m 0 then m + 1 else pAnch lvs ℓ m)
    by_cases hc : ℓ < lvs.getD m 0
    · rw [if_pos hc, if_pos hc]
    · rw [if_neg hc, if_neg hc]
      exact ih (by omega)

theorem nAnch_insertIdx_of_le (lvs : List Nat) (p nl ℓ j : Nat) (hj : j ≤ p)
    (hp : p ≤ lvs.length) (hna : nAnch lvs ℓ j ≤ p) :
    nAnch (lvs.insertIdx p nl) ℓ j = nAnch lvs ℓ j := by
  have hgt := nAnch_gt lvs ℓ j
  have hlen := length_insertIdx_p lvs p nl hp
  refine nAnch_eq (lvs.insertIdx p nl) ℓ j (nAnch lvs ℓ j) hgt (by omega) ?_ ?_ (by omega)
  · right
    rw [getD_insertIdx_lt lvs p _ nl (by omega)]
    exact nAnch_level lvs ℓ j (by omega)
  · intro m h1 h2
    rw [getD_insertIdx_lt lvs p _ nl (by omega)]
    exact nAnch_gap lvs ℓ j m h1 h2

theorem nAnch_insertIdx_bridge (lvs : List Nat) (p nl ℓ j : Nat) (hj : j ≤ p)
    (hp : p ≤ lvs.length) (hna : p < nAnch lvs ℓ j) (hℓ : ℓ < nl) :
    nAnch (lvs.insertIdx p nl) ℓ j = p + 1 := by
  have hlen := length_insertIdx_p lvs p nl hp
  refine nAnch_eq (lvs.insertIdx p nl) ℓ j (p + 1) (by omega) (by omega) ?_ ?_ (by omega)
  · right
    simp only [Nat.add_sub_cancel]
    rw [getD_insertIdx_self lvs p nl hp]
    exact hℓ
  · intro m h1 h2
    rw [getD_insertIdx_lt lvs p _ nl (by omega)]
    exact nAnch_gap lvs ℓ j m h1 (by omega)

theorem nAnch_insertIdx_skip (lvs : List Nat) (p nl ℓ j : Nat) (hj : j ≤ p)
    (hp : p ≤ lvs.length) (hna : p < nAnch lvs ℓ j) (hℓ : nl ≤ ℓ) :
    nAnch (lvs.insertIdx p nl) ℓ j = nAnch lvs ℓ j + 1 := by
  have hgt := nAnch_gt lvs ℓ j
  have hle := nAnch_le lvs ℓ j (by omega)
  have hlen := length_insertIdx_p lvs p nl hp
  refine nAnch_eq (lvs.insertIdx p nl) ℓ j (nAnch lvs ℓ j + 1) (by omega) (by omega) ?_ ?_
    (by omega)
  · rcases Nat.lt_or_ge (nAnch lvs ℓ j) (lvs.length + 1) with h0 | h0
    · right
      simp only [Nat.add_sub_cancel]
      have h8 : nAnch lvs ℓ j = (nAnch lvs ℓ j - 1) + 1 := by omega
      rw [h8, getD_insertIdx_ge lvs p _ nl (by omega) hp]
      exact nAnch_level lvs ℓ j (by omega)
    · left
      omega
  · intro m h1 h2
    rcases Nat.lt_or_ge (m - 1) p with hc | hc
    · rw [getD_insertIdx_lt lvs p _ nl hc]
      exact nAnch_gap lvs ℓ j m h1 (by omega)
    · rcases Nat.eq_or_lt_of_le hc with hc2 | hc2
      · have h8 : m - 1 = p := by omega
        rw [h8, getD_insertIdx_self lvs p nl hp]
        exact hℓ
      · have h8 : m - 1 = (m - 2) + 1 := by omega
        rw [h8, getD_insertIdx_ge lvs p _ nl (by omega) hp]
        have h9 := nAnch_gap lvs ℓ j (m - 1) (by omega) (by omega)
        have h10 : m - 1 - 1 = m - 2 := by omega
        rw [h10] at h9
        exact h9

theorem nAnch_insertIdx_shift (lvs : List Nat) (p nl ℓ j : Nat) (hj : p ≤ j)
    (hjn : j ≤ lvs.length) (hp : p ≤ lvs.length) :
    nAnch (lvs.insertIdx p nl) ℓ (j + 1) = nAnch lvs ℓ j + 1 := by
  have hgt := nAnch_gt lvs ℓ j
  have hle := nAnch_le lvs ℓ j hjn
  have hlen := length_insertIdx_p lvs p nl hp
  refine nAnch_eq (lvs.insertIdx p nl) ℓ (j + 1) (nAnch lvs ℓ j + 1) (by omega) (by omega)
    ?_ ?_ (by omega)
  · rcases Nat.lt_or_ge (nAnch lvs ℓ j) (lvs.length + 1) with h0 | h0
    · right
      simp only [Nat.add_sub_cancel]
      have h8 : nAnch lvs ℓ j = (nAnch lvs ℓ j - 1) + 1 := by omega
      rw [h8, getD_insertIdx_ge lvs p _ nl (by omega) hp]
      exact nAnch_level lvs ℓ j (by omega)
    · left
      omega
  · intro m h1 h2
    have h8 : m - 1 = (m - 2) + 1 := by omega
    rw [h8, getD_insertIdx_ge lvs p _ nl (by omega) hp]
    have h9 := nAnch_gap lvs ℓ j (m - 1) (by omega) (by omega)
    have h10 : m - 1 - 1 = m - 2 := by omega
    rw [h10] at h9
    exact h9

theorem pAnch_insertIdx_shift_high (lvs : List Nat) (p nl ℓ j : Nat) (hj : p ≤ j)
    (hjn : j ≤ lvs.length) (hp : p ≤ lvs.length) (hA : p + 1 ≤ pAnch lvs ℓ j) :
    pAnch (lvs.insertIdx p nl) ℓ (j + 1) = pAnch lvs ℓ j + 1 := by
  have hle := pAnch_le lvs ℓ j
  refine pAnch_eq (lvs.insertIdx p nl) ℓ (j + 1) (pAnch lvs ℓ j + 1) (by omega) ?_ ?_
  · right
    simp only [Nat.add_sub_cancel]
    have h8 : pAnch lvs ℓ j = (pAnch lvs ℓ j - 1) + 1 := by omega
    rw [h8, getD_insertIdx_ge lvs p _ nl (by omega) hp]
    exact pAnch_level lvs ℓ j (by omega)
  · intro m h1 h2
    have h8 : m - 1 = (m - 2) + 1 := by omega
    rw [h8, getD_insertIdx_ge lvs p _ nl (by omega) hp]
    have h9 := pAnch_gap lvs ℓ j (m - 1) (by omega) (by omega)
    have h10 : m - 1 - 1 = m - 2 := by omega
    rw [h10] at h9
    exact h9

theorem pAnch_insertIdx_to_new (lvs : List Nat) (p nl ℓ j : Nat) (hj : p ≤ j)
    (hjn : j ≤ lvs.length) (hp : p ≤ lvs.length) (hA : pAnch lvs ℓ j ≤ p) (hℓ : ℓ < nl) :
    pAnch (lvs.insertIdx p nl) ℓ (j + 1) = p + 1 := by
  refine pAnch_eq (lvs.insertIdx p nl) ℓ (j + 1) (p + 1) (by omega) ?_ ?_
  · right
    simp only [Nat.add_sub_cancel]
    rw [getD_insertIdx_self lvs p nl hp]
    exact hℓ
  · intro m h1 h2
    have h8 : m - 1 = (m - 2) + 1 := by omega
    rw [h8, getD_insertIdx_ge lvs p _ nl (by omega) hp]
    have h9 := pAnch_gap lvs ℓ j (m - 1) (by omega) (by omega)
    have h10 : m - 1 - 1 = m - 2 := by omega
    rw [h10] at h9
    exact h9

theorem pAnch_insertIdx_low (lvs : List Nat) (p nl ℓ j : Nat) (hj : p ≤ j)
    (hjn : j ≤ lvs.length) (hp : p ≤ lvs.length) (hA : pAnch lvs ℓ j ≤ p) (hℓ : nl ≤ ℓ) :
    pAnch (lvs.insertIdx p nl) ℓ (j + 1) = pAnch lvs ℓ j := by
  refine pAnch_eq (lvs.insertIdx p nl) ℓ (j + 1) (pAnch lvs ℓ j) (by omega) ?_ ?_
  · rcases Nat.eq_zero_or_pos (pAnch lvs ℓ j) with h0 | h0
    · exact Or.inl h0
    · right
      rw [getD_insertIdx_lt lvs p _ nl (by omega)]
      exact pAnch_level lvs ℓ j h0
  · intro m h1 h2
    rcases Nat.lt_or_ge (m - 1) p with hc | hc
    · rw [getD_insertIdx_lt lvs p _ nl hc]
      exact pAnch_gap lvs ℓ j m h1 (by omega)
    · rcases Nat.eq_or_lt_of_le hc with hc2 | hc2
      · have h8 : m - 1 = p := by omega
        rw [h8, getD_insertIdx_self lvs p nl hp]
        exact hℓ
      · have h8 : m - 1 = (m - 2) + 1 := by omega
        rw [h8, getD_insertIdx_ge lvs p _ nl (by omega) hp]
        have h9 := pAnch_gap lvs ℓ j (m - 1) (by omega) (by omega)
        have h10 : m - 1 - 1 = m - 2 := by omega
        rw [h10] at h9
        exact h9



/-! ### Small list-update helpers -/

theorem get?_lt_length {α : Type} {l : List α} {i : Nat} {x : α}
    (h : l.get? i = some x) : i < l.length := by
  by_contra hge
  rw [List.get?_eq_none.mpr (by omega)] at h
  cases h

theorem get?_set_self {α : Type} :
    ∀ (l : List α) (i : Nat) (x : α), i < l.length → (l.set i x).get? i = some x := by
  intro l
  induction l with
  | nil => intro i x h; simp at h
  | cons y ys ih =>
    intro i x h
    cases i with
    | zero => rfl
    | succ m =>
      show (ys.set m x).get? m = some x
      exact ih m x (by simpa using h)

theorem get?_set_ne {α : Type} :
    ∀ (l : List α) (i j : Nat) (x : α), i ≠ j → (l.set i x).get? j = l.get? j := by
  intro l
  induction l with
  | nil => intro i j x h; rfl
  | cons y ys ih =>
    intro i j x h
    cases i with
    | zero =>
      cases j with
      | zero => omega
      | succ m => rfl
    | succ mi =>
      cases j with
      | zero => rfl
      | succ mj =>
        show (ys.set mi x).get? mj = ys.get? mj
        exact ih mi mj x (by omega)

theorem get?_append_lt {α : Type} :
    ∀ (l l2 : List α) (i : Nat), i < l.length → (l ++ l2).get? i = l.get? i := by
  intro l
  induction l with
  | nil => intro l2 i h; simp at h
  | cons y ys ih =>
    intro l2 i h
    cases i with
    | zero => rfl
    | succ m =>
      show (ys ++ l2).get? m = ys.get? m
      exact ih l2 m (by simpa using h)

theorem get?_concat_self {α : Type} :
    ∀ (l : List α) (x : α), (l ++ [x]).get? l.length = some x := by
  intro l
  induction l with
  | nil => intro x; rfl
  | cons y ys ih =>
    intro x
    show (ys ++ [x]).get? ys.length = some x
    exact ih x

theorem modifyAt_length (xs : List (Link K)) (i : Nat) (f : Link K → Link K) :
    (modifyAt xs i f).length = xs.length := by
  unfold modifyAt
  cases h : xs.get? i with
  | none => rfl
  | some x => simp

theorem modifyAt_get?_self (xs : List (Link K)) (i : Nat) (f : Link K → Link K) :
    (modifyAt xs i f).get? i = (xs.get? i).map f := by
  unfold modifyAt
  cases h : xs.get? i with
  | none => rw [h]; rfl
  | some x =>
    rw [get?_set_self xs i (f x) (get?_lt_length h)]
    rfl

theorem modifyAt_get?_ne (xs : List (Link K)) (i j : Nat) (f : Link K → Link K)
    (h : i ≠ j) : (modifyAt xs i f).get? j = xs.get? j := by
  unfold modifyAt
  cases hg : xs.get? i with
  | none => rfl
  | some x => exact get?_set_ne xs i j (f x) h

theorem set_length {α : Type} (l : List α) (i : Nat) (x : α) :
    (l.set i x).length = l.length := by simp

/-! ### The new links after an insertion -/

theorem keyAt_insertIdx_shift (l : List K) (p J : Nat) (k : K) (hJ : p + 1 ≤ J)
    (hp : p ≤ l.length) : keyAt (l.insertIdx p k) (J + 1) = keyAt l J := by
  rcases le_or_lt J l.length with h | h
  · exact keyAt_insertIdx_ge l p J k hJ hp
  · rw [keyAt_eq_none l J h, keyAt_eq_none]
    rw [List.length_insertIdx p l hp]
    omega

theorem linkNext_ins_low (l : List K) (lvs : List Nat) (p nl : Nat) (k : K)
    (hlvs : lvs.length = l.length) (hp : p ≤ l.length) (i ℓ : Nat) (hi : i ≤ p)
    (hna : nAnch lvs ℓ i ≤ p) :
    mkLinkNext (l.insertIdx p k) (lvs.insertIdx p nl) i ℓ = mkLinkNext l lvs i ℓ := by
  unfold mkLinkNext
  rw [nAnch_insertIdx_of_le lvs p nl ℓ i hi (by omega) hna]
  rw [keyAt_insertIdx_le l p (nAnch lvs ℓ i) k hna]

theorem linkNext_ins_bridge (l : List K) (lvs : List Nat) (p nl : Nat) (k : K)
    (hlvs : lvs.length = l.length) (hp : p ≤ l.length) (i ℓ : Nat) (hi : i ≤ p)
    (hna : p < nAnch lvs ℓ i) (hℓ : ℓ < nl) :
    mkLinkNext (l.insertIdx p k) (lvs.insertIdx p nl) i ℓ = ⟨some k, p + 1 - i⟩ := by
  unfold mkLinkNext
  rw [nAnch_insertIdx_bridge lvs p nl ℓ i hi (by omega) hna hℓ]
  rw [keyAt_insertIdx_self l p k hp]

theorem linkNext_ins_skip (l : List K) (lvs : List Nat) (p nl : Nat) (k : K)
    (hlvs : lvs.length = l.length) (hp : p ≤ l.length) (i ℓ : Nat) (hi : i ≤ p)
    (hna : p < nAnch lvs ℓ i) (hℓ : nl ≤ ℓ) :
    mkLinkNext (l.insertIdx p k) (lvs.insertIdx p nl) i ℓ =
      ⟨(mkLinkNext l lvs i ℓ).key, (mkLinkNext l lvs i ℓ).count + 1⟩ := by
  unfold mkLinkNext
  rw [nAnch_insertIdx_skip lvs p nl ℓ i hi (by omega) hna hℓ]
  rw [keyAt_insertIdx_shift l p (nAnch lvs ℓ i) k (by omega) hp]
  have hgt := nAnch_gt lvs ℓ i
  have h9 : nAnch lvs ℓ i + 1 - i = (nAnch lvs ℓ i - i) + 1 := by omega
  rw [h9]

theorem linkNext_ins_shift (l : List K) (lvs : List Nat) (p nl : Nat) (k : K)
    (hlvs : lvs.length = l.length) (hp : p ≤ l.length) (j ℓ : Nat) (hj : p ≤ j)
    (hjn : j ≤ l.length) :
    mkLinkNext (l.insertIdx p k) (lvs.insertIdx p nl) (j + 1) ℓ = mkLinkNext l lvs j ℓ := by
  unfold mkLinkNext
  rw [nAnch_insertIdx_shift lvs p nl ℓ j hj (by omega) (by omega)]
  have hgt := nAnch_gt lvs ℓ j
  rw [keyAt_insertIdx_shift l p (nAnch lvs ℓ j) k (by omega) hp]
  have h9 : nAnch lvs ℓ j + 1 - (j + 1) = nAnch lvs ℓ j - j := by omega
  rw [h9]

theorem linkPrev_ins_low (l : List K) (lvs : List Nat) (p nl : Nat) (k : K)
    (hlvs : lvs.length = l.length) (hp : p ≤ l.length) (i ℓ : Nat) (hi : i ≤ p) :
    mkLinkPrev (l.insertIdx p k) (lvs.insertIdx p nl) i ℓ = mkLinkPrev l lvs i ℓ := by
  unfold mkLinkPrev
  rw [pAnch_insertIdx_le lvs p nl ℓ (i - 1) (by omega)]
  have hle := pAnch_le lvs ℓ (i - 1)
  rw [keyAt_insertIdx_le l p (pAnch lvs ℓ (i - 1)) k (by omega)]

theorem linkPrev_ins_high (l : List K) (lvs : List Nat) (p nl : Nat) (k : K)
    (hlvs : lvs.length = l.length) (hp : p ≤ l.length) (j ℓ : Nat) (hj : p + 1 ≤ j)
    (hjn : j ≤ l.length) (hA : p + 1 ≤ pAnch lvs ℓ (j - 1)) :
    mkLinkPrev (l.insertIdx p k) (lvs.insertIdx p nl) (j + 1) ℓ = mkLinkPrev l lvs j ℓ := by
  unfold mkLinkPrev
  have h8 : j + 1 - 1 = (j - 1) + 1 := by omega
  rw [h8]
  rw [pAnch_insertIdx_shift_high lvs p nl ℓ (j - 1) (by omega) (by omega) (by omega) hA]
  rw [keyAt_insertIdx_shift l p (pAnch lvs ℓ (j - 1)) k (by omega) hp]
  have hle := pAnch_le lvs ℓ (j - 1)
  have h9 : j + 1 - (pAnch lvs ℓ (j - 1) + 1) = j - pAnch lvs ℓ (j - 1) := by omega
  rw [h9]

theorem linkPrev_ins_bridge (l : List K) (lvs : List Nat) (p nl : Nat) (k : K)
    (hlvs : lvs.length = l.length) (hp : p ≤ l.length) (j ℓ : Nat) (hj : p + 1 ≤ j)
    (hjn : j ≤ l.length) (hA : pAnch lvs ℓ (j - 1) ≤ p) (hℓ : ℓ < nl) :
    mkLinkPrev (l.insertIdx p k) (lvs.insertIdx p nl) (j + 1) ℓ = ⟨some k, j - p⟩ := by
  unfold mkLinkPrev
  have h8 : j + 1 - 1 = (j - 1) + 1 := by omega
  rw [h8]
  rw [pAnch_insertIdx_to_new lvs p nl ℓ (j - 1) (by omega) (by omega) (by omega) hA hℓ]
  rw [keyAt_insertIdx_self l p k hp]
  have h9 : j + 1 - (p + 1) = j - p := by omega
  rw [h9]

theorem linkPrev_ins_skiplow (l : List K) (lvs : List Nat) (p nl : Nat) (k : K)
    (hlvs : lvs.length = l.length) (hp : p ≤ l.length) (j ℓ : Nat) (hj : p + 1 ≤ j)
    (hjn : j ≤ l.length) (hA : pAnch lvs ℓ (j - 1) ≤ p) (hℓ : nl ≤ ℓ) :
    mkLinkPrev (l.insertIdx p k) (lvs.insertIdx p nl) (j + 1) ℓ =
      ⟨(mkLinkPrev l lvs j ℓ).key, (mkLinkPrev l lvs j ℓ).count + 1⟩ := by
  unfold mkLinkPrev
  have h8 : j + 1 - 1 = (j - 1) + 1 := by omega
  rw [h8]
  rw [pAnch_insertIdx_low lvs p nl ℓ (j - 1) (by omega) (by omega) (by omega) hA hℓ]
  rw [keyAt_insertIdx_le l p (pAnch lvs ℓ (j - 1)) k hA]
  have h9 : j + 1 - pAnch lvs ℓ (j - 1) = (j - pAnch lvs ℓ (j - 1)) + 1 := by omega
  rw [h9]

theorem linkNext_ins_new (l : List K) (lvs : List Nat) (p nl : Nat) (k : K)
    (hlvs : lvs.length = l.length) (hp : p ≤ l.length) (ℓ : Nat) :
    mkLinkNext (l.insertIdx p k) (lvs.insertIdx p nl) (p + 1) ℓ = sucLink l lvs (p + 1) ℓ := by
  unfold mkLinkNext sucLink
  rw [nAnch_insertIdx_shift lvs p nl ℓ p (le_refl p) (by omega) (by omega)]
  have hgt := nAnch_gt lvs ℓ p
  rw [keyAt_insertIdx_shift l p (nAnch lvs ℓ p) k (by omega) hp]
  simp only [Nat.add_sub_cancel]
  have h9 : nAnch lvs ℓ p + 1 - (p + 1) = nAnch lvs ℓ p - p := by omega
  rw [h9]

theorem linkPrev_ins_new (l : List K) (lvs : List Nat) (p nl : Nat) (k : K)
    (hlvs : lvs.length = l.length) (hp : p ≤ l.length) (ℓ : Nat) :
    mkLinkPrev (l.insertIdx p k) (lvs.insertIdx p nl) (p + 1) ℓ = preLink l lvs p ℓ := by
  unfold mkLinkPrev preLink
  simp only [Nat.add_sub_cancel]
  rw [pAnch_insertIdx_le lvs p nl ℓ p (le_refl p)]
  have hle := pAnch_le lvs ℓ p
  rw [keyAt_insertIdx_le l p (pAnch lvs ℓ p) k (by omega)]



/-! ### Pointwise effect of the per-node update loops -/

theorem insAfterLoop_spec (k : K) (nl' d : Nat) :
    ∀ steps lvl nx, lvl ≤ nx.length →
      (∀ ℓ, nx.length ≤ ℓ → ℓ < lvl + steps → ℓ < nl') →
      (insAfterLoop k nl' d lvl steps nx).length = max nx.length (lvl + steps) ∧
      (∀ ℓ, (insAfterLoop k nl' d lvl steps nx).get? ℓ =
        if lvl ≤ ℓ ∧ ℓ < lvl + steps then
          (if ℓ < nl' then some ⟨some k, d⟩
           else (nx.get? ℓ).map (fun lk => ⟨lk.key, lk.count + 1⟩))
        else nx.get? ℓ) := by
  intro steps
  induction steps with
  | zero =>
    intro lvl nx hlen hext
    constructor
    · show nx.length = max nx.length (lvl + 0)
      omega
    · intro ℓ
      show nx.get? ℓ = _
      rw [if_neg (show ¬(lvl ≤ ℓ ∧ ℓ < lvl + 0) from by omega)]
  | succ st ih =>
    intro lvl nx hlen hext
    by_cases hu : lvl < nl'
    · by_cases hpush : nx.length = lvl
      · -- push case
        have hstep : insAfterLoop k nl' d lvl (st + 1) nx
            = insAfterLoop k nl' d (lvl + 1) st (nx ++ [⟨some k, d⟩]) := by
          simp only [insAfterLoop]
          rw [if_pos hu, if_pos hpush]
        rw [hstep]
        have h5 : (nx ++ [(⟨some k, d⟩ : Link K)]).length = nx.length + 1 := by
          simp
        obtain ⟨ihlen, ihget⟩ := ih (lvl + 1) (nx ++ [⟨some k, d⟩])
          (by rw [h5]; omega)
          (fun ℓ h1 h2 => hext ℓ (by rw [h5] at h1; omega) (by omega))
        constructor
        · rw [ihlen, h5]
          omega
        · intro ℓ
          rw [ihget ℓ]
          by_cases h1 : lvl + 1 ≤ ℓ ∧ ℓ < lvl + 1 + st
          · rw [if_pos h1, if_pos (show lvl ≤ ℓ ∧ ℓ < lvl + (st + 1) from by omega)]
            have h2 : ℓ < nl' := hext ℓ (by omega) (by omega)
            rw [if_pos h2, if_pos h2]
          · rw [if_neg h1]
            by_cases h0 : ℓ = lvl
            · subst h0
              rw [if_pos (show ℓ ≤ ℓ ∧ ℓ < ℓ + (st + 1) from by omega), if_pos hu, ← hpush]
              exact get?_concat_self nx _
            · rw [if_neg (show ¬(lvl ≤ ℓ ∧ ℓ < lvl + (st + 1)) from by omega)]
              rcases Nat.lt_or_ge ℓ nx.length with hc | hc
              · exact get?_append_lt nx _ ℓ hc
              · have h3 : (nx ++ [(⟨some k, d⟩ : Link K)]).get? ℓ = none :=
                  List.get?_eq_none.mpr (by rw [h5]; omega)
                have h4 : nx.get? ℓ = none := List.get?_eq_none.mpr hc
                rw [h3, h4]
      · -- set case
        have hstep : insAfterLoop k nl' d lvl (st + 1) nx
            = insAfterLoop k nl' d (lvl + 1) st (nx.set lvl ⟨some k, d⟩) := by
          simp only [insAfterLoop]
          rw [if_pos hu, if_neg hpush]
        rw [hstep]
        have hlt : lvl < nx.length := by omega
        obtain ⟨ihlen, ihget⟩ := ih (lvl + 1) (nx.set lvl ⟨some k, d⟩)
          (by rw [set_length]; omega)
          (fun ℓ h1 h2 => hext ℓ (by rw [set_length] at h1; omega) (by omega))
        constructor
        · rw [ihlen, set_length]
          omega
        · intro ℓ
          rw [ihget ℓ]
          by_cases h1 : lvl + 1 ≤ ℓ ∧ ℓ < lvl + 1 + st
          · rw [if_pos h1, if_pos (show lvl ≤ ℓ ∧ ℓ < lvl + (st + 1) from by omega)]
            by_cases h2 : ℓ < nl'
            · rw [if_pos h2, if_pos h2]
            · rw [if_neg h2, if_neg h2, get?_set_ne nx lvl ℓ _ (by omega)]
          · rw [if_neg h1]
            by_cases h0 : ℓ = lvl
            · subst h0
              rw [if_pos (show ℓ ≤ ℓ ∧ ℓ < ℓ + (st + 1) from by omega), if_pos hu]
              exact get?_set_self nx ℓ _ hlt
            · rw [if_neg (show ¬(lvl ≤ ℓ ∧ ℓ < lvl + (st + 1)) from by omega),
                get?_set_ne nx lvl ℓ _ (by omega)]
    · -- count-bump case
      have hstep : insAfterLoop k nl' d lvl (st + 1) nx
          = insAfterLoop k nl' d (lvl + 1) st
              (modifyAt nx lvl (fun lk => { lk with count := lk.count + 1 })) := by
        simp only [insAfterLoop]
        rw [if_neg hu]
      rw [hstep]
      have hlt : lvl < nx.length := by
        by_contra hge
        exact hu (hext lvl (by omega) (by omega))
      obtain ⟨ihlen, ihget⟩ := ih (lvl + 1)
        (modifyAt nx lvl (fun lk => { lk with count := lk.count + 1 }))
        (by rw [modifyAt_length]; omega)
        (fun ℓ h1 h2 => hext ℓ (by rw [modifyAt_length] at h1; omega) (by omega))
      constructor
      · rw [ihlen, modifyAt_length]
        omega
      · intro ℓ
        rw [ihget ℓ]
        by_cases h1 : lvl + 1 ≤ ℓ ∧ ℓ < lvl + 1 + st
        · rw [if_pos h1, if_pos (show lvl ≤ ℓ ∧ ℓ < lvl + (st + 1) from by omega)]
          by_cases h2 : ℓ < nl'
          · rw [if_pos h2, if_pos h2]
          · rw [if_neg h2, if_neg h2, modifyAt_get?_ne nx lvl ℓ _ (by omega)]
        · rw [if_neg h1]
          by_cases h0 : ℓ = lvl
          · subst h0
            rw [if_pos (show ℓ ≤ ℓ ∧ ℓ < ℓ + (st + 1) from by omega), if_neg hu]
            exact modifyAt_get?_self nx ℓ _
          · rw [if_neg (show ¬(lvl ≤ ℓ ∧ ℓ < lvl + (st + 1)) from by omega),
              modifyAt_get?_ne nx lvl ℓ _ (by omega)]

theorem insBeforeLoop_spec (k : K) (nl' d : Nat) :
    ∀ steps lvl pv, lvl + steps ≤ pv.length →
      (insBeforeLoop k nl' d lvl steps pv).length = pv.length ∧
      (∀ ℓ, (insBeforeLoop k nl' d lvl steps pv).get? ℓ =
        if lvl ≤ ℓ ∧ ℓ < lvl + steps then
          (if ℓ < nl' then some ⟨some k, d⟩
           else (pv.get? ℓ).map (fun lk => ⟨lk.key, lk.count + 1⟩))
        else pv.get? ℓ) := by
  intro steps
  induction steps with
  | zero =>
    intro lvl pv hlen
    refine ⟨rfl, ?_⟩
    intro ℓ
    show pv.get? ℓ = _
    rw [if_neg (show ¬(lvl ≤ ℓ ∧ ℓ < lvl + 0) from by omega)]
  | succ st ih =>
    intro lvl pv hlen
    by_cases hu : lvl < nl'
    · have hstep : insBeforeLoop k nl' d lvl (st + 1) pv
          = insBeforeLoop k nl' d (lvl + 1) st (pv.set lvl ⟨some k, d⟩) := by
        simp only [insBeforeLoop]
        rw [if_pos hu]
      rw [hstep]
      obtain ⟨ihlen, ihget⟩ := ih (lvl + 1) (pv.set lvl ⟨some k, d⟩)
        (by rw [set_length]; omega)
      constructor
      · rw [ihlen, set_length]
      · intro ℓ
        rw [ihget ℓ]
        by_cases h1 : lvl + 1 ≤ ℓ ∧ ℓ < lvl + 1 + st
        · rw [if_pos h1, if_pos (show lvl ≤ ℓ ∧ ℓ < lvl + (st + 1) from by omega)]
          by_cases h2 : ℓ < nl'
          · rw [if_pos h2, if_pos h2]
          · rw [if_neg h2, if_neg h2, get?_set_ne pv lvl ℓ _ (by omega)]
        · rw [if_neg h1]
          by_cases h0 : ℓ = lvl
          · subst h0
            rw [if_pos (show ℓ ≤ ℓ ∧ ℓ < ℓ + (st + 1) from by omega), if_pos hu]
            exact get?_set_self pv ℓ _ (by omega)
          · rw [if_neg (show ¬(lvl ≤ ℓ ∧ ℓ < lvl + (st + 1)) from by omega),
              get?_set_ne pv lvl ℓ _ (by omega)]
    · have hstep : insBeforeLoop k nl' d lvl (st + 1) pv
          = insBeforeLoop k nl' d (lvl + 1) st
              (modifyAt pv lvl (fun lk => { lk with count := lk.count + 1 })) := by
        simp only [insBeforeLoop]
        rw [if_neg hu]
      rw [hstep]
      obtain ⟨ihlen, ihget⟩ := ih (lvl + 1)
        (modifyAt pv lvl (fun lk => { lk with count := lk.count + 1 }))
        (by rw [modifyAt_length]; omega)
      constructor
      · rw [ihlen, modifyAt_length]
      · intro ℓ
        rw [ihget ℓ]
        by_cases h1 : lvl + 1 ≤ ℓ ∧ ℓ < lvl + 1 + st
        · rw [if_pos h1, if_pos (show lvl ≤ ℓ ∧ ℓ < lvl + (st + 1) from by omega)]
          by_cases h2 : ℓ < nl'
          · rw [if_pos h2, if_pos h2]
          · rw [if_neg h2, if_neg h2, modifyAt_get?_ne pv lvl ℓ _ (by omega)]
        · rw [if_neg h1]
          by_cases h0 : ℓ = lvl
          · subst h0
            rw [if_pos (show ℓ ≤ ℓ ∧ ℓ < ℓ + (st + 1) from by omega), if_neg hu]
            exact modifyAt_get?_self pv ℓ _
          · rw [if_neg (show ¬(lvl ≤ ℓ ∧ ℓ < lvl + (st + 1)) from by omega),
              modifyAt_get?_ne pv lvl ℓ _ (by omega)]

theorem remLinksLoop_spec (links : List (Link K)) (rl : Nat) :
    ∀ steps lvl nx, lvl + steps ≤ nx.length →
      (remLinksLoop links rl lvl steps nx).length = nx.length ∧
      (∀ ℓ, (remLinksLoop links rl lvl steps nx).get? ℓ =
        if lvl ≤ ℓ ∧ ℓ < lvl + steps then
          (if ℓ < rl then some (links.getD ℓ ⟨none, 0⟩)
           else (nx.get? ℓ).map (fun lk => ⟨lk.key, lk.count - 1⟩))
        else nx.get? ℓ) := by
  intro steps
  induction steps with
  | zero =>
    intro lvl nx hlen
    refine ⟨rfl, ?_⟩
    intro ℓ
    show nx.get? ℓ = _
    rw [if_neg (show ¬(lvl ≤ ℓ ∧ ℓ < lvl + 0) from by omega)]
  | succ st ih =>
    intro lvl nx hlen
    by_cases hu : lvl < rl
    · have hstep : remLinksLoop links rl lvl (st + 1) nx
          = remLinksLoop links rl (lvl + 1) st (nx.set lvl (links.getD lvl ⟨none, 0⟩)) := by
        simp only [remLinksLoop]
        rw [if_pos hu]
      rw [hstep]
      obtain ⟨ihlen, ihget⟩ := ih (lvl + 1) (nx.set lvl (links.getD lvl ⟨none, 0⟩))
        (by rw [set_length]; omega)
      constructor
      · rw [ihlen, set_length]
      · intro ℓ
        rw [ihget ℓ]
        by_cases h1 : lvl + 1 ≤ ℓ ∧ ℓ < lvl + 1 + st
        · rw [if_pos h1, if_pos (show lvl ≤ ℓ ∧ ℓ < lvl + (st + 1) from by omega)]
          by_cases h2 : ℓ < rl
          · rw [if_pos h2, if_pos h2]
          · rw [if_neg h2, if_neg h2, get?_set_ne nx lvl ℓ _ (by omega)]
        · rw [if_neg h1]
          by_cases h0 : ℓ = lvl
          · subst h0
            rw [if_pos (show ℓ ≤ ℓ ∧ ℓ < ℓ + (st + 1) from by omega), if_pos hu]
            exact get?_set_self nx ℓ _ (by omega)
          · rw [if_neg (show ¬(lvl ≤ ℓ ∧ ℓ < lvl + (st + 1)) from by omega),
              get?_set_ne nx lvl ℓ _ (by omega)]
    · have hstep : remLinksLoop links rl lvl (st + 1) nx
          = remLinksLoop links rl (lvl + 1) st
              (modifyAt nx lvl (fun lk => { lk with count := lk.count - 1 })) := by
        simp only [remLinksLoop]
        rw [if_neg hu]
      rw [hstep]
      obtain ⟨ihlen, ihget⟩ := ih (lvl + 1)
        (modifyAt nx lvl (fun lk => { lk with count := lk.count - 1 }))
        (by rw [modifyAt_length]; omega)
      constructor
      · rw [ihlen, modifyAt_length]
      · intro ℓ
        rw [ihget ℓ]
        by_cases h1 : lvl + 1 ≤ ℓ ∧ ℓ < lvl + 1 + st
        · rw [if_pos h1, if_pos (show lvl ≤ ℓ ∧ ℓ < lvl + (st + 1) from by omega)]
          by_cases h2 : ℓ < rl
          · rw [if_pos h2, if_pos h2]
          · rw [if_neg h2, if_neg h2, modifyAt_get?_ne nx lvl ℓ _ (by omega)]
        · rw [if_neg h1]
          by_cases h0 : ℓ = lvl
          · subst h0
            rw [if_pos (show ℓ ≤ ℓ ∧ ℓ < ℓ + (st + 1) from by omega), if_neg hu]
            exact modifyAt_get?_self nx ℓ _
          · rw [if_neg (show ¬(lvl ≤ ℓ ∧ ℓ < lvl + (st + 1)) from by omega),
              modifyAt_get?_ne nx lvl ℓ _ (by omega)]



/-! ### Association-map update lemmas and the splice-loop invariant state -/

theorem getD_eq_of_get? {α : Type} (xs : List α) (n : Nat) (x d : α)
    (h : xs.get? n = some x) : xs.getD n d = x := by
  simp only [List.getD, ← List.get?_eq_getElem?, h]
  rfl

theorem getD_mem_of_lt (xs : List Nat) (n : Nat) (h : n < xs.length) :
    xs.getD n 0 ∈ xs := by
  have h1 : xs.get? n = some (xs.get ⟨n, h⟩) := List.get?_eq_get h
  rw [getD_eq_of_get? xs n _ 0 h1]
  exact List.get_mem xs n h

theorem getN_setN_self (m : List (K × Node K)) (k : K) (nd : Node K) :
    getN (setN m k nd) k = some nd := by
  induction m with
  | nil => simp [setN, getN]
  | cons e t ih =>
    match e with
    | (a, b) =>
      unfold setN
      by_cases hc : a = k
      · rw [if_pos hc]
        simp [getN]
      · rw [if_neg hc]
        unfold getN
        rw [if_neg hc]
        exact ih

theorem getN_setN_ne (m : List (K × Node K)) (k k' : K) (nd : Node K) (h : k ≠ k') :
    getN (setN m k nd) k' = getN m k' := by
  induction m with
  | nil => simp [setN, getN, h]
  | cons e t ih =>
    match e with
    | (a, b) =>
      unfold setN
      by_cases hc : a = k
      · rw [if_pos hc]
        unfold getN
        rw [if_neg h, if_neg (hc ▸ h)]
      · rw [if_neg hc]
        unfold getN
        by_cases hc' : a = k'
        · rw [if_pos hc', if_pos hc']
        · rw [if_neg hc', if_neg hc']
          exact ih

theorem setN_map_fst (m : List (K × Node K)) (k : K) (nd : Node K)
    (h : (getN m k).isSome) : (setN m k nd).map Prod.fst = m.map Prod.fst := by
  induction m with
  | nil => simp [getN] at h
  | cons e t ih =>
    match e with
    | (a, b) =>
      unfold setN
      by_cases hc : a = k
      · rw [if_pos hc]
        simp [hc]
      · rw [if_neg hc]
        unfold getN at h
        rw [if_neg hc] at h
        simp [ih h]

/-- Positions whose forward splice (the `pre` side) has already been
performed when `pre_level = a`: the pre-anchors of the levels below `a`. -/
def preDone (lvs : List Nat) (p a q : Nat) : Prop :=
  ∃ ℓ, ℓ < a ∧ pAnch lvs ℓ p = q

instance (lvs : List Nat) (p a q : Nat) : Decidable (preDone lvs p a q) := by
  unfold preDone
  infer_instance

/-- Positions whose backward splice (the `suc` side) has already been
performed when `suc_level = b`. -/
def sucDone (lvs : List Nat) (p b q : Nat) : Prop :=
  ∃ ℓ, ℓ < b ∧ nAnch lvs ℓ p = q

instance (lvs : List Nat) (p b q : Nat) : Decidable (sucDone lvs p b q) := by
  unfold sucDone
  infer_instance

/-- The node stored for 0-based index `m` midway through the splice loop of
`_insert_after`, when the loop trackers are `pre_level = a`, `suc_level = b`. -/
def spliceNode (l : List K) (lvs : List Nat) (p nl : Nat) (k : K) (a b m : Nat) : Node K :=
  if preDone lvs p a (m + 1) then mkNode (l.insertIdx p k) (lvs.insertIdx p nl) m
  else if sucDone lvs p b (m + 1) then mkNode (l.insertIdx p k) (lvs.insertIdx p nl) (m + 1)
  else mkNode l lvs m

theorem preDone_congr (lvs : List Nat) (p a a' q : Nat) (ha : a ≤ a')
    (hmid : ∀ ℓ, a ≤ ℓ → ℓ < a' → pAnch lvs ℓ p ≠ q) :
    preDone lvs p a' q ↔ preDone lvs p a q := by
  constructor
  · rintro ⟨ℓ, h1, h2⟩
    rcases Nat.lt_or_ge ℓ a with h3 | h3
    · exact ⟨ℓ, h3, h2⟩
    · exact absurd h2 (hmid ℓ h3 h1)
  · rintro ⟨ℓ, h1, h2⟩
    exact ⟨ℓ, by omega, h2⟩

theorem sucDone_congr (lvs : List Nat) (p b b' q : Nat) (hb : b ≤ b')
    (hmid : ∀ ℓ, b ≤ ℓ → ℓ < b' → nAnch lvs ℓ p ≠ q) :
    sucDone lvs p b' q ↔ sucDone lvs p b q := by
  constructor
  · rintro ⟨ℓ, h1, h2⟩
    rcases Nat.lt_or_ge ℓ b with h3 | h3
    · exact ⟨ℓ, h3, h2⟩
    · exact absurd h2 (hmid ℓ h3 h1)
  · rintro ⟨ℓ, h1, h2⟩
    exact ⟨ℓ, by omega, h2⟩

theorem spliceNode_congr (l : List K) (lvs : List Nat) (p nl : Nat) (k : K)
    (a b a' b' m : Nat) (ha : a ≤ a') (hb : b ≤ b')
    (hpa : ∀ ℓ, a ≤ ℓ → ℓ < a' → pAnch lvs ℓ p ≠ m + 1)
    (hsb : ∀ ℓ, b ≤ ℓ → ℓ < b' → nAnch lvs ℓ p ≠ m + 1) :
    spliceNode l lvs p nl k a' b' m = spliceNode l lvs p nl k a b m := by
  unfold spliceNode
  rw [if_congr (preDone_congr lvs p a a' (m + 1) ha hpa) rfl rfl]
  rw [if_congr (sucDone_congr lvs p b b' (m + 1) hb hsb) rfl rfl]



/-! ### Nodes and head untouched by the splice loop -/

theorem mkNode_ins_low_untouched (l : List K) (lvs : List Nat) (p nl : Nat) (k : K)
    (hlvs : lvs.length = l.length) (hp : p ≤ l.length) (m : Nat) (hm1 : m + 1 ≤ p)
    (hun : ∀ ℓ, ℓ < lvs.getD m 0 → pAnch lvs ℓ p ≠ m + 1) :
    mkNode (l.insertIdx p k) (lvs.insertIdx p nl) m = mkNode l lvs m := by
  have hlv : (lvs.insertIdx p nl).getD m 0 = lvs.getD m 0 :=
    getD_insertIdx_lt lvs p m nl (by omega)
  have hanch : ∀ ℓ, ℓ < lvs.getD m 0 → nAnch lvs ℓ (m + 1) ≤ p := by
    intro ℓ hℓ
    by_contra hgt
    push_neg at hgt
    refine hun ℓ hℓ (pAnch_eq lvs ℓ p (m + 1) hm1 (Or.inr (by simpa using hℓ)) ?_)
    intro q h1 h2
    exact nAnch_gap lvs ℓ (m + 1) q h1 (by omega)
  unfold mkNode
  rw [hlv]
  congr 1
  · exact List.map_congr_left (fun ℓ hℓ =>
      linkNext_ins_low l lvs p nl k hlvs hp (m + 1) ℓ hm1
        (hanch ℓ (List.mem_range.mp hℓ)))
  · exact List.map_congr_left (fun ℓ hℓ =>
      linkPrev_ins_low l lvs p nl k hlvs hp (m + 1) ℓ hm1)

theorem mkNode_ins_high_untouched (l : List K) (lvs : List Nat) (p nl : Nat) (k : K)
    (hlvs : lvs.length = l.length) (hp : p ≤ l.length) (m : Nat) (hm1 : p ≤ m)
    (hm : m < l.length)
    (hun : ∀ ℓ, ℓ < lvs.getD m 0 → nAnch lvs ℓ p ≠ m + 1) :
    mkNode (l.insertIdx p k) (lvs.insertIdx p nl) (m + 1) = mkNode l lvs m := by
  have hlv : (lvs.insertIdx p nl).getD (m + 1) 0 = lvs.getD m 0 :=
    getD_insertIdx_ge lvs p m nl hm1 (by omega)
  have hanch : ∀ ℓ, ℓ < lvs.getD m 0 → p + 1 ≤ pAnch lvs ℓ m := by
    intro ℓ hℓ
    by_contra hle
    push_neg at hle
    refine hun ℓ hℓ (nAnch_eq lvs ℓ p (m + 1) (by omega) (by omega)
      (Or.inr (by simpa using hℓ)) ?_ (by omega))
    intro q h1 h2
    have h3 := pAnch_le lvs ℓ m
    exact pAnch_gap lvs ℓ m q (by omega) (by omega)
  unfold mkNode
  rw [hlv]
  congr 1
  · refine List.map_congr_left (fun ℓ hℓ => ?_)
    exact linkNext_ins_shift l lvs p nl k hlvs hp (m + 1) ℓ (by omega) (by omega)
  · refine List.map_congr_left (fun ℓ hℓ => ?_)
    have hℓ' := List.mem_range.mp hℓ
    have h1 := linkPrev_ins_high l lvs p nl k hlvs hp (m + 1) ℓ (by omega) (by omega) ?hA
    · exact h1
    case hA =>
      have h2 : m + 1 - 1 = m := by omega
      rw [h2]
      exact hanch ℓ hℓ'

theorem head_untouched (l : List K) (lvs : List Nat) (p nl : Nat) (k : K) (H : Nat)
    (hlvs : lvs.length = l.length) (hlvle : ∀ v ∈ lvs, v ≤ H) (hp : p ≤ l.length)
    (hH : 1 ≤ H) (hnl : 1 ≤ nl)
    (hun : ∀ ℓ, ℓ < max nl H → 1 ≤ pAnch lvs ℓ p) :
    mkHead (l.insertIdx p k) (lvs.insertIdx p nl) (max nl H) = mkHead l lvs H := by
  have hHml : H = max nl H := by
    have h1 := hun (max nl H - 1) (by omega)
    have h2 := pAnch_level lvs (max nl H - 1) p (by omega)
    have h3 := pAnch_le lvs (max nl H - 1) p
    have h4 := hlvle _ (getD_mem_of_lt lvs (pAnch lvs (max nl H - 1) p - 1) (by omega))
    omega
  unfold mkHead
  rw [← hHml]
  congr 1
  refine List.map_congr_left (fun ℓ hℓ => ?_)
  have hℓ' := List.mem_range.mp hℓ
  have h1 := hun ℓ (by omega)
  have h2 := pAnch_level lvs ℓ p (by omega)
  have h3 := pAnch_le lvs ℓ p
  refine linkNext_ins_low l lvs p nl k hlvs hp 0 ℓ (by omega) ?_
  have h4 := nAnch_le_of_anchor lvs ℓ 0 (pAnch lvs ℓ p) (by omega) (by omega) h2
  omega



/-! ### What one splice-loop break does to the anchor node -/

theorem node_eq_of_fields (n m : Node K) (h1 : n.next = m.next) (h2 : n.prev = m.prev)
    (h3 : n.level = m.level) (h4 : n.is_head = m.is_head) : n = m := by
  cases n
  cases m
  cases h1
  cases h2
  cases h3
  cases h4
  rfl

theorem Node.insert_after_eq (n : Node K) (nk : K) (nl fl d : Nat)
    (h : ¬(nl > n.level ∧ n.is_head = false)) :
    n.insert_after nk nl fl d =
      .ok { n with level := max n.level nl,
                   next := insAfterLoop nk nl d fl (max n.level nl - fl) n.next } := by
  unfold Node.insert_after
  rw [if_neg h]

theorem Node.insert_before_eq (n : Node K) (nk : K) (nl fl d : Nat)
    (h : ¬(nl > n.level)) :
    n.insert_before nk nl fl d =
      .ok { n with prev := insBeforeLoop nk nl d fl (n.level - fl) n.prev } := by
  unfold Node.insert_before
  rw [if_neg h]

theorem preAnchor_insert_ok (l : List K) (lvs : List Nat) (p nl : Nat) (k : K)
    (hlvs : lvs.length = l.length) (hp : p ≤ l.length) (a i : Nat)
    (hi1 : 1 ≤ i) (hip : i ≤ p) (hia : pAnch lvs a p = i)
    (hrs : ∀ ℓ, ℓ < a → i < pAnch lvs ℓ p) :
    (mkNode l lvs (i - 1)).insert_after k (min (lvs.getD (i - 1) 0) nl) a (p + 1 - i) =
      .ok (mkNode (l.insertIdx p k) (lvs.insertIdx p nl) (i - 1)) := by
  have halv : a < lvs.getD (i - 1) 0 := by
    have h0 := pAnch_level lvs a p (by omega)
    rwa [hia] at h0
  have hlv' : (lvs.insertIdx p nl).getD (i - 1) 0 = lvs.getD (i - 1) 0 :=
    getD_insertIdx_lt lvs p (i - 1) nl (by omega)
  have hi' : i - 1 + 1 = i := by omega
  have hnx : (mkNode l lvs (i - 1)).next.length = lvs.getD (i - 1) 0 := by
    simp [mkNode]
  rw [Node.insert_after_eq _ _ _ _ _ (by rw [mkNode_level]; rintro ⟨h1, h2⟩; omega)]
  have hmax : max (mkNode l lvs (i - 1)).level (min (lvs.getD (i - 1) 0) nl)
      = lvs.getD (i - 1) 0 := by
    rw [mkNode_level]
    omega
  rw [hmax]
  congr 1
  obtain ⟨hlen, hget⟩ := insAfterLoop_spec k (min (lvs.getD (i - 1) 0) nl) (p + 1 - i)
    (lvs.getD (i - 1) 0 - a) a (mkNode l lvs (i - 1)).next
    (by rw [hnx]; omega) (by rw [hnx]; intro ℓ h1 h2; omega)
  refine node_eq_of_fields _ _ ?_ ?_ ?_ rfl
  · show insAfterLoop k (min (lvs.getD (i - 1) 0) nl) (p + 1 - i) a
        (lvs.getD (i - 1) 0 - a) (mkNode l lvs (i - 1)).next
      = (mkNode (l.insertIdx p k) (lvs.insertIdx p nl) (i - 1)).next
    refine List.ext fun ℓ => ?_
    rw [hget ℓ]
    by_cases h1 : a ≤ ℓ ∧ ℓ < a + (lvs.getD (i - 1) 0 - a)
    · rw [if_pos h1]
      have hrun : pAnch lvs ℓ p = i := pAnch_run lvs a ℓ p i hia h1.1 hi1 (by omega)
      have hna : p < nAnch lvs ℓ i := pAnch_imp_nAnch_gt lvs ℓ p i hrun hip (by omega)
      by_cases h2 : ℓ < min (lvs.getD (i - 1) 0) nl
      · rw [if_pos h2]
        rw [mkNode_next_get? (l.insertIdx p k) (lvs.insertIdx p nl) (i - 1) ℓ
          (by rw [hlv']; omega)]
        rw [hi']
        rw [linkNext_ins_bridge l lvs p nl k hlvs hp i ℓ hip hna (by omega)]
      · rw [if_neg h2]
        rw [mkNode_next_get? l lvs (i - 1) ℓ (by omega)]
        rw [mkNode_next_get? (l.insertIdx p k) (lvs.insertIdx p nl) (i - 1) ℓ
          (by rw [hlv']; omega)]
        rw [hi']
        rw [linkNext_ins_skip l lvs p nl k hlvs hp i ℓ hip hna (by omega)]
        rfl
    · rw [if_neg h1]
      rcases Nat.lt_or_ge ℓ a with h2 | h2
      · have hq := hrs ℓ h2
        have hql := pAnch_level lvs ℓ p (by omega)
        have hqle := pAnch_le lvs ℓ p
        have hna : nAnch lvs ℓ i ≤ p := by
          have h3 := nAnch_le_of_anchor lvs ℓ i (pAnch lvs ℓ p) hq (by omega) hql
          omega
        rw [mkNode_next_get? l lvs (i - 1) ℓ (by omega)]
        rw [mkNode_next_get? (l.insertIdx p k) (lvs.insertIdx p nl) (i - 1) ℓ
          (by rw [hlv']; omega)]
        rw [hi']
        rw [linkNext_ins_low l lvs p nl k hlvs hp i ℓ hip hna]
      · rw [mkNode_next_get?_none l lvs (i - 1) ℓ (by omega)]
        rw [mkNode_next_get?_none (l.insertIdx p k) (lvs.insertIdx p nl) (i - 1) ℓ
          (by rw [hlv']; omega)]
  · show (mkNode l lvs (i - 1)).prev
      = (mkNode (l.insertIdx p k) (lvs.insertIdx p nl) (i - 1)).prev
    show (List.range (lvs.getD (i - 1) 0)).map (mkLinkPrev l lvs (i - 1 + 1))
      = (List.range ((lvs.insertIdx p nl).getD (i - 1) 0)).map
          (mkLinkPrev (l.insertIdx p k) (lvs.insertIdx p nl) (i - 1 + 1))
    rw [hlv', hi']
    refine (List.map_congr_left fun ℓ hℓ => ?_).symm
    exact linkPrev_ins_low l lvs p nl k hlvs hp i ℓ hip
  · show lvs.getD (i - 1) 0 = (mkNode (l.insertIdx p k) (lvs.insertIdx p nl) (i - 1)).level
    rw [mkNode_level, hlv']

theorem sucAnchor_insert_ok (l : List K) (lvs : List Nat) (p nl : Nat) (k : K)
    (hlvs : lvs.length = l.length) (hp : p ≤ l.length) (b j : Nat)
    (hj1 : p + 1 ≤ j) (hjn : j ≤ l.length) (hjb : nAnch lvs b p = j)
    (hrs : ∀ ℓ, ℓ < b → nAnch lvs ℓ p < j) :
    (mkNode l lvs (j - 1)).insert_before k (min (lvs.getD (j - 1) 0) nl) b (j - p) =
      .ok (mkNode (l.insertIdx p k) (lvs.insertIdx p nl) j) := by
  have hblv : b < lvs.getD (j - 1) 0 := by
    have h0 := nAnch_level lvs b p (by omega)
    rwa [hjb] at h0
  have hjj : j - 1 + 1 = j := by omega
  have hlv' : (lvs.insertIdx p nl).getD j 0 = lvs.getD (j - 1) 0 := by
    have h0 := getD_insertIdx_ge lvs p (j - 1) nl (by omega) (by omega)
    rwa [hjj] at h0
  have hpv : (mkNode l lvs (j - 1)).prev.length = lvs.getD (j - 1) 0 := by
    simp [mkNode]
  rw [Node.insert_before_eq _ _ _ _ _ (by rw [mkNode_level]; omega)]
  rw [mkNode_level]
  congr 1
  obtain ⟨hlen, hget⟩ := insBeforeLoop_spec k (min (lvs.getD (j - 1) 0) nl) (j - p)
    (lvs.getD (j - 1) 0 - b) b (mkNode l lvs (j - 1)).prev (by rw [hpv]; omega)
  refine node_eq_of_fields _ _ ?_ ?_ ?_ rfl
  · show (mkNode l lvs (j - 1)).next
      = (mkNode (l.insertIdx p k) (lvs.insertIdx p nl) j).next
    show (List.range (lvs.getD (j - 1) 0)).map (mkLinkNext l lvs (j - 1 + 1))
      = (List.range ((lvs.insertIdx p nl).getD j 0)).map
          (mkLinkNext (l.insertIdx p k) (lvs.insertIdx p nl) (j + 1))
    rw [hlv', hjj]
    refine (List.map_congr_left fun ℓ hℓ => ?_).symm
    exact linkNext_ins_shift l lvs p nl k hlvs hp j ℓ (by omega) hjn
  · show insBeforeLoop k (min (lvs.getD (j - 1) 0) nl) (j - p) b
        (lvs.getD (j - 1) 0 - b) (mkNode l lvs (j - 1)).prev
      = (mkNode (l.insertIdx p k) (lvs.insertIdx p nl) j).prev
    refine List.ext fun ℓ => ?_
    rw [hget ℓ]
    by_cases h1 : b ≤ ℓ ∧ ℓ < b + (lvs.getD (j - 1) 0 - b)
    · rw [if_pos h1]
      have hrun : nAnch lvs ℓ p = j :=
        nAnch_run lvs b ℓ p j hjb h1.1 (by omega) (by omega) (by omega)
      have hApl : pAnch lvs ℓ (j - 1) ≤ p :=
        nAnch_imp_pAnch_le lvs ℓ p j hrun (by omega) (by omega)
      by_cases h2 : ℓ < min (lvs.getD (j - 1) 0) nl
      · rw [if_pos h2]
        rw [mkNode_prev_get? (l.insertIdx p k) (lvs.insertIdx p nl) j ℓ
          (by rw [hlv']; omega)]
        rw [linkPrev_ins_bridge l lvs p nl k hlvs hp j ℓ hj1 hjn hApl (by omega)]
      · rw [if_neg h2]
        rw [mkNode_prev_get? l lvs (j - 1) ℓ (by omega)]
        rw [mkNode_prev_get? (l.insertIdx p k) (lvs.insertIdx p nl) j ℓ
          (by rw [hlv']; omega)]
        rw [hjj]
        rw [linkPrev_ins_skiplow l lvs p nl k hlvs hp j ℓ hj1 hjn hApl (by omega)]
        rfl
    · rw [if_neg h1]
      rcases Nat.lt_or_ge ℓ b with h2 | h2
      · have hq := hrs ℓ h2
        have hqgt := nAnch_gt lvs ℓ p
        have hql := nAnch_level lvs ℓ p (by omega)
        have hA : p + 1 ≤ pAnch lvs ℓ (j - 1) := by
          have h3 := pAnch_ge_of_anchor lvs ℓ (j - 1) (nAnch lvs ℓ p)
            (by omega) (by omega) hql
          omega
        rw [mkNode_prev_get? l lvs (j - 1) ℓ (by omega)]
        rw [mkNode_prev_get? (l.insertIdx p k) (lvs.insertIdx p nl) j ℓ
          (by rw [hlv']; omega)]
        rw [hjj]
        rw [linkPrev_ins_high l lvs p nl k hlvs hp j ℓ hj1 hjn hA]
      · rw [mkNode_prev_get?_none l lvs (j - 1) ℓ (by omega)]
        rw [mkNode_prev_get?_none (l.insertIdx p k) (lvs.insertIdx p nl) j ℓ
          (by rw [hlv']; omega)]
  · show (mkNode l lvs (j - 1)).level
      = (mkNode (l.insertIdx p k) (lvs.insertIdx p nl) j).level
    rw [mkNode_level, mkNode_level, hlv']



theorem headAnchor_insert_ok (l : List K) (lvs : List Nat) (p nl : Nat) (k : K) (H : Nat)
    (hlvs : lvs.length = l.length) (hlvle : ∀ v ∈ lvs, v ≤ H)
    (hp : p ≤ l.length) (hnl : 1 ≤ nl) (hH : 1 ≤ H)
    (head : Node K)
    (hhead : head = mkHead l lvs H ∨
      (l = [] ∧ H = 1 ∧ head = { next := [], prev := [], level := 1, is_head := true }))
    (a : Nat) (hia : pAnch lvs a p = 0)
    (hrs : ∀ ℓ, ℓ < a → 1 ≤ pAnch lvs ℓ p) :
    head.insert_after k nl a (p + 1) =
      .ok (mkHead (l.insertIdx p k) (lvs.insertIdx p nl) (max nl H)) := by
  have hlen' : (l.insertIdx p k).length = l.length + 1 := List.length_insertIdx p l hp
  rcases hhead with hh | ⟨hl0, hH1, hh⟩
  · -- head is the full sentinel of the model
    have haH : a ≤ H := by
      rcases Nat.eq_zero_or_pos a with h0 | h0
      · omega
      · have h1 := hrs (a - 1) (by omega)
        have h2 := pAnch_level lvs (a - 1) p (by omega)
        have h3 := pAnch_le lvs (a - 1) p
        have h4 := hlvle _ (getD_mem_of_lt lvs (pAnch lvs (a - 1) p - 1) (by omega))
        omega
    subst hh
    rw [Node.insert_after_eq _ _ _ _ _ (by rw [mkHead_level]; rintro ⟨h1, h2⟩; simp [mkHead] at h2)]
    have hnxlen : (mkHead l lvs H).next.length = H := by simp [mkHead]
    have hmax : max (mkHead l lvs H).level nl = max nl H := by
      rw [mkHead_level]; omega
    rw [hmax]
    congr 1
    obtain ⟨hlen, hget⟩ := insAfterLoop_spec k nl (p + 1) (max nl H - a) a
      (mkHead l lvs H).next (by rw [hnxlen]; omega)
      (by rw [hnxlen]; intro ℓ h1 h2; omega)
    refine node_eq_of_fields _ _ ?_ rfl rfl rfl
    show insAfterLoop k nl (p + 1) a (max nl H - a) (mkHead l lvs H).next
      = (mkHead (l.insertIdx p k) (lvs.insertIdx p nl) (max nl H)).next
    refine List.ext fun ℓ => ?_
    rw [hget ℓ]
    by_cases h1 : a ≤ ℓ ∧ ℓ < a + (max nl H - a)
    · rw [if_pos h1]
      have hrun : pAnch lvs ℓ p = 0 := by
        have h2 := pAnch_anti lvs a ℓ p h1.1
        omega
      have hna : p < nAnch lvs ℓ 0 := pAnch_imp_nAnch_gt lvs ℓ p 0 hrun (by omega) (by omega)
      by_cases h2 : ℓ < nl
      · rw [if_pos h2]
        rw [mkHead_next_get? (l.insertIdx p k) (lvs.insertIdx p nl) (max nl H) ℓ (by omega)]
        rw [linkNext_ins_bridge l lvs p nl k hlvs hp 0 ℓ (by omega) hna h2]
        rfl
      · rw [if_neg h2]
        rw [mkHead_next_get? l lvs H ℓ (by omega)]
        rw [mkHead_next_get? (l.insertIdx p k) (lvs.insertIdx p nl) (max nl H) ℓ (by omega)]
        rw [linkNext_ins_skip l lvs p nl k hlvs hp 0 ℓ (by omega) hna (by omega)]
        rfl
    · rw [if_neg h1]
      rcases Nat.lt_or_ge ℓ a with h2 | h2
      · have hq := hrs ℓ h2
        have hql := pAnch_level lvs ℓ p (by omega)
        have hqle := pAnch_le lvs ℓ p
        have hna : nAnch lvs ℓ 0 ≤ p := by
          have h3 := nAnch_le_of_anchor lvs ℓ 0 (pAnch lvs ℓ p) (by omega) (by omega) hql
          omega
        rw [mkHead_next_get? l lvs H ℓ (by omega)]
        rw [mkHead_next_get? (l.insertIdx p k) (lvs.insertIdx p nl) (max nl H) ℓ (by omega)]
        rw [linkNext_ins_low l lvs p nl k hlvs hp 0 ℓ (by omega) hna]
      · have hnone1 : (mkHead l lvs H).next.get? ℓ = none := by
          rw [List.get?_eq_none.mpr]
          rw [hnxlen]
          omega
        have hnone2 :
            (mkHead (l.insertIdx p k) (lvs.insertIdx p nl) (max nl H)).next.get? ℓ = none := by
          rw [List.get?_eq_none.mpr]
          simp [mkHead]
          omega
        rw [hnone1, hnone2]
  · -- virgin head of `SkipList.new`
    have hl0' : l.length = 0 := by rw [hl0]; rfl
    have hlvs0 : lvs = [] := List.eq_nil_of_length_eq_zero (by omega)
    have hp0 : p = 0 := by omega
    have ha0 : a = 0 := by
      by_contra hne
      have h1 := hrs 0 (by omega)
      rw [hlvs0, hp0] at h1
      simp [pAnch] at h1
    subst hh
    rw [Node.insert_after_eq _ _ _ _ _ (by rintro ⟨h1, h2⟩; simp at h2)]
    have hmax : max ({ next := [], prev := [], level := 1, is_head := true } : Node K).level nl
        = max nl H := by
      show max 1 nl = max nl H
      omega
    rw [hmax]
    congr 1
    obtain ⟨hlen, hget⟩ := insAfterLoop_spec k nl (p + 1) (max nl H - a) a
      ([] : List (Link K)) (by simp; omega) (by intro ℓ h1 h2; omega)
    refine node_eq_of_fields _ _ ?_ rfl rfl rfl
    show insAfterLoop k nl (p + 1) a (max nl H - a) [] =
      (mkHead (l.insertIdx p k) (lvs.insertIdx p nl) (max nl H)).next
    refine List.ext fun ℓ => ?_
    rw [hget ℓ]
    by_cases h1 : a ≤ ℓ ∧ ℓ < a + (max nl H - a)
    · rw [if_pos h1]
      have hrun : pAnch lvs ℓ p = 0 := by rw [hlvs0, hp0]; rfl
      have hna : p < nAnch lvs ℓ 0 := pAnch_imp_nAnch_gt lvs ℓ p 0 hrun (by omega) (by omega)
      have h2 : ℓ < nl := by omega
      rw [if_pos h2]
      rw [mkHead_next_get? (l.insertIdx p k) (lvs.insertIdx p nl) (max nl H) ℓ (by omega)]
      rw [linkNext_ins_bridge l lvs p nl k hlvs hp 0 ℓ (by omega) hna h2]
      rfl
    · rw [if_neg h1]
      have hℓa : max nl H ≤ ℓ := by omega
      have hnone1 : ([] : List (Link K)).get? ℓ = none := rfl
      have hnone2 :
          (mkHead (l.insertIdx p k) (lvs.insertIdx p nl) (max nl H)).next.get? ℓ = none := by
        rw [List.get?_eq_none.mpr]
        simp [mkHead]
        omega
      rw [hnone1, hnone2]



/-! ### One iteration of the `_insert_after` splice loop -/

theorem insSpliceGo_succ_nn (key : K) (nl maxl : Nat) (pre suc : List (Link K))
    (steps level a b : Nat) (nodes : List (K × Node K)) (head : Node K)
    (hpb : ¬(level = maxl ∨ (pre.get? level).map Link.key ≠ (pre.get? a).map Link.key))
    (hsb : ¬((suc.getD b ⟨none, 0⟩).key.isSome = true ∧
      (level = maxl ∨ (suc.get? level).map Link.key ≠ (suc.get? b).map Link.key))) :
    insSpliceGo key nl maxl pre suc (steps + 1) level a b nodes head
      = insSpliceGo key nl maxl pre suc steps (level + 1) a b nodes head := by
  conv_lhs => rw [insSpliceGo]
  simp only [decide_eq_true_eq]
  rw [if_neg hpb]
  simp only []
  rw [if_neg hsb]

theorem insSpliceGo_succ_bn (key : K) (nl maxl : Nat) (pre suc : List (Link K))
    (steps level a b : Nat) (nodes : List (K × Node K)) (head : Node K)
    (nodes1 : List (K × Node K)) (head1 : Node K)
    (hpb : level = maxl ∨ (pre.get? level).map Link.key ≠ (pre.get? a).map Link.key)
    (hup : updNode nodes head (pre.getD a ⟨none, 0⟩).key
        (fun nd => nd.insert_after key (min level nl) a (pre.getD a ⟨none, 0⟩).count)
      = ((nodes1, head1), .ok ()))
    (hsb : ¬((suc.getD b ⟨none, 0⟩).key.isSome = true ∧
      (level = maxl ∨ (suc.get? level).map Link.key ≠ (suc.get? b).map Link.key))) :
    insSpliceGo key nl maxl pre suc (steps + 1) level a b nodes head
      = insSpliceGo key nl maxl pre suc steps (level + 1) level b nodes1 head1 := by
  conv_lhs => rw [insSpliceGo]
  simp only [decide_eq_true_eq]
  rw [if_pos hpb, hup]
  simp only []
  rw [if_neg hsb]

theorem insSpliceGo_succ_ns (key : K) (nl maxl : Nat) (pre suc : List (Link K))
    (steps level a b : Nat) (nodes : List (K × Node K)) (head : Node K)
    (nodes2 : List (K × Node K)) (head2 : Node K)
    (hpb : ¬(level = maxl ∨ (pre.get? level).map Link.key ≠ (pre.get? a).map Link.key))
    (hsb : (suc.getD b ⟨none, 0⟩).key.isSome = true ∧
      (level = maxl ∨ (suc.get? level).map Link.key ≠ (suc.get? b).map Link.key))
    (hup : updNode nodes head (suc.getD b ⟨none, 0⟩).key
        (fun nd => nd.insert_before key (min level nl) b (suc.getD b ⟨none, 0⟩).count)
      = ((nodes2, head2), .ok ())) :
    insSpliceGo key nl maxl pre suc (steps + 1) level a b nodes head
      = insSpliceGo key nl maxl pre suc steps (level + 1) a level nodes2 head2 := by
  conv_lhs => rw [insSpliceGo]
  simp only [decide_eq_true_eq]
  rw [if_neg hpb]
  simp only []
  rw [if_pos hsb, hup]

theorem insSpliceGo_succ_bs (key : K) (nl maxl : Nat) (pre suc : List (Link K))
    (steps level a b : Nat) (nodes : List (K × Node K)) (head : Node K)
    (nodes1 : List (K × Node K)) (head1 : Node K)
    (nodes2 : List (K × Node K)) (head2 : Node K)
    (hpb : level = maxl ∨ (pre.get? level).map Link.key ≠ (pre.get? a).map Link.key)
    (hup1 : updNode nodes head (pre.getD a ⟨none, 0⟩).key
        (fun nd => nd.insert_after key (min level nl) a (pre.getD a ⟨none, 0⟩).count)
      = ((nodes1, head1), .ok ()))
    (hsb : (suc.getD b ⟨none, 0⟩).key.isSome = true ∧
      (level = maxl ∨ (suc.get? level).map Link.key ≠ (suc.get? b).map Link.key))
    (hup2 : updNode nodes1 head1 (suc.getD b ⟨none, 0⟩).key
        (fun nd => nd.insert_before key (min level nl) b (suc.getD b ⟨none, 0⟩).count)
      = ((nodes2, head2), .ok ())) :
    insSpliceGo key nl maxl pre suc (steps + 1) level a b nodes head
      = insSpliceGo key nl maxl pre suc steps (level + 1) level level nodes2 head2 := by
  conv_lhs => rw [insSpliceGo]
  simp only [decide_eq_true_eq]
  rw [if_pos hpb, hup1]
  simp only []
  rw [if_pos hsb, hup2]



/-! ### `updNode` evaluation and invariant transfer across one break -/

theorem updNode_none_ok (nodes : List (K × Node K)) (head : Node K)
    (f : Node K → Except AutomergeError (Node K)) (h' : Node K) (h : f head = .ok h') :
    updNode nodes head none f = ((nodes, h'), .ok ()) := by
  unfold updNode
  rw [h]

theorem updNode_some_ok (nodes : List (K × Node K)) (head : Node K) (k : K)
    (f : Node K → Except AutomergeError (Node K)) (nd nd' : Node K)
    (hg : getN nodes k = some nd) (h : f nd = .ok nd') :
    updNode nodes head (some k) f = ((setN nodes k nd', head), .ok ()) := by
  unfold updNode
  simp only []
  rw [hg]
  simp only []
  rw [h]

theorem preRun_next_break (lvs : List Nat) (p a level : Nat) (ha : a < level)
    (hrun : ∀ ℓ, a ≤ ℓ → ℓ < level → pAnch lvs ℓ p = pAnch lvs a p)
    (hrs : ∀ ℓ, ℓ < a → pAnch lvs a p < pAnch lvs ℓ p)
    (hne : pAnch lvs level p ≠ pAnch lvs a p) :
    ∀ ℓ, ℓ < level → pAnch lvs level p < pAnch lvs ℓ p := by
  have hanti : pAnch lvs level p ≤ pAnch lvs a p := pAnch_anti lvs a level p (by omega)
  intro ℓ hℓ
  rcases Nat.lt_or_ge ℓ a with h1 | h1
  · have := hrs ℓ h1
    omega
  · have := hrun ℓ h1 hℓ
    omega

theorem sucRun_next_break (lvs : List Nat) (p b level : Nat) (hb : b < level)
    (hpl : p ≤ lvs.length)
    (hrun : ∀ ℓ, b ≤ ℓ → ℓ < level → nAnch lvs ℓ p = nAnch lvs b p)
    (hrs : ∀ ℓ, ℓ < b → nAnch lvs ℓ p < nAnch lvs b p)
    (hne : nAnch lvs level p ≠ nAnch lvs b p) :
    ∀ ℓ, ℓ < level → nAnch lvs ℓ p < nAnch lvs level p := by
  have hmono : nAnch lvs b p ≤ nAnch lvs level p := nAnch_mono lvs b level p (by omega) hpl
  intro ℓ hℓ
  rcases Nat.lt_or_ge ℓ b with h1 | h1
  · have := hrs ℓ h1
    omega
  · have := hrun ℓ h1 hℓ
    omega

theorem spliceNode_eq_old_pre (l : List K) (lvs : List Nat) (p nl : Nat) (k : K)
    (a b i : Nat) (hi1 : 1 ≤ i) (hip : i ≤ p) (hpl : p ≤ lvs.length)
    (hnpd : ¬preDone lvs p a i) :
    spliceNode l lvs p nl k a b (i - 1) = mkNode l lvs (i - 1) := by
  have hii : i - 1 + 1 = i := by omega
  unfold spliceNode
  rw [hii]
  rw [if_neg hnpd]
  rw [if_neg ?hnsd]
  case hnsd =>
    rintro ⟨ℓ, h1, h2⟩
    have := nAnch_gt lvs ℓ p
    omega

theorem spliceNode_eq_old_suc (l : List K) (lvs : List Nat) (p nl : Nat) (k : K)
    (a b j : Nat) (hj1 : p + 1 ≤ j) (hpl : p ≤ lvs.length)
    (hnsd : ¬sucDone lvs p b j) :
    spliceNode l lvs p nl k a b (j - 1) = mkNode l lvs (j - 1) := by
  have hjj : j - 1 + 1 = j := by omega
  unfold spliceNode
  rw [hjj]
  rw [if_neg ?hnpd]
  case hnpd =>
    rintro ⟨ℓ, h1, h2⟩
    have := pAnch_le lvs ℓ p
    omega
  rw [if_neg hnsd]

theorem getN_setN_lookup (l : List K) (hnd : l.Nodup) (nodes : List (K × Node K))
    (F : Nat → Node K) (m0 : Nat) (hm0 : m0 < l.length) (nd' : Node K)
    (hmap : ∀ m (hm : m < l.length), getN nodes (l.get ⟨m, hm⟩) = some (F m)) :
    ∀ m (hm : m < l.length),
      getN (setN nodes (l.get ⟨m0, hm0⟩) nd') (l.get ⟨m, hm⟩)
        = some (if m = m0 then nd' else F m) := by
  intro m hm
  by_cases he : m = m0
  · subst he
    rw [if_pos rfl]
    exact getN_setN_self nodes _ nd'
  · rw [if_neg he]
    rw [getN_setN_ne nodes _ _ nd' ?hne]
    · exact hmap m hm
    case hne =>
      intro hk
      have h2 := (List.Nodup.get_inj_iff hnd).mp hk
      exact he (congrArg Fin.val h2).symm



theorem hmap_after_preBreak (l : List K) (lvs : List Nat) (p nl : Nat) (k : K)
    (hnd : l.Nodup) (a b level i : Nat) (hi1 : 1 ≤ i) (hip : i ≤ p)
    (him : i - 1 < l.length)
    (hia : pAnch lvs a p = i) (ha : a < level)
    (hrun : ∀ ℓ, a ≤ ℓ → ℓ < level → pAnch lvs ℓ p = pAnch lvs a p)
    (nodes : List (K × Node K))
    (hmap : ∀ m (hm : m < l.length),
      getN nodes (l.get ⟨m, hm⟩) = some (spliceNode l lvs p nl k a b m)) :
    ∀ m (hm : m < l.length),
      getN (setN nodes (l.get ⟨i - 1, him⟩)
          (mkNode (l.insertIdx p k) (lvs.insertIdx p nl) (i - 1))) (l.get ⟨m, hm⟩)
        = some (spliceNode l lvs p nl k level b m) := by
  intro m hm
  rw [getN_setN_lookup l hnd nodes (spliceNode l lvs p nl k a b) (i - 1) him _ hmap m hm]
  congr 1
  by_cases he : m = i - 1
  · subst he
    rw [if_pos rfl]
    unfold spliceNode
    rw [if_pos ?hpd]
    case hpd =>
      exact ⟨a, ha, by rw [hia]; omega⟩
  · rw [if_neg he]
    refine (spliceNode_congr l lvs p nl k a b level b m (by omega) (le_refl b) ?_ ?_).symm
    · intro ℓ h1 h2
      rw [hrun ℓ h1 h2, hia]
      omega
    · intro ℓ h1 h2
      omega

theorem hmap_after_sucBreak (l : List K) (lvs : List Nat) (p nl : Nat) (k : K)
    (hnd : l.Nodup) (a b level j : Nat) (hj1 : p + 1 ≤ j)
    (hjm : j - 1 < l.length)
    (hjb : nAnch lvs b p = j) (hb : b < level)
    (hrun : ∀ ℓ, b ≤ ℓ → ℓ < level → nAnch lvs ℓ p = nAnch lvs b p)
    (nodes : List (K × Node K))
    (hmap : ∀ m (hm : m < l.length),
      getN nodes (l.get ⟨m, hm⟩) = some (spliceNode l lvs p nl k a b m)) :
    ∀ m (hm : m < l.length),
      getN (setN nodes (l.get ⟨j - 1, hjm⟩)
          (mkNode (l.insertIdx p k) (lvs.insertIdx p nl) j)) (l.get ⟨m, hm⟩)
        = some (spliceNode l lvs p nl k a level m) := by
  intro m hm
  rw [getN_setN_lookup l hnd nodes (spliceNode l lvs p nl k a b) (j - 1) hjm _ hmap m hm]
  congr 1
  by_cases he : m = j - 1
  · subst he
    rw [if_pos rfl]
    unfold spliceNode
    rw [if_neg ?hnpd]
    case hnpd =>
      rintro ⟨ℓ, h1, h2⟩
      have := pAnch_le lvs ℓ p
      omega
    rw [if_pos ?hsd]
    case hsd =>
      exact ⟨b, hb, by rw [hjb]; omega⟩
    have hjj : j - 1 + 1 = j := by omega
    rw [hjj]
  · rw [if_neg he]
    refine (spliceNode_congr l lvs p nl k a b a level m (le_refl a) (by omega) ?_ ?_).symm
    · intro ℓ h1 h2
      omega
    · intro ℓ h1 h2
      rw [hrun ℓ h1 h2, hjb]
      omega



/-! ### Correctness of the `_insert_after` splice loop -/

theorem insSpliceGo_ok (l : List K) (lvs : List Nat) (p nl : Nat) (k : K) (H : Nat)
    (hlvs : lvs.length = l.length) (hnd : l.Nodup) (hlv1 : ∀ v ∈ lvs, 1 ≤ v)
    (hlvle : ∀ v ∈ lvs, v ≤ H) (hp : p ≤ l.length) (hnl : 1 ≤ nl) (hH : 1 ≤ H)
    (head0 : Node K)
    (hhead0 : head0 = mkHead l lvs H ∨
      (l = [] ∧ H = 1 ∧ head0 = { next := [], prev := [], level := 1, is_head := true }))
    (pre suc : List (Link K))
    (hpre : ∀ ℓ, ℓ < max nl H → pre.get? ℓ = some (preLink l lvs p ℓ))
    (hsuc : ∀ ℓ, ℓ < max nl H → suc.get? ℓ = some (sucLink l lvs (p + 1) ℓ)) :
    ∀ steps level a b nodes head,
      level + steps = max nl H + 1 → 1 ≤ level → a < level → b < level →
      (∀ ℓ, a ≤ ℓ → ℓ < level → pAnch lvs ℓ p = pAnch lvs a p) →
      (level ≤ max nl H → ∀ ℓ, ℓ < a → pAnch lvs a p < pAnch lvs ℓ p) →
      (∀ ℓ, b ≤ ℓ → ℓ < level → nAnch lvs ℓ p = nAnch lvs b p) →
      (level ≤ max nl H → ∀ ℓ, ℓ < b → nAnch lvs ℓ p < nAnch lvs b p) →
      (level = max nl H + 1 →
        a = max nl H ∧ (b = max nl H ∨ nAnch lvs b p = l.length + 1)) →
      ((nodes.map Prod.fst).Perm l) →
      (∀ m (hm : m < l.length),
        getN nodes (l.get ⟨m, hm⟩) = some (spliceNode l lvs p nl k a b m)) →
      head = (if preDone lvs p a 0
              then mkHead (l.insertIdx p k) (lvs.insertIdx p nl) (max nl H)
              else head0) →
      ∃ nodes₁,
        insSpliceGo k nl (max nl H) pre suc steps level a b nodes head
          = ((nodes₁, mkHead (l.insertIdx p k) (lvs.insertIdx p nl) (max nl H)), .ok ()) ∧
        ((nodes₁.map Prod.fst).Perm l) ∧
        (∀ m (hm : m < l.length),
          getN nodes₁ (l.get ⟨m, hm⟩) =
            some (if m < p then mkNode (l.insertIdx p k) (lvs.insertIdx p nl) m
                  else mkNode (l.insertIdx p k) (lvs.insertIdx p nl) (m + 1))) := by
  intro steps
  induction steps with
  | zero =>
    intro level a b nodes head hls h1l hal hbl hrunp hrsp hruns hrss hfin hperm hmap hhd
    have hlev : level = max nl H + 1 := by omega
    obtain ⟨hA, hB⟩ := hfin hlev
    subst hA
    have hhead' : head = mkHead (l.insertIdx p k) (lvs.insertIdx p nl) (max nl H) := by
      rw [hhd]
      by_cases hpd : preDone lvs p (max nl H) 0
      · rw [if_pos hpd]
      · rw [if_neg hpd]
        rcases hhead0 with hh | ⟨hl0, hH1, hh⟩
        · rw [hh]
          refine (head_untouched l lvs p nl k H hlvs hlvle hp hH hnl ?_).symm
          intro ℓ hℓ
          by_cases h0 : pAnch lvs ℓ p = 0
          · exact absurd ⟨ℓ, hℓ, h0⟩ hpd
          · omega
        · exfalso
          apply hpd
          have hp0 : p = 0 := by
            have hL : l.length = 0 := by rw [hl0]; rfl
            omega
          refine ⟨0, by omega, ?_⟩
          rw [hp0]
          rfl
    refine ⟨nodes, ?_, hperm, ?_⟩
    · show ((nodes, head), Except.ok ()) = _
      rw [hhead']
    · intro m hm
      rw [hmap m hm]
      congr 1
      by_cases hpd : preDone lvs p (max nl H) (m + 1)
      · obtain ⟨ℓ, hℓ, hpa⟩ := hpd
        have hple := pAnch_le lvs ℓ p
        have hmp : m < p := by omega
        unfold spliceNode
        rw [if_pos ⟨ℓ, hℓ, hpa⟩, if_pos hmp]
      · by_cases hsd : sucDone lvs p b (m + 1)
        · obtain ⟨ℓ, hℓ, hsa⟩ := hsd
          have hngt := nAnch_gt lvs ℓ p
          have hmp : ¬(m < p) := by omega
          unfold spliceNode
          rw [if_neg hpd, if_pos ⟨ℓ, hℓ, hsa⟩, if_neg hmp]
        · unfold spliceNode
          rw [if_neg hpd, if_neg hsd]
          have hlle : lvs.getD m 0 ≤ H := hlvle _ (getD_mem_of_lt lvs m (by omega))
          rcases Nat.lt_or_ge m p with hmp | hmp
          · rw [if_pos hmp]
            refine (mkNode_ins_low_untouched l lvs p nl k hlvs hp m (by omega) ?_).symm
            intro ℓ hℓ hpa
            exact hpd ⟨ℓ, by omega, hpa⟩
          · rw [if_neg (by omega)]
            refine (mkNode_ins_high_untouched l lvs p nl k hlvs hp m hmp hm ?_).symm
            intro ℓ hℓ hna
            rcases hB with hb | hb
            · exact hsd ⟨ℓ, by omega, hna⟩
            · rcases Nat.lt_or_ge ℓ b with h2 | h2
              · exact hsd ⟨ℓ, h2, hna⟩
              · have h3 := hruns ℓ h2 (by omega)
                omega
  | succ st ih =>
    intro level a b nodes head hls h1l hal hbl hrunp hrsp hruns hrss hfin hperm hmap hhd
    have hml1 : 1 ≤ max nl H := by omega
    have hlevmax : level ≤ max nl H := by omega
    have hpga : pre.getD a ⟨none, 0⟩ = preLink l lvs p a :=
      getD_eq_of_get? pre a _ _ (hpre a (by omega))
    have hsgb : suc.getD b ⟨none, 0⟩ = sucLink l lvs (p + 1) b :=
      getD_eq_of_get? suc b _ _ (hsuc b (by omega))
    have hrsp' := hrsp hlevmax
    have hrss' := hrss hlevmax
    have hpap_le : pAnch lvs a p ≤ p := pAnch_le lvs a p
    have hnbp_gt : p < nAnch lvs b p := nAnch_gt lvs b p
    have hnbp_le : nAnch lvs b p ≤ l.length + 1 := by
      have := nAnch_le lvs b p (by omega)
      omega
    -- the suc-side break key is `some` iff the anchor is a real position
    have hsome_iff : ((suc.getD b ⟨none, 0⟩).key.isSome = true) ↔ nAnch lvs b p ≤ l.length := by
      rw [hsgb]
      show (keyAt l (nAnch lvs b p)).isSome = true ↔ _
      constructor
      · intro h
        by_contra hgt
        rw [keyAt_eq_none l _ (by omega)] at h
        simp at h
      · intro h
        obtain ⟨hlt, he⟩ := keyAt_isSome l (nAnch lvs b p) (by omega) h
        rw [he]
        rfl
    -- a node-anchored pre break cannot happen below `max nl H` with equal keys
    have hprekey_ne : level < max nl H → pAnch lvs level p ≠ pAnch lvs a p →
        (pre.get? level).map Link.key ≠ (pre.get? a).map Link.key := by
      intro hlt hne
      rw [hpre level hlt, hpre a (by omega)]
      show some (keyAt l (pAnch lvs level p)) ≠ some (keyAt l (pAnch lvs a p))
      intro heq
      have hle2 := pAnch_le lvs level p
      exact hne (keyAt_inj l hnd _ _ (by omega) (by omega) (Option.some.inj heq))
    have hprekey_eq : level < max nl H → pAnch lvs level p = pAnch lvs a p →
        ¬((pre.get? level).map Link.key ≠ (pre.get? a).map Link.key) := by
      intro hlt heq
      rw [hpre level hlt, hpre a (by omega)]
      show ¬(some (keyAt l (pAnch lvs level p)) ≠ some (keyAt l (pAnch lvs a p)))
      rw [heq]
      intro hne
      exact hne rfl
    have hsuckey_ne : level < max nl H → nAnch lvs level p ≠ nAnch lvs b p →
        nAnch lvs b p ≤ l.length →
        (suc.get? level).map Link.key ≠ (suc.get? b).map Link.key := by
      intro hlt hne hj
      rw [hsuc level hlt, hsuc b (by omega)]
      show some (keyAt l (nAnch lvs level p)) ≠ some (keyAt l (nAnch lvs b p))
      intro heq
      have h2 := Option.some.inj heq
      have hlev_le : nAnch lvs level p ≤ l.length + 1 := by
        have := nAnch_le lvs level p (by omega)
        omega
      have hlev_gt : p < nAnch lvs level p := nAnch_gt lvs level p
      rcases Nat.lt_or_ge (nAnch lvs level p) (l.length + 1) with h3 | h3
      · exact hne (keyAt_inj l hnd _ _ (by omega) (by omega) h2)
      · rw [keyAt_eq_none l _ (by omega)] at h2
        obtain ⟨_, he⟩ := keyAt_isSome l (nAnch lvs b p) (by omega) hj
        rw [he] at h2
        simp at h2
    have hsuckey_eq : level < max nl H → nAnch lvs level p = nAnch lvs b p →
        ¬((suc.get? level).map Link.key ≠ (suc.get? b).map Link.key) := by
      intro hlt heq
      rw [hsuc level hlt, hsuc b (by omega)]
      show ¬(some (keyAt l (nAnch lvs level p)) ≠ some (keyAt l (nAnch lvs b p)))
      rw [heq]
      intro hne
      exact hne rfl
    have hrsp2 := hrsp hlevmax
    have hrss2 := hrss hlevmax
    by_cases hlm : level = max nl H
    · -- the forced break at the top level
      by_cases hi0 : pAnch lvs a p = 0
      · -- the pre anchor is the head sentinel
        have hndpd0 : ¬preDone lvs p a 0 := by
          rintro ⟨ℓ, h1, h2⟩
          have := hrsp2 ℓ h1
          omega
        have hheadold : head = head0 := by
          rw [hhd, if_neg hndpd0]
        have hupP : updNode nodes head (pre.getD a ⟨none, 0⟩).key
            (fun nd => nd.insert_after k (min level nl) a (pre.getD a ⟨none, 0⟩).count)
            = ((nodes, mkHead (l.insertIdx p k) (lvs.insertIdx p nl) (max nl H)),
                .ok ()) := by
          rw [hpga]
          show updNode nodes head (keyAt l (pAnch lvs a p))
              (fun nd => nd.insert_after k (min level nl) a (p + 1 - pAnch lvs a p)) = _
          simp only [hi0]
          show updNode nodes head none
              (fun nd => nd.insert_after k (min level nl) a (p + 1 - 0)) = _
          refine updNode_none_ok nodes head _ _ ?_
          show head.insert_after k (min level nl) a (p + 1 - 0) = _
          rw [hheadold]
          have hmin : min level nl = nl := by omega
          rw [hmin, Nat.sub_zero]
          exact headAnchor_insert_ok l lvs p nl k H hlvs hlvle hp hnl hH head0 hhead0 a hi0
            (fun ℓ hℓ => by have := hrsp2 ℓ hℓ; omega)
        have hmapP : ∀ m (hm : m < l.length),
            getN nodes (l.get ⟨m, hm⟩) = some (spliceNode l lvs p nl k level b m) := by
          intro m hm
          rw [hmap m hm]
          congr 1
          refine (spliceNode_congr l lvs p nl k a b level b m (by omega) (le_refl b)
            ?_ (fun ℓ h1 h2 => by omega)).symm
          intro ℓ h1 h2
          rw [hrunp ℓ h1 h2, hi0]
          omega
        have hhdP : mkHead (l.insertIdx p k) (lvs.insertIdx p nl) (max nl H)
            = (if preDone lvs p level 0
               then mkHead (l.insertIdx p k) (lvs.insertIdx p nl) (max nl H)
               else head0) := by
          rw [if_pos ⟨a, hal, hi0⟩]
        have hrunpP : ∀ ℓ, level ≤ ℓ → ℓ < level + 1 →
            pAnch lvs ℓ p = pAnch lvs level p := by
          intro ℓ h1 h2
          have h3 : ℓ = level := by omega
          rw [h3]
        have hrspP : level + 1 ≤ max nl H → ∀ ℓ, ℓ < level →
            pAnch lvs level p < pAnch lvs ℓ p := fun h => absurd h (by omega)
        by_cases hsj : nAnch lvs b p ≤ l.length ∧
            (level = max nl H ∨ nAnch lvs level p ≠ nAnch lvs b p)
        · -- the suc side also breaks here
          have hjn := hsj.1
          have hnsd : ¬sucDone lvs p b (nAnch lvs b p) := by
            rintro ⟨ℓ, h1, h2⟩
            have := hrss2 ℓ h1
            omega
          have hjlev_run : nAnch lvs (level - 1) p = nAnch lvs b p :=
            hruns (level - 1) (by omega) (by omega)
          have hjlv_gt : level - 1 < lvs.getD (nAnch lvs b p - 1) 0 := by
            have h2 := nAnch_level lvs (level - 1) p (by rw [hjlev_run]; omega)
            rwa [hjlev_run] at h2
          have hjlv_le : lvs.getD (nAnch lvs b p - 1) 0 ≤ level := by
            rcases hsj.2 with h | hne
            · have h4 : lvs.getD (nAnch lvs b p - 1) 0 ≤ H :=
                hlvle _ (getD_mem_of_lt lvs (nAnch lvs b p - 1) (by omega))
              omega
            · by_contra hgt
              push_neg at hgt
              exact hne (nAnch_run lvs b level p (nAnch lvs b p) rfl (by omega)
                (by omega) (by omega) (by omega))
          have hjlev_eq : level = lvs.getD (nAnch lvs b p - 1) 0 := by omega
          obtain ⟨hjlt, hkeyj⟩ := keyAt_isSome l (nAnch lvs b p) (by omega) hjn
          have holdj : getN nodes (l.get ⟨nAnch lvs b p - 1, hjlt⟩)
              = some (mkNode l lvs (nAnch lvs b p - 1)) := by
            rw [hmapP (nAnch lvs b p - 1) hjlt]
            congr 1
            exact spliceNode_eq_old_suc l lvs p nl k level b (nAnch lvs b p)
              (by omega) (by omega) hnsd
          have hupS : updNode nodes (mkHead (l.insertIdx p k) (lvs.insertIdx p nl) (max nl H)) (suc.getD b ⟨none, 0⟩).key
              (fun nd => nd.insert_before k (min level nl) b (suc.getD b ⟨none, 0⟩).count)
              = ((setN nodes (l.get ⟨nAnch lvs b p - 1, hjlt⟩)
                    (mkNode (l.insertIdx p k) (lvs.insertIdx p nl) (nAnch lvs b p)), (mkHead (l.insertIdx p k) (lvs.insertIdx p nl) (max nl H))),
                  .ok ()) := by
            rw [hsgb]
            show updNode nodes (mkHead (l.insertIdx p k) (lvs.insertIdx p nl) (max nl H)) (keyAt l (nAnch lvs b p))
                (fun nd => nd.insert_before k (min level nl) b (nAnch lvs b p - p)) = _
            rw [hkeyj]
            refine updNode_some_ok _ _ _ _ (mkNode l lvs (nAnch lvs b p - 1)) _ holdj ?_
            show (mkNode l lvs (nAnch lvs b p - 1)).insert_before k (min level nl) b
                (nAnch lvs b p - p) = _
            rw [hjlev_eq]
            exact sucAnchor_insert_ok l lvs p nl k hlvs hp b (nAnch lvs b p)
              (by omega) hjn rfl hrss2
          have hmapS := hmap_after_sucBreak l lvs p nl k hnd level b level (nAnch lvs b p)
            (by omega) hjlt rfl hbl hruns nodes hmapP
          have hpermS : ((setN nodes (l.get ⟨nAnch lvs b p - 1, hjlt⟩)
              (mkNode (l.insertIdx p k) (lvs.insertIdx p nl) (nAnch lvs b p))).map
                Prod.fst).Perm l := by
            rw [setN_map_fst _ _ _ (by rw [holdj]; rfl)]
            exact hperm
          have hsbS : (suc.getD b ⟨none, 0⟩).key.isSome = true ∧
              (level = max nl H ∨
                (suc.get? level).map Link.key ≠ (suc.get? b).map Link.key) := by
            refine ⟨hsome_iff.mpr hjn, ?_⟩
            by_cases hlm2 : level = max nl H
            · exact Or.inl hlm2
            · rcases hsj.2 with h | hne
              · exact absurd h hlm2
              · exact Or.inr (hsuckey_ne (by omega) hne hjn)
          have hrunsS : ∀ ℓ, level ≤ ℓ → ℓ < level + 1 → nAnch lvs ℓ p = nAnch lvs level p := by
            intro ℓ h1 h2
            have h3 : ℓ = level := by omega
            rw [h3]
          have hrssS : level + 1 ≤ max nl H → ∀ ℓ, ℓ < level →
              nAnch lvs ℓ p < nAnch lvs level p := by
            intro hlt
            rcases hsj.2 with h | hne
            · exact absurd hlt (by omega)
            · exact sucRun_next_break lvs p b level hbl (by omega) hruns hrss2 hne
          rw [insSpliceGo_succ_bs k nl (max nl H) pre suc st level a b nodes head _ _ _ _ (Or.inl hlm) hupP hsbS hupS]
          refine ih (level + 1) level level _ _ (by omega) (by omega) (by omega) (by omega)
            hrunpP hrspP hrunsS hrssS ?_ hpermS hmapS hhdP
          intro h
          exact ⟨by omega, Or.inl (by omega)⟩
        · -- the suc side does not break here
          have hlevb : nAnch lvs level p = nAnch lvs b p := by
            by_cases hjn : nAnch lvs b p ≤ l.length
            · have hno : ¬(level = max nl H ∨ nAnch lvs level p ≠ nAnch lvs b p) :=
                fun hc => hsj ⟨hjn, hc⟩
              push_neg at hno
              exact hno.2
            · have h1 : nAnch lvs b p = l.length + 1 := by omega
              have h2 := nAnch_mono lvs b level p (by omega) (by omega)
              have h3 := nAnch_le lvs level p (by omega)
              omega
          have hsbN : ¬((suc.getD b ⟨none, 0⟩).key.isSome = true ∧
              (level = max nl H ∨
                (suc.get? level).map Link.key ≠ (suc.get? b).map Link.key)) := by
            rintro ⟨h1, h2⟩
            have hjn : nAnch lvs b p ≤ l.length := hsome_iff.mp h1
            have hno : ¬(level = max nl H ∨ nAnch lvs level p ≠ nAnch lvs b p) :=
              fun hc => hsj ⟨hjn, hc⟩
            push_neg at hno
            rcases h2 with h | hne
            · exact hno.1 h
            · exact hsuckey_eq (by omega) hno.2 hne
          have hrunsN : ∀ ℓ, b ≤ ℓ → ℓ < level + 1 → nAnch lvs ℓ p = nAnch lvs b p := by
            intro ℓ h1 h2
            rcases Nat.lt_or_ge ℓ level with h3 | h3
            · exact hruns ℓ h1 h3
            · have h4 : ℓ = level := by omega
              rw [h4, hlevb]
          have hrssN : level + 1 ≤ max nl H → ∀ ℓ, ℓ < b →
              nAnch lvs ℓ p < nAnch lvs b p := fun _ => hrss2
          have hfinN : level + 1 = max nl H + 1 →
              level = max nl H ∧ (b = max nl H ∨ nAnch lvs b p = l.length + 1) := by
            intro h
            have hlm2 : level = max nl H := by omega
            refine ⟨by omega, Or.inr ?_⟩
            have h5 : ¬(nAnch lvs b p ≤ l.length) := fun hjn => hsj ⟨hjn, Or.inl hlm2⟩
            omega
          rw [insSpliceGo_succ_bn k nl (max nl H) pre suc st level a b nodes head _ _ (Or.inl hlm) hupP hsbN]
          exact ih (level + 1) level b _ _ (by omega) (by omega) (by omega) (by omega)
            hrunpP hrspP hrunsN hrssN hfinN hperm hmapP hhdP
      · -- the pre anchor is a real node, at the forced top-level break
        have hia1 : 1 ≤ pAnch lvs a p := by omega
        have hilev_run : pAnch lvs (level - 1) p = pAnch lvs a p :=
          hrunp (level - 1) (by omega) (by omega)
        have hlv_gt : level - 1 < lvs.getD (pAnch lvs a p - 1) 0 := by
          have h2 := pAnch_level lvs (level - 1) p (by rw [hilev_run]; omega)
          rwa [hilev_run] at h2
        have hlv_le : lvs.getD (pAnch lvs a p - 1) 0 ≤ level := by
          rcases (Or.inl hlm : level = max nl H ∨ pAnch lvs level p ≠ pAnch lvs a p) with h | hne
          · have h4 : lvs.getD (pAnch lvs a p - 1) 0 ≤ H :=
              hlvle _ (getD_mem_of_lt lvs (pAnch lvs a p - 1) (by omega))
            omega
          · by_contra hgt
            push_neg at hgt
            exact hne (pAnch_run lvs a level p (pAnch lvs a p) rfl (by omega) (by omega) hgt)
        have hlev_eq : level = lvs.getD (pAnch lvs a p - 1) 0 := by omega
        have hnpd : ¬preDone lvs p a (pAnch lvs a p) := by
          rintro ⟨ℓ, h1, h2⟩
          have := hrsp2 ℓ h1
          omega
        obtain ⟨hilt, hkeyi⟩ := keyAt_isSome l (pAnch lvs a p) (by omega) (by omega)
        have holdi : getN nodes (l.get ⟨pAnch lvs a p - 1, hilt⟩)
            = some (mkNode l lvs (pAnch lvs a p - 1)) := by
          rw [hmap (pAnch lvs a p - 1) hilt]
          congr 1
          exact spliceNode_eq_old_pre l lvs p nl k a b (pAnch lvs a p)
            (by omega) hpap_le (by omega) hnpd
        have hupP : updNode nodes head (pre.getD a ⟨none, 0⟩).key
            (fun nd => nd.insert_after k (min level nl) a (pre.getD a ⟨none, 0⟩).count)
            = ((setN nodes (l.get ⟨pAnch lvs a p - 1, hilt⟩)
                  (mkNode (l.insertIdx p k) (lvs.insertIdx p nl) (pAnch lvs a p - 1)), head),
                .ok ()) := by
          rw [hpga]
          show updNode nodes head (keyAt l (pAnch lvs a p))
              (fun nd => nd.insert_after k (min level nl) a (p + 1 - pAnch lvs a p)) = _
          rw [hkeyi]
          refine updNode_some_ok _ _ _ _ (mkNode l lvs (pAnch lvs a p - 1)) _ holdi ?_
          show (mkNode l lvs (pAnch lvs a p - 1)).insert_after k (min level nl) a
              (p + 1 - pAnch lvs a p) = _
          rw [hlev_eq]
          exact preAnchor_insert_ok l lvs p nl k hlvs hp a (pAnch lvs a p)
            (by omega) hpap_le rfl hrsp2
        have hmapP := hmap_after_preBreak l lvs p nl k hnd a b level (pAnch lvs a p)
          (by omega) hpap_le hilt rfl hal hrunp nodes hmap
        have hpermP : ((setN nodes (l.get ⟨pAnch lvs a p - 1, hilt⟩)
            (mkNode (l.insertIdx p k) (lvs.insertIdx p nl) (pAnch lvs a p - 1))).map
              Prod.fst).Perm l := by
          rw [setN_map_fst _ _ _ (by rw [holdi]; rfl)]
          exact hperm
        have hhdP : head = (if preDone lvs p level 0
            then mkHead (l.insertIdx p k) (lvs.insertIdx p nl) (max nl H) else head0) := by
          rw [hhd]
          exact (if_congr (preDone_congr lvs p a level 0 (by omega)
            (fun ℓ h1 h2 => by rw [hrunp ℓ h1 h2]; omega)) rfl rfl).symm
        have hrunpP : ∀ ℓ, level ≤ ℓ → ℓ < level + 1 → pAnch lvs ℓ p = pAnch lvs level p := by
          intro ℓ h1 h2
          have h3 : ℓ = level := by omega
          rw [h3]
        have hrspP : level + 1 ≤ max nl H → ∀ ℓ, ℓ < level →
            pAnch lvs level p < pAnch lvs ℓ p := fun h => absurd h (by omega)
        by_cases hsj : nAnch lvs b p ≤ l.length ∧
            (level = max nl H ∨ nAnch lvs level p ≠ nAnch lvs b p)
        · -- the suc side also breaks here
          have hjn := hsj.1
          have hnsd : ¬sucDone lvs p b (nAnch lvs b p) := by
            rintro ⟨ℓ, h1, h2⟩
            have := hrss2 ℓ h1
            omega
          have hjlev_run : nAnch lvs (level - 1) p = nAnch lvs b p :=
            hruns (level - 1) (by omega) (by omega)
          have hjlv_gt : level - 1 < lvs.getD (nAnch lvs b p - 1) 0 := by
            have h2 := nAnch_level lvs (level - 1) p (by rw [hjlev_run]; omega)
            rwa [hjlev_run] at h2
          have hjlv_le : lvs.getD (nAnch lvs b p - 1) 0 ≤ level := by
            rcases hsj.2 with h | hne
            · have h4 : lvs.getD (nAnch lvs b p - 1) 0 ≤ H :=
                hlvle _ (getD_mem_of_lt lvs (nAnch lvs b p - 1) (by omega))
              omega
            · by_contra hgt
              push_neg at hgt
              exact hne (nAnch_run lvs b level p (nAnch lvs b p) rfl (by omega)
                (by omega) (by omega) (by omega))
          have hjlev_eq : level = lvs.getD (nAnch lvs b p - 1) 0 := by omega
          obtain ⟨hjlt, hkeyj⟩ := keyAt_isSome l (nAnch lvs b p) (by omega) hjn
          have holdj : getN (setN nodes (l.get ⟨pAnch lvs a p - 1, hilt⟩)
                (mkNode (l.insertIdx p k) (lvs.insertIdx p nl) (pAnch lvs a p - 1))) (l.get ⟨nAnch lvs b p - 1, hjlt⟩)
              = some (mkNode l lvs (nAnch lvs b p - 1)) := by
            rw [hmapP (nAnch lvs b p - 1) hjlt]
            congr 1
            exact spliceNode_eq_old_suc l lvs p nl k level b (nAnch lvs b p)
              (by omega) (by omega) hnsd
          have hupS : updNode (setN nodes (l.get ⟨pAnch lvs a p - 1, hilt⟩)
                (mkNode (l.insertIdx p k) (lvs.insertIdx p nl) (pAnch lvs a p - 1))) head (suc.getD b ⟨none, 0⟩).key
              (fun nd => nd.insert_before k (min level nl) b (suc.getD b ⟨none, 0⟩).count)
              = ((setN (setN nodes (l.get ⟨pAnch lvs a p - 1, hilt⟩)
                (mkNode (l.insertIdx p k) (lvs.insertIdx p nl) (pAnch lvs a p - 1))) (l.get ⟨nAnch lvs b p - 1, hjlt⟩)
                    (mkNode (l.insertIdx p k) (lvs.insertIdx p nl) (nAnch lvs b p)), head),
                  .ok ()) := by
            rw [hsgb]
            show updNode (setN nodes (l.get ⟨pAnch lvs a p - 1, hilt⟩)
                (mkNode (l.insertIdx p k) (lvs.insertIdx p nl) (pAnch lvs a p - 1))) head (keyAt l (nAnch lvs b p))
                (fun nd => nd.insert_before k (min level nl) b (nAnch lvs b p - p)) = _
            rw [hkeyj]
            refine updNode_some_ok _ _ _ _ (mkNode l lvs (nAnch lvs b p - 1)) _ holdj ?_
            show (mkNode l lvs (nAnch lvs b p - 1)).insert_before k (min level nl) b
                (nAnch lvs b p - p) = _
            rw [hjlev_eq]
            exact sucAnchor_insert_ok l lvs p nl k hlvs hp b (nAnch lvs b p)
              (by omega) hjn rfl hrss2
          have hmapS := hmap_after_sucBreak l lvs p nl k hnd level b level (nAnch lvs b p)
            (by omega) hjlt rfl hbl hruns (setN nodes (l.get ⟨pAnch lvs a p - 1, hilt⟩)
                (mkNode (l.insertIdx p k) (lvs.insertIdx p nl) (pAnch lvs a p - 1))) hmapP
          have hpermS : ((setN (setN nodes (l.get ⟨pAnch lvs a p - 1, hilt⟩)
                (mkNode (l.insertIdx p k) (lvs.insertIdx p nl) (pAnch lvs a p - 1))) (l.get ⟨nAnch lvs b p - 1, hjlt⟩)
              (mkNode (l.insertIdx p k) (lvs.insertIdx p nl) (nAnch lvs b p))).map
                Prod.fst).Perm l := by
            rw [setN_map_fst _ _ _ (by rw [holdj]; rfl)]
            exact hpermP
          have hsbS : (suc.getD b ⟨none, 0⟩).key.isSome = true ∧
              (level = max nl H ∨
                (suc.get? level).map Link.key ≠ (suc.get? b).map Link.key) := by
            refine ⟨hsome_iff.mpr hjn, ?_⟩
            by_cases hlm2 : level = max nl H
            · exact Or.inl hlm2
            · rcases hsj.2 with h | hne
              · exact absurd h hlm2
              · exact Or.inr (hsuckey_ne (by omega) hne hjn)
          have hrunsS : ∀ ℓ, level ≤ ℓ → ℓ < level + 1 → nAnch lvs ℓ p = nAnch lvs level p := by
            intro ℓ h1 h2
            have h3 : ℓ = level := by omega
            rw [h3]
          have hrssS : level + 1 ≤ max nl H → ∀ ℓ, ℓ < level →
              nAnch lvs ℓ p < nAnch lvs level p := by
            intro hlt
            rcases hsj.2 with h | hne
            · exact absurd hlt (by omega)
            · exact sucRun_next_break lvs p b level hbl (by omega) hruns hrss2 hne
          rw [insSpliceGo_succ_bs k nl (max nl H) pre suc st level a b nodes head _ _ _ _ (Or.inl hlm) hupP hsbS hupS]
          refine ih (level + 1) level level _ _ (by omega) (by omega) (by omega) (by omega)
            hrunpP hrspP hrunsS hrssS ?_ hpermS hmapS hhdP
          intro h
          exact ⟨by omega, Or.inl (by omega)⟩
        · -- the suc side does not break here
          have hlevb : nAnch lvs level p = nAnch lvs b p := by
            by_cases hjn : nAnch lvs b p ≤ l.length
            · have hno : ¬(level = max nl H ∨ nAnch lvs level p ≠ nAnch lvs b p) :=
                fun hc => hsj ⟨hjn, hc⟩
              push_neg at hno
              exact hno.2
            · have h1 : nAnch lvs b p = l.length + 1 := by omega
              have h2 := nAnch_mono lvs b level p (by omega) (by omega)
              have h3 := nAnch_le lvs level p (by omega)
              omega
          have hsbN : ¬((suc.getD b ⟨none, 0⟩).key.isSome = true ∧
              (level = max nl H ∨
                (suc.get? level).map Link.key ≠ (suc.get? b).map Link.key)) := by
            rintro ⟨h1, h2⟩
            have hjn : nAnch lvs b p ≤ l.length := hsome_iff.mp h1
            have hno : ¬(level = max nl H ∨ nAnch lvs level p ≠ nAnch lvs b p) :=
              fun hc => hsj ⟨hjn, hc⟩
            push_neg at hno
            rcases h2 with h | hne
            · exact hno.1 h
            · exact hsuckey_eq (by omega) hno.2 hne
          have hrunsN : ∀ ℓ, b ≤ ℓ → ℓ < level + 1 → nAnch lvs ℓ p = nAnch lvs b p := by
            intro ℓ h1 h2
            rcases Nat.lt_or_ge ℓ level with h3 | h3
            · exact hruns ℓ h1 h3
            · have h4 : ℓ = level := by omega
              rw [h4, hlevb]
          have hrssN : level + 1 ≤ max nl H → ∀ ℓ, ℓ < b →
              nAnch lvs ℓ p < nAnch lvs b p := fun _ => hrss2
          have hfinN : level + 1 = max nl H + 1 →
              level = max nl H ∧ (b = max nl H ∨ nAnch lvs b p = l.length + 1) := by
            intro h
            have hlm2 : level = max nl H := by omega
            refine ⟨by omega, Or.inr ?_⟩
            have h5 : ¬(nAnch lvs b p ≤ l.length) := fun hjn => hsj ⟨hjn, Or.inl hlm2⟩
            omega
          rw [insSpliceGo_succ_bn k nl (max nl H) pre suc st level a b nodes head _ _ (Or.inl hlm) hupP hsbN]
          exact ih (level + 1) level b _ _ (by omega) (by omega) (by omega) (by omega)
            hrunpP hrspP hrunsN hrssN hfinN hpermP hmapP hhdP
    · -- below the top level
      by_cases hpane : pAnch lvs level p = pAnch lvs a p
      · -- no pre break: the pre run continues
        have hpbN : ¬(level = max nl H ∨
            (pre.get? level).map Link.key ≠ (pre.get? a).map Link.key) := by
          rintro (h | hne)
          · exact hlm h
          · exact hprekey_eq (by omega) hpane hne
        have hrunpN : ∀ ℓ, a ≤ ℓ → ℓ < level + 1 → pAnch lvs ℓ p = pAnch lvs a p := by
          intro ℓ h1 h2
          rcases Nat.lt_or_ge ℓ level with h3 | h3
          · exact hrunp ℓ h1 h3
          · have h4 : ℓ = level := by omega
            rw [h4, hpane]
        have hrspN : level + 1 ≤ max nl H → ∀ ℓ, ℓ < a →
            pAnch lvs a p < pAnch lvs ℓ p := fun _ => hrsp2
        by_cases hsj : nAnch lvs b p ≤ l.length ∧
            (level = max nl H ∨ nAnch lvs level p ≠ nAnch lvs b p)
        · -- the suc side also breaks here
          have hjn := hsj.1
          have hnsd : ¬sucDone lvs p b (nAnch lvs b p) := by
            rintro ⟨ℓ, h1, h2⟩
            have := hrss2 ℓ h1
            omega
          have hjlev_run : nAnch lvs (level - 1) p = nAnch lvs b p :=
            hruns (level - 1) (by omega) (by omega)
          have hjlv_gt : level - 1 < lvs.getD (nAnch lvs b p - 1) 0 := by
            have h2 := nAnch_level lvs (level - 1) p (by rw [hjlev_run]; omega)
            rwa [hjlev_run] at h2
          have hjlv_le : lvs.getD (nAnch lvs b p - 1) 0 ≤ level := by
            rcases hsj.2 with h | hne
            · have h4 : lvs.getD (nAnch lvs b p - 1) 0 ≤ H :=
                hlvle _ (getD_mem_of_lt lvs (nAnch lvs b p - 1) (by omega))
              omega
            · by_contra hgt
              push_neg at hgt
              exact hne (nAnch_run lvs b level p (nAnch lvs b p) rfl (by omega)
                (by omega) (by omega) (by omega))
          have hjlev_eq : level = lvs.getD (nAnch lvs b p - 1) 0 := by omega
          obtain ⟨hjlt, hkeyj⟩ := keyAt_isSome l (nAnch lvs b p) (by omega) hjn
          have holdj : getN nodes (l.get ⟨nAnch lvs b p - 1, hjlt⟩)
              = some (mkNode l lvs (nAnch lvs b p - 1)) := by
            rw [hmap (nAnch lvs b p - 1) hjlt]
            congr 1
            exact spliceNode_eq_old_suc l lvs p nl k a b (nAnch lvs b p)
              (by omega) (by omega) hnsd
          have hupS : updNode nodes head (suc.getD b ⟨none, 0⟩).key
              (fun nd => nd.insert_before k (min level nl) b (suc.getD b ⟨none, 0⟩).count)
              = ((setN nodes (l.get ⟨nAnch lvs b p - 1, hjlt⟩)
                    (mkNode (l.insertIdx p k) (lvs.insertIdx p nl) (nAnch lvs b p)), head),
                  .ok ()) := by
            rw [hsgb]
            show updNode nodes head (keyAt l (nAnch lvs b p))
                (fun nd => nd.insert_before k (min level nl) b (nAnch lvs b p - p)) = _
            rw [hkeyj]
            refine updNode_some_ok _ _ _ _ (mkNode l lvs (nAnch lvs b p - 1)) _ holdj ?_
            show (mkNode l lvs (nAnch lvs b p - 1)).insert_before k (min level nl) b
                (nAnch lvs b p - p) = _
            rw [hjlev_eq]
            exact sucAnchor_insert_ok l lvs p nl k hlvs hp b (nAnch lvs b p)
              (by omega) hjn rfl hrss2
          have hmapS := hmap_after_sucBreak l lvs p nl k hnd a b level (nAnch lvs b p)
            (by omega) hjlt rfl hbl hruns nodes hmap
          have hpermS : ((setN nodes (l.get ⟨nAnch lvs b p - 1, hjlt⟩)
              (mkNode (l.insertIdx p k) (lvs.insertIdx p nl) (nAnch lvs b p))).map
                Prod.fst).Perm l := by
            rw [setN_map_fst _ _ _ (by rw [holdj]; rfl)]
            exact hperm
          have hsbS : (suc.getD b ⟨none, 0⟩).key.isSome = true ∧
              (level = max nl H ∨
                (suc.get? level).map Link.key ≠ (suc.get? b).map Link.key) := by
            refine ⟨hsome_iff.mpr hjn, ?_⟩
            by_cases hlm2 : level = max nl H
            · exact Or.inl hlm2
            · rcases hsj.2 with h | hne
              · exact absurd h hlm2
              · exact Or.inr (hsuckey_ne (by omega) hne hjn)
          have hrunsS : ∀ ℓ, level ≤ ℓ → ℓ < level + 1 → nAnch lvs ℓ p = nAnch lvs level p := by
            intro ℓ h1 h2
            have h3 : ℓ = level := by omega
            rw [h3]
          have hrssS : level + 1 ≤ max nl H → ∀ ℓ, ℓ < level →
              nAnch lvs ℓ p < nAnch lvs level p := by
            intro hlt
            rcases hsj.2 with h | hne
            · exact absurd hlt (by omega)
            · exact sucRun_next_break lvs p b level hbl (by omega) hruns hrss2 hne
          rw [insSpliceGo_succ_ns k nl (max nl H) pre suc st level a b nodes head _ _ hpbN hsbS hupS]
          refine ih (level + 1) a level _ _ (by omega) (by omega) (by omega) (by omega)
            hrunpN hrspN hrunsS hrssS ?_ hpermS hmapS hhd
          intro h
          exact ⟨by omega, Or.inl (by omega)⟩
        · -- the suc side does not break here
          have hlevb : nAnch lvs level p = nAnch lvs b p := by
            by_cases hjn : nAnch lvs b p ≤ l.length
            · have hno : ¬(level = max nl H ∨ nAnch lvs level p ≠ nAnch lvs b p) :=
                fun hc => hsj ⟨hjn, hc⟩
              push_neg at hno
              exact hno.2
            · have h1 : nAnch lvs b p = l.length + 1 := by omega
              have h2 := nAnch_mono lvs b level p (by omega) (by omega)
              have h3 := nAnch_le lvs level p (by omega)
              omega
          have hsbN : ¬((suc.getD b ⟨none, 0⟩).key.isSome = true ∧
              (level = max nl H ∨
                (suc.get? level).map Link.key ≠ (suc.get? b).map Link.key)) := by
            rintro ⟨h1, h2⟩
            have hjn : nAnch lvs b p ≤ l.length := hsome_iff.mp h1
            have hno : ¬(level = max nl H ∨ nAnch lvs level p ≠ nAnch lvs b p) :=
              fun hc => hsj ⟨hjn, hc⟩
            push_neg at hno
            rcases h2 with h | hne
            · exact hno.1 h
            · exact hsuckey_eq (by omega) hno.2 hne
          have hrunsN : ∀ ℓ, b ≤ ℓ → ℓ < level + 1 → nAnch lvs ℓ p = nAnch lvs b p := by
            intro ℓ h1 h2
            rcases Nat.lt_or_ge ℓ level with h3 | h3
            · exact hruns ℓ h1 h3
            · have h4 : ℓ = level := by omega
              rw [h4, hlevb]
          have hrssN : level + 1 ≤ max nl H → ∀ ℓ, ℓ < b →
              nAnch lvs ℓ p < nAnch lvs b p := fun _ => hrss2
          have hfinN : level + 1 = max nl H + 1 →
              a = max nl H ∧ (b = max nl H ∨ nAnch lvs b p = l.length + 1) := by
            intro h
            have hlm2 : level = max nl H := by omega
            refine ⟨by omega, Or.inr ?_⟩
            have h5 : ¬(nAnch lvs b p ≤ l.length) := fun hjn => hsj ⟨hjn, Or.inl hlm2⟩
            omega
          rw [insSpliceGo_succ_nn k nl (max nl H) pre suc st level a b nodes head hpbN hsbN]
          exact ih (level + 1) a b _ _ (by omega) (by omega) (by omega) (by omega)
            hrunpN hrspN hrunsN hrssN hfinN hperm hmap hhd
      · -- a key-difference pre break at a real node
        have hpbS : level = max nl H ∨
            (pre.get? level).map Link.key ≠ (pre.get? a).map Link.key :=
          Or.inr (hprekey_ne (by omega) hpane)
        have hia1 : 1 ≤ pAnch lvs a p := by
          by_contra h0
          have h1 := pAnch_anti lvs a level p (by omega)
          omega
        have hilev_run : pAnch lvs (level - 1) p = pAnch lvs a p :=
          hrunp (level - 1) (by omega) (by omega)
        have hlv_gt : level - 1 < lvs.getD (pAnch lvs a p - 1) 0 := by
          have h2 := pAnch_level lvs (level - 1) p (by rw [hilev_run]; omega)
          rwa [hilev_run] at h2
        have hlv_le : lvs.getD (pAnch lvs a p - 1) 0 ≤ level := by
          rcases (Or.inr hpane : level = max nl H ∨ pAnch lvs level p ≠ pAnch lvs a p) with h | hne
          · have h4 : lvs.getD (pAnch lvs a p - 1) 0 ≤ H :=
              hlvle _ (getD_mem_of_lt lvs (pAnch lvs a p - 1) (by omega))
            omega
          · by_contra hgt
            push_neg at hgt
            exact hne (pAnch_run lvs a level p (pAnch lvs a p) rfl (by omega) (by omega) hgt)
        have hlev_eq : level = lvs.getD (pAnch lvs a p - 1) 0 := by omega
        have hnpd : ¬preDone lvs p a (pAnch lvs a p) := by
          rintro ⟨ℓ, h1, h2⟩
          have := hrsp2 ℓ h1
          omega
        obtain ⟨hilt, hkeyi⟩ := keyAt_isSome l (pAnch lvs a p) (by omega) (by omega)
        have holdi : getN nodes (l.get ⟨pAnch lvs a p - 1, hilt⟩)
            = some (mkNode l lvs (pAnch lvs a p - 1)) := by
          rw [hmap (pAnch lvs a p - 1) hilt]
          congr 1
          exact spliceNode_eq_old_pre l lvs p nl k a b (pAnch lvs a p)
            (by omega) hpap_le (by omega) hnpd
        have hupP : updNode nodes head (pre.getD a ⟨none, 0⟩).key
            (fun nd => nd.insert_after k (min level nl) a (pre.getD a ⟨none, 0⟩).count)
            = ((setN nodes (l.get ⟨pAnch lvs a p - 1, hilt⟩)
                  (mkNode (l.insertIdx p k) (lvs.insertIdx p nl) (pAnch lvs a p - 1)), head),
                .ok ()) := by
          rw [hpga]
          show updNode nodes head (keyAt l (pAnch lvs a p))
              (fun nd => nd.insert_after k (min level nl) a (p + 1 - pAnch lvs a p)) = _
          rw [hkeyi]
          refine updNode_some_ok _ _ _ _ (mkNode l lvs (pAnch lvs a p - 1)) _ holdi ?_
          show (mkNode l lvs (pAnch lvs a p - 1)).insert_after k (min level nl) a
              (p + 1 - pAnch lvs a p) = _
          rw [hlev_eq]
          exact preAnchor_insert_ok l lvs p nl k hlvs hp a (pAnch lvs a p)
            (by omega) hpap_le rfl hrsp2
        have hmapP := hmap_after_preBreak l lvs p nl k hnd a b level (pAnch lvs a p)
          (by omega) hpap_le hilt rfl hal hrunp nodes hmap
        have hpermP : ((setN nodes (l.get ⟨pAnch lvs a p - 1, hilt⟩)
            (mkNode (l.insertIdx p k) (lvs.insertIdx p nl) (pAnch lvs a p - 1))).map
              Prod.fst).Perm l := by
          rw [setN_map_fst _ _ _ (by rw [holdi]; rfl)]
          exact hperm
        have hhdP : head = (if preDone lvs p level 0
            then mkHead (l.insertIdx p k) (lvs.insertIdx p nl) (max nl H) else head0) := by
          rw [hhd]
          exact (if_congr (preDone_congr lvs p a level 0 (by omega)
            (fun ℓ h1 h2 => by rw [hrunp ℓ h1 h2]; omega)) rfl rfl).symm
        have hrunpP : ∀ ℓ, level ≤ ℓ → ℓ < level + 1 → pAnch lvs ℓ p = pAnch lvs level p := by
          intro ℓ h1 h2
          have h3 : ℓ = level := by omega
          rw [h3]
        have hrspP : level + 1 ≤ max nl H → ∀ ℓ, ℓ < level →
            pAnch lvs level p < pAnch lvs ℓ p :=
          fun _ => preRun_next_break lvs p a level hal hrunp hrsp2 hpane
        by_cases hsj : nAnch lvs b p ≤ l.length ∧
            (level = max nl H ∨ nAnch lvs level p ≠ nAnch lvs b p)
        · -- the suc side also breaks here
          have hjn := hsj.1
          have hnsd : ¬sucDone lvs p b (nAnch lvs b p) := by
            rintro ⟨ℓ, h1, h2⟩
            have := hrss2 ℓ h1
            omega
          have hjlev_run : nAnch lvs (level - 1) p = nAnch lvs b p :=
            hruns (level - 1) (by omega) (by omega)
          have hjlv_gt : level - 1 < lvs.getD (nAnch lvs b p - 1) 0 := by
            have h2 := nAnch_level lvs (level - 1) p (by rw [hjlev_run]; omega)
            rwa [hjlev_run] at h2
          have hjlv_le : lvs.getD (nAnch lvs b p - 1) 0 ≤ level := by
            rcases hsj.2 with h | hne
            · have h4 : lvs.getD (nAnch lvs b p - 1) 0 ≤ H :=
                hlvle _ (getD_mem_of_lt lvs (nAnch lvs b p - 1) (by omega))
              omega
            · by_contra hgt
              push_neg at hgt
              exact hne (nAnch_run lvs b level p (nAnch lvs b p) rfl (by omega)
                (by omega) (by omega) (by omega))
          have hjlev_eq : level = lvs.getD (nAnch lvs b p - 1) 0 := by omega
          obtain ⟨hjlt, hkeyj⟩ := keyAt_isSome l (nAnch lvs b p) (by omega) hjn
          have holdj : getN (setN nodes (l.get ⟨pAnch lvs a p - 1, hilt⟩)
                (mkNode (l.insertIdx p k) (lvs.insertIdx p nl) (pAnch lvs a p - 1))) (l.get ⟨nAnch lvs b p - 1, hjlt⟩)
              = some (mkNode l lvs (nAnch lvs b p - 1)) := by
            rw [hmapP (nAnch lvs b p - 1) hjlt]
            congr 1
            exact spliceNode_eq_old_suc l lvs p nl k level b (nAnch lvs b p)
              (by omega) (by omega) hnsd
          have hupS : updNode (setN nodes (l.get ⟨pAnch lvs a p - 1, hilt⟩)
                (mkNode (l.insertIdx p k) (lvs.insertIdx p nl) (pAnch lvs a p - 1))) head (suc.getD b ⟨none, 0⟩).key
              (fun nd => nd.insert_before k (min level nl) b (suc.getD b ⟨none, 0⟩).count)
              = ((setN (setN nodes (l.get ⟨pAnch lvs a p - 1, hilt⟩)
                (mkNode (l.insertIdx p k) (lvs.insertIdx p nl) (pAnch lvs a p - 1))) (l.get ⟨nAnch lvs b p - 1, hjlt⟩)
                    (mkNode (l.insertIdx p k) (lvs.insertIdx p nl) (nAnch lvs b p)), head),
                  .ok ()) := by
            rw [hsgb]
            show updNode (setN nodes (l.get ⟨pAnch lvs a p - 1, hilt⟩)
                (mkNode (l.insertIdx p k) (lvs.insertIdx p nl) (pAnch lvs a p - 1))) head (keyAt l (nAnch lvs b p))
                (fun nd => nd.insert_before k (min level nl) b (nAnch lvs b p - p)) = _
            rw [hkeyj]
            refine updNode_some_ok _ _ _ _ (mkNode l lvs (nAnch lvs b p - 1)) _ holdj ?_
            show (mkNode l lvs (nAnch lvs b p - 1)).insert_before k (min level nl) b
                (nAnch lvs b p - p) = _
            rw [hjlev_eq]
            exact sucAnchor_insert_ok l lvs p nl k hlvs hp b (nAnch lvs b p)
              (by omega) hjn rfl hrss2
          have hmapS := hmap_after_sucBreak l lvs p nl k hnd level b level (nAnch lvs b p)
            (by omega) hjlt rfl hbl hruns (setN nodes (l.get ⟨pAnch lvs a p - 1, hilt⟩)
                (mkNode (l.insertIdx p k) (lvs.insertIdx p nl) (pAnch lvs a p - 1))) hmapP
          have hpermS : ((setN (setN nodes (l.get ⟨pAnch lvs a p - 1, hilt⟩)
                (mkNode (l.insertIdx p k) (lvs.insertIdx p nl) (pAnch lvs a p - 1))) (l.get ⟨nAnch lvs b p - 1, hjlt⟩)
              (mkNode (l.insertIdx p k) (lvs.insertIdx p nl) (nAnch lvs b p))).map
                Prod.fst).Perm l := by
            rw [setN_map_fst _ _ _ (by rw [holdj]; rfl)]
            exact hpermP
          have hsbS : (suc.getD b ⟨none, 0⟩).key.isSome = true ∧
              (level = max nl H ∨
                (suc.get? level).map Link.key ≠ (suc.get? b).map Link.key) := by
            refine ⟨hsome_iff.mpr hjn, ?_⟩
            by_cases hlm2 : level = max nl H
            · exact Or.inl hlm2
            · rcases hsj.2 with h | hne
              · exact absurd h hlm2
              · exact Or.inr (hsuckey_ne (by omega) hne hjn)
          have hrunsS : ∀ ℓ, level ≤ ℓ → ℓ < level + 1 → nAnch lvs ℓ p = nAnch lvs level p := by
            intro ℓ h1 h2
            have h3 : ℓ = level := by omega
            rw [h3]
          have hrssS : level + 1 ≤ max nl H → ∀ ℓ, ℓ < level →
              nAnch lvs ℓ p < nAnch lvs level p := by
            intro hlt
            rcases hsj.2 with h | hne
            · exact absurd hlt (by omega)
            · exact sucRun_next_break lvs p b level hbl (by omega) hruns hrss2 hne
          rw [insSpliceGo_succ_bs k nl (max nl H) pre suc st level a b nodes head _ _ _ _ hpbS hupP hsbS hupS]
          refine ih (level + 1) level level _ _ (by omega) (by omega) (by omega) (by omega)
            hrunpP hrspP hrunsS hrssS ?_ hpermS hmapS hhdP
          intro h
          exact ⟨by omega, Or.inl (by omega)⟩
        · -- the suc side does not break here
          have hlevb : nAnch lvs level p = nAnch lvs b p := by
            by_cases hjn : nAnch lvs b p ≤ l.length
            · have hno : ¬(level = max nl H ∨ nAnch lvs level p ≠ nAnch lvs b p) :=
                fun hc => hsj ⟨hjn, hc⟩
              push_neg at hno
              exact hno.2
            · have h1 : nAnch lvs b p = l.length + 1 := by omega
              have h2 := nAnch_mono lvs b level p (by omega) (by omega)
              have h3 := nAnch_le lvs level p (by omega)
              omega
          have hsbN : ¬((suc.getD b ⟨none, 0⟩).key.isSome = true ∧
              (level = max nl H ∨
                (suc.get? level).map Link.key ≠ (suc.get? b).map Link.key)) := by
            rintro ⟨h1, h2⟩
            have hjn : nAnch lvs b p ≤ l.length := hsome_iff.mp h1
            have hno : ¬(level = max nl H ∨ nAnch lvs level p ≠ nAnch lvs b p) :=
              fun hc => hsj ⟨hjn, hc⟩
            push_neg at hno
            rcases h2 with h | hne
            · exact hno.1 h
            · exact hsuckey_eq (by omega) hno.2 hne
          have hrunsN : ∀ ℓ, b ≤ ℓ → ℓ < level + 1 → nAnch lvs ℓ p = nAnch lvs b p := by
            intro ℓ h1 h2
            rcases Nat.lt_or_ge ℓ level with h3 | h3
            · exact hruns ℓ h1 h3
            · have h4 : ℓ = level := by omega
              rw [h4, hlevb]
          have hrssN : level + 1 ≤ max nl H → ∀ ℓ, ℓ < b →
              nAnch lvs ℓ p < nAnch lvs b p := fun _ => hrss2
          have hfinN : level + 1 = max nl H + 1 →
              level = max nl H ∧ (b = max nl H ∨ nAnch lvs b p = l.length + 1) := by
            intro h
            have hlm2 : level = max nl H := by omega
            refine ⟨by omega, Or.inr ?_⟩
            have h5 : ¬(nAnch lvs b p ≤ l.length) := fun hjn => hsj ⟨hjn, Or.inl hlm2⟩
            omega
          rw [insSpliceGo_succ_bn k nl (max nl H) pre suc st level a b nodes head _ _ hpbS hupP hsbN]
          exact ih (level + 1) level b _ _ (by omega) (by omega) (by omega) (by omega)
            hrunpP hrspP hrunsN hrssN hfinN hpermP hmapP hhdP



/-! ### `_insert_after` on a well-formed skip list -/

theorem setN_map_fst_absent (m : List (K × Node K)) (k : K) (nd : Node K)
    (h : getN m k = none) : (setN m k nd).map Prod.fst = m.map Prod.fst ++ [k] := by
  induction m with
  | nil => rfl
  | cons e t ih =>
    match e with
    | (a, b) =>
      unfold getN at h
      by_cases hc : a = k
      · rw [if_pos hc] at h
        cases h
      · rw [if_neg hc] at h
        unfold setN
        rw [if_neg hc]
        simp [ih h]


theorem get?_range_map {α : Type} (f : Nat → α) (n ℓ : Nat) (h : ℓ < n) :
    ((List.range n).map f).get? ℓ = some (f ℓ) := by
  rw [List.get?_eq_getElem?, List.getElem?_map, List.getElem?_range h]
  rfl

theorem spliceNode_zero (l : List K) (lvs : List Nat) (p nl : Nat) (k : K) (m : Nat) :
    spliceNode l lvs p nl k 0 0 m = mkNode l lvs m := by
  unfold spliceNode
  rw [if_neg (by rintro ⟨ℓ, h1, h2⟩; omega), if_neg (by rintro ⟨ℓ, h1, h2⟩; omega)]

theorem Node.successor_eq (n : Node K) :
    n.successor = (match n.next.get? 0 with
                   | none => none
                   | some lk => lk.key) := by
  unfold Node.successor
  cases hnx : n.next with
  | nil => rfl
  | cons lk t => rfl

theorem takeRangeMap {α : Type} (f : Nat → α) (n m : Nat) (h : m ≤ n) :
    ((List.range n).map f).take m = (List.range m).map f := by
  rw [← List.map_take, List.take_range, Nat.min_eq_left h]

theorem insert_after_wf (sl : SkipList K) (l : List K) (lvs : List Nat)
    (hwf : Wf sl l lvs) (p : Nat) (hp : p ≤ l.length) (k : K) (hk : k ∉ l)
    (nl : Nat) (hnl : 1 ≤ nl) :
    ∃ sl', sl._insert_after (keyAt l p) k nl = some (sl', .ok ()) ∧
      sl'.len = sl.len + 1 ∧
      sl'.head.level = max nl sl.head.level ∧
      Wf sl' (l.insertIdx p k) (lvs.insertIdx p nl) := by
  have hlvs := hwf.lvs_len
  have hnd := hwf.nodup
  have hlv1 := hwf.lv_pos
  have hlvle := hwf.lv_le
  have hH := hwf.head_pos
  have hnlen := hwf.nodes_length
  have hlen' : (l.insertIdx p k).length = l.length + 1 := List.length_insertIdx p l hp
  have hlvslen' : (lvs.insertIdx p nl).length = lvs.length + 1 :=
    List.length_insertIdx p lvs (by omega)
  -- the state of the `get_node`/`successor` step
  obtain ⟨nd0, hnd0, hsucc0⟩ : ∃ nd0, sl.get_node (keyAt l p) = .ok nd0 ∧
      nd0.successor = keyAt l (p + 1) := by
    rcases Nat.eq_zero_or_pos p with hp0 | hp0
    · subst hp0
      refine ⟨sl.head, rfl, ?_⟩
      rcases hwf.head_eq with hh | ⟨hl0, hh⟩
      · rw [hh, Node.successor_eq]
        rw [mkHead_next_get? l lvs _ 0 (by omega)]
        show (mkLinkNext l lvs 0 0).key = keyAt l (0 + 1)
        show keyAt l (nAnch lvs 0 0) = keyAt l (0 + 1)
        have h2 : nAnch lvs 0 0 = 1 := nAnch_zero lvs hlv1 1 (by omega) (by omega)
        rw [h2]
      · rw [hh]
        show (none : Option K) = keyAt l (0 + 1)
        rw [keyAt_eq_none l (0 + 1) (by rw [hl0]; simp)]
    · obtain ⟨hplt, hkp⟩ := keyAt_isSome l p hp0 hp
      refine ⟨mkNode l lvs (p - 1), ?_, ?_⟩
      · show sl.get_node (keyAt l p) = _
        rw [hkp]
        unfold SkipList.get_node
        simp only []
        rw [hwf.lookup_eq (p - 1) hplt]
      · rw [Node.successor_eq]
        have hlvp : 1 ≤ lvs.getD (p - 1) 0 := lv_getD_ge_one lvs hlv1 (p - 1) (by omega)
        rw [mkNode_next_get? l lvs (p - 1) 0 (by omega)]
        show (mkLinkNext l lvs (p - 1 + 1) 0).key = _
        have hpp : p - 1 + 1 = p := by omega
        rw [hpp]
        show keyAt l (nAnch lvs 0 p) = _
        have h2 : nAnch lvs 0 p = p + 1 := by
          have h3 := nAnch_zero lvs hlv1 (p + 1) (by omega) (by omega)
          simpa using h3
        rw [h2]
  -- the walks
  have hpredOk : sl.predecessors (keyAt l p) (max nl sl.head.level) =
      some (.ok ((List.range (max nl sl.head.level)).map (preLink l lvs p))) :=
    predecessors_ok sl l lvs hlvs hlv1 l.length hwf.mapsUpTo (le_refl _)
      (by omega) p hp _ (by omega)
  have hsucOk : sl.successors (keyAt l (p + 1)) (max nl sl.head.level) =
      some (.ok ((List.range (max nl sl.head.level)).map (sucLink l lvs (p + 1)))) :=
    successors_ok sl l lvs hlvs hlv1 1 hwf.mapsFrom (p + 1) (by omega) (by omega)
      (by omega) (by omega) _ (by omega)
  -- the splice loop
  have hhead0 : sl.head = mkHead l lvs sl.head.level ∨
      (l = [] ∧ sl.head.level = 1 ∧
        sl.head = { next := [], prev := [], level := 1, is_head := true }) := by
    rcases hwf.head_eq with hh | ⟨hl0, hh⟩
    · exact Or.inl hh
    · exact Or.inr ⟨hl0, by rw [hh], hh⟩
  obtain ⟨nodes₁, hsplice, hperm₁, hmap₁⟩ :=
    insSpliceGo_ok l lvs p nl k sl.head.level hlvs hnd hlv1 hlvle hp hnl hH
      sl.head hhead0
      ((List.range (max nl sl.head.level)).map (preLink l lvs p))
      ((List.range (max nl sl.head.level)).map (sucLink l lvs (p + 1)))
      (fun ℓ hℓ => get?_range_map _ _ ℓ hℓ)
      (fun ℓ hℓ => get?_range_map _ _ ℓ hℓ)
      (max nl sl.head.level) 1 0 0 sl.nodes sl.head
      (by omega) (le_refl 1) (by omega) (by omega)
      (fun ℓ h1 h2 => by rw [show ℓ = 0 from by omega])
      (fun _ ℓ hℓ => absurd hℓ (by omega))
      (fun ℓ h1 h2 => by rw [show ℓ = 0 from by omega])
      (fun _ ℓ hℓ => absurd hℓ (by omega))
      (fun h => absurd h (by omega))
      hwf.keys_perm
      (fun m hm => by rw [hwf.lookup_eq m hm, spliceNode_zero])
      (by rw [if_neg (by rintro ⟨ℓ, h1, h2⟩; omega)])
  -- the freshly inserted node is the model node at index `p`
  have hnewnode : ({ next := ((List.range (max nl sl.head.level)).map
                       (sucLink l lvs (p + 1))).take nl,
                     prev := ((List.range (max nl sl.head.level)).map
                       (preLink l lvs p)).take nl,
                     level := nl, is_head := false } : Node K)
      = mkNode (l.insertIdx p k) (lvs.insertIdx p nl) p := by
    refine node_eq_of_fields _ _ ?_ ?_ ?_ rfl
    · show ((List.range (max nl sl.head.level)).map (sucLink l lvs (p + 1))).take nl
        = (List.range ((lvs.insertIdx p nl).getD p 0)).map
            (mkLinkNext (l.insertIdx p k) (lvs.insertIdx p nl) (p + 1))
      rw [takeRangeMap _ _ nl (by omega), getD_insertIdx_self lvs p nl (by omega)]
      exact (List.map_congr_left fun ℓ hℓ =>
        linkNext_ins_new l lvs p nl k hlvs hp ℓ).symm
    · show ((List.range (max nl sl.head.level)).map (preLink l lvs p)).take nl
        = (List.range ((lvs.insertIdx p nl).getD p 0)).map
            (mkLinkPrev (l.insertIdx p k) (lvs.insertIdx p nl) (p + 1))
      rw [takeRangeMap _ _ nl (by omega), getD_insertIdx_self lvs p nl (by omega)]
      exact (List.map_congr_left fun ℓ hℓ =>
        linkPrev_ins_new l lvs p nl k hlvs hp ℓ).symm
    · show nl = (mkNode (l.insertIdx p k) (lvs.insertIdx p nl) p).level
      rw [mkNode_level, getD_insertIdx_self lvs p nl (by omega)]
  have hknot1 : getN nodes₁ k = none := by
    cases hgk : getN nodes₁ k with
    | none => rfl
    | some nd => exact absurd (hperm₁.mem_iff.mp (getN_mem_keys hgk)) hk
  refine ⟨{ nodes := setN nodes₁ k (mkNode (l.insertIdx p k) (lvs.insertIdx p nl) p),
            head := mkHead (l.insertIdx p k) (lvs.insertIdx p nl) (max nl sl.head.level),
            len := sl.len + 1 }, ?_, rfl, rfl, ?_⟩
  · -- the computation of `_insert_after`
    simp only [SkipList._insert_after]
    have hcont : containsN sl.nodes k = false := by
      unfold containsN
      rw [hwf.getN_none hk]
      rfl
    rw [hcont, if_neg Bool.false_ne_true, hnd0]
    simp only []
    rw [hsucc0, hpredOk]
    simp only []
    rw [hsucOk]
    simp only []
    rw [hsplice]
    simp only []
    rw [hnewnode]
  · -- well-formedness of the result
    have hpermFinal : ((setN nodes₁ k
        (mkNode (l.insertIdx p k) (lvs.insertIdx p nl) p)).map Prod.fst).Perm
          (l.insertIdx p k) := by
      rw [setN_map_fst_absent nodes₁ k _ hknot1]
      exact (hperm₁.append_right [k]).trans
        ((List.perm_append_singleton k l).trans (List.perm_insertIdx k l hp).symm)
    refine { len_eq := ?_, lvs_len := ?_, nodup := ?_, lv_pos := ?_, lv_le := ?_,
             head_pos := ?_, head_eq := ?_, keys_perm := hpermFinal, lookup_eq := ?_ }
    · show sl.len + 1 = (l.insertIdx p k).length
      have := hwf.len_eq
      omega
    · show (lvs.insertIdx p nl).length = (l.insertIdx p k).length
      omega
    · exact (List.perm_insertIdx k l hp).nodup_iff.mpr (List.nodup_cons.mpr ⟨hk, hnd⟩)
    · intro v hv
      rcases List.mem_cons.mp ((List.perm_insertIdx nl lvs (by omega)).mem_iff.mp hv) with h | h
      · omega
      · exact hlv1 v h
    · intro v hv
      show v ≤ (mkHead (l.insertIdx p k) (lvs.insertIdx p nl) (max nl sl.head.level)).level
      rw [mkHead_level]
      rcases List.mem_cons.mp ((List.perm_insertIdx nl lvs (by omega)).mem_iff.mp hv) with h | h
      · omega
      · have := hlvle v h
        omega
    · show 1 ≤ (mkHead (l.insertIdx p k) (lvs.insertIdx p nl) (max nl sl.head.level)).level
      rw [mkHead_level]
      omega
    · exact Or.inl rfl
    · intro m' hm'
      show getN (setN nodes₁ k (mkNode (l.insertIdx p k) (lvs.insertIdx p nl) p)) _ = _
      rcases Nat.lt_trichotomy m' p with hc | hc | hc
      · -- position before the insertion point
        have hml : m' < l.length := by omega
        have hkey : (l.insertIdx p k).get ⟨m', hm'⟩ = l.get ⟨m', hml⟩ := by
          have h1 : (l.insertIdx p k).get? m' = some ((l.insertIdx p k).get ⟨m', hm'⟩) :=
            List.get?_eq_get hm'
          have h2 : l.get? m' = some (l.get ⟨m', hml⟩) := List.get?_eq_get hml
          have h3 : (l.insertIdx p k).get? m' = l.get? m' := get?_insertIdx_lt k l p m' hc
          exact Option.some.inj ((h1.symm.trans h3).trans h2)
        rw [hkey]
        rw [getN_setN_ne nodes₁ k _ _ (fun he => hk (he ▸ List.get_mem l m' hml))]
        rw [hmap₁ m' hml, if_pos hc]
      · -- the new key
        have hkey : (l.insertIdx p k).get ⟨m', hm'⟩ = k := by
          have h1 : (l.insertIdx p k).get? m' = some ((l.insertIdx p k).get ⟨m', hm'⟩) :=
            List.get?_eq_get hm'
          have h3 : (l.insertIdx p k).get? m' = some k := by
            rw [hc]
            exact get?_insertIdx_self k l p hp
          exact Option.some.inj (h1.symm.trans h3)
        rw [hkey, getN_setN_self nodes₁ k _, hc]
      · -- positions after the insertion point
        have hml : m' - 1 < l.length := by omega
        have hm1 : m' - 1 + 1 = m' := by omega
        have hkey : (l.insertIdx p k).get ⟨m', hm'⟩ = l.get ⟨m' - 1, hml⟩ := by
          have h1 : (l.insertIdx p k).get? m' = some ((l.insertIdx p k).get ⟨m', hm'⟩) :=
            List.get?_eq_get hm'
          have h2 : l.get? (m' - 1) = some (l.get ⟨m' - 1, hml⟩) := List.get?_eq_get hml
          have h3 : (l.insertIdx p k).get? (m' - 1 + 1) = l.get? (m' - 1) :=
            get?_insertIdx_ge k l p (m' - 1) (by omega) hp
          have h4 : (l.insertIdx p k).get? m' = l.get? (m' - 1) := hm1 ▸ h3
          exact Option.some.inj ((h1.symm.trans h4).trans h2)
        rw [hkey]
        rw [getN_setN_ne nodes₁ k _ _ (fun he => hk (he ▸ List.get_mem l (m' - 1) hml))]
        rw [hmap₁ (m' - 1) hml, if_neg (by omega)]
        rw [hm1]


/-! ### Effect of `eraseIdx` on positions, keys and anchors -/

theorem get?_eraseIdx_lt {α : Type} :
    ∀ (l : List α) (p i : Nat), i < p → (l.eraseIdx p).get? i = l.get? i := by
  intro l
  induction l with
  | nil =>
    intro p i h
    cases p with
    | zero => omega
    | succ q => rfl
  | cons x xs ih =>
    intro p i h
    cases p with
    | zero => omega
    | succ q =>
      show (x :: xs.eraseIdx q).get? i = _
      cases i with
      | zero => rfl
      | succ m => exact ih q m (by omega)

theorem get?_eraseIdx_ge {α : Type} :
    ∀ (l : List α) (p i : Nat), p ≤ i → (l.eraseIdx p).get? i = l.get? (i + 1) := by
  intro l
  induction l with
  | nil =>
    intro p i h
    cases p with
    | zero => rfl
    | succ q => rfl
  | cons x xs ih =>
    intro p i h
    cases p with
    | zero => rfl
    | succ q =>
      show (x :: xs.eraseIdx q).get? i = _
      cases i with
      | zero => omega
      | succ m => exact ih q m (by omega)

theorem eraseIdx_length {α : Type} (l : List α) (p : Nat) (h : p < l.length) :
    (l.eraseIdx p).length = l.length - 1 := by
  rw [List.length_eraseIdx]
  rw [if_pos h]

theorem getD_eraseIdx_lt (lvs : List Nat) (p i : Nat) (h : i < p) :
    (lvs.eraseIdx p).getD i 0 = lvs.getD i 0 := by
  simp only [List.getD, ← List.get?_eq_getElem?]
  rw [get?_eraseIdx_lt lvs p i h]

theorem getD_eraseIdx_ge (lvs : List Nat) (p i : Nat) (h : p ≤ i) :
    (lvs.eraseIdx p).getD i 0 = lvs.getD (i + 1) 0 := by
  simp only [List.getD, ← List.get?_eq_getElem?]
  rw [get?_eraseIdx_ge lvs p i h]

theorem keyAt_eraseIdx_le (l : List K) (r j : Nat) (h : j ≤ r - 1) (hr : 1 ≤ r) :
    keyAt (l.eraseIdx (r - 1)) j = keyAt l j := by
  unfold keyAt
  by_cases h0 : j = 0
  · rw [if_pos h0, if_pos h0]
  · rw [if_neg h0, if_neg h0]
    exact get?_eraseIdx_lt l (r - 1) (j - 1) (by omega)

theorem keyAt_eraseIdx_ge (l : List K) (r j : Nat) (h : r ≤ j) (hr : 1 ≤ r) :
    keyAt (l.eraseIdx (r - 1)) j = keyAt l (j + 1) := by
  unfold keyAt
  rw [if_neg (by omega), if_neg (by omega)]
  have h2 : j + 1 - 1 = j - 1 + 1 := by omega
  rw [h2]
  exact get?_eraseIdx_ge l (r - 1) (j - 1) (by omega)

theorem pAnch_congr (lvs : List Nat) (ℓ : Nat) :
    ∀ (i' i : Nat), i ≤ i' → (∀ m, i < m → m ≤ i' → lvs.getD (m - 1) 0 ≤ ℓ) →
      pAnch lvs ℓ i' = pAnch lvs ℓ i := by
  intro i'
  induction i' with
  | zero =>
    intro i h1 h2
    have h3 : i = 0 := by omega
    rw [h3]
  | succ n ih =>
    intro i h1 h2
    rcases Nat.lt_or_ge i (n + 1) with h3 | h3
    · show (if ℓ < lvs.getD n 0 then n + 1 else pAnch lvs ℓ n) = _
      rw [if_neg (by
        have h5 := h2 (n + 1) (by omega) (le_refl _)
        rw [Nat.add_sub_cancel] at h5
        omega)]
      exact ih i (by omega) (fun m hm1 hm2 => h2 m hm1 (by omega))
    · have h4 : i = n + 1 := by omega
      rw [h4]

theorem pAnch_era_front (lvs : List Nat) (r ℓ : Nat) (hr : 1 ≤ r) :
    ∀ m, m ≤ r - 1 → pAnch (lvs.eraseIdx (r - 1)) ℓ m = pAnch lvs ℓ m := by
  intro m
  induction m with
  | zero =>
    intro h
    rfl
  | succ n ih =>
    intro h
    show (if ℓ < (lvs.eraseIdx (r - 1)).getD n 0 then n + 1 else pAnch _ ℓ n)
      = (if ℓ < lvs.getD n 0 then n + 1 else pAnch lvs ℓ n)
    rw [getD_eraseIdx_lt lvs (r - 1) n (by omega)]
    by_cases hc : ℓ < lvs.getD n 0
    · rw [if_pos hc, if_pos hc]
    · rw [if_neg hc, if_neg hc]
      exact ih (by omega)

theorem nAnch_era_low (lvs : List Nat) (r ℓ i : Nat) (hr : 1 ≤ r) (hrn : r ≤ lvs.length)
    (hi : i ≤ r - 1) (h : nAnch lvs ℓ i ≤ r - 1) :
    nAnch (lvs.eraseIdx (r - 1)) ℓ i = nAnch lvs ℓ i := by
  have hgt := nAnch_gt lvs ℓ i
  have hlen : (lvs.eraseIdx (r - 1)).length = lvs.length - 1 :=
    eraseIdx_length lvs (r - 1) (by omega)
  refine nAnch_eq _ ℓ i (nAnch lvs ℓ i) hgt (by omega) ?_ ?_ (by omega)
  · right
    rw [getD_eraseIdx_lt lvs (r - 1) _ (by omega)]
    exact nAnch_level lvs ℓ i (by omega)
  · intro m h1 h2
    rw [getD_eraseIdx_lt lvs (r - 1) _ (by omega)]
    exact nAnch_gap lvs ℓ i m h1 h2

theorem nAnch_era_bridge (lvs : List Nat) (r ℓ i : Nat) (hr : 1 ≤ r) (hrn : r ≤ lvs.length)
    (hi : i ≤ r - 1) (h : nAnch lvs ℓ i = r) :
    nAnch (lvs.eraseIdx (r - 1)) ℓ i = nAnch lvs ℓ r - 1 := by
  have hgt := nAnch_gt lvs ℓ r
  have hle := nAnch_le lvs ℓ r (by omega)
  have hlen : (lvs.eraseIdx (r - 1)).length = lvs.length - 1 :=
    eraseIdx_length lvs (r - 1) (by omega)
  refine nAnch_eq _ ℓ i (nAnch lvs ℓ r - 1) (by omega) (by omega) ?_ ?_ (by omega)
  · rcases Nat.lt_or_ge (nAnch lvs ℓ r) (lvs.length + 1) with h2 | h2
    · right
      rw [getD_eraseIdx_ge lvs (r - 1) _ (by omega)]
      have h3 : nAnch lvs ℓ r - 1 - 1 + 1 = nAnch lvs ℓ r - 1 := by omega
      rw [h3]
      exact nAnch_level lvs ℓ r (by omega)
    · left
      omega
  · intro m h1 h2
    rcases Nat.lt_or_ge m r with h3 | h3
    · rw [getD_eraseIdx_lt lvs (r - 1) _ (by omega)]
      exact nAnch_gap lvs ℓ i m h1 (by omega)
    · rw [getD_eraseIdx_ge lvs (r - 1) _ (by omega)]
      have h4 : m - 1 + 1 = m + 1 - 1 := by omega
      rw [h4]
      exact nAnch_gap lvs ℓ r (m + 1) (by omega) (by omega)

theorem nAnch_era_skip (lvs : List Nat) (r ℓ i : Nat) (hr : 1 ≤ r) (hrn : r ≤ lvs.length)
    (hi : i ≤ r - 1) (h : r + 1 ≤ nAnch lvs ℓ i) :
    nAnch (lvs.eraseIdx (r - 1)) ℓ i = nAnch lvs ℓ i - 1 := by
  have hle := nAnch_le lvs ℓ i (by omega)
  have hlen : (lvs.eraseIdx (r - 1)).length = lvs.length - 1 :=
    eraseIdx_length lvs (r - 1) (by omega)
  refine nAnch_eq _ ℓ i (nAnch lvs ℓ i - 1) (by omega) (by omega) ?_ ?_ (by omega)
  · rcases Nat.lt_or_ge (nAnch lvs ℓ i) (lvs.length + 1) with h2 | h2
    · right
      rw [getD_eraseIdx_ge lvs (r - 1) _ (by omega)]
      have h3 : nAnch lvs ℓ i - 1 - 1 + 1 = nAnch lvs ℓ i - 1 := by omega
      rw [h3]
      exact nAnch_level lvs ℓ i (by omega)
    · left
      omega
  · intro m h1 h2
    rcases Nat.lt_or_ge m r with h3 | h3
    · rw [getD_eraseIdx_lt lvs (r - 1) _ (by omega)]
      exact nAnch_gap lvs ℓ i m h1 (by omega)
    · rw [getD_eraseIdx_ge lvs (r - 1) _ (by omega)]
      have h4 : m - 1 + 1 = m + 1 - 1 := by omega
      rw [h4]
      exact nAnch_gap lvs ℓ i (m + 1) (by omega) (by omega)

theorem nAnch_era_shift (lvs : List Nat) (r ℓ q : Nat) (hr : 1 ≤ r) (hrn : r ≤ lvs.length)
    (hq : r ≤ q) (hqn : q ≤ lvs.length) :
    nAnch (lvs.eraseIdx (r - 1)) ℓ (q - 1) = nAnch lvs ℓ q - 1 := by
  have hgt := nAnch_gt lvs ℓ q
  have hle := nAnch_le lvs ℓ q (by omega)
  have hlen : (lvs.eraseIdx (r - 1)).length = lvs.length - 1 :=
    eraseIdx_length lvs (r - 1) (by omega)
  refine nAnch_eq _ ℓ (q - 1) (nAnch lvs ℓ q - 1) (by omega) (by omega) ?_ ?_ (by omega)
  · rcases Nat.lt_or_ge (nAnch lvs ℓ q) (lvs.length + 1) with h2 | h2
    · right
      rw [getD_eraseIdx_ge lvs (r - 1) _ (by omega)]
      have h3 : nAnch lvs ℓ q - 1 - 1 + 1 = nAnch lvs ℓ q - 1 := by omega
      rw [h3]
      exact nAnch_level lvs ℓ q (by omega)
    · left
      omega
  · intro m h1 h2
    rw [getD_eraseIdx_ge lvs (r - 1) _ (by omega)]
    have h4 : m - 1 + 1 = m + 1 - 1 := by omega
    rw [h4]
    exact nAnch_gap lvs ℓ q (m + 1) (by omega) (by omega)

theorem pAnch_era_shift_high (lvs : List Nat) (r ℓ m : Nat) (hr : 1 ≤ r)
    (hm : r ≤ m) (hq : r + 1 ≤ pAnch lvs ℓ m) :
    pAnch (lvs.eraseIdx (r - 1)) ℓ (m - 1) = pAnch lvs ℓ m - 1 := by
  have hle := pAnch_le lvs ℓ m
  refine pAnch_eq _ ℓ (m - 1) (pAnch lvs ℓ m - 1) (by omega) ?_ ?_
  · right
    rw [getD_eraseIdx_ge lvs (r - 1) _ (by omega)]
    have h3 : pAnch lvs ℓ m - 1 - 1 + 1 = pAnch lvs ℓ m - 1 := by omega
    rw [h3]
    exact pAnch_level lvs ℓ m (by omega)
  · intro m' h1 h2
    rw [getD_eraseIdx_ge lvs (r - 1) _ (by omega)]
    have h4 : m' - 1 + 1 = m' + 1 - 1 := by omega
    rw [h4]
    exact pAnch_gap lvs ℓ m (m' + 1) (by omega) (by omega)

theorem pAnch_era_to_old (lvs : List Nat) (r ℓ m : Nat) (hr : 1 ≤ r)
    (hm : r ≤ m) (hA : pAnch lvs ℓ m ≤ r) :
    pAnch (lvs.eraseIdx (r - 1)) ℓ (m - 1) = pAnch lvs ℓ (r - 1) := by
  have hle := pAnch_le lvs ℓ (r - 1)
  refine pAnch_eq _ ℓ (m - 1) (pAnch lvs ℓ (r - 1)) (by omega) ?_ ?_
  · rcases Nat.eq_zero_or_pos (pAnch lvs ℓ (r - 1)) with h0 | h0
    · exact Or.inl h0
    · right
      rw [getD_eraseIdx_lt lvs (r - 1) _ (by omega)]
      exact pAnch_level lvs ℓ (r - 1) h0
  · intro m' h1 h2
    rcases Nat.lt_or_ge m' r with h3 | h3
    · rw [getD_eraseIdx_lt lvs (r - 1) _ (by omega)]
      exact pAnch_gap lvs ℓ (r - 1) m' h1 (by omega)
    · rw [getD_eraseIdx_ge lvs (r - 1) _ (by omega)]
      have h4 : m' - 1 + 1 = m' + 1 - 1 := by omega
      rw [h4]
      exact pAnch_gap lvs ℓ m (m' + 1) (by omega) (by omega)



theorem linkNext_era_low (l : List K) (lvs : List Nat) (r : Nat)
    (hlvs : lvs.length = l.length) (hr : 1 ≤ r) (hrn : r ≤ l.length) (i ℓ : Nat)
    (hi : i ≤ r - 1) (hna : nAnch lvs ℓ i ≤ r - 1) :
    mkLinkNext (l.eraseIdx (r - 1)) (lvs.eraseIdx (r - 1)) i ℓ = mkLinkNext l lvs i ℓ := by
  unfold mkLinkNext
  rw [nAnch_era_low lvs r ℓ i hr (by omega) hi hna]
  rw [keyAt_eraseIdx_le l r (nAnch lvs ℓ i) hna hr]

theorem linkNext_era_bridge (l : List K) (lvs : List Nat) (r : Nat)
    (hlvs : lvs.length = l.length) (hr : 1 ≤ r) (hrn : r ≤ l.length) (i ℓ : Nat)
    (hi : i ≤ r - 1) (hna : nAnch lvs ℓ i = r) :
    mkLinkNext (l.eraseIdx (r - 1)) (lvs.eraseIdx (r - 1)) i ℓ
      = ⟨keyAt l (nAnch lvs ℓ r), nAnch lvs ℓ r - 1 - i⟩ := by
  unfold mkLinkNext
  rw [nAnch_era_bridge lvs r ℓ i hr (by omega) hi hna]
  have hgt := nAnch_gt lvs ℓ r
  rw [keyAt_eraseIdx_ge l r (nAnch lvs ℓ r - 1) (by omega) hr]
  have h2 : nAnch lvs ℓ r - 1 + 1 = nAnch lvs ℓ r := by omega
  rw [h2]

theorem linkNext_era_skip (l : List K) (lvs : List Nat) (r : Nat)
    (hlvs : lvs.length = l.length) (hr : 1 ≤ r) (hrn : r ≤ l.length) (i ℓ : Nat)
    (hi : i ≤ r - 1) (hna : r + 1 ≤ nAnch lvs ℓ i) :
    mkLinkNext (l.eraseIdx (r - 1)) (lvs.eraseIdx (r - 1)) i ℓ
      = ⟨(mkLinkNext l lvs i ℓ).key, (mkLinkNext l lvs i ℓ).count - 1⟩ := by
  unfold mkLinkNext
  rw [nAnch_era_skip lvs r ℓ i hr (by omega) hi hna]
  rw [keyAt_eraseIdx_ge l r (nAnch lvs ℓ i - 1) (by omega) hr]
  have h2 : nAnch lvs ℓ i - 1 + 1 = nAnch lvs ℓ i := by omega
  rw [h2]
  have h3 : nAnch lvs ℓ i - 1 - i = nAnch lvs ℓ i - i - 1 := by omega
  rw [h3]

theorem linkPrev_era_low (l : List K) (lvs : List Nat) (r : Nat)
    (hlvs : lvs.length = l.length) (hr : 1 ≤ r) (hrn : r ≤ l.length) (i ℓ : Nat)
    (hi : i ≤ r - 1) :
    mkLinkPrev (l.eraseIdx (r - 1)) (lvs.eraseIdx (r - 1)) i ℓ = mkLinkPrev l lvs i ℓ := by
  unfold mkLinkPrev
  rw [pAnch_era_front lvs r ℓ hr (i - 1) (by omega)]
  have hle := pAnch_le lvs ℓ (i - 1)
  rw [keyAt_eraseIdx_le l r (pAnch lvs ℓ (i - 1)) (by omega) hr]

theorem linkNext_era_shift (l : List K) (lvs : List Nat) (r : Nat)
    (hlvs : lvs.length = l.length) (hr : 1 ≤ r) (hrn : r ≤ l.length) (j ℓ : Nat)
    (hj : r + 1 ≤ j) (hjn : j ≤ l.length) :
    mkLinkNext (l.eraseIdx (r - 1)) (lvs.eraseIdx (r - 1)) (j - 1) ℓ
      = mkLinkNext l lvs j ℓ := by
  unfold mkLinkNext
  rw [nAnch_era_shift lvs r ℓ j hr (by omega) (by omega) (by omega)]
  have hgt := nAnch_gt lvs ℓ j
  rw [keyAt_eraseIdx_ge l r (nAnch lvs ℓ j - 1) (by omega) hr]
  have h2 : nAnch lvs ℓ j - 1 + 1 = nAnch lvs ℓ j := by omega
  rw [h2]
  have h3 : nAnch lvs ℓ j - 1 - (j - 1) = nAnch lvs ℓ j - j := by omega
  rw [h3]

theorem linkPrev_era_high (l : List K) (lvs : List Nat) (r : Nat)
    (hlvs : lvs.length = l.length) (hr : 1 ≤ r) (hrn : r ≤ l.length) (j ℓ : Nat)
    (hj : r + 1 ≤ j) (hA : r + 1 ≤ pAnch lvs ℓ (j - 1)) :
    mkLinkPrev (l.eraseIdx (r - 1)) (lvs.eraseIdx (r - 1)) (j - 1) ℓ
      = mkLinkPrev l lvs j ℓ := by
  unfold mkLinkPrev
  have h1 : j - 1 - 1 = j - 1 - 1 := rfl
  rw [pAnch_era_shift_high lvs r ℓ (j - 1) hr (by omega) hA]
  have hle := pAnch_le lvs ℓ (j - 1)
  rw [keyAt_eraseIdx_ge l r (pAnch lvs ℓ (j - 1) - 1) (by omega) hr]
  have h2 : pAnch lvs ℓ (j - 1) - 1 + 1 = pAnch lvs ℓ (j - 1) := by omega
  rw [h2]
  have h3 : j - 1 - (pAnch lvs ℓ (j - 1) - 1) = j - pAnch lvs ℓ (j - 1) := by omega
  rw [h3]

theorem linkPrev_era_bridge (l : List K) (lvs : List Nat) (r : Nat)
    (hlvs : lvs.length = l.length) (hr : 1 ≤ r) (hrn : r ≤ l.length) (j ℓ : Nat)
    (hj : r + 1 ≤ j) (hA : pAnch lvs ℓ (j - 1) ≤ r) :
    mkLinkPrev (l.eraseIdx (r - 1)) (lvs.eraseIdx (r - 1)) (j - 1) ℓ
      = ⟨keyAt l (pAnch lvs ℓ (r - 1)), j - 1 - pAnch lvs ℓ (r - 1)⟩ := by
  unfold mkLinkPrev
  rw [pAnch_era_to_old lvs r ℓ (j - 1) hr (by omega) hA]
  have hle := pAnch_le lvs ℓ (r - 1)
  rw [keyAt_eraseIdx_le l r (pAnch lvs ℓ (r - 1)) (by omega) hr]



/-! ### The merged `pre`/`suc` arrays of `_remove_key` and the removal splice -/

theorem zipWith_map_same {α β γ δ : Type} (f : β → γ → δ) (g : α → β) (h : α → γ) :
    ∀ xs : List α, List.zipWith f (xs.map g) (xs.map h) = xs.map (fun x => f (g x) (h x)) := by
  intro xs
  induction xs with
  | nil => rfl
  | cons x t ih =>
    show f (g x) (h x) :: List.zipWith f (t.map g) (t.map h) = _
    rw [ih]
    rfl

/-- Entry `ℓ` of `pre = mergedLinks pre suc` in `_remove_key` (removing the key
at 1-based position `r`). -/
def preLinkR (l : List K) (lvs : List Nat) (r ℓ : Nat) : Link K :=
  ⟨(preLink l lvs (r - 1) ℓ).key,
    (preLink l lvs (r - 1) ℓ).count + (sucLink l lvs (r + 1) ℓ).count - 1⟩

/-- Entry `ℓ` of `suc = mergedLinks suc pre` in `_remove_key`. -/
def sucLinkR (l : List K) (lvs : List Nat) (r ℓ : Nat) : Link K :=
  ⟨(sucLink l lvs (r + 1) ℓ).key,
    (sucLink l lvs (r + 1) ℓ).count + (preLink l lvs (r - 1) ℓ).count - 1⟩

theorem merged_pre (l : List K) (lvs : List Nat) (r H : Nat) :
    mergedLinks ((List.range H).map (preLink l lvs (r - 1)))
        ((List.range H).map (sucLink l lvs (r + 1)))
      = (List.range H).map (preLinkR l lvs r) := by
  unfold mergedLinks
  rw [zipWith_map_same]
  rfl

theorem merged_suc (l : List K) (lvs : List Nat) (r H : Nat) :
    mergedLinks ((List.range H).map (sucLink l lvs (r + 1)))
        ((List.range H).map (preLink l lvs (r - 1)))
      = (List.range H).map (sucLinkR l lvs r) := by
  unfold mergedLinks
  rw [zipWith_map_same]
  rfl

theorem preLinkR_eq (l : List K) (lvs : List Nat) (r ℓ : Nat) (hr : 1 ≤ r)
    (hrn : r ≤ lvs.length) :
    preLinkR l lvs r ℓ = ⟨keyAt l (pAnch lvs ℓ (r - 1)),
      nAnch lvs ℓ r - pAnch lvs ℓ (r - 1) - 1⟩ := by
  have h1 := pAnch_le lvs ℓ (r - 1)
  have h2 := nAnch_gt lvs ℓ r
  unfold preLinkR preLink sucLink
  have h3 : r + 1 - 1 = r := by omega
  rw [h3]
  show (⟨keyAt l (pAnch lvs ℓ (r - 1)),
        (r - 1 + 1 - pAnch lvs ℓ (r - 1)) + (nAnch lvs ℓ r - r) - 1⟩ : Link K) = _
  congr 1
  omega

theorem sucLinkR_eq (l : List K) (lvs : List Nat) (r ℓ : Nat) (hr : 1 ≤ r)
    (hrn : r ≤ lvs.length) :
    sucLinkR l lvs r ℓ = ⟨keyAt l (nAnch lvs ℓ r),
      nAnch lvs ℓ r - pAnch lvs ℓ (r - 1) - 1⟩ := by
  unfold sucLinkR preLink sucLink
  have h1 := pAnch_le lvs ℓ (r - 1)
  have h2 := nAnch_gt lvs ℓ r
  have h3 : r + 1 - 1 = r := by omega
  rw [h3]
  show (⟨keyAt l (nAnch lvs ℓ r),
        (nAnch lvs ℓ r - r) + (r - 1 + 1 - pAnch lvs ℓ (r - 1)) - 1⟩ : Link K) = _
  congr 1
  omega

/-- The node stored for surviving old index `m` midway through the splice loop
of `_remove_key` (removing 1-based position `r`). -/
def spliceNodeRem (l : List K) (lvs : List Nat) (r a b m : Nat) : Node K :=
  if preDone lvs (r - 1) a (m + 1) then
    mkNode (l.eraseIdx (r - 1)) (lvs.eraseIdx (r - 1)) m
  else if sucDone lvs r b (m + 1) then
    mkNode (l.eraseIdx (r - 1)) (lvs.eraseIdx (r - 1)) (m - 1)
  else mkNode l lvs m

theorem spliceNodeRem_congr (l : List K) (lvs : List Nat) (r a b a' b' m : Nat)
    (ha : a ≤ a') (hb : b ≤ b')
    (hpa : ∀ ℓ, a ≤ ℓ → ℓ < a' → pAnch lvs ℓ (r - 1) ≠ m + 1)
    (hsb : ∀ ℓ, b ≤ ℓ → ℓ < b' → nAnch lvs ℓ r ≠ m + 1) :
    spliceNodeRem l lvs r a' b' m = spliceNodeRem l lvs r a b m := by
  unfold spliceNodeRem
  rw [if_congr (preDone_congr lvs (r - 1) a a' (m + 1) ha hpa) rfl rfl]
  rw [if_congr (sucDone_congr lvs r b b' (m + 1) hb hsb) rfl rfl]

theorem spliceNodeRem_eq_old_pre (l : List K) (lvs : List Nat) (r a b i : Nat)
    (hi1 : 1 ≤ i) (hir : i ≤ r - 1) (hr : 1 ≤ r)
    (hnpd : ¬preDone lvs (r - 1) a i) :
    spliceNodeRem l lvs r a b (i - 1) = mkNode l lvs (i - 1) := by
  have hii : i - 1 + 1 = i := by omega
  unfold spliceNodeRem
  rw [hii]
  rw [if_neg hnpd]
  rw [if_neg ?hnsd]
  case hnsd =>
    rintro ⟨ℓ, h1, h2⟩
    have := nAnch_gt lvs ℓ r
    omega

theorem spliceNodeRem_eq_old_suc (l : List K) (lvs : List Nat) (r a b j : Nat)
    (hj1 : r + 1 ≤ j)
    (hnsd : ¬sucDone lvs r b j) :
    spliceNodeRem l lvs r a b (j - 1) = mkNode l lvs (j - 1) := by
  have hjj : j - 1 + 1 = j := by omega
  unfold spliceNodeRem
  rw [hjj]
  rw [if_neg ?hnpd]
  case hnpd =>
    rintro ⟨ℓ, h1, h2⟩
    have := pAnch_le lvs ℓ (r - 1)
    omega
  rw [if_neg hnsd]

theorem getN_setN_lookupR (l : List K) (hnd : l.Nodup) (r : Nat)
    (nodes : List (K × Node K))
    (F : Nat → Node K) (m0 : Nat) (hm0 : m0 < l.length) (nd' : Node K)
    (hmap : ∀ m (hm : m < l.length), m ≠ r - 1 →
      getN nodes (l.get ⟨m, hm⟩) = some (F m)) :
    ∀ m (hm : m < l.length), m ≠ r - 1 →
      getN (setN nodes (l.get ⟨m0, hm0⟩) nd') (l.get ⟨m, hm⟩)
        = some (if m = m0 then nd' else F m) := by
  intro m hm hne
  by_cases he : m = m0
  · subst he
    rw [if_pos rfl]
    exact getN_setN_self nodes _ nd'
  · rw [if_neg he]
    rw [getN_setN_ne nodes _ _ nd' ?hne2]
    · exact hmap m hm hne
    case hne2 =>
      intro hk
      have h2 := (List.Nodup.get_inj_iff hnd).mp hk
      exact he (congrArg Fin.val h2).symm

theorem hmapRem_after_preBreak (l : List K) (lvs : List Nat) (r : Nat)
    (hnd : l.Nodup) (a b level i : Nat) (hi1 : 1 ≤ i) (hir : i ≤ r - 1) (hr : 1 ≤ r)
    (him : i - 1 < l.length)
    (hia : pAnch lvs a (r - 1) = i) (ha : a < level)
    (hrun : ∀ ℓ, a ≤ ℓ → ℓ < level → pAnch lvs ℓ (r - 1) = pAnch lvs a (r - 1))
    (nodes : List (K × Node K))
    (hmap : ∀ m (hm : m < l.length), m ≠ r - 1 →
      getN nodes (l.get ⟨m, hm⟩) = some (spliceNodeRem l lvs r a b m)) :
    ∀ m (hm : m < l.length), m ≠ r - 1 →
      getN (setN nodes (l.get ⟨i - 1, him⟩)
          (mkNode (l.eraseIdx (r - 1)) (lvs.eraseIdx (r - 1)) (i - 1))) (l.get ⟨m, hm⟩)
        = some (spliceNodeRem l lvs r level b m) := by
  intro m hm hne
  rw [getN_setN_lookupR l hnd r nodes (spliceNodeRem l lvs r a b) (i - 1) him _ hmap m hm hne]
  congr 1
  by_cases he : m = i - 1
  · subst he
    rw [if_pos rfl]
    unfold spliceNodeRem
    rw [if_pos ?hpd]
    case hpd =>
      exact ⟨a, ha, by rw [hia]; omega⟩
  · rw [if_neg he]
    refine (spliceNodeRem_congr l lvs r a b level b m (by omega) (le_refl b) ?_ ?_).symm
    · intro ℓ h1 h2
      rw [hrun ℓ h1 h2, hia]
      omega
    · intro ℓ h1 h2
      omega

theorem hmapRem_after_sucBreak (l : List K) (lvs : List Nat) (r : Nat)
    (hnd : l.Nodup) (a b level j : Nat) (hj1 : r + 1 ≤ j) (hr : 1 ≤ r)
    (hjm : j - 1 < l.length)
    (hjb : nAnch lvs b r = j) (hb : b < level)
    (hrun : ∀ ℓ, b ≤ ℓ → ℓ < level → nAnch lvs ℓ r = nAnch lvs b r)
    (nodes : List (K × Node K))
    (hmap : ∀ m (hm : m < l.length), m ≠ r - 1 →
      getN nodes (l.get ⟨m, hm⟩) = some (spliceNodeRem l lvs r a b m)) :
    ∀ m (hm : m < l.length), m ≠ r - 1 →
      getN (setN nodes (l.get ⟨j - 1, hjm⟩)
          (mkNode (l.eraseIdx (r - 1)) (lvs.eraseIdx (r - 1)) (j - 2))) (l.get ⟨m, hm⟩)
        = some (spliceNodeRem l lvs r a level m) := by
  intro m hm hne
  rw [getN_setN_lookupR l hnd r nodes (spliceNodeRem l lvs r a b) (j - 1) hjm _ hmap m hm hne]
  congr 1
  by_cases he : m = j - 1
  · subst he
    rw [if_pos rfl]
    unfold spliceNodeRem
    rw [if_neg ?hnpd]
    case hnpd =>
      rintro ⟨ℓ, h1, h2⟩
      have := pAnch_le lvs ℓ (r - 1)
      omega
    rw [if_pos ?hsd]
    case hsd =>
      exact ⟨b, hb, by rw [hjb]; omega⟩
    have hjj2 : j - 1 - 1 = j - 2 := by omega
    rw [hjj2]
  · rw [if_neg he]
    refine (spliceNodeRem_congr l lvs r a b a level m (le_refl a) (by omega) ?_ ?_).symm
    · intro ℓ h1 h2
      omega
    · intro ℓ h1 h2
      rw [hrun ℓ h1 h2, hjb]
      omega

/-! ### One iteration of the `_remove_key` splice loop -/

theorem remSpliceGo_succ_nn (rl maxl : Nat) (pre suc : List (Link K))
    (steps level a b : Nat) (nodes : List (K × Node K)) (head : Node K)
    (hpb : ¬(level = maxl ∨ (pre.get? level).map Link.key ≠ (pre.get? a).map Link.key))
    (hsb : ¬((suc.getD b ⟨none, 0⟩).key.isSome = true ∧
      (level = maxl ∨ (suc.get? level).map Link.key ≠ (suc.get? b).map Link.key))) :
    remSpliceGo rl maxl pre suc (steps + 1) level a b nodes head
      = remSpliceGo rl maxl pre suc steps (level + 1) a b nodes head := by
  conv_lhs => rw [remSpliceGo]
  simp only [decide_eq_true_eq]
  rw [if_neg hpb]
  simp only []
  rw [if_neg hsb]

theorem remSpliceGo_succ_bn (rl maxl : Nat) (pre suc : List (Link K))
    (steps level a b : Nat) (nodes : List (K × Node K)) (head : Node K)
    (nodes1 : List (K × Node K)) (head1 : Node K)
    (hpb : level = maxl ∨ (pre.get? level).map Link.key ≠ (pre.get? a).map Link.key)
    (hup : updNode nodes head (pre.getD a ⟨none, 0⟩).key
        (fun nd => .ok (nd.remove_after a (min level rl) suc))
      = ((nodes1, head1), .ok ()))
    (hsb : ¬((suc.getD b ⟨none, 0⟩).key.isSome = true ∧
      (level = maxl ∨ (suc.get? level).map Link.key ≠ (suc.get? b).map Link.key))) :
    remSpliceGo rl maxl pre suc (steps + 1) level a b nodes head
      = remSpliceGo rl maxl pre suc steps (level + 1) level b nodes1 head1 := by
  conv_lhs => rw [remSpliceGo]
  simp only [decide_eq_true_eq]
  rw [if_pos hpb, hup]
  simp only []
  rw [if_neg hsb]

theorem remSpliceGo_succ_ns (rl maxl : Nat) (pre suc : List (Link K))
    (steps level a b : Nat) (nodes : List (K × Node K)) (head : Node K)
    (nodes2 : List (K × Node K)) (head2 : Node K)
    (hpb : ¬(level = maxl ∨ (pre.get? level).map Link.key ≠ (pre.get? a).map Link.key))
    (hsb : (suc.getD b ⟨none, 0⟩).key.isSome = true ∧
      (level = maxl ∨ (suc.get? level).map Link.key ≠ (suc.get? b).map Link.key))
    (hup : updNode nodes head (suc.getD b ⟨none, 0⟩).key
        (fun nd => .ok (nd.remove_before b (min level rl) pre))
      = ((nodes2, head2), .ok ())) :
    remSpliceGo rl maxl pre suc (steps + 1) level a b nodes head
      = remSpliceGo rl maxl pre suc steps (level + 1) a level nodes2 head2 := by
  conv_lhs => rw [remSpliceGo]
  simp only [decide_eq_true_eq]
  rw [if_neg hpb]
  simp only []
  rw [if_pos hsb, hup]

theorem remSpliceGo_succ_bs (rl maxl : Nat) (pre suc : List (Link K))
    (steps level a b : Nat) (nodes : List (K × Node K)) (head : Node K)
    (nodes1 : List (K × Node K)) (head1 : Node K)
    (nodes2 : List (K × Node K)) (head2 : Node K)
    (hpb : level = maxl ∨ (pre.get? level).map Link.key ≠ (pre.get? a).map Link.key)
    (hup1 : updNode nodes head (pre.getD a ⟨none, 0⟩).key
        (fun nd => .ok (nd.remove_after a (min level rl) suc))
      = ((nodes1, head1), .ok ()))
    (hsb : (suc.getD b ⟨none, 0⟩).key.isSome = true ∧
      (level = maxl ∨ (suc.get? level).map Link.key ≠ (suc.get? b).map Link.key))
    (hup2 : updNode nodes1 head1 (suc.getD b ⟨none, 0⟩).key
        (fun nd => .ok (nd.remove_before b (min level rl) pre))
      = ((nodes2, head2), .ok ())) :
    remSpliceGo rl maxl pre suc (steps + 1) level a b nodes head
      = remSpliceGo rl maxl pre suc steps (level + 1) level level nodes2 head2 := by
  conv_lhs => rw [remSpliceGo]
  simp only [decide_eq_true_eq]
  rw [if_pos hpb, hup1]
  simp only []
  rw [if_pos hsb, hup2]



/-! ### What one removal-splice break does to the anchor node -/

theorem preAnchor_remove_eq (l : List K) (lvs : List Nat) (r H : Nat)
    (hlvs : lvs.length = l.length) (hr : 1 ≤ r) (hrn : r ≤ l.length)
    (hlvle : ∀ v ∈ lvs, v ≤ H)
    (a i : Nat) (hi1 : 1 ≤ i) (hir : i ≤ r - 1)
    (hia : pAnch lvs a (r - 1) = i)
    (hrs : ∀ ℓ, ℓ < a → i < pAnch lvs ℓ (r - 1)) :
    (mkNode l lvs (i - 1)).remove_after a
        (min (lvs.getD (i - 1) 0) (lvs.getD (r - 1) 0))
        ((List.range H).map (sucLinkR l lvs r))
      = mkNode (l.eraseIdx (r - 1)) (lvs.eraseIdx (r - 1)) (i - 1) := by
  have halv : a < lvs.getD (i - 1) 0 := by
    have h0 := pAnch_level lvs a (r - 1) (by omega)
    rwa [hia] at h0
  have hlvH : lvs.getD (i - 1) 0 ≤ H := hlvle _ (getD_mem_of_lt lvs (i - 1) (by omega))
  have hlv' : (lvs.eraseIdx (r - 1)).getD (i - 1) 0 = lvs.getD (i - 1) 0 :=
    getD_eraseIdx_lt lvs (r - 1) (i - 1) (by omega)
  have hi' : i - 1 + 1 = i := by omega
  have hnx : (mkNode l lvs (i - 1)).next.length = lvs.getD (i - 1) 0 := by
    simp [mkNode]
  unfold Node.remove_after
  have hsteps : min (mkNode l lvs (i - 1)).level
      ((List.range H).map (sucLinkR l lvs r)).length = lvs.getD (i - 1) 0 := by
    rw [mkNode_level]
    simp only [List.length_map, List.length_range]
    omega
  rw [hsteps]
  obtain ⟨hlen, hget⟩ := remLinksLoop_spec ((List.range H).map (sucLinkR l lvs r))
    (min (lvs.getD (i - 1) 0) (lvs.getD (r - 1) 0)) (lvs.getD (i - 1) 0 - a) a
    (mkNode l lvs (i - 1)).next (by rw [hnx]; omega)
  refine node_eq_of_fields _ _ ?_ ?_ ?_ rfl
  · show remLinksLoop ((List.range H).map (sucLinkR l lvs r))
        (min (lvs.getD (i - 1) 0) (lvs.getD (r - 1) 0)) a
        (lvs.getD (i - 1) 0 - a) (mkNode l lvs (i - 1)).next
      = (mkNode (l.eraseIdx (r - 1)) (lvs.eraseIdx (r - 1)) (i - 1)).next
    refine List.ext fun ℓ => ?_
    rw [hget ℓ]
    by_cases h1 : a ≤ ℓ ∧ ℓ < a + (lvs.getD (i - 1) 0 - a)
    · rw [if_pos h1]
      have hrun : pAnch lvs ℓ (r - 1) = i :=
        pAnch_run lvs a ℓ (r - 1) i hia h1.1 hi1 (by omega)
      by_cases h2 : ℓ < min (lvs.getD (i - 1) 0) (lvs.getD (r - 1) 0)
      · -- within the level of the removed node: the link is re-pointed across `r`
        rw [if_pos h2]
        have hna : nAnch lvs ℓ i = r := by
          refine nAnch_eq lvs ℓ i r (by omega) (by omega)
            (Or.inr (by have h9 : r - 1 + 1 - 1 = r - 1 := by omega
                        rw [show r - 1 + 1 = r from by omega] at h9
                        rw [show r - 1 = r - 1 from rfl]
                        omega)) ?_ (by omega)
          intro m hm1 hm2
          exact pAnch_gap lvs ℓ (r - 1) m (by omega) (by omega)
        have hgd : ((List.range H).map (sucLinkR l lvs r)).getD ℓ ⟨none, 0⟩
            = sucLinkR l lvs r ℓ :=
          getD_eq_of_get? _ ℓ _ _ (get?_range_map _ H ℓ (by omega))
        rw [hgd, sucLinkR_eq l lvs r ℓ hr (by omega)]
        rw [mkNode_next_get? (l.eraseIdx (r - 1)) (lvs.eraseIdx (r - 1)) (i - 1) ℓ
          (by rw [hlv']; omega)]
        rw [hi']
        rw [linkNext_era_bridge l lvs r hlvs hr hrn i ℓ (by omega) hna]
        have hgt := nAnch_gt lvs ℓ r
        rw [hrun]
        have h9 : nAnch lvs ℓ r - i - 1 = nAnch lvs ℓ r - 1 - i := by omega
        rw [h9]
      · -- at or above the level of the removed node: only the count drops
        rw [if_neg h2]
        have hna : r + 1 ≤ nAnch lvs ℓ i := by
          by_contra hle
          push_neg at hle
          have hgt := nAnch_gt lvs ℓ i
          have hlev := nAnch_level lvs ℓ i (by omega)
          rcases Nat.lt_or_ge (nAnch lvs ℓ i) r with hc | hc
          · have := pAnch_gap lvs ℓ (r - 1) (nAnch lvs ℓ i) (by omega) (by omega)
            omega
          · have hcr : nAnch lvs ℓ i = r := by omega
            rw [hcr] at hlev
            omega
        rw [mkNode_next_get? l lvs (i - 1) ℓ (by omega)]
        rw [mkNode_next_get? (l.eraseIdx (r - 1)) (lvs.eraseIdx (r - 1)) (i - 1) ℓ
          (by rw [hlv']; omega)]
        rw [hi']
        rw [linkNext_era_skip l lvs r hlvs hr hrn i ℓ (by omega) hna]
        rfl
    · rw [if_neg h1]
      rcases Nat.lt_or_ge ℓ a with h2 | h2
      · have hq := hrs ℓ h2
        have hql := pAnch_level lvs ℓ (r - 1) (by omega)
        have hqle := pAnch_le lvs ℓ (r - 1)
        have hna : nAnch lvs ℓ i ≤ r - 1 := by
          have h3 := nAnch_le_of_anchor lvs ℓ i (pAnch lvs ℓ (r - 1)) hq (by omega) hql
          omega
        rw [mkNode_next_get? l lvs (i - 1) ℓ (by omega)]
        rw [mkNode_next_get? (l.eraseIdx (r - 1)) (lvs.eraseIdx (r - 1)) (i - 1) ℓ
          (by rw [hlv']; omega)]
        rw [hi']
        rw [linkNext_era_low l lvs r hlvs hr hrn i ℓ (by omega) hna]
      · rw [mkNode_next_get?_none l lvs (i - 1) ℓ (by omega)]
        rw [mkNode_next_get?_none (l.eraseIdx (r - 1)) (lvs.eraseIdx (r - 1)) (i - 1) ℓ
          (by rw [hlv']; omega)]
  · show (mkNode l lvs (i - 1)).prev
      = (mkNode (l.eraseIdx (r - 1)) (lvs.eraseIdx (r - 1)) (i - 1)).prev
    show (List.range (lvs.getD (i - 1) 0)).map (mkLinkPrev l lvs (i - 1 + 1))
      = (List.range ((lvs.eraseIdx (r - 1)).getD (i - 1) 0)).map
          (mkLinkPrev (l.eraseIdx (r - 1)) (lvs.eraseIdx (r - 1)) (i - 1 + 1))
    rw [hlv', hi']
    refine (List.map_congr_left fun ℓ hℓ => ?_).symm
    exact linkPrev_era_low l lvs r hlvs hr hrn i ℓ (by omega)
  · show (mkNode l lvs (i - 1)).level
      = (mkNode (l.eraseIdx (r - 1)) (lvs.eraseIdx (r - 1)) (i - 1)).level
    rw [mkNode_level, mkNode_level, hlv']



theorem sucAnchor_remove_eq (l : List K) (lvs : List Nat) (r H : Nat)
    (hlvs : lvs.length = l.length) (hr : 1 ≤ r) (hrn : r ≤ l.length)
    (hlvle : ∀ v ∈ lvs, v ≤ H)
    (b j : Nat) (hj1 : r + 1 ≤ j) (hjn : j ≤ l.length)
    (hjb : nAnch lvs b r = j)
    (hrs : ∀ ℓ, ℓ < b → nAnch lvs ℓ r < j) :
    (mkNode l lvs (j - 1)).remove_before b
        (min (lvs.getD (j - 1) 0) (lvs.getD (r - 1) 0))
        ((List.range H).map (preLinkR l lvs r))
      = mkNode (l.eraseIdx (r - 1)) (lvs.eraseIdx (r - 1)) (j - 2) := by
  have hblv : b < lvs.getD (j - 1) 0 := by
    have h0 := nAnch_level lvs b r (by omega)
    rwa [hjb] at h0
  have hlvH : lvs.getD (j - 1) 0 ≤ H := hlvle _ (getD_mem_of_lt lvs (j - 1) (by omega))
  have hlv' : (lvs.eraseIdx (r - 1)).getD (j - 2) 0 = lvs.getD (j - 1) 0 := by
    have h0 := getD_eraseIdx_ge lvs (r - 1) (j - 2) (by omega)
    rwa [show j - 2 + 1 = j - 1 from by omega] at h0
  have hjj : j - 1 + 1 = j := by omega
  have hjj2 : j - 2 + 1 = j - 1 := by omega
  have hpv : (mkNode l lvs (j - 1)).prev.length = lvs.getD (j - 1) 0 := by
    simp [mkNode]
  unfold Node.remove_before
  have hsteps : min (mkNode l lvs (j - 1)).level
      ((List.range H).map (preLinkR l lvs r)).length = lvs.getD (j - 1) 0 := by
    rw [mkNode_level]
    simp only [List.length_map, List.length_range]
    omega
  rw [hsteps]
  obtain ⟨hlen, hget⟩ := remLinksLoop_spec ((List.range H).map (preLinkR l lvs r))
    (min (lvs.getD (j - 1) 0) (lvs.getD (r - 1) 0)) (lvs.getD (j - 1) 0 - b) b
    (mkNode l lvs (j - 1)).prev (by rw [hpv]; omega)
  refine node_eq_of_fields _ _ ?_ ?_ ?_ rfl
  · show (mkNode l lvs (j - 1)).next
      = (mkNode (l.eraseIdx (r - 1)) (lvs.eraseIdx (r - 1)) (j - 2)).next
    show (List.range (lvs.getD (j - 1) 0)).map (mkLinkNext l lvs (j - 1 + 1))
      = (List.range ((lvs.eraseIdx (r - 1)).getD (j - 2) 0)).map
          (mkLinkNext (l.eraseIdx (r - 1)) (lvs.eraseIdx (r - 1)) (j - 2 + 1))
    rw [hlv', hjj, hjj2]
    refine (List.map_congr_left fun ℓ hℓ => ?_).symm
    exact linkNext_era_shift l lvs r hlvs hr hrn j ℓ (by omega) (by omega)
  · show remLinksLoop ((List.range H).map (preLinkR l lvs r))
        (min (lvs.getD (j - 1) 0) (lvs.getD (r - 1) 0)) b
        (lvs.getD (j - 1) 0 - b) (mkNode l lvs (j - 1)).prev
      = (mkNode (l.eraseIdx (r - 1)) (lvs.eraseIdx (r - 1)) (j - 2)).prev
    refine List.ext fun ℓ => ?_
    rw [hget ℓ]
    by_cases h1 : b ≤ ℓ ∧ ℓ < b + (lvs.getD (j - 1) 0 - b)
    · rw [if_pos h1]
      have hrun : nAnch lvs ℓ r = j :=
        nAnch_run lvs b ℓ r j hjb h1.1 (by omega) (by omega) (by omega)
      have hgap : ∀ m, r < m → m < j → lvs.getD (m - 1) 0 ≤ b := by
        intro m hm1 hm2
        rw [← hjb] at hm2
        exact nAnch_gap lvs b r m hm1 hm2
      by_cases h2 : ℓ < min (lvs.getD (j - 1) 0) (lvs.getD (r - 1) 0)
      · -- within the level of the removed node: link re-pointed across `r`
        rw [if_pos h2]
        have hA : pAnch lvs ℓ (j - 1) ≤ r :=
          nAnch_imp_pAnch_le lvs ℓ r j hrun (by omega) (by omega)
        have hgd : ((List.range H).map (preLinkR l lvs r)).getD ℓ ⟨none, 0⟩
            = preLinkR l lvs r ℓ :=
          getD_eq_of_get? _ ℓ _ _ (get?_range_map _ H ℓ (by omega))
        rw [hgd, preLinkR_eq l lvs r ℓ hr (by omega)]
        rw [mkNode_prev_get? (l.eraseIdx (r - 1)) (lvs.eraseIdx (r - 1)) (j - 2) ℓ
          (by rw [hlv']; omega)]
        rw [hjj2]
        rw [linkPrev_era_bridge l lvs r hlvs hr hrn j ℓ (by omega) hA]
        rw [hrun]
        have hple := pAnch_le lvs ℓ (r - 1)
        rw [show j - pAnch lvs ℓ (r - 1) - 1 = j - 1 - pAnch lvs ℓ (r - 1) from by omega]
      · -- at or above the level of the removed node: only the count drops
        rw [if_neg h2]
        have hq : pAnch lvs ℓ (j - 1) = pAnch lvs ℓ (r - 1) := by
          refine pAnch_congr lvs ℓ (j - 1) (r - 1) (by omega) ?_
          intro m hm1 hm2
          rcases Nat.lt_or_ge m (r + 1) with hm3 | hm3
          · rw [show m = r from by omega]
            omega
          · have := hgap m (by omega) (by omega)
            omega
        rw [mkNode_prev_get? l lvs (j - 1) ℓ (by omega)]
        rw [mkNode_prev_get? (l.eraseIdx (r - 1)) (lvs.eraseIdx (r - 1)) (j - 2) ℓ
          (by rw [hlv']; omega)]
        rw [hjj, hjj2]
        have hple := pAnch_le lvs ℓ (r - 1)
        rw [linkPrev_era_bridge l lvs r hlvs hr hrn j ℓ (by omega) (by omega)]
        rw [Option.map_some']
        unfold mkLinkPrev
        rw [hq]
        show some (⟨keyAt l (pAnch lvs ℓ (r - 1)), j - pAnch lvs ℓ (r - 1) - 1⟩ : Link K)
          = some (⟨keyAt l (pAnch lvs ℓ (r - 1)), j - 1 - pAnch lvs ℓ (r - 1)⟩ : Link K)
        congr 2
        omega
    · rw [if_neg h1]
      rcases Nat.lt_or_ge ℓ b with h2 | h2
      · have hq' := hrs ℓ h2
        have hgt' := nAnch_gt lvs ℓ r
        have hlev' := nAnch_level lvs ℓ r (by omega)
        have hA : r + 1 ≤ pAnch lvs ℓ (j - 1) := by
          have h3 := pAnch_ge_of_anchor lvs ℓ (j - 1) (nAnch lvs ℓ r)
            (by omega) (by omega) hlev'
          omega
        rw [mkNode_prev_get? l lvs (j - 1) ℓ (by omega)]
        rw [mkNode_prev_get? (l.eraseIdx (r - 1)) (lvs.eraseIdx (r - 1)) (j - 2) ℓ
          (by rw [hlv']; omega)]
        rw [hjj, hjj2]
        rw [linkPrev_era_high l lvs r hlvs hr hrn j ℓ (by omega) hA]
      · rw [mkNode_prev_get?_none l lvs (j - 1) ℓ (by omega)]
        rw [mkNode_prev_get?_none (l.eraseIdx (r - 1)) (lvs.eraseIdx (r - 1)) (j - 2) ℓ
          (by rw [hlv']; omega)]
  · show (mkNode l lvs (j - 1)).level
      = (mkNode (l.eraseIdx (r - 1)) (lvs.eraseIdx (r - 1)) (j - 2)).level
    rw [mkNode_level, mkNode_level, hlv']



theorem get?_range_map_none {α : Type} (f : Nat → α) (n ℓ : Nat) (h : n ≤ ℓ) :
    ((List.range n).map f).get? ℓ = none := by
  rw [List.get?_eq_getElem?, List.getElem?_eq_none]
  simpa using h

theorem headRem_remove_eq (l : List K) (lvs : List Nat) (r H : Nat)
    (hlvs : lvs.length = l.length) (hr : 1 ≤ r) (hrn : r ≤ l.length)
    (a : Nat) (ha : a ≤ H) (hia : pAnch lvs a (r - 1) = 0)
    (hrs : ∀ ℓ, ℓ < a → 1 ≤ pAnch lvs ℓ (r - 1)) :
    (mkHead l lvs H).remove_after a (min H (lvs.getD (r - 1) 0))
        ((List.range H).map (sucLinkR l lvs r))
      = mkHead (l.eraseIdx (r - 1)) (lvs.eraseIdx (r - 1)) H := by
  unfold Node.remove_after
  have hsteps : min (mkHead l lvs H).level
      ((List.range H).map (sucLinkR l lvs r)).length = H := by
    rw [mkHead_level]
    simp only [List.length_map, List.length_range]
    omega
  rw [hsteps]
  obtain ⟨hlen, hget⟩ := remLinksLoop_spec ((List.range H).map (sucLinkR l lvs r))
    (min H (lvs.getD (r - 1) 0)) (H - a) a
    (mkHead l lvs H).next
    (by show a + (H - a) ≤ ((List.range H).map (mkLinkNext l lvs 0)).length
        simp only [List.length_map, List.length_range]
        omega)
  refine node_eq_of_fields _ _ ?_ rfl rfl rfl
  show remLinksLoop ((List.range H).map (sucLinkR l lvs r))
      (min H (lvs.getD (r - 1) 0)) a (H - a) (mkHead l lvs H).next
    = (mkHead (l.eraseIdx (r - 1)) (lvs.eraseIdx (r - 1)) H).next
  refine List.ext fun ℓ => ?_
  rw [hget ℓ]
  by_cases h1 : a ≤ ℓ ∧ ℓ < a + (H - a)
  · rw [if_pos h1]
    have hrun : pAnch lvs ℓ (r - 1) = 0 := by
      have h2 := pAnch_anti lvs a ℓ (r - 1) h1.1
      omega
    by_cases h2 : ℓ < min H (lvs.getD (r - 1) 0)
    · rw [if_pos h2]
      have hna : nAnch lvs ℓ 0 = r := by
        refine nAnch_eq lvs ℓ 0 r (by omega) (by omega) (Or.inr (by omega)) ?_ (by omega)
        intro m hm1 hm2
        exact pAnch_gap lvs ℓ (r - 1) m (by omega) (by omega)
      have hgd : ((List.range H).map (sucLinkR l lvs r)).getD ℓ ⟨none, 0⟩
          = sucLinkR l lvs r ℓ :=
        getD_eq_of_get? _ ℓ _ _ (get?_range_map _ H ℓ (by omega))
      rw [hgd, sucLinkR_eq l lvs r ℓ hr (by omega)]
      rw [mkHead_next_get? (l.eraseIdx (r - 1)) (lvs.eraseIdx (r - 1)) H ℓ (by omega)]
      rw [linkNext_era_bridge l lvs r hlvs hr hrn 0 ℓ (by omega) hna]
      rw [hrun]
      have hgt := nAnch_gt lvs ℓ r
      rw [show nAnch lvs ℓ r - 0 - 1 = nAnch lvs ℓ r - 1 - 0 from by omega]
    · rw [if_neg h2]
      have hna : r + 1 ≤ nAnch lvs ℓ 0 := by
        by_contra hle
        push_neg at hle
        have hgt := nAnch_gt lvs ℓ 0
        have hlev := nAnch_level lvs ℓ 0 (by omega)
        rcases Nat.lt_or_ge (nAnch lvs ℓ 0) r with hc | hc
        · have := pAnch_gap lvs ℓ (r - 1) (nAnch lvs ℓ 0) (by omega) (by omega)
          omega
        · have hcr : nAnch lvs ℓ 0 = r := by omega
          rw [hcr] at hlev
          omega
      rw [mkHead_next_get? l lvs H ℓ (by omega)]
      rw [mkHead_next_get? (l.eraseIdx (r - 1)) (lvs.eraseIdx (r - 1)) H ℓ (by omega)]
      rw [linkNext_era_skip l lvs r hlvs hr hrn 0 ℓ (by omega) hna]
      rfl
  · rw [if_neg h1]
    rcases Nat.lt_or_ge ℓ a with h2 | h2
    · have hq := hrs ℓ h2
      have hql := pAnch_level lvs ℓ (r - 1) (by omega)
      have hqle := pAnch_le lvs ℓ (r - 1)
      have hna : nAnch lvs ℓ 0 ≤ r - 1 := by
        rcases Nat.eq_zero_or_pos (r - 1) with h0 | h0
        · omega
        · have h3 := nAnch_le_of_anchor lvs ℓ 0 (pAnch lvs ℓ (r - 1)) (by omega)
            (by omega) hql
          omega
      rw [mkHead_next_get? l lvs H ℓ (by omega)]
      rw [mkHead_next_get? (l.eraseIdx (r - 1)) (lvs.eraseIdx (r - 1)) H ℓ (by omega)]
      rw [linkNext_era_low l lvs r hlvs hr hrn 0 ℓ (by omega) hna]
    · show ((List.range H).map (mkLinkNext l lvs 0)).get? ℓ
        = ((List.range H).map
            (mkLinkNext (l.eraseIdx (r - 1)) (lvs.eraseIdx (r - 1)) 0)).get? ℓ
      rw [get?_range_map_none _ H ℓ (by omega), get?_range_map_none _ H ℓ (by omega)]



/-! ### Nodes the removal splice never touches are unchanged by the erasure -/

theorem mkNode_era_low_untouched (l : List K) (lvs : List Nat) (r : Nat)
    (hlvs : lvs.length = l.length) (hr : 1 ≤ r) (hrn : r ≤ l.length)
    (m : Nat) (hm : m + 1 ≤ r - 1)
    (hna : ∀ ℓ, ℓ < lvs.getD m 0 → nAnch lvs ℓ (m + 1) ≤ r - 1) :
    mkNode (l.eraseIdx (r - 1)) (lvs.eraseIdx (r - 1)) m = mkNode l lvs m := by
  have hlv' : (lvs.eraseIdx (r - 1)).getD m 0 = lvs.getD m 0 :=
    getD_eraseIdx_lt lvs (r - 1) m (by omega)
  refine node_eq_of_fields _ _ ?_ ?_ ?_ rfl
  · show (List.range ((lvs.eraseIdx (r - 1)).getD m 0)).map
        (mkLinkNext (l.eraseIdx (r - 1)) (lvs.eraseIdx (r - 1)) (m + 1))
      = (List.range (lvs.getD m 0)).map (mkLinkNext l lvs (m + 1))
    rw [hlv']
    refine List.map_congr_left fun ℓ hℓ => ?_
    exact linkNext_era_low l lvs r hlvs hr hrn (m + 1) ℓ (by omega)
      (hna ℓ (by simpa using hℓ))
  · show (List.range ((lvs.eraseIdx (r - 1)).getD m 0)).map
        (mkLinkPrev (l.eraseIdx (r - 1)) (lvs.eraseIdx (r - 1)) (m + 1))
      = (List.range (lvs.getD m 0)).map (mkLinkPrev l lvs (m + 1))
    rw [hlv']
    refine List.map_congr_left fun ℓ hℓ => ?_
    exact linkPrev_era_low l lvs r hlvs hr hrn (m + 1) ℓ (by omega)
  · show (lvs.eraseIdx (r - 1)).getD m 0 = lvs.getD m 0
    exact hlv'

theorem mkNode_era_high_untouched (l : List K) (lvs : List Nat) (r : Nat)
    (hlvs : lvs.length = l.length) (hr : 1 ≤ r) (hrn : r ≤ l.length)
    (q : Nat) (hq1 : r + 1 ≤ q) (hqn : q ≤ l.length)
    (hpa : ∀ ℓ, ℓ < lvs.getD (q - 1) 0 → r + 1 ≤ pAnch lvs ℓ (q - 1)) :
    mkNode (l.eraseIdx (r - 1)) (lvs.eraseIdx (r - 1)) (q - 2) = mkNode l lvs (q - 1) := by
  have hlv' : (lvs.eraseIdx (r - 1)).getD (q - 2) 0 = lvs.getD (q - 1) 0 := by
    have h0 := getD_eraseIdx_ge lvs (r - 1) (q - 2) (by omega)
    rwa [show q - 2 + 1 = q - 1 from by omega] at h0
  have hq2 : q - 2 + 1 = q - 1 := by omega
  have hq3 : q - 1 + 1 = q := by omega
  refine node_eq_of_fields _ _ ?_ ?_ ?_ rfl
  · show (List.range ((lvs.eraseIdx (r - 1)).getD (q - 2) 0)).map
        (mkLinkNext (l.eraseIdx (r - 1)) (lvs.eraseIdx (r - 1)) (q - 2 + 1))
      = (List.range (lvs.getD (q - 1) 0)).map (mkLinkNext l lvs (q - 1 + 1))
    rw [hlv', hq2, hq3]
    refine List.map_congr_left fun ℓ hℓ => ?_
    exact linkNext_era_shift l lvs r hlvs hr hrn q ℓ (by omega) (by omega)
  · show (List.range ((lvs.eraseIdx (r - 1)).getD (q - 2) 0)).map
        (mkLinkPrev (l.eraseIdx (r - 1)) (lvs.eraseIdx (r - 1)) (q - 2 + 1))
      = (List.range (lvs.getD (q - 1) 0)).map (mkLinkPrev l lvs (q - 1 + 1))
    rw [hlv', hq2, hq3]
    refine List.map_congr_left fun ℓ hℓ => ?_
    exact linkPrev_era_high l lvs r hlvs hr hrn q ℓ (by omega)
      (hpa ℓ (by simpa using hℓ))
  · show (lvs.eraseIdx (r - 1)).getD (q - 2) 0 = lvs.getD (q - 1) 0
    exact hlv'

theorem mkHead_era_untouched (l : List K) (lvs : List Nat) (r H : Nat)
    (hlvs : lvs.length = l.length) (hr : 1 ≤ r) (hrn : r ≤ l.length)
    (hna : ∀ ℓ, ℓ < H → nAnch lvs ℓ 0 ≤ r - 1) :
    mkHead (l.eraseIdx (r - 1)) (lvs.eraseIdx (r - 1)) H = mkHead l lvs H := by
  refine node_eq_of_fields _ _ ?_ rfl rfl rfl
  show (List.range H).map (mkLinkNext (l.eraseIdx (r - 1)) (lvs.eraseIdx (r - 1)) 0)
    = (List.range H).map (mkLinkNext l lvs 0)
  refine List.map_congr_left fun ℓ hℓ => ?_
  exact linkNext_era_low l lvs r hlvs hr hrn 0 ℓ (by omega) (hna ℓ (by simpa using hℓ))



/-! ### The `_remove_key` splice loop, run to completion from a well-formed
start state, deletes position `r` from every touched node and the head -/

theorem remSpliceGo_ok (l : List K) (lvs : List Nat) (r : Nat) (H : Nat)
    (hlvs : lvs.length = l.length) (hnd : l.Nodup) (hlv1 : ∀ v ∈ lvs, 1 ≤ v)
    (hlvle : ∀ v ∈ lvs, v ≤ H) (hr : 1 ≤ r) (hrn : r ≤ l.length) (hH : 1 ≤ H)
    (pre suc : List (Link K))
    (hpreq : pre = (List.range H).map (preLinkR l lvs r))
    (hsucq : suc = (List.range H).map (sucLinkR l lvs r)) :
    ∀ steps level a b nodes head,
      level + steps = H + 1 → 1 ≤ level → a < level → b < level →
      (∀ ℓ, a ≤ ℓ → ℓ < level → pAnch lvs ℓ (r - 1) = pAnch lvs a (r - 1)) →
      (level ≤ H → ∀ ℓ, ℓ < a → pAnch lvs a (r - 1) < pAnch lvs ℓ (r - 1)) →
      (∀ ℓ, b ≤ ℓ → ℓ < level → nAnch lvs ℓ r = nAnch lvs b r) →
      (level ≤ H → ∀ ℓ, ℓ < b → nAnch lvs ℓ r < nAnch lvs b r) →
      (level = H + 1 → a = H ∧ (b = H ∨ nAnch lvs b r = l.length + 1)) →
      ((nodes.map Prod.fst).Perm (l.eraseIdx (r - 1))) →
      (∀ m (hm : m < l.length), m ≠ r - 1 →
        getN nodes (l.get ⟨m, hm⟩) = some (spliceNodeRem l lvs r a b m)) →
      head = (if preDone lvs (r - 1) a 0
              then mkHead (l.eraseIdx (r - 1)) (lvs.eraseIdx (r - 1)) H
              else mkHead l lvs H) →
      ∃ nodes₁,
        remSpliceGo (lvs.getD (r - 1) 0) H pre suc steps level a b nodes head
          = ((nodes₁, mkHead (l.eraseIdx (r - 1)) (lvs.eraseIdx (r - 1)) H), .ok ()) ∧
        ((nodes₁.map Prod.fst).Perm (l.eraseIdx (r - 1))) ∧
        (∀ m (hm : m < l.length), m ≠ r - 1 →
          getN nodes₁ (l.get ⟨m, hm⟩) =
            some (if m < r - 1
                  then mkNode (l.eraseIdx (r - 1)) (lvs.eraseIdx (r - 1)) m
                  else mkNode (l.eraseIdx (r - 1)) (lvs.eraseIdx (r - 1)) (m - 1))) := by
  have hpre : ∀ ℓ, ℓ < H → pre.get? ℓ = some (preLinkR l lvs r ℓ) := by
    intro ℓ hℓ
    rw [hpreq]
    exact get?_range_map _ H ℓ hℓ
  have hsuc : ∀ ℓ, ℓ < H → suc.get? ℓ = some (sucLinkR l lvs r ℓ) := by
    intro ℓ hℓ
    rw [hsucq]
    exact get?_range_map _ H ℓ hℓ
  intro steps
  induction steps with
  | zero =>
    intro level a b nodes head hls h1l hal hbl hrunp hrsp hruns hrss hfin hperm hmap hhd
    have hlev : level = H + 1 := by omega
    obtain ⟨hA, hB⟩ := hfin hlev
    have hhead' : head = mkHead (l.eraseIdx (r - 1)) (lvs.eraseIdx (r - 1)) H := by
      rw [hhd]
      by_cases hpd : preDone lvs (r - 1) a 0
      · rw [if_pos hpd]
      · rw [if_neg hpd]
        refine (mkHead_era_untouched l lvs r H hlvs hr hrn ?_).symm
        intro ℓ hℓ
        by_contra hgt
        push_neg at hgt
        refine hpd ⟨ℓ, by omega, ?_⟩
        refine pAnch_eq lvs ℓ (r - 1) 0 (by omega) (Or.inl rfl) ?_
        intro m h1 h2
        exact nAnch_gap lvs ℓ 0 m (by omega) (by omega)
    refine ⟨nodes, ?_, hperm, ?_⟩
    · show ((nodes, head), Except.ok ()) = _
      rw [hhead']
    · intro m hm hne
      rw [hmap m hm hne]
      congr 1
      by_cases hpd : preDone lvs (r - 1) a (m + 1)
      · obtain ⟨ℓ, hℓ, hpa⟩ := hpd
        have hple := pAnch_le lvs ℓ (r - 1)
        have hmp : m < r - 1 := by omega
        unfold spliceNodeRem
        rw [if_pos ⟨ℓ, hℓ, hpa⟩, if_pos hmp]
      · by_cases hsd : sucDone lvs r b (m + 1)
        · obtain ⟨ℓ, hℓ, hsa⟩ := hsd
          have hngt := nAnch_gt lvs ℓ r
          have hmp : ¬(m < r - 1) := by omega
          unfold spliceNodeRem
          rw [if_neg hpd, if_pos ⟨ℓ, hℓ, hsa⟩, if_neg hmp]
        · unfold spliceNodeRem
          rw [if_neg hpd, if_neg hsd]
          have hlle : lvs.getD m 0 ≤ H := hlvle _ (getD_mem_of_lt lvs m (by omega))
          rcases Nat.lt_or_ge m (r - 1) with hmp | hmp
          · rw [if_pos hmp]
            refine (mkNode_era_low_untouched l lvs r hlvs hr hrn m (by omega) ?_).symm
            intro ℓ hℓ
            by_contra hgt
            push_neg at hgt
            refine hpd ⟨ℓ, by omega, ?_⟩
            refine pAnch_eq lvs ℓ (r - 1) (m + 1) (by omega) (Or.inr ?_) ?_
            · rw [Nat.add_sub_cancel]
              exact hℓ
            · intro q h1 h2
              exact nAnch_gap lvs ℓ (m + 1) q (by omega) (by omega)
          · have hmr : r ≤ m := by omega
            rw [if_neg (by omega)]
            refine (mkNode_era_high_untouched l lvs r hlvs hr hrn (m + 1)
              (by omega) (by omega) ?_).symm
            intro ℓ hℓ
            rw [Nat.add_sub_cancel] at hℓ ⊢
            by_contra hgt
            push_neg at hgt
            have hple := pAnch_le lvs ℓ m
            have hna : nAnch lvs ℓ r = m + 1 := by
              refine nAnch_eq lvs ℓ r (m + 1) (by omega) (by omega) (Or.inr ?_) ?_ (by omega)
              · rw [Nat.add_sub_cancel]
                exact hℓ
              · intro q h1 h2
                exact pAnch_gap lvs ℓ m q (by omega) (by omega)
            refine hsd ⟨ℓ, ?_, hna⟩
            rcases hB with hb | hb
            · omega
            · rcases Nat.lt_or_ge ℓ b with h2 | h2
              · exact h2
              · have h3 := hruns ℓ h2 (by omega)
                omega
  | succ st ih =>
    intro level a b nodes head hls h1l hal hbl hrunp hrsp hruns hrss hfin hperm hmap hhd
    have hlevmax : level ≤ H := by omega
    have hpga : pre.getD a ⟨none, 0⟩ = preLinkR l lvs r a :=
      getD_eq_of_get? pre a _ _ (hpre a (by omega))
    have hsgb : suc.getD b ⟨none, 0⟩ = sucLinkR l lvs r b :=
      getD_eq_of_get? suc b _ _ (hsuc b (by omega))
    have hrsp2 := hrsp hlevmax
    have hrss2 := hrss hlevmax
    have hpap_le : pAnch lvs a (r - 1) ≤ r - 1 := pAnch_le lvs a (r - 1)
    have hnbp_gt : r < nAnch lvs b r := nAnch_gt lvs b r
    have hnbp_le : nAnch lvs b r ≤ l.length + 1 := by
      have := nAnch_le lvs b r (by omega)
      omega
    have hsome_iff : ((suc.getD b ⟨none, 0⟩).key.isSome = true)
        ↔ nAnch lvs b r ≤ l.length := by
      rw [hsgb]
      show (keyAt l (nAnch lvs b r)).isSome = true ↔ _
      constructor
      · intro h
        by_contra hgt
        rw [keyAt_eq_none l _ (by omega)] at h
        simp at h
      · intro h
        obtain ⟨hlt, he⟩ := keyAt_isSome l (nAnch lvs b r) (by omega) h
        rw [he]
        rfl
    have hprekey_ne : level < H → pAnch lvs level (r - 1) ≠ pAnch lvs a (r - 1) →
        (pre.get? level).map Link.key ≠ (pre.get? a).map Link.key := by
      intro hlt hne
      rw [hpre level hlt, hpre a (by omega)]
      show some (keyAt l (pAnch lvs level (r - 1))) ≠ some (keyAt l (pAnch lvs a (r - 1)))
      intro heq
      have hle2 := pAnch_le lvs level (r - 1)
      exact hne (keyAt_inj l hnd _ _ (by omega) (by omega) (Option.some.inj heq))
    have hprekey_eq : level < H → pAnch lvs level (r - 1) = pAnch lvs a (r - 1) →
        ¬((pre.get? level).map Link.key ≠ (pre.get? a).map Link.key) := by
      intro hlt heq
      rw [hpre level hlt, hpre a (by omega)]
      show ¬(some (keyAt l (pAnch lvs level (r - 1)))
        ≠ some (keyAt l (pAnch lvs a (r - 1))))
      rw [heq]
      intro hne
      exact hne rfl
    have hsuckey_ne : level < H → nAnch lvs level r ≠ nAnch lvs b r →
        nAnch lvs b r ≤ l.length →
        (suc.get? level).map Link.key ≠ (suc.get? b).map Link.key := by
      intro hlt hne hj
      rw [hsuc level hlt, hsuc b (by omega)]
      show some (keyAt l (nAnch lvs level r)) ≠ some (keyAt l (nAnch lvs b r))
      intro heq
      have h2 := Option.some.inj heq
      have hlev_le : nAnch lvs level r ≤ l.length + 1 := by
        have := nAnch_le lvs level r (by omega)
        omega
      have hlev_gt : r < nAnch lvs level r := nAnch_gt lvs level r
      rcases Nat.lt_or_ge (nAnch lvs level r) (l.length + 1) with h3 | h3
      · exact hne (keyAt_inj l hnd _ _ (by omega) (by omega) h2)
      · rw [keyAt_eq_none l _ (by omega)] at h2
        obtain ⟨_, he⟩ := keyAt_isSome l (nAnch lvs b r) (by omega) hj
        rw [he] at h2
        simp at h2
    have hsuckey_eq : level < H → nAnch lvs level r = nAnch lvs b r →
        ¬((suc.get? level).map Link.key ≠ (suc.get? b).map Link.key) := by
      intro hlt heq
      rw [hsuc level hlt, hsuc b (by omega)]
      show ¬(some (keyAt l (nAnch lvs level r)) ≠ some (keyAt l (nAnch lvs b r)))
      rw [heq]
      intro hne
      exact hne rfl
    by_cases hlm : level = H
    · -- the forced break at the top level
      by_cases hi0 : pAnch lvs a (r - 1) = 0
      · -- the pre anchor is the head sentinel
        have hndpd0 : ¬preDone lvs (r - 1) a 0 := by
          rintro ⟨ℓ, h1, h2⟩
          have := hrsp2 ℓ h1
          omega
        have hheadold : head = mkHead l lvs H := by
          rw [hhd, if_neg hndpd0]
        have hupP : updNode nodes head (pre.getD a ⟨none, 0⟩).key
            (fun nd => .ok (nd.remove_after a (min level (lvs.getD (r - 1) 0)) suc))
            = ((nodes, mkHead (l.eraseIdx (r - 1)) (lvs.eraseIdx (r - 1)) H), .ok ()) := by
          rw [hpga]
          show updNode nodes head (keyAt l (pAnch lvs a (r - 1)))
              (fun nd => .ok (nd.remove_after a (min level (lvs.getD (r - 1) 0)) suc)) = _
          simp only [hi0]
          show updNode nodes head none
              (fun nd => .ok (nd.remove_after a (min level (lvs.getD (r - 1) 0)) suc)) = _
          refine updNode_none_ok nodes head _ _ ?_
          show Except.ok (head.remove_after a (min level (lvs.getD (r - 1) 0)) suc) = _
          rw [hheadold, hsucq, hlm]
          rw [headRem_remove_eq l lvs r H hlvs hr hrn a (by omega) hi0
            (fun ℓ hℓ => by have := hrsp2 ℓ hℓ; omega)]
        have hmapP : ∀ m (hm : m < l.length), m ≠ r - 1 →
            getN nodes (l.get ⟨m, hm⟩) = some (spliceNodeRem l lvs r level b m) := by
          intro m hm hne
          rw [hmap m hm hne]
          congr 1
          refine (spliceNodeRem_congr l lvs r a b level b m (by omega) (le_refl b)
            ?_ (fun ℓ h1 h2 => by omega)).symm
          intro ℓ h1 h2
          rw [hrunp ℓ h1 h2, hi0]
          omega
        have hhdP : mkHead (l.eraseIdx (r - 1)) (lvs.eraseIdx (r - 1)) H
            = (if preDone lvs (r - 1) level 0
               then mkHead (l.eraseIdx (r - 1)) (lvs.eraseIdx (r - 1)) H
               else mkHead l lvs H) := by
          rw [if_pos ⟨a, hal, hi0⟩]
        have hrunpP : ∀ ℓ, level ≤ ℓ → ℓ < level + 1 →
            pAnch lvs ℓ (r - 1) = pAnch lvs level (r - 1) := by
          intro ℓ h1 h2
          have h3 : ℓ = level := by omega
          rw [h3]
        have hrspP : level + 1 ≤ H → ∀ ℓ, ℓ < level →
            pAnch lvs level (r - 1) < pAnch lvs ℓ (r - 1) := fun h => absurd h (by omega)
        by_cases hsj : nAnch lvs b r ≤ l.length ∧
            (level = H ∨ nAnch lvs level r ≠ nAnch lvs b r)
        · -- the suc side also breaks here

          have hjn := hsj.1
          have hnsd : ¬sucDone lvs r b (nAnch lvs b r) := by
            rintro ⟨ℓ, h1, h2⟩
            have := hrss2 ℓ h1
            omega
          have hjlev_run : nAnch lvs (level - 1) r = nAnch lvs b r :=
            hruns (level - 1) (by omega) (by omega)
          have hjlv_gt : level - 1 < lvs.getD (nAnch lvs b r - 1) 0 := by
            have h2 := nAnch_level lvs (level - 1) r (by rw [hjlev_run]; omega)
            rwa [hjlev_run] at h2
          have hjlv_le : lvs.getD (nAnch lvs b r - 1) 0 ≤ level := by
            rcases hsj.2 with h | hne
            · have h4 : lvs.getD (nAnch lvs b r - 1) 0 ≤ H :=
                hlvle _ (getD_mem_of_lt lvs (nAnch lvs b r - 1) (by omega))
              omega
            · by_contra hgt
              push_neg at hgt
              exact hne (nAnch_run lvs b level r (nAnch lvs b r) rfl (by omega)
                (by omega) (by omega) (by omega))
          have hjlev_eq : level = lvs.getD (nAnch lvs b r - 1) 0 := by omega
          obtain ⟨hjlt, hkeyj⟩ := keyAt_isSome l (nAnch lvs b r) (by omega) hjn
          have holdj : getN nodes (l.get ⟨nAnch lvs b r - 1, hjlt⟩)
              = some (mkNode l lvs (nAnch lvs b r - 1)) := by
            rw [hmapP (nAnch lvs b r - 1) hjlt (by omega)]
            congr 1
            exact spliceNodeRem_eq_old_suc l lvs r level b (nAnch lvs b r)
              (by omega) hnsd
          have hupS : updNode nodes (mkHead (l.eraseIdx (r - 1)) (lvs.eraseIdx (r - 1)) H) (suc.getD b ⟨none, 0⟩).key
              (fun nd => .ok (nd.remove_before b (min level (lvs.getD (r - 1) 0)) pre))
              = ((setN nodes (l.get ⟨nAnch lvs b r - 1, hjlt⟩)
                    (mkNode (l.eraseIdx (r - 1)) (lvs.eraseIdx (r - 1)) (nAnch lvs b r - 2)),
                  (mkHead (l.eraseIdx (r - 1)) (lvs.eraseIdx (r - 1)) H)), .ok ()) := by
            rw [hsgb]
            show updNode nodes (mkHead (l.eraseIdx (r - 1)) (lvs.eraseIdx (r - 1)) H) (keyAt l (nAnch lvs b r))
                (fun nd => .ok (nd.remove_before b (min level (lvs.getD (r - 1) 0)) pre)) = _
            rw [hkeyj]
            refine updNode_some_ok _ _ _ _ (mkNode l lvs (nAnch lvs b r - 1)) _ holdj ?_
            show Except.ok ((mkNode l lvs (nAnch lvs b r - 1)).remove_before b
                (min level (lvs.getD (r - 1) 0)) pre) = _
            rw [hpreq, hjlev_eq]
            rw [sucAnchor_remove_eq l lvs r H hlvs hr hrn hlvle b (nAnch lvs b r)
              (by omega) hjn rfl hrss2]
          have hmapS := hmapRem_after_sucBreak l lvs r hnd level b level (nAnch lvs b r)
            (by omega) hr hjlt rfl hbl hruns nodes hmapP
          have hpermS : ((setN nodes (l.get ⟨nAnch lvs b r - 1, hjlt⟩)
              (mkNode (l.eraseIdx (r - 1)) (lvs.eraseIdx (r - 1)) (nAnch lvs b r - 2))).map
                Prod.fst).Perm (l.eraseIdx (r - 1)) := by
            rw [setN_map_fst _ _ _ (by rw [holdj]; rfl)]
            exact hperm
          have hsbS : (suc.getD b ⟨none, 0⟩).key.isSome = true ∧
              (level = H ∨
                (suc.get? level).map Link.key ≠ (suc.get? b).map Link.key) := by
            refine ⟨hsome_iff.mpr hjn, ?_⟩
            by_cases hlm2 : level = H
            · exact Or.inl hlm2
            · rcases hsj.2 with h | hne
              · exact absurd h hlm2
              · exact Or.inr (hsuckey_ne (by omega) hne hjn)
          have hrunsS : ∀ ℓ, level ≤ ℓ → ℓ < level + 1 →
              nAnch lvs ℓ r = nAnch lvs level r := by
            intro ℓ h1 h2
            have h3 : ℓ = level := by omega
            rw [h3]
          have hrssS : level + 1 ≤ H → ∀ ℓ, ℓ < level →
              nAnch lvs ℓ r < nAnch lvs level r := by
            intro hlt
            rcases hsj.2 with h | hne
            · exact absurd hlt (by omega)
            · exact sucRun_next_break lvs r b level hbl (by omega) hruns hrss2 hne
          rw [remSpliceGo_succ_bs (lvs.getD (r - 1) 0) H pre suc st level a b nodes head _ _ _ _ (Or.inl hlm) hupP hsbS hupS]
          refine ih (level + 1) level level _ _ (by omega) (by omega) (by omega) (by omega)
            hrunpP hrspP hrunsS hrssS ?_ hpermS hmapS hhdP
          intro h
          exact ⟨by omega, Or.inl (by omega)⟩
        · -- the suc side does not break here

          have hlevb : nAnch lvs level r = nAnch lvs b r := by
            by_cases hjn : nAnch lvs b r ≤ l.length
            · have hno : ¬(level = H ∨ nAnch lvs level r ≠ nAnch lvs b r) :=
                fun hc => hsj ⟨hjn, hc⟩
              push_neg at hno
              exact hno.2
            · have h1 : nAnch lvs b r = l.length + 1 := by omega
              have h2 := nAnch_mono lvs b level r (by omega) (by omega)
              have h3 := nAnch_le lvs level r (by omega)
              omega
          have hsbN : ¬((suc.getD b ⟨none, 0⟩).key.isSome = true ∧
              (level = H ∨
                (suc.get? level).map Link.key ≠ (suc.get? b).map Link.key)) := by
            rintro ⟨h1, h2⟩
            have hjn : nAnch lvs b r ≤ l.length := hsome_iff.mp h1
            have hno : ¬(level = H ∨ nAnch lvs level r ≠ nAnch lvs b r) :=
              fun hc => hsj ⟨hjn, hc⟩
            push_neg at hno
            rcases h2 with h | hne
            · exact hno.1 h
            · exact hsuckey_eq (by omega) hno.2 hne
          have hrunsN : ∀ ℓ, b ≤ ℓ → ℓ < level + 1 → nAnch lvs ℓ r = nAnch lvs b r := by
            intro ℓ h1 h2
            rcases Nat.lt_or_ge ℓ level with h3 | h3
            · exact hruns ℓ h1 h3
            · have h4 : ℓ = level := by omega
              rw [h4, hlevb]
          have hrssN : level + 1 ≤ H → ∀ ℓ, ℓ < b →
              nAnch lvs ℓ r < nAnch lvs b r := fun _ => hrss2
          have hfinN : level + 1 = H + 1 →
              level = H ∧ (b = H ∨ nAnch lvs b r = l.length + 1) := by
            intro h
            have hlm2 : level = H := by omega
            refine ⟨by omega, Or.inr ?_⟩
            have h5 : ¬(nAnch lvs b r ≤ l.length) := fun hjn => hsj ⟨hjn, Or.inl hlm2⟩
            omega
          rw [remSpliceGo_succ_bn (lvs.getD (r - 1) 0) H pre suc st level a b nodes head _ _ (Or.inl hlm) hupP hsbN]
          exact ih (level + 1) level b _ _ (by omega) (by omega) (by omega) (by omega)
            hrunpP hrspP hrunsN hrssN hfinN hperm hmapP hhdP
      · -- the pre anchor is a real node, at the forced top-level break
        have hia1 : 1 ≤ pAnch lvs a (r - 1) := by omega

        have hilev_run : pAnch lvs (level - 1) (r - 1) = pAnch lvs a (r - 1) :=
          hrunp (level - 1) (by omega) (by omega)
        have hlv_gt : level - 1 < lvs.getD (pAnch lvs a (r - 1) - 1) 0 := by
          have h2 := pAnch_level lvs (level - 1) (r - 1) (by rw [hilev_run]; omega)
          rwa [hilev_run] at h2
        have hlv_le : lvs.getD (pAnch lvs a (r - 1) - 1) 0 ≤ level := by
          rcases (Or.inl hlm : level = H ∨
              pAnch lvs level (r - 1) ≠ pAnch lvs a (r - 1)) with h | hne
          · have h4 : lvs.getD (pAnch lvs a (r - 1) - 1) 0 ≤ H :=
              hlvle _ (getD_mem_of_lt lvs (pAnch lvs a (r - 1) - 1) (by omega))
            omega
          · by_contra hgt
            push_neg at hgt
            exact hne (pAnch_run lvs a level (r - 1) (pAnch lvs a (r - 1)) rfl
              (by omega) (by omega) hgt)
        have hlev_eq : level = lvs.getD (pAnch lvs a (r - 1) - 1) 0 := by omega
        have hnpd : ¬preDone lvs (r - 1) a (pAnch lvs a (r - 1)) := by
          rintro ⟨ℓ, h1, h2⟩
          have := hrsp2 ℓ h1
          omega
        obtain ⟨hilt, hkeyi⟩ := keyAt_isSome l (pAnch lvs a (r - 1)) (by omega) (by omega)
        have holdi : getN nodes (l.get ⟨pAnch lvs a (r - 1) - 1, hilt⟩)
            = some (mkNode l lvs (pAnch lvs a (r - 1) - 1)) := by
          rw [hmap (pAnch lvs a (r - 1) - 1) hilt (by omega)]
          congr 1
          exact spliceNodeRem_eq_old_pre l lvs r a b (pAnch lvs a (r - 1))
            (by omega) hpap_le hr hnpd
        have hupP : updNode nodes head (pre.getD a ⟨none, 0⟩).key
            (fun nd => .ok (nd.remove_after a (min level (lvs.getD (r - 1) 0)) suc))
            = ((setN nodes (l.get ⟨pAnch lvs a (r - 1) - 1, hilt⟩)
                (mkNode (l.eraseIdx (r - 1)) (lvs.eraseIdx (r - 1)) (pAnch lvs a (r - 1) - 1)),
                head), .ok ()) := by
          rw [hpga]
          show updNode nodes head (keyAt l (pAnch lvs a (r - 1)))
              (fun nd => .ok (nd.remove_after a (min level (lvs.getD (r - 1) 0)) suc)) = _
          rw [hkeyi]
          refine updNode_some_ok _ _ _ _ (mkNode l lvs (pAnch lvs a (r - 1) - 1)) _ holdi ?_
          show Except.ok ((mkNode l lvs (pAnch lvs a (r - 1) - 1)).remove_after a
              (min level (lvs.getD (r - 1) 0)) suc) = _
          rw [hsucq, hlev_eq]
          rw [preAnchor_remove_eq l lvs r H hlvs hr hrn hlvle a (pAnch lvs a (r - 1))
            (by omega) hpap_le rfl hrsp2]
        have hmapP := hmapRem_after_preBreak l lvs r hnd a b level (pAnch lvs a (r - 1))
          (by omega) hpap_le hr hilt rfl hal hrunp nodes hmap
        have hpermP : ((setN nodes (l.get ⟨pAnch lvs a (r - 1) - 1, hilt⟩)
            (mkNode (l.eraseIdx (r - 1)) (lvs.eraseIdx (r - 1))
              (pAnch lvs a (r - 1) - 1))).map
              Prod.fst).Perm (l.eraseIdx (r - 1)) := by
          rw [setN_map_fst _ _ _ (by rw [holdi]; rfl)]
          exact hperm
        have hhdP : head = (if preDone lvs (r - 1) level 0
            then mkHead (l.eraseIdx (r - 1)) (lvs.eraseIdx (r - 1)) H
            else mkHead l lvs H) := by
          rw [hhd]
          exact (if_congr (preDone_congr lvs (r - 1) a level 0 (by omega)
            (fun ℓ h1 h2 => by rw [hrunp ℓ h1 h2]; omega)) rfl rfl).symm
        have hrunpP : ∀ ℓ, level ≤ ℓ → ℓ < level + 1 →
            pAnch lvs ℓ (r - 1) = pAnch lvs level (r - 1) := by
          intro ℓ h1 h2
          have h3 : ℓ = level := by omega
          rw [h3]
        have hrspP : level + 1 ≤ H → ∀ ℓ, ℓ < level →
            pAnch lvs level (r - 1) < pAnch lvs ℓ (r - 1) := fun h => absurd h (by omega)
        by_cases hsj : nAnch lvs b r ≤ l.length ∧
            (level = H ∨ nAnch lvs level r ≠ nAnch lvs b r)
        · -- the suc side also breaks here

          have hjn := hsj.1
          have hnsd : ¬sucDone lvs r b (nAnch lvs b r) := by
            rintro ⟨ℓ, h1, h2⟩
            have := hrss2 ℓ h1
            omega
          have hjlev_run : nAnch lvs (level - 1) r = nAnch lvs b r :=
            hruns (level - 1) (by omega) (by omega)
          have hjlv_gt : level - 1 < lvs.getD (nAnch lvs b r - 1) 0 := by
            have h2 := nAnch_level lvs (level - 1) r (by rw [hjlev_run]; omega)
            rwa [hjlev_run] at h2
          have hjlv_le : lvs.getD (nAnch lvs b r - 1) 0 ≤ level := by
            rcases hsj.2 with h | hne
            · have h4 : lvs.getD (nAnch lvs b r - 1) 0 ≤ H :=
                hlvle _ (getD_mem_of_lt lvs (nAnch lvs b r - 1) (by omega))
              omega
            · by_contra hgt
              push_neg at hgt
              exact hne (nAnch_run lvs b level r (nAnch lvs b r) rfl (by omega)
                (by omega) (by omega) (by omega))
          have hjlev_eq : level = lvs.getD (nAnch lvs b r - 1) 0 := by omega
          obtain ⟨hjlt, hkeyj⟩ := keyAt_isSome l (nAnch lvs b r) (by omega) hjn
          have holdj : getN (setN nodes (l.get ⟨pAnch lvs a (r - 1) - 1, hilt⟩)
                (mkNode (l.eraseIdx (r - 1)) (lvs.eraseIdx (r - 1)) (pAnch lvs a (r - 1) - 1))) (l.get ⟨nAnch lvs b r - 1, hjlt⟩)
              = some (mkNode l lvs (nAnch lvs b r - 1)) := by
            rw [hmapP (nAnch lvs b r - 1) hjlt (by omega)]
            congr 1
            exact spliceNodeRem_eq_old_suc l lvs r level b (nAnch lvs b r)
              (by omega) hnsd
          have hupS : updNode (setN nodes (l.get ⟨pAnch lvs a (r - 1) - 1, hilt⟩)
                (mkNode (l.eraseIdx (r - 1)) (lvs.eraseIdx (r - 1)) (pAnch lvs a (r - 1) - 1))) head (suc.getD b ⟨none, 0⟩).key
              (fun nd => .ok (nd.remove_before b (min level (lvs.getD (r - 1) 0)) pre))
              = ((setN (setN nodes (l.get ⟨pAnch lvs a (r - 1) - 1, hilt⟩)
                (mkNode (l.eraseIdx (r - 1)) (lvs.eraseIdx (r - 1)) (pAnch lvs a (r - 1) - 1))) (l.get ⟨nAnch lvs b r - 1, hjlt⟩)
                    (mkNode (l.eraseIdx (r - 1)) (lvs.eraseIdx (r - 1)) (nAnch lvs b r - 2)),
                  head), .ok ()) := by
            rw [hsgb]
            show updNode (setN nodes (l.get ⟨pAnch lvs a (r - 1) - 1, hilt⟩)
                (mkNode (l.eraseIdx (r - 1)) (lvs.eraseIdx (r - 1)) (pAnch lvs a (r - 1) - 1))) head (keyAt l (nAnch lvs b r))
                (fun nd => .ok (nd.remove_before b (min level (lvs.getD (r - 1) 0)) pre)) = _
            rw [hkeyj]
            refine updNode_some_ok _ _ _ _ (mkNode l lvs (nAnch lvs b r - 1)) _ holdj ?_
            show Except.ok ((mkNode l lvs (nAnch lvs b r - 1)).remove_before b
                (min level (lvs.getD (r - 1) 0)) pre) = _
            rw [hpreq, hjlev_eq]
            rw [sucAnchor_remove_eq l lvs r H hlvs hr hrn hlvle b (nAnch lvs b r)
              (by omega) hjn rfl hrss2]
          have hmapS := hmapRem_after_sucBreak l lvs r hnd level b level (nAnch lvs b r)
            (by omega) hr hjlt rfl hbl hruns (setN nodes (l.get ⟨pAnch lvs a (r - 1) - 1, hilt⟩)
                (mkNode (l.eraseIdx (r - 1)) (lvs.eraseIdx (r - 1)) (pAnch lvs a (r - 1) - 1))) hmapP
          have hpermS : ((setN (setN nodes (l.get ⟨pAnch lvs a (r - 1) - 1, hilt⟩)
                (mkNode (l.eraseIdx (r - 1)) (lvs.eraseIdx (r - 1)) (pAnch lvs a (r - 1) - 1))) (l.get ⟨nAnch lvs b r - 1, hjlt⟩)
              (mkNode (l.eraseIdx (r - 1)) (lvs.eraseIdx (r - 1)) (nAnch lvs b r - 2))).map
                Prod.fst).Perm (l.eraseIdx (r - 1)) := by
            rw [setN_map_fst _ _ _ (by rw [holdj]; rfl)]
            exact hpermP
          have hsbS : (suc.getD b ⟨none, 0⟩).key.isSome = true ∧
              (level = H ∨
                (suc.get? level).map Link.key ≠ (suc.get? b).map Link.key) := by
            refine ⟨hsome_iff.mpr hjn, ?_⟩
            by_cases hlm2 : level = H
            · exact Or.inl hlm2
            · rcases hsj.2 with h | hne
              · exact absurd h hlm2
              · exact Or.inr (hsuckey_ne (by omega) hne hjn)
          have hrunsS : ∀ ℓ, level ≤ ℓ → ℓ < level + 1 →
              nAnch lvs ℓ r = nAnch lvs level r := by
            intro ℓ h1 h2
            have h3 : ℓ = level := by omega
            rw [h3]
          have hrssS : level + 1 ≤ H → ∀ ℓ, ℓ < level →
              nAnch lvs ℓ r < nAnch lvs level r := by
            intro hlt
            rcases hsj.2 with h | hne
            · exact absurd hlt (by omega)
            · exact sucRun_next_break lvs r b level hbl (by omega) hruns hrss2 hne
          rw [remSpliceGo_succ_bs (lvs.getD (r - 1) 0) H pre suc st level a b nodes head _ _ _ _ (Or.inl hlm) hupP hsbS hupS]
          refine ih (level + 1) level level _ _ (by omega) (by omega) (by omega) (by omega)
            hrunpP hrspP hrunsS hrssS ?_ hpermS hmapS hhdP
          intro h
          exact ⟨by omega, Or.inl (by omega)⟩
        · -- the suc side does not break here

          have hlevb : nAnch lvs level r = nAnch lvs b r := by
            by_cases hjn : nAnch lvs b r ≤ l.length
            · have hno : ¬(level = H ∨ nAnch lvs level r ≠ nAnch lvs b r) :=
                fun hc => hsj ⟨hjn, hc⟩
              push_neg at hno
              exact hno.2
            · have h1 : nAnch lvs b r = l.length + 1 := by omega
              have h2 := nAnch_mono lvs b level r (by omega) (by omega)
              have h3 := nAnch_le lvs level r (by omega)
              omega
          have hsbN : ¬((suc.getD b ⟨none, 0⟩).key.isSome = true ∧
              (level = H ∨
                (suc.get? level).map Link.key ≠ (suc.get? b).map Link.key)) := by
            rintro ⟨h1, h2⟩
            have hjn : nAnch lvs b r ≤ l.length := hsome_iff.mp h1
            have hno : ¬(level = H ∨ nAnch lvs level r ≠ nAnch lvs b r) :=
              fun hc => hsj ⟨hjn, hc⟩
            push_neg at hno
            rcases h2 with h | hne
            · exact hno.1 h
            · exact hsuckey_eq (by omega) hno.2 hne
          have hrunsN : ∀ ℓ, b ≤ ℓ → ℓ < level + 1 → nAnch lvs ℓ r = nAnch lvs b r := by
            intro ℓ h1 h2
            rcases Nat.lt_or_ge ℓ level with h3 | h3
            · exact hruns ℓ h1 h3
            · have h4 : ℓ = level := by omega
              rw [h4, hlevb]
          have hrssN : level + 1 ≤ H → ∀ ℓ, ℓ < b →
              nAnch lvs ℓ r < nAnch lvs b r := fun _ => hrss2
          have hfinN : level + 1 = H + 1 →
              level = H ∧ (b = H ∨ nAnch lvs b r = l.length + 1) := by
            intro h
            have hlm2 : level = H := by omega
            refine ⟨by omega, Or.inr ?_⟩
            have h5 : ¬(nAnch lvs b r ≤ l.length) := fun hjn => hsj ⟨hjn, Or.inl hlm2⟩
            omega
          rw [remSpliceGo_succ_bn (lvs.getD (r - 1) 0) H pre suc st level a b nodes head _ _ (Or.inl hlm) hupP hsbN]
          exact ih (level + 1) level b _ _ (by omega) (by omega) (by omega) (by omega)
            hrunpP hrspP hrunsN hrssN hfinN hpermP hmapP hhdP
    · -- below the top level
      by_cases hpane : pAnch lvs level (r - 1) = pAnch lvs a (r - 1)
      · -- no pre break: the pre run continues
        have hpbN : ¬(level = H ∨
            (pre.get? level).map Link.key ≠ (pre.get? a).map Link.key) := by
          rintro (h | hne)
          · exact hlm h
          · exact hprekey_eq (by omega) hpane hne
        have hrunpN : ∀ ℓ, a ≤ ℓ → ℓ < level + 1 →
            pAnch lvs ℓ (r - 1) = pAnch lvs a (r - 1) := by
          intro ℓ h1 h2
          rcases Nat.lt_or_ge ℓ level with h3 | h3
          · exact hrunp ℓ h1 h3
          · have h4 : ℓ = level := by omega
            rw [h4, hpane]
        have hrspN : level + 1 ≤ H → ∀ ℓ, ℓ < a →
            pAnch lvs a (r - 1) < pAnch lvs ℓ (r - 1) := fun _ => hrsp2
        by_cases hsj : nAnch lvs b r ≤ l.length ∧
            (level = H ∨ nAnch lvs level r ≠ nAnch lvs b r)
        · -- the suc side breaks here

          have hjn := hsj.1
          have hnsd : ¬sucDone lvs r b (nAnch lvs b r) := by
            rintro ⟨ℓ, h1, h2⟩
            have := hrss2 ℓ h1
            omega
          have hjlev_run : nAnch lvs (level - 1) r = nAnch lvs b r :=
            hruns (level - 1) (by omega) (by omega)
          have hjlv_gt : level - 1 < lvs.getD (nAnch lvs b r - 1) 0 := by
            have h2 := nAnch_level lvs (level - 1) r (by rw [hjlev_run]; omega)
            rwa [hjlev_run] at h2
          have hjlv_le : lvs.getD (nAnch lvs b r - 1) 0 ≤ level := by
            rcases hsj.2 with h | hne
            · have h4 : lvs.getD (nAnch lvs b r - 1) 0 ≤ H :=
                hlvle _ (getD_mem_of_lt lvs (nAnch lvs b r - 1) (by omega))
              omega
            · by_contra hgt
              push_neg at hgt
              exact hne (nAnch_run lvs b level r (nAnch lvs b r) rfl (by omega)
                (by omega) (by omega) (by omega))
          have hjlev_eq : level = lvs.getD (nAnch lvs b r - 1) 0 := by omega
          obtain ⟨hjlt, hkeyj⟩ := keyAt_isSome l (nAnch lvs b r) (by omega) hjn
          have holdj : getN nodes (l.get ⟨nAnch lvs b r - 1, hjlt⟩)
              = some (mkNode l lvs (nAnch lvs b r - 1)) := by
            rw [hmap (nAnch lvs b r - 1) hjlt (by omega)]
            congr 1
            exact spliceNodeRem_eq_old_suc l lvs r a b (nAnch lvs b r)
              (by omega) hnsd
          have hupS : updNode nodes head (suc.getD b ⟨none, 0⟩).key
              (fun nd => .ok (nd.remove_before b (min level (lvs.getD (r - 1) 0)) pre))
              = ((setN nodes (l.get ⟨nAnch lvs b r - 1, hjlt⟩)
                    (mkNode (l.eraseIdx (r - 1)) (lvs.eraseIdx (r - 1)) (nAnch lvs b r - 2)),
                  head), .ok ()) := by
            rw [hsgb]
            show updNode nodes head (keyAt l (nAnch lvs b r))
                (fun nd => .ok (nd.remove_before b (min level (lvs.getD (r - 1) 0)) pre)) = _
            rw [hkeyj]
            refine updNode_some_ok _ _ _ _ (mkNode l lvs (nAnch lvs b r - 1)) _ holdj ?_
            show Except.ok ((mkNode l lvs (nAnch lvs b r - 1)).remove_before b
                (min level (lvs.getD (r - 1) 0)) pre) = _
            rw [hpreq, hjlev_eq]
            rw [sucAnchor_remove_eq l lvs r H hlvs hr hrn hlvle b (nAnch lvs b r)
              (by omega) hjn rfl hrss2]
          have hmapS := hmapRem_after_sucBreak l lvs r hnd a b level (nAnch lvs b r)
            (by omega) hr hjlt rfl hbl hruns nodes hmap
          have hpermS : ((setN nodes (l.get ⟨nAnch lvs b r - 1, hjlt⟩)
              (mkNode (l.eraseIdx (r - 1)) (lvs.eraseIdx (r - 1)) (nAnch lvs b r - 2))).map
                Prod.fst).Perm (l.eraseIdx (r - 1)) := by
            rw [setN_map_fst _ _ _ (by rw [holdj]; rfl)]
            exact hperm
          have hsbS : (suc.getD b ⟨none, 0⟩).key.isSome = true ∧
              (level = H ∨
                (suc.get? level).map Link.key ≠ (suc.get? b).map Link.key) := by
            refine ⟨hsome_iff.mpr hjn, ?_⟩
            by_cases hlm2 : level = H
            · exact Or.inl hlm2
            · rcases hsj.2 with h | hne
              · exact absurd h hlm2
              · exact Or.inr (hsuckey_ne (by omega) hne hjn)
          have hrunsS : ∀ ℓ, level ≤ ℓ → ℓ < level + 1 →
              nAnch lvs ℓ r = nAnch lvs level r := by
            intro ℓ h1 h2
            have h3 : ℓ = level := by omega
            rw [h3]
          have hrssS : level + 1 ≤ H → ∀ ℓ, ℓ < level →
              nAnch lvs ℓ r < nAnch lvs level r := by
            intro hlt
            rcases hsj.2 with h | hne
            · exact absurd hlt (by omega)
            · exact sucRun_next_break lvs r b level hbl (by omega) hruns hrss2 hne
          rw [remSpliceGo_succ_ns (lvs.getD (r - 1) 0) H pre suc st level a b nodes head _ _ hpbN hsbS hupS]
          refine ih (level + 1) a level _ _ (by omega) (by omega) (by omega) (by omega)
            hrunpN hrspN hrunsS hrssS ?_ hpermS hmapS hhd
          intro h
          exact ⟨by omega, Or.inl (by omega)⟩
        · -- the suc side does not break here

          have hlevb : nAnch lvs level r = nAnch lvs b r := by
            by_cases hjn : nAnch lvs b r ≤ l.length
            · have hno : ¬(level = H ∨ nAnch lvs level r ≠ nAnch lvs b r) :=
                fun hc => hsj ⟨hjn, hc⟩
              push_neg at hno
              exact hno.2
            · have h1 : nAnch lvs b r = l.length + 1 := by omega
              have h2 := nAnch_mono lvs b level r (by omega) (by omega)
              have h3 := nAnch_le lvs level r (by omega)
              omega
          have hsbN : ¬((suc.getD b ⟨none, 0⟩).key.isSome = true ∧
              (level = H ∨
                (suc.get? level).map Link.key ≠ (suc.get? b).map Link.key)) := by
            rintro ⟨h1, h2⟩
            have hjn : nAnch lvs b r ≤ l.length := hsome_iff.mp h1
            have hno : ¬(level = H ∨ nAnch lvs level r ≠ nAnch lvs b r) :=
              fun hc => hsj ⟨hjn, hc⟩
            push_neg at hno
            rcases h2 with h | hne
            · exact hno.1 h
            · exact hsuckey_eq (by omega) hno.2 hne
          have hrunsN : ∀ ℓ, b ≤ ℓ → ℓ < level + 1 → nAnch lvs ℓ r = nAnch lvs b r := by
            intro ℓ h1 h2
            rcases Nat.lt_or_ge ℓ level with h3 | h3
            · exact hruns ℓ h1 h3
            · have h4 : ℓ = level := by omega
              rw [h4, hlevb]
          have hrssN : level + 1 ≤ H → ∀ ℓ, ℓ < b →
              nAnch lvs ℓ r < nAnch lvs b r := fun _ => hrss2
          have hfinN : level + 1 = H + 1 →
              a = H ∧ (b = H ∨ nAnch lvs b r = l.length + 1) := by
            intro h
            have hlm2 : level = H := by omega
            refine ⟨by omega, Or.inr ?_⟩
            have h5 : ¬(nAnch lvs b r ≤ l.length) := fun hjn => hsj ⟨hjn, Or.inl hlm2⟩
            omega
          rw [remSpliceGo_succ_nn (lvs.getD (r - 1) 0) H pre suc st level a b nodes head hpbN hsbN]
          exact ih (level + 1) a b _ _ (by omega) (by omega) (by omega) (by omega)
            hrunpN hrspN hrunsN hrssN hfinN hperm hmap hhd
      · -- a key-difference pre break at a real node
        have hpbS : level = H ∨
            (pre.get? level).map Link.key ≠ (pre.get? a).map Link.key :=
          Or.inr (hprekey_ne (by omega) hpane)
        have hia1 : 1 ≤ pAnch lvs a (r - 1) := by
          by_contra h0
          have h1 := pAnch_anti lvs a level (r - 1) (by omega)
          omega

        have hilev_run : pAnch lvs (level - 1) (r - 1) = pAnch lvs a (r - 1) :=
          hrunp (level - 1) (by omega) (by omega)
        have hlv_gt : level - 1 < lvs.getD (pAnch lvs a (r - 1) - 1) 0 := by
          have h2 := pAnch_level lvs (level - 1) (r - 1) (by rw [hilev_run]; omega)
          rwa [hilev_run] at h2
        have hlv_le : lvs.getD (pAnch lvs a (r - 1) - 1) 0 ≤ level := by
          rcases (Or.inr hpane : level = H ∨
              pAnch lvs level (r - 1) ≠ pAnch lvs a (r - 1)) with h | hne
          · have h4 : lvs.getD (pAnch lvs a (r - 1) - 1) 0 ≤ H :=
              hlvle _ (getD_mem_of_lt lvs (pAnch lvs a (r - 1) - 1) (by omega))
            omega
          · by_contra hgt
            push_neg at hgt
            exact hne (pAnch_run lvs a level (r - 1) (pAnch lvs a (r - 1)) rfl
              (by omega) (by omega) hgt)
        have hlev_eq : level = lvs.getD (pAnch lvs a (r - 1) - 1) 0 := by omega
        have hnpd : ¬preDone lvs (r - 1) a (pAnch lvs a (r - 1)) := by
          rintro ⟨ℓ, h1, h2⟩
          have := hrsp2 ℓ h1
          omega
        obtain ⟨hilt, hkeyi⟩ := keyAt_isSome l (pAnch lvs a (r - 1)) (by omega) (by omega)
        have holdi : getN nodes (l.get ⟨pAnch lvs a (r - 1) - 1, hilt⟩)
            = some (mkNode l lvs (pAnch lvs a (r - 1) - 1)) := by
          rw [hmap (pAnch lvs a (r - 1) - 1) hilt (by omega)]
          congr 1
          exact spliceNodeRem_eq_old_pre l lvs r a b (pAnch lvs a (r - 1))
            (by omega) hpap_le hr hnpd
        have hupP : updNode nodes head (pre.getD a ⟨none, 0⟩).key
            (fun nd => .ok (nd.remove_after a (min level (lvs.getD (r - 1) 0)) suc))
            = ((setN nodes (l.get ⟨pAnch lvs a (r - 1) - 1, hilt⟩)
                (mkNode (l.eraseIdx (r - 1)) (lvs.eraseIdx (r - 1)) (pAnch lvs a (r - 1) - 1)),
                head), .ok ()) := by
          rw [hpga]
          show updNode nodes head (keyAt l (pAnch lvs a (r - 1)))
              (fun nd => .ok (nd.remove_after a (min level (lvs.getD (r - 1) 0)) suc)) = _
          rw [hkeyi]
          refine updNode_some_ok _ _ _ _ (mkNode l lvs (pAnch lvs a (r - 1) - 1)) _ holdi ?_
          show Except.ok ((mkNode l lvs (pAnch lvs a (r - 1) - 1)).remove_after a
              (min level (lvs.getD (r - 1) 0)) suc) = _
          rw [hsucq, hlev_eq]
          rw [preAnchor_remove_eq l lvs r H hlvs hr hrn hlvle a (pAnch lvs a (r - 1))
            (by omega) hpap_le rfl hrsp2]
        have hmapP := hmapRem_after_preBreak l lvs r hnd a b level (pAnch lvs a (r - 1))
          (by omega) hpap_le hr hilt rfl hal hrunp nodes hmap
        have hpermP : ((setN nodes (l.get ⟨pAnch lvs a (r - 1) - 1, hilt⟩)
            (mkNode (l.eraseIdx (r - 1)) (lvs.eraseIdx (r - 1))
              (pAnch lvs a (r - 1) - 1))).map
              Prod.fst).Perm (l.eraseIdx (r - 1)) := by
          rw [setN_map_fst _ _ _ (by rw [holdi]; rfl)]
          exact hperm
        have hhdP : head = (if preDone lvs (r - 1) level 0
            then mkHead (l.eraseIdx (r - 1)) (lvs.eraseIdx (r - 1)) H
            else mkHead l lvs H) := by
          rw [hhd]
          exact (if_congr (preDone_congr lvs (r - 1) a level 0 (by omega)
            (fun ℓ h1 h2 => by rw [hrunp ℓ h1 h2]; omega)) rfl rfl).symm
        have hrunpP : ∀ ℓ, level ≤ ℓ → ℓ < level + 1 →
            pAnch lvs ℓ (r - 1) = pAnch lvs level (r - 1) := by
          intro ℓ h1 h2
          have h3 : ℓ = level := by omega
          rw [h3]
        have hrspP : level + 1 ≤ H → ∀ ℓ, ℓ < level →
            pAnch lvs level (r - 1) < pAnch lvs ℓ (r - 1) := fun _ => preRun_next_break lvs (r - 1) a level hal hrunp hrsp2 hpane
        by_cases hsj : nAnch lvs b r ≤ l.length ∧
            (level = H ∨ nAnch lvs level r ≠ nAnch lvs b r)
        · -- the suc side also breaks here

          have hjn := hsj.1
          have hnsd : ¬sucDone lvs r b (nAnch lvs b r) := by
            rintro ⟨ℓ, h1, h2⟩
            have := hrss2 ℓ h1
            omega
          have hjlev_run : nAnch lvs (level - 1) r = nAnch lvs b r :=
            hruns (level - 1) (by omega) (by omega)
          have hjlv_gt : level - 1 < lvs.getD (nAnch lvs b r - 1) 0 := by
            have h2 := nAnch_level lvs (level - 1) r (by rw [hjlev_run]; omega)
            rwa [hjlev_run] at h2
          have hjlv_le : lvs.getD (nAnch lvs b r - 1) 0 ≤ level := by
            rcases hsj.2 with h | hne
            · have h4 : lvs.getD (nAnch lvs b r - 1) 0 ≤ H :=
                hlvle _ (getD_mem_of_lt lvs (nAnch lvs b r - 1) (by omega))
              omega
            · by_contra hgt
              push_neg at hgt
              exact hne (nAnch_run lvs b level r (nAnch lvs b r) rfl (by omega)
                (by omega) (by omega) (by omega))
          have hjlev_eq : level = lvs.getD (nAnch lvs b r - 1) 0 := by omega
          obtain ⟨hjlt, hkeyj⟩ := keyAt_isSome l (nAnch lvs b r) (by omega) hjn
          have holdj : getN (setN nodes (l.get ⟨pAnch lvs a (r - 1) - 1, hilt⟩)
                (mkNode (l.eraseIdx (r - 1)) (lvs.eraseIdx (r - 1)) (pAnch lvs a (r - 1) - 1))) (l.get ⟨nAnch lvs b r - 1, hjlt⟩)
              = some (mkNode l lvs (nAnch lvs b r - 1)) := by
            rw [hmapP (nAnch lvs b r - 1) hjlt (by omega)]
            congr 1
            exact spliceNodeRem_eq_old_suc l lvs r level b (nAnch lvs b r)
              (by omega) hnsd
          have hupS : updNode (setN nodes (l.get ⟨pAnch lvs a (r - 1) - 1, hilt⟩)
                (mkNode (l.eraseIdx (r - 1)) (lvs.eraseIdx (r - 1)) (pAnch lvs a (r - 1) - 1))) head (suc.getD b ⟨none, 0⟩).key
              (fun nd => .ok (nd.remove_before b (min level (lvs.getD (r - 1) 0)) pre))
              = ((setN (setN nodes (l.get ⟨pAnch lvs a (r - 1) - 1, hilt⟩)
                (mkNode (l.eraseIdx (r - 1)) (lvs.eraseIdx (r - 1)) (pAnch lvs a (r - 1) - 1))) (l.get ⟨nAnch lvs b r - 1, hjlt⟩)
                    (mkNode (l.eraseIdx (r - 1)) (lvs.eraseIdx (r - 1)) (nAnch lvs b r - 2)),
                  head), .ok ()) := by
            rw [hsgb]
            show updNode (setN nodes (l.get ⟨pAnch lvs a (r - 1) - 1, hilt⟩)
                (mkNode (l.eraseIdx (r - 1)) (lvs.eraseIdx (r - 1)) (pAnch lvs a (r - 1) - 1))) head (keyAt l (nAnch lvs b r))
                (fun nd => .ok (nd.remove_before b (min level (lvs.getD (r - 1) 0)) pre)) = _
            rw [hkeyj]
            refine updNode_some_ok _ _ _ _ (mkNode l lvs (nAnch lvs b r - 1)) _ holdj ?_
            show Except.ok ((mkNode l lvs (nAnch lvs b r - 1)).remove_before b
                (min level (lvs.getD (r - 1) 0)) pre) = _
            rw [hpreq, hjlev_eq]
            rw [sucAnchor_remove_eq l lvs r H hlvs hr hrn hlvle b (nAnch lvs b r)
              (by omega) hjn rfl hrss2]
          have hmapS := hmapRem_after_sucBreak l lvs r hnd level b level (nAnch lvs b r)
            (by omega) hr hjlt rfl hbl hruns (setN nodes (l.get ⟨pAnch lvs a (r - 1) - 1, hilt⟩)
                (mkNode (l.eraseIdx (r - 1)) (lvs.eraseIdx (r - 1)) (pAnch lvs a (r - 1) - 1))) hmapP
          have hpermS : ((setN (setN nodes (l.get ⟨pAnch lvs a (r - 1) - 1, hilt⟩)
                (mkNode (l.eraseIdx (r - 1)) (lvs.eraseIdx (r - 1)) (pAnch lvs a (r - 1) - 1))) (l.get ⟨nAnch lvs b r - 1, hjlt⟩)
              (mkNode (l.eraseIdx (r - 1)) (lvs.eraseIdx (r - 1)) (nAnch lvs b r - 2))).map
                Prod.fst).Perm (l.eraseIdx (r - 1)) := by
            rw [setN_map_fst _ _ _ (by rw [holdj]; rfl)]
            exact hpermP
          have hsbS : (suc.getD b ⟨none, 0⟩).key.isSome = true ∧
              (level = H ∨
                (suc.get? level).map Link.key ≠ (suc.get? b).map Link.key) := by
            refine ⟨hsome_iff.mpr hjn, ?_⟩
            by_cases hlm2 : level = H
            · exact Or.inl hlm2
            · rcases hsj.2 with h | hne
              · exact absurd h hlm2
              · exact Or.inr (hsuckey_ne (by omega) hne hjn)
          have hrunsS : ∀ ℓ, level ≤ ℓ → ℓ < level + 1 →
              nAnch lvs ℓ r = nAnch lvs level r := by
            intro ℓ h1 h2
            have h3 : ℓ = level := by omega
            rw [h3]
          have hrssS : level + 1 ≤ H → ∀ ℓ, ℓ < level →
              nAnch lvs ℓ r < nAnch lvs level r := by
            intro hlt
            rcases hsj.2 with h | hne
            · exact absurd hlt (by omega)
            · exact sucRun_next_break lvs r b level hbl (by omega) hruns hrss2 hne
          rw [remSpliceGo_succ_bs (lvs.getD (r - 1) 0) H pre suc st level a b nodes head _ _ _ _ hpbS hupP hsbS hupS]
          refine ih (level + 1) level level _ _ (by omega) (by omega) (by omega) (by omega)
            hrunpP hrspP hrunsS hrssS ?_ hpermS hmapS hhdP
          intro h
          exact ⟨by omega, Or.inl (by omega)⟩
        · -- the suc side does not break here

          have hlevb : nAnch lvs level r = nAnch lvs b r := by
            by_cases hjn : nAnch lvs b r ≤ l.length
            · have hno : ¬(level = H ∨ nAnch lvs level r ≠ nAnch lvs b r) :=
                fun hc => hsj ⟨hjn, hc⟩
              push_neg at hno
              exact hno.2
            · have h1 : nAnch lvs b r = l.length + 1 := by omega
              have h2 := nAnch_mono lvs b level r (by omega) (by omega)
              have h3 := nAnch_le lvs level r (by omega)
              omega
          have hsbN : ¬((suc.getD b ⟨none, 0⟩).key.isSome = true ∧
              (level = H ∨
                (suc.get? level).map Link.key ≠ (suc.get? b).map Link.key)) := by
            rintro ⟨h1, h2⟩
            have hjn : nAnch lvs b r ≤ l.length := hsome_iff.mp h1
            have hno : ¬(level = H ∨ nAnch lvs level r ≠ nAnch lvs b r) :=
              fun hc => hsj ⟨hjn, hc⟩
            push_neg at hno
            rcases h2 with h | hne
            · exact hno.1 h
            · exact hsuckey_eq (by omega) hno.2 hne
          have hrunsN : ∀ ℓ, b ≤ ℓ → ℓ < level + 1 → nAnch lvs ℓ r = nAnch lvs b r := by
            intro ℓ h1 h2
            rcases Nat.lt_or_ge ℓ level with h3 | h3
            · exact hruns ℓ h1 h3
            · have h4 : ℓ = level := by omega
              rw [h4, hlevb]
          have hrssN : level + 1 ≤ H → ∀ ℓ, ℓ < b →
              nAnch lvs ℓ r < nAnch lvs b r := fun _ => hrss2
          have hfinN : level + 1 = H + 1 →
              level = H ∧ (b = H ∨ nAnch lvs b r = l.length + 1) := by
            intro h
            have hlm2 : level = H := by omega
            refine ⟨by omega, Or.inr ?_⟩
            have h5 : ¬(nAnch lvs b r ≤ l.length) := fun hjn => hsj ⟨hjn, Or.inl hlm2⟩
            omega
          rw [remSpliceGo_succ_bn (lvs.getD (r - 1) 0) H pre suc st level a b nodes head _ _ hpbS hupP hsbN]
          exact ih (level + 1) level b _ _ (by omega) (by omega) (by omega) (by omega)
            hrunpP hrspP hrunsN hrssN hfinN hpermP hmapP hhdP


/-! ### Removal: `remove_node` and the full `_remove_key` -/

theorem removeN_spec (k : K) :
    ∀ (nodes : List (K × Node K)) (nd : Node K), getN nodes k = some nd →
    ∃ nodes0, removeN nodes k = some (nd, nodes0) ∧
      nodes0.length + 1 = nodes.length ∧
      (∀ k', k' ≠ k → getN nodes0 k' = getN nodes k') ∧
      ((nodes.map Prod.fst).Perm (k :: nodes0.map Prod.fst)) := by
  intro nodes
  induction nodes with
  | nil =>
    intro nd h
    exact absurd h (by simp [getN])
  | cons e t ih =>
    intro nd h
    obtain ⟨a, b⟩ := e
    by_cases hc : a = k
    · have hb : b = nd := by
        have h2 : getN ((a, b) :: t) k = some b := by
          show (if a = k then some b else getN t k) = some b
          rw [if_pos hc]
        rw [h2] at h
        exact Option.some.inj h
      refine ⟨t, ?_, rfl, ?_, ?_⟩
      · show (if a = k then some (b, t)
            else (removeN t k).map (fun x => (x.1, (a, b) :: x.2))) = _
        rw [if_pos hc, hb]
      · intro k' hk'
        show getN t k' = (if a = k' then some b else getN t k')
        rw [if_neg (by rw [hc]; exact fun he => hk' he.symm)]
      · show (a :: t.map Prod.fst).Perm (k :: t.map Prod.fst)
        rw [hc]
    · have h2 : getN t k = some nd := by
        have h3 : getN ((a, b) :: t) k = getN t k := by
          show (if a = k then some b else getN t k) = getN t k
          rw [if_neg hc]
        rw [h3] at h
        exact h
      obtain ⟨n0, hrm, hlen, hget, hperm⟩ := ih nd h2
      refine ⟨(a, b) :: n0, ?_, ?_, ?_, ?_⟩
      · show (if a = k then some (b, t)
            else (removeN t k).map (fun x => (x.1, (a, b) :: x.2))) = _
        rw [if_neg hc, hrm]
        rfl
      · show ((a, b) :: n0).length + 1 = ((a, b) :: t).length
        simp only [List.length_cons]
        omega
      · intro k' hk'
        show (if a = k' then some b else getN n0 k')
          = (if a = k' then some b else getN t k')
        by_cases hak : a = k'
        · rw [if_pos hak, if_pos hak]
        · rw [if_neg hak, if_neg hak]
          exact hget k' hk'
      · show (a :: t.map Prod.fst).Perm (k :: a :: n0.map Prod.fst)
        exact (hperm.cons a).trans (List.Perm.swap k a (n0.map Prod.fst))

theorem remove_key_wf (sl : SkipList K) (l : List K) (lvs : List Nat)
    (hwf : Wf sl l lvs) (r : Nat) (hr : 1 ≤ r) (hrn : r ≤ l.length)
    (hrm : r - 1 < l.length) :
    ∃ sl', sl._remove_key (l.get ⟨r - 1, hrm⟩) = some (sl', .ok ()) ∧
      sl'.len = sl.len - 1 ∧
      sl'.head.level = sl.head.level ∧
      Wf sl' (l.eraseIdx (r - 1)) (lvs.eraseIdx (r - 1)) := by
  have hlvs := hwf.lvs_len
  have hnd := hwf.nodup
  have hlv1 := hwf.lv_pos
  have hlvle := hwf.lv_le
  have hH := hwf.head_pos
  have hnlen := hwf.nodes_length
  have hheadsl : sl.head = mkHead l lvs sl.head.level := by
    rcases hwf.head_eq with hh | ⟨hl0, hh⟩
    · exact hh
    · exfalso
      rw [hl0] at hrn
      simp at hrn
      omega
  -- removing the node of 1-based position `r` from the map
  have hkeyr : keyAt l r = some (l.get ⟨r - 1, hrm⟩) := by
    obtain ⟨h1, h2⟩ := keyAt_isSome l r hr hrn
    exact h2
  obtain ⟨nodes0, hremN, hlen0, hget0, hpermN⟩ :=
    removeN_spec (l.get ⟨r - 1, hrm⟩) sl.nodes (mkNode l lvs (r - 1))
      (hwf.lookup_eq (r - 1) hrm)
  have hperm0 : (nodes0.map Prod.fst).Perm (l.eraseIdx (r - 1)) := by
    have hperm1 : (l.get ⟨r - 1, hrm⟩ :: nodes0.map Prod.fst).Perm l :=
      hpermN.symm.trans hwf.keys_perm
    have hperm2 : l.Perm (l.get ⟨r - 1, hrm⟩ :: l.eraseIdx (r - 1)) := by
      conv_lhs => rw [← List.take_append_drop (r - 1) l]
      rw [List.eraseIdx_eq_take_drop_succ]
      rw [List.drop_eq_get_cons hrm]
      exact List.perm_middle
    exact (hperm1.trans hperm2).cons_inv
  -- the walks run on the map with `r` removed, but never touch position `r`
  have hkey_ne : ∀ m (hm : m < l.length), m ≠ r - 1 →
      l.get ⟨m, hm⟩ ≠ l.get ⟨r - 1, hrm⟩ := by
    intro m hm hne he
    have h2 := (List.Nodup.get_inj_iff hnd).mp he
    have h3 : m = r - 1 := congrArg Fin.val h2
    omega
  have hmapsUp : MapsUpTo nodes0 l lvs (r - 1) := by
    intro m hm hmP
    rw [hget0 _ (hkey_ne m hm (by omega))]
    exact hwf.lookup_eq m hm
  have hmapsFrom : MapsFrom nodes0 l lvs (r + 1) := by
    intro m hm hmS
    rw [hget0 _ (hkey_ne m hm (by omega))]
    exact hwf.lookup_eq m hm
  have hlen0' : nodes0.length = l.length - 1 := by omega
  have hsl0 : ({ sl with nodes := nodes0 } : SkipList K).nodes = nodes0 := rfl
  have hpredOk : ({ sl with nodes := nodes0 } : SkipList K).predecessors
      (keyAt l (r - 1)) sl.head.level =
      some (.ok ((List.range sl.head.level).map (preLink l lvs (r - 1)))) :=
    predecessors_ok _ l lvs hlvs hlv1 (r - 1)
      (by rw [hsl0]; exact hmapsUp) (by omega)
      (by rw [hsl0]; omega) (r - 1) (le_refl _) _ (by omega)
  have hsucOk : ({ sl with nodes := nodes0 } : SkipList K).successors
      (keyAt l (r + 1)) sl.head.level =
      some (.ok ((List.range sl.head.level).map (sucLink l lvs (r + 1)))) :=
    successors_ok _ l lvs hlvs hlv1 (r + 1)
      (by rw [hsl0]; exact hmapsFrom)
      (r + 1) (by omega) (le_refl _) (by omega)
      (by rw [hsl0]; omega) _ (by omega)
  -- the two level-0 links of the removed node
  have hlvr1 : 1 ≤ lvs.getD (r - 1) 0 := lv_getD_ge_one lvs hlv1 (r - 1) (by omega)
  have hprev0 : (mkNode l lvs (r - 1)).prev.get? 0 = some (mkLinkPrev l lvs r 0) := by
    rw [mkNode_prev_get? l lvs (r - 1) 0 (by omega)]
    rw [show r - 1 + 1 = r from by omega]
  have hnext0 : (mkNode l lvs (r - 1)).next.get? 0 = some (mkLinkNext l lvs r 0) := by
    rw [mkNode_next_get? l lvs (r - 1) 0 (by omega)]
    rw [show r - 1 + 1 = r from by omega]
  have hp0key : (mkLinkPrev l lvs r 0).key = keyAt l (r - 1) := by
    show keyAt l (pAnch lvs 0 (r - 1)) = _
    rw [pAnch_zero lvs hlv1 (r - 1) (by omega)]
  have hn0key : (mkLinkNext l lvs r 0).key = keyAt l (r + 1) := by
    show keyAt l (nAnch lvs 0 r) = _
    have h3 := nAnch_zero lvs hlv1 (r + 1) (by omega) (by omega)
    simp only [Nat.add_sub_cancel] at h3
    rw [h3]
  -- the splice loop
  obtain ⟨nodes₁, hsplice, hperm₁, hmap₁⟩ :=
    remSpliceGo_ok l lvs r sl.head.level hlvs hnd hlv1 hlvle hr hrn hH
      ((List.range sl.head.level).map (preLinkR l lvs r))
      ((List.range sl.head.level).map (sucLinkR l lvs r)) rfl rfl
      sl.head.level 1 0 0 nodes0 sl.head
      (by omega) (le_refl 1) (by omega) (by omega)
      (fun ℓ h1 h2 => by rw [show ℓ = 0 from by omega])
      (fun _ ℓ hℓ => absurd hℓ (by omega))
      (fun ℓ h1 h2 => by rw [show ℓ = 0 from by omega])
      (fun _ ℓ hℓ => absurd hℓ (by omega))
      (fun h => absurd h (by omega))
      hperm0
      (fun m hm hne => by
        rw [hget0 _ (hkey_ne m hm hne)]
        rw [hwf.lookup_eq m hm]
        congr 1)
      (by
        rw [if_neg (by rintro ⟨ℓ, h1, h2⟩; omega)]
        exact hheadsl)
  refine ⟨{ nodes := nodes₁,
            head := mkHead (l.eraseIdx (r - 1)) (lvs.eraseIdx (r - 1)) sl.head.level,
            len := sl.len - 1 }, ?_, rfl, rfl, ?_⟩
  · -- the computation of `_remove_key`
    simp only [SkipList._remove_key]
    rw [hremN]
    simp only []
    rw [hprev0]
    simp only []
    rw [hnext0]
    simp only []
    rw [hp0key, hpredOk]
    simp only []
    rw [hn0key, hsucOk]
    simp only []
    rw [merged_pre l lvs r sl.head.level, merged_suc l lvs r sl.head.level]
    rw [mkNode_level]
    rw [hsplice]
  · -- well-formedness of the result
    have hlenE : (l.eraseIdx (r - 1)).length = l.length - 1 :=
      eraseIdx_length l (r - 1) (by omega)
    have hlvsE : (lvs.eraseIdx (r - 1)).length = lvs.length - 1 :=
      eraseIdx_length lvs (r - 1) (by omega)
    refine { len_eq := ?_, lvs_len := ?_, nodup := ?_, lv_pos := ?_, lv_le := ?_,
             head_pos := hH, head_eq := Or.inl rfl, keys_perm := hperm₁,
             lookup_eq := ?_ }
    · show sl.len - 1 = (l.eraseIdx (r - 1)).length
      rw [hlenE, hwf.len_eq]
    · rw [hlvsE, hlenE, hlvs]
    · exact (List.eraseIdx_sublist l (r - 1)).nodup hnd
    · exact fun v hv => hlv1 v ((List.eraseIdx_sublist lvs (r - 1)).subset hv)
    · exact fun v hv => hlvle v ((List.eraseIdx_sublist lvs (r - 1)).subset hv)
    · intro i hi
      have hlt : i < l.length - 1 := by
        rw [hlenE] at hi
        exact hi
      rcases Nat.lt_or_ge i (r - 1) with hir | hir
      · have hilt : i < l.length := by omega
        have h1 : (l.eraseIdx (r - 1)).get? i
            = some ((l.eraseIdx (r - 1)).get ⟨i, hi⟩) := List.get?_eq_get hi
        have h2 : l.get? i = some (l.get ⟨i, hilt⟩) := List.get?_eq_get hilt
        have hkey := Option.some.inj
          ((h1.symm.trans (get?_eraseIdx_lt l (r - 1) i hir)).trans h2)
        rw [hkey, hmap₁ i hilt (by omega), if_pos hir]
      · have hilt : i + 1 < l.length := by omega
        have h1 : (l.eraseIdx (r - 1)).get? i
            = some ((l.eraseIdx (r - 1)).get ⟨i, hi⟩) := List.get?_eq_get hi
        have h2 : l.get? (i + 1) = some (l.get ⟨i + 1, hilt⟩) := List.get?_eq_get hilt
        have hkey := Option.some.inj
          ((h1.symm.trans (get?_eraseIdx_ge l (r - 1) i hir)).trans h2)
        rw [hkey, hmap₁ (i + 1) hilt (by omega), if_neg (by omega),
          Nat.add_sub_cancel]


/-! ### The trait-level operations on well-formed states -/

theorem Wf.containsN_true {sl : SkipList K} {l : List K} {lvs : List Nat}
    (hwf : Wf sl l lvs) {k : K} (hk : k ∈ l) : containsN sl.nodes k = true := by
  obtain ⟨⟨i, hlt⟩, hi⟩ := List.mem_iff_get.mp hk
  unfold containsN
  rw [← hi, hwf.lookup_eq i hlt]
  rfl

theorem Wf.containsN_false {sl : SkipList K} {l : List K} {lvs : List Nat}
    (hwf : Wf sl l lvs) {k : K} (hk : k ∉ l) : containsN sl.nodes k = false := by
  unfold containsN
  rw [hwf.getN_none hk]
  rfl

theorem insert_dup (sl : SkipList K) (l : List K) (lvs : List Nat)
    (hwf : Wf sl l lvs) (k : K) (hk : k ∈ l) (pred : Option K) (nl : Nat) :
    sl._insert_after pred k nl = some (sl, .error (.skipListError "DuplicateKey")) := by
  unfold SkipList._insert_after
  rw [hwf.containsN_true hk, if_pos rfl]

theorem insert_index_oob (sl : SkipList K) (i : Nat) (k : K) (nl : Nat)
    (h : sl.len < i) : sl.insert_index i k nl = none := by
  unfold SkipList.insert_index
  rw [if_neg (by omega)]
  unfold SkipList.key_of
  rw [if_pos (by omega)]

theorem insert_index_dup (sl : SkipList K) (l : List K) (lvs : List Nat)
    (hwf : Wf sl l lvs) (i : Nat) (k : K) (hk : k ∈ l) (nl : Nat) :
    sl.insert_index i k nl = none := by
  unfold SkipList.insert_index
  by_cases hi : i = 0
  · rw [if_pos hi]
    unfold SkipList.insert_head
    rw [insert_dup sl l lvs hwf k hk none nl]
  · rw [if_neg hi]
    rw [keyOf_wf hwf (i - 1)]
    cases hg : l.get? (i - 1) with
    | none => rfl
    | some suc =>
      show (match sl.insert_after suc k nl with
        | some (sl', .ok ()) =>
          (match sl'.key_of (i - 1) with
           | none => none
           | some r => some (r, sl'))
        | some (_, .error _) => none
        | none => none) = none
      unfold SkipList.insert_after
      rw [insert_dup sl l lvs hwf k hk (some suc) nl]

theorem insert_index_wf (sl : SkipList K) (l : List K) (lvs : List Nat)
    (hwf : Wf sl l lvs) (i : Nat) (hi : i ≤ l.length) (k : K) (hk : k ∉ l)
    (nl : Nat) (hnl : 1 ≤ nl) :
    ∃ sl', sl.insert_index i k nl
        = some ((if i = 0 then none else l.get? (i - 1)), sl') ∧
      sl'.len = sl.len + 1 ∧ sl'.head.level = max nl sl.head.level ∧
      Wf sl' (l.insertIdx i k) (lvs.insertIdx i nl) := by
  obtain ⟨sl', hins, hlen, hlev, hwf'⟩ := insert_after_wf sl l lvs hwf i hi k hk nl hnl
  refine ⟨sl', ?_, hlen, hlev, hwf'⟩
  unfold SkipList.insert_index
  by_cases hi0 : i = 0
  · subst hi0
    rw [if_pos rfl]
    unfold SkipList.insert_head
    rw [keyAt_zero] at hins
    rw [hins]
    rw [if_pos rfl]
  · rw [if_neg hi0]
    rw [keyOf_wf hwf (i - 1)]
    obtain ⟨hplt, hkeq⟩ := keyAt_isSome l i (by omega) hi
    have hgeq : l.get? (i - 1) = some (l.get ⟨i - 1, hplt⟩) := List.get?_eq_get hplt
    rw [hgeq]
    rw [hkeq] at hins
    have hins2 : sl.insert_after (l.get ⟨i - 1, hplt⟩) k nl = some (sl', .ok ()) := hins
    show (match sl.insert_after (l.get ⟨i - 1, hplt⟩) k nl with
      | some (sl', .ok ()) =>
        (match sl'.key_of (i - 1) with
         | none => none
         | some r => some (r, sl'))
      | some (_, .error _) => none
      | none => none) = _
    rw [hins2]
    simp only []
    rw [keyOf_wf hwf' (i - 1), get?_insertIdx_lt k l i (i - 1) (by omega)]
    rw [if_neg hi0, hgeq]

theorem insert_after_no_pred (sl : SkipList K) (l : List K) (lvs : List Nat)
    (hwf : Wf sl l lvs) (pred k : K) (hk : k ∉ l) (hpred : pred ∉ l) (nl : Nat) :
    sl.insert_after pred k nl
      = some (sl, .error (.skipListError "Key not found")) := by
  unfold SkipList.insert_after SkipList._insert_after
  rw [hwf.containsN_false hk, if_neg Bool.false_ne_true]
  simp only []
  unfold SkipList.get_node
  simp only []
  rw [hwf.getN_none hpred]

theorem remove_index_oob (sl : SkipList K) (i : Nat) (h : sl.len ≤ i) :
    sl.remove_index i = some (none, sl) := by
  unfold SkipList.remove_index SkipList.key_of
  rw [if_pos (by omega)]

theorem remove_index_wf (sl : SkipList K) (l : List K) (lvs : List Nat)
    (hwf : Wf sl l lvs) (i : Nat) (hi : i < l.length) :
    ∃ sl', sl.remove_index i = some (some (l.get ⟨i, hi⟩), sl') ∧
      sl'.len = sl.len - 1 ∧ sl'.head.level = sl.head.level ∧
      Wf sl' (l.eraseIdx i) (lvs.eraseIdx i) := by
  obtain ⟨sl', hrem, hlen, hlev, hwf'⟩ := remove_key_wf sl l lvs hwf (i + 1) (by omega)
    (by omega) (by omega)
  have hrem2 : sl._remove_key (l.get ⟨i, hi⟩) = some (sl', .ok ()) := hrem
  have hwf2 : Wf sl' (l.eraseIdx i) (lvs.eraseIdx i) := hwf'
  refine ⟨sl', ?_, hlen, hlev, hwf2⟩
  unfold SkipList.remove_index
  rw [keyOf_wf hwf i, List.get?_eq_get hi]
  simp only []
  rw [hrem2]

theorem remove_key_absent (sl : SkipList K) (l : List K) (lvs : List Nat)
    (hwf : Wf sl l lvs) (k : K) (hk : k ∉ l) :
    sl.remove_key k = some (none, sl) := by
  unfold SkipList.remove_key
  rw [indexOf_wf_absent hwf hk]

theorem remove_key_present (sl : SkipList K) (l : List K) (lvs : List Nat)
    (hwf : Wf sl l lvs) (i : Nat) (hi : i < l.length) :
    ∃ sl', sl.remove_key (l.get ⟨i, hi⟩) = some (some i, sl') ∧
      sl'.len = sl.len - 1 ∧ sl'.head.level = sl.head.level ∧
      Wf sl' (l.eraseIdx i) (lvs.eraseIdx i) := by
  obtain ⟨sl', hrem, hlen, hlev, hwf'⟩ := remove_key_wf sl l lvs hwf (i + 1) (by omega)
    (by omega) (by omega)
  have hrem2 : sl._remove_key (l.get ⟨i, hi⟩) = some (sl', .ok ()) := hrem
  have hwf2 : Wf sl' (l.eraseIdx i) (lvs.eraseIdx i) := hwf'
  refine ⟨sl', ?_, hlen, hlev, hwf2⟩
  unfold SkipList.remove_key
  rw [indexOf_wf_present hwf i hi]
  simp only []
  rw [hrem2]

/-! ### `VecOrderedSet`: `index_of` as a list search -/

theorem findIdxQ_cons (k x : K) (t : List K) (s : Nat) :
    List.findIdx? (· = k) (x :: t) s
      = if x = k then some s else List.findIdx? (· = k) t (s + 1) := by
  show (if (decide (x = k)) = true then some s else List.findIdx? (· = k) t (s + 1)) = _
  by_cases hxk : x = k
  · rw [if_pos (by simpa using hxk), if_pos hxk]
  · rw [if_neg (by simpa using hxk), if_neg hxk]

theorem findIdxQ_absent (k : K) :
    ∀ (xs : List K) (s : Nat), k ∉ xs → List.findIdx? (· = k) xs s = none := by
  intro xs
  induction xs with
  | nil => intro s _; rfl
  | cons x t ih =>
    intro s hk
    rw [findIdxQ_cons]
    rw [if_neg (fun he => hk (by rw [← he]; exact List.mem_cons_self x t))]
    exact ih (s + 1) (fun hm => hk (List.mem_cons_of_mem x hm))

theorem findIdxQ_get :
    ∀ (xs : List K), xs.Nodup → ∀ (i : Nat) (hi : i < xs.length) (s : Nat),
      List.findIdx? (· = xs.get ⟨i, hi⟩) xs s = some (s + i) := by
  intro xs
  induction xs with
  | nil => intro _ i hi; simp at hi
  | cons x t ih =>
    intro hnd i hi s
    cases i with
    | zero =>
      rw [findIdxQ_cons,
        if_pos (show x = (x :: t).get ⟨0, hi⟩ from rfl), Nat.add_zero]
    | succ j =>
      have hjt : j < t.length := by simpa using hi
      have hget : (x :: t).get ⟨j + 1, hi⟩ = t.get ⟨j, hjt⟩ := rfl
      rw [findIdxQ_cons, hget]
      rw [if_neg (fun he =>
        (List.nodup_cons.mp hnd).1 (by rw [he]; exact List.get_mem t j hjt))]
      rw [ih (List.nodup_cons.mp hnd).2 j hjt (s + 1)]
      congr 1
      omega

theorem vec_index_of_absent (v : VecOrderedSet K) (k : K) (hk : k ∉ v.keys) :
    v.index_of k = none := by
  unfold VecOrderedSet.index_of
  exact findIdxQ_absent k v.keys 0 hk

theorem vec_index_of_get (v : VecOrderedSet K) (hnd : v.keys.Nodup) (i : Nat)
    (hi : i < v.keys.length) : v.index_of (v.keys.get ⟨i, hi⟩) = some i := by
  unfold VecOrderedSet.index_of
  have h := findIdxQ_get v.keys hnd i hi 0
  rw [show (0 : Nat) + i = i from by omega] at h
  exact h

/-! ### Operation sequences: the randomized differential harness.
The harness itself is not part of `src/`; an operation carries the level the
skip-list side draws from `random_level` (always at least 1). -/

inductive Op (K : Type) where
  | insertHead (key : K) (lvl : Nat)
  | insertAfter (pred key : K) (lvl : Nat)
  | insertIndex (index : Nat) (key : K) (lvl : Nat)
  | removeKey (key : K)
  | removeIndex (index : Nat)

/-- The drawn level is a possible value of `random_level` (always `≥ 1`). -/
def Op.lvlOk : Op K → Prop
  | .insertHead _ lvl => 1 ≤ lvl
  | .insertAfter _ _ lvl => 1 ≤ lvl
  | .insertIndex _ _ lvl => 1 ≤ lvl
  | .removeKey _ => True
  | .removeIndex _ => True

/-- Apply one operation to a `SkipList`; `none` is a panic. -/
def applyS (sl : SkipList K) : Op K → Option (SkipList K)
  | .insertHead k lvl => (sl.insert_head k lvl).map Prod.fst
  | .insertAfter p k lvl => (sl.insert_after p k lvl).map Prod.fst
  | .insertIndex i k lvl => (sl.insert_index i k lvl).map Prod.snd
  | .removeKey k => (sl.remove_key k).map Prod.snd
  | .removeIndex i => (sl.remove_index i).map Prod.snd

/-- Run a sequence of operations on a `SkipList`. -/
def runS (sl : SkipList K) : List (Op K) → Option (SkipList K)
  | [] => some sl
  | op :: ops =>
    match applyS sl op with
    | none => none
    | some sl' => runS sl' ops

theorem applyS_wf (sl : SkipList K) (l : List K) (lvs : List Nat)
    (hwf : Wf sl l lvs) (op : Op K) (hop : op.lvlOk) (sl' : SkipList K)
    (h : applyS sl op = some sl') : ∃ l' lvs', Wf sl' l' lvs' := by
  cases op with
  | insertHead k lvl =>
    unfold applyS at h
    simp only [] at h
    by_cases hk : k ∈ l
    · unfold SkipList.insert_head at h
      rw [insert_dup sl l lvs hwf k hk none lvl] at h
      have hse : sl = sl' := Option.some.inj h
      exact ⟨l, lvs, hse ▸ hwf⟩
    · obtain ⟨sl'', hins, _, _, hwf''⟩ :=
        insert_after_wf sl l lvs hwf 0 (by omega) k hk lvl hop
      unfold SkipList.insert_head at h
      rw [keyAt_zero] at hins
      rw [hins] at h
      have hse : sl'' = sl' := Option.some.inj h
      exact ⟨_, _, hse ▸ hwf''⟩
  | insertAfter p k lvl =>
    unfold applyS at h
    simp only [] at h
    by_cases hk : k ∈ l
    · unfold SkipList.insert_after at h
      rw [insert_dup sl l lvs hwf k hk (some p) lvl] at h
      have hse : sl = sl' := Option.some.inj h
      exact ⟨l, lvs, hse ▸ hwf⟩
    · by_cases hp : p ∈ l
      · obtain ⟨⟨j, hj⟩, hget⟩ := List.mem_iff_get.mp hp
        obtain ⟨sl'', hins, _, _, hwf''⟩ :=
          insert_after_wf sl l lvs hwf (j + 1) (by omega) k hk lvl hop
        obtain ⟨hplt, hkeq⟩ := keyAt_isSome l (j + 1) (by omega) (by omega)
        rw [hkeq] at hins
        have hins2 : sl.insert_after p k lvl = some (sl'', .ok ()) := by
          unfold SkipList.insert_after
          rw [← hget]
          exact hins
        rw [hins2] at h
        have hse : sl'' = sl' := Option.some.inj h
        exact ⟨_, _, hse ▸ hwf''⟩
      · rw [insert_after_no_pred sl l lvs hwf p k hk hp lvl] at h
        have hse : sl = sl' := Option.some.inj h
        exact ⟨l, lvs, hse ▸ hwf⟩
  | insertIndex i k lvl =>
    unfold applyS at h
    simp only [] at h
    by_cases hk : k ∈ l
    · rw [insert_index_dup sl l lvs hwf i k hk lvl] at h
      exact absurd h (by simp)
    · by_cases hi : i ≤ l.length
      · obtain ⟨sl'', hins, _, _, hwf''⟩ :=
          insert_index_wf sl l lvs hwf i hi k hk lvl hop
        rw [hins] at h
        have hse : sl'' = sl' := Option.some.inj h
        exact ⟨_, _, hse ▸ hwf''⟩
      · rw [insert_index_oob sl i k lvl (by rw [hwf.len_eq]; omega)] at h
        exact absurd h (by simp)
  | removeKey k =>
    unfold applyS at h
    simp only [] at h
    by_cases hk : k ∈ l
    · obtain ⟨⟨j, hj⟩, hget⟩ := List.mem_iff_get.mp hk
      obtain ⟨sl'', hrem, _, _, hwf''⟩ := remove_key_present sl l lvs hwf j hj
      rw [hget] at hrem
      rw [hrem] at h
      have hse : sl'' = sl' := Option.some.inj h
      exact ⟨_, _, hse ▸ hwf''⟩
    · rw [remove_key_absent sl l lvs hwf k hk] at h
      have hse : sl = sl' := Option.some.inj h
      exact ⟨l, lvs, hse ▸ hwf⟩
  | removeIndex i =>
    unfold applyS at h
    simp only [] at h
    by_cases hi : i < l.length
    · obtain ⟨sl'', hrem, _, _, hwf''⟩ := remove_index_wf sl l lvs hwf i hi
      rw [hrem] at h
      have hse : sl'' = sl' := Option.some.inj h
      exact ⟨_, _, hse ▸ hwf''⟩
    · rw [remove_index_oob sl i (by rw [hwf.len_eq]; omega)] at h
      have hse : sl = sl' := Option.some.inj h
      exact ⟨l, lvs, hse ▸ hwf⟩

theorem new_wf : Wf (SkipList.new : SkipList K) [] [] := by
  refine { len_eq := rfl, lvs_len := rfl, nodup := List.nodup_nil, lv_pos := ?_,
           lv_le := ?_, head_pos := le_refl 1, head_eq := Or.inr ⟨rfl, rfl⟩,
           keys_perm := List.Perm.refl _, lookup_eq := ?_ }
  · intro v hv
    simp at hv
  · intro v hv
    simp at hv
  · intro i hlt
    simp at hlt

theorem runS_wf (ops : List (Op K)) :
    ∀ sl l lvs, Wf sl l lvs → (∀ op ∈ ops, op.lvlOk) →
    ∀ sl', runS sl ops = some sl' → ∃ l' lvs', Wf sl' l' lvs' := by
  induction ops with
  | nil =>
    intro sl l lvs hwf _ sl' h
    have hse : sl = sl' := Option.some.inj h
    exact ⟨l, lvs, hse ▸ hwf⟩
  | cons op ops ih =>
    intro sl l lvs hwf hops sl' h
    unfold runS at h
    cases ha : applyS sl op with
    | none =>
      rw [ha] at h
      exact Option.noConfusion h
    | some sl₁ =>
      rw [ha] at h
      obtain ⟨l₁, lvs₁, hwf₁⟩ :=
        applyS_wf sl l lvs hwf op (hops op (List.mem_cons_self op ops)) sl₁ ha
      exact ih sl₁ l₁ lvs₁ hwf₁ (fun o ho => hops o (List.mem_cons_of_mem op ho)) sl' h

/-- The rank/key round trip on any well-formed skip list. -/
theorem roundtrip_wf (sl : SkipList K) (l : List K) (lvs : List Nat)
    (hwf : Wf sl l lvs) :
    (∀ r, r < sl.len →
      ∃ k, sl.key_of r = some (some k) ∧ sl.index_of k = some (some r)) ∧
    (∀ k, containsN sl.nodes k = true →
      ∃ r, sl.index_of k = some (some r) ∧ sl.key_of r = some (some k)) := by
  constructor
  · intro r hr
    have hrl : r < l.length := by rw [← hwf.len_eq]; exact hr
    refine ⟨l.get ⟨r, hrl⟩, ?_, indexOf_wf_present hwf r hrl⟩
    rw [keyOf_wf hwf r, List.get?_eq_get hrl]
  · intro k hc
    have hk : k ∈ l := by
      by_contra hk
      rw [hwf.containsN_false hk] at hc
      exact Bool.false_ne_true hc
    obtain ⟨⟨j, hj⟩, hget⟩ := List.mem_iff_get.mp hk
    refine ⟨j, ?_, ?_⟩
    · rw [← hget]
      exact indexOf_wf_present hwf j hj
    · rw [keyOf_wf hwf j, List.get?_eq_get hj, hget]

/-! ### More `VecOrderedSet` facts -/

theorem vec_insert_index_eq (v : VecOrderedSet K) (i : Nat) (k : K)
    (hi : i ≤ v.keys.length) :
    v.insert_index i k
      = some ((if i = 0 then none else (v.keys.insertIdx i k).get? (i - 1)),
          ⟨v.keys.insertIdx i k⟩) := by
  unfold VecOrderedSet.insert_index
  rw [if_pos hi]

theorem vec_insert_index_oob (v : VecOrderedSet K) (i : Nat) (k : K)
    (hi : v.keys.length < i) : v.insert_index i k = none := by
  unfold VecOrderedSet.insert_index
  rw [if_neg (by omega)]

theorem vec_remove_key_present (v : VecOrderedSet K) (hnd : v.keys.Nodup)
    (j : Nat) (hj : j < v.keys.length) :
    v.remove_key (v.keys.get ⟨j, hj⟩) = (some j, ⟨v.keys.eraseIdx j⟩) := by
  unfold VecOrderedSet.remove_key
  have h := findIdxQ_get v.keys hnd j hj 0
  rw [show (0 : Nat) + j = j from by omega] at h
  rw [h]

theorem vec_remove_key_absent (v : VecOrderedSet K) (k : K) (hk : k ∉ v.keys) :
    v.remove_key k = (none, v) := by
  unfold VecOrderedSet.remove_key
  rw [findIdxQ_absent k v.keys 0 hk]

theorem vec_remove_index_lt (v : VecOrderedSet K) (i : Nat) (hi : i < v.keys.length) :
    v.remove_index i = (v.keys.get? i, ⟨v.keys.eraseIdx i⟩) := by
  unfold VecOrderedSet.remove_index
  rw [if_pos (by omega)]

theorem vec_remove_index_ge (v : VecOrderedSet K) (i : Nat) (hi : v.keys.length ≤ i) :
    v.remove_index i = (none, v) := by
  unfold VecOrderedSet.remove_index
  rw [if_neg (by omega)]

theorem findIdxQ_lt (k : K) :
    ∀ (xs : List K) (s j : Nat), List.findIdx? (· = k) xs s = some j →
      s ≤ j ∧ j < s + xs.length := by
  intro xs
  induction xs with
  | nil =>
    intro s j h
    exact Option.noConfusion h
  | cons x t ih =>
    intro s j h
    rw [findIdxQ_cons] at h
    by_cases hxk : x = k
    · rw [if_pos hxk] at h
      have := Option.some.inj h
      simp only [List.length_cons]
      omega
    · rw [if_neg hxk] at h
      have := ih (s + 1) j h
      simp only [List.length_cons]
      omega

/-! ### The lockstep differential harness.
The randomized test driving both structures is not part of `src/`; it is
modelled here: each operation is applied to the skip list, and mirrored on the
vector (`insert-head` at index `0`, `insert-after` behind `index_of` of the
predecessor); a panic on either side aborts the run. -/

def applyPair (p : SkipList K × VecOrderedSet K) (op : Op K) :
    Option (SkipList K × VecOrderedSet K) :=
  match op with
  | .insertHead k lvl =>
    match p.1.insert_head k lvl with
    | some (sl', .ok ()) => (p.2.insert_index 0 k).map (fun q => (sl', q.2))
    | _ => none
  | .insertAfter pr k lvl =>
    match p.1.insert_after pr k lvl with
    | some (sl', .ok ()) =>
      match p.2.index_of pr with
      | none => none
      | some i => (p.2.insert_index (i + 1) k).map (fun q => (sl', q.2))
    | _ => none
  | .insertIndex i k lvl =>
    match p.1.insert_index i k lvl with
    | none => none
    | some (_, sl') => (p.2.insert_index i k).map (fun q => (sl', q.2))
  | .removeKey k =>
    match p.1.remove_key k with
    | none => none
    | some (_, sl') => some (sl', (p.2.remove_key k).2)
  | .removeIndex i =>
    match p.1.remove_index i with
    | none => none
    | some (_, sl') => some (sl', (p.2.remove_index i).2)

def runPair (p : SkipList K × VecOrderedSet K) :
    List (Op K) → Option (SkipList K × VecOrderedSet K)
  | [] => some p
  | op :: ops =>
    match applyPair p op with
    | none => none
    | some p' => runPair p' ops

/-- The lockstep invariant: the skip list is well-formed and holds exactly the
keys of the vector, in the same order. -/
def PairWf (p : SkipList K × VecOrderedSet K) : Prop :=
  ∃ lvs, Wf p.1 p.2.keys lvs

theorem applyPair_wf (p : SkipList K × VecOrderedSet K) (hp : PairWf p)
    (op : Op K) (hop : op.lvlOk) (p' : SkipList K × VecOrderedSet K)
    (h : applyPair p op = some p') : PairWf p' := by
  obtain ⟨lvs, hwf⟩ := hp
  cases op with
  | insertHead k lvl =>
    unfold applyPair at h
    simp only [] at h
    by_cases hk : k ∈ p.2.keys
    · unfold SkipList.insert_head at h
      rw [insert_dup p.1 p.2.keys lvs hwf k hk none lvl] at h
      exact Option.noConfusion h
    · obtain ⟨sl'', hins, _, _, hwf''⟩ :=
        insert_after_wf p.1 p.2.keys lvs hwf 0 (by omega) k hk lvl hop
      unfold SkipList.insert_head at h
      rw [keyAt_zero] at hins
      rw [hins] at h
      rw [vec_insert_index_eq p.2 0 k (by omega)] at h
      have hpe : (sl'', (⟨p.2.keys.insertIdx 0 k⟩ : VecOrderedSet K)) = p' :=
        Option.some.inj h
      rw [← hpe]
      exact ⟨_, hwf''⟩
  | insertAfter pr k lvl =>
    unfold applyPair at h
    simp only [] at h
    by_cases hk : k ∈ p.2.keys
    · unfold SkipList.insert_after at h
      rw [insert_dup p.1 p.2.keys lvs hwf k hk (some pr) lvl] at h
      exact Option.noConfusion h
    · by_cases hpr : pr ∈ p.2.keys
      · obtain ⟨⟨j, hj⟩, hget⟩ := List.mem_iff_get.mp hpr
        obtain ⟨sl'', hins, _, _, hwf''⟩ :=
          insert_after_wf p.1 p.2.keys lvs hwf (j + 1) (by omega) k hk lvl hop
        obtain ⟨hplt, hkeq⟩ := keyAt_isSome p.2.keys (j + 1) (by omega) (by omega)
        rw [hkeq] at hins
        have hins2 : p.1.insert_after pr k lvl = some (sl'', .ok ()) := by
          unfold SkipList.insert_after
          rw [← hget]
          exact hins
        rw [hins2] at h
        simp only [] at h
        have hidx : p.2.index_of pr = some j := by
          rw [← hget]
          exact vec_index_of_get p.2 hwf.nodup j hj
        rw [hidx] at h
        simp only [] at h
        rw [vec_insert_index_eq p.2 (j + 1) k (by omega)] at h
        have hpe : (sl'', (⟨p.2.keys.insertIdx (j + 1) k⟩ : VecOrderedSet K)) = p' :=
          Option.some.inj h
        rw [← hpe]
        exact ⟨_, hwf''⟩
      · rw [insert_after_no_pred p.1 p.2.keys lvs hwf pr k hk hpr lvl] at h
        exact Option.noConfusion h
  | insertIndex i k lvl =>
    unfold applyPair at h
    simp only [] at h
    by_cases hk : k ∈ p.2.keys
    · rw [insert_index_dup p.1 p.2.keys lvs hwf i k hk lvl] at h
      exact Option.noConfusion h
    · by_cases hi : i ≤ p.2.keys.length
      · obtain ⟨sl'', hins, _, _, hwf''⟩ :=
          insert_index_wf p.1 p.2.keys lvs hwf i hi k hk lvl hop
        rw [hins] at h
        rw [vec_insert_index_eq p.2 i k hi] at h
        have hpe : (sl'', (⟨p.2.keys.insertIdx i k⟩ : VecOrderedSet K)) = p' :=
          Option.some.inj h
        rw [← hpe]
        exact ⟨_, hwf''⟩
      · rw [insert_index_oob p.1 i k lvl (by rw [hwf.len_eq]; omega)] at h
        exact Option.noConfusion h
  | removeKey k =>
    unfold applyPair at h
    simp only [] at h
    by_cases hk : k ∈ p.2.keys
    · obtain ⟨⟨j, hj⟩, hget⟩ := List.mem_iff_get.mp hk
      obtain ⟨sl'', hrem, _, _, hwf''⟩ := remove_key_present p.1 p.2.keys lvs hwf j hj
      rw [hget] at hrem
      rw [hrem] at h
      have hvr : p.2.remove_key k = (some j, ⟨p.2.keys.eraseIdx j⟩) := by
        rw [← hget]
        exact vec_remove_key_present p.2 hwf.nodup j hj
      rw [hvr] at h
      have hpe : (sl'', (⟨p.2.keys.eraseIdx j⟩ : VecOrderedSet K)) = p' :=
        Option.some.inj h
      rw [← hpe]
      exact ⟨_, hwf''⟩
    · rw [remove_key_absent p.1 p.2.keys lvs hwf k hk] at h
      rw [vec_remove_key_absent p.2 k hk] at h
      have hpe : (p.1, p.2) = p' := Option.some.inj h
      rw [← hpe]
      exact ⟨lvs, hwf⟩
  | removeIndex i =>
    unfold applyPair at h
    simp only [] at h
    by_cases hi : i < p.2.keys.length
    · obtain ⟨sl'', hrem, _, _, hwf''⟩ := remove_index_wf p.1 p.2.keys lvs hwf i hi
      rw [hrem] at h
      rw [vec_remove_index_lt p.2 i hi] at h
      have hpe : (sl'', (⟨p.2.keys.eraseIdx i⟩ : VecOrderedSet K)) = p' :=
        Option.some.inj h
      rw [← hpe]
      exact ⟨_, hwf''⟩
    · rw [remove_index_oob p.1 i (by rw [hwf.len_eq]; omega)] at h
      rw [vec_remove_index_ge p.2 i (by omega)] at h
      have hpe : (p.1, p.2) = p' := Option.some.inj h
      rw [← hpe]
      exact ⟨lvs, hwf⟩

theorem runPair_wf (ops : List (Op K)) :
    ∀ p, PairWf p → (∀ op ∈ ops, op.lvlOk) →
    ∀ p', runPair p ops = some p' → PairWf p' := by
  induction ops with
  | nil =>
    intro p hp _ p' h
    have hpe : p = p' := Option.some.inj h
    rw [← hpe]
    exact hp
  | cons op ops ih =>
    intro p hp hops p' h
    unfold runPair at h
    cases ha : applyPair p op with
    | none =>
      rw [ha] at h
      exact Option.noConfusion h
    | some p₁ =>
      rw [ha] at h
      exact ih p₁ (applyPair_wf p hp op (hops op (List.mem_cons_self op ops)) p₁ ha)
        (fun o ho => hops o (List.mem_cons_of_mem op ho)) p' h

/-- On a lockstep-invariant pair, `key_of` and `index_of` agree. -/
theorem agree_wf (sl : SkipList K) (v : VecOrderedSet K) (lvs : List Nat)
    (hwf : Wf sl v.keys lvs) :
    (∀ i, sl.key_of i = some (v.key_of i)) ∧
    (∀ k, sl.index_of k = some (v.index_of k)) := by
  constructor
  · intro i
    rw [keyOf_wf hwf i]
    rfl
  · intro k
    by_cases hk : k ∈ v.keys
    · obtain ⟨⟨j, hj⟩, hget⟩ := List.mem_iff_get.mp hk
      rw [← hget, indexOf_wf_present hwf j hj, vec_index_of_get v hwf.nodup j hj]
    · rw [indexOf_wf_absent hwf hk, vec_index_of_absent v k hk]

/-! ### Counting successful inserts and removals along a run (harness for the
`len` bookkeeping; not in `src/`).  The four counters are: final state,
inserts that completed, inserts whose `Option` return was `Some`, removals
whose return was `Some`. -/

inductive TraitOp (K : Type) where
  | insertIndex (index : Nat) (key : K) (lvl : Nat)
  | removeKey (key : K)
  | removeIndex (index : Nat)

def TraitOp.lvlOk : TraitOp K → Prop
  | .insertIndex _ _ lvl => 1 ≤ lvl
  | .removeKey _ => True
  | .removeIndex _ => True

def runSC (sl : SkipList K) : List (TraitOp K) → Option (SkipList K × Nat × Nat × Nat)
  | [] => some (sl, 0, 0, 0)
  | op :: ops =>
    match op with
    | .insertIndex i k lvl =>
      match sl.insert_index i k lvl with
      | none => none
      | some (ret, sl') =>
        (runSC sl' ops).map (fun q =>
          (q.1, q.2.1 + 1, q.2.2.1 + (if ret.isSome then 1 else 0), q.2.2.2))
    | .removeKey k =>
      match sl.remove_key k with
      | none => none
      | some (ret, sl') =>
        (runSC sl' ops).map (fun q =>
          (q.1, q.2.1, q.2.2.1, q.2.2.2 + (if ret.isSome then 1 else 0)))
    | .removeIndex i =>
      match sl.remove_index i with
      | none => none
      | some (ret, sl') =>
        (runSC sl' ops).map (fun q =>
          (q.1, q.2.1, q.2.2.1, q.2.2.2 + (if ret.isSome then 1 else 0)))

def runVC (v : VecOrderedSet K) : List (TraitOp K) → Option (VecOrderedSet K × Nat × Nat × Nat)
  | [] => some (v, 0, 0, 0)
  | op :: ops =>
    match op with
    | .insertIndex i k _ =>
      match v.insert_index i k with
      | none => none
      | some (ret, v') =>
        (runVC v' ops).map (fun q =>
          (q.1, q.2.1 + 1, q.2.2.1 + (if ret.isSome then 1 else 0), q.2.2.2))
    | .removeKey k =>
      (runVC (v.remove_key k).2 ops).map (fun q =>
        (q.1, q.2.1, q.2.2.1, q.2.2.2 + (if (v.remove_key k).1.isSome then 1 else 0)))
    | .removeIndex i =>
      (runVC (v.remove_index i).2 ops).map (fun q =>
        (q.1, q.2.1, q.2.2.1, q.2.2.2 + (if (v.remove_index i).1.isSome then 1 else 0)))

theorem runSC_len (ops : List (TraitOp K)) :
    ∀ sl l lvs, Wf sl l lvs → (∀ op ∈ ops, op.lvlOk) →
    ∀ sl' ins insSome rem, runSC sl ops = some (sl', ins, insSome, rem) →
      sl'.len + rem = sl.len + ins := by
  induction ops with
  | nil =>
    intro sl l lvs hwf _ sl' ins insSome rem h
    have h0 := Option.some.inj h
    have e1 : sl = sl' := congrArg Prod.fst h0
    have e2 : (0 : Nat) = ins := congrArg (fun z => z.2.1) h0
    have e3 : (0 : Nat) = rem := congrArg (fun z => z.2.2.2) h0
    rw [← e1, ← e2, ← e3]
  | cons op ops ih =>
    intro sl l lvs hwf hops sl' ins insSome rem h
    have hops' : ∀ o ∈ ops, TraitOp.lvlOk o :=
      fun o ho => hops o (List.mem_cons_of_mem op ho)
    cases op with
    | insertIndex i k lvl =>
      unfold runSC at h
      simp only [] at h
      by_cases hk : k ∈ l
      · rw [insert_index_dup sl l lvs hwf i k hk lvl] at h
        exact Option.noConfusion h
      · by_cases hi : i ≤ l.length
        · obtain ⟨sl'', hins, hlen'', _, hwf''⟩ :=
            insert_index_wf sl l lvs hwf i hi k hk lvl
              (hops (TraitOp.insertIndex i k lvl) (List.mem_cons_self _ _))
          rw [hins] at h
          simp only [] at h
          cases hrec : runSC sl'' ops with
          | none =>
            rw [hrec] at h
            exact Option.noConfusion h
          | some q =>
            rw [hrec] at h
            rw [Option.map_some'] at h
            have h0 := Option.some.inj h
            have e1 : q.1 = sl' := congrArg Prod.fst h0
            have e1l : q.1.len = sl'.len := congrArg SkipList.len e1
            have e2 : q.2.1 + 1 = ins := congrArg (fun z => z.2.1) h0
            have e3 : q.2.2.2 = rem := congrArg (fun z => z.2.2.2) h0
            have hq := ih sl'' _ _ hwf'' hops' q.1 q.2.1 q.2.2.1 q.2.2.2 (by rw [hrec])
            omega
        · rw [insert_index_oob sl i k lvl (by rw [hwf.len_eq]; omega)] at h
          exact Option.noConfusion h
    | removeKey k =>
      unfold runSC at h
      simp only [] at h
      by_cases hk : k ∈ l
      · obtain ⟨⟨j, hj⟩, hget⟩ := List.mem_iff_get.mp hk
        obtain ⟨sl'', hrem, hlen'', _, hwf''⟩ := remove_key_present sl l lvs hwf j hj
        rw [hget] at hrem
        rw [hrem] at h
        simp only [] at h
        cases hrec : runSC sl'' ops with
        | none =>
          rw [hrec] at h
          exact Option.noConfusion h
        | some q =>
          rw [hrec] at h
          rw [Option.map_some'] at h
          have h0 := Option.some.inj h
          have e1 : q.1 = sl' := congrArg Prod.fst h0
          have e1l : q.1.len = sl'.len := congrArg SkipList.len e1
          have e2 : q.2.1 = ins := congrArg (fun z => z.2.1) h0
          have e3 : q.2.2.2 + 1 = rem := congrArg (fun z => z.2.2.2) h0
          have hq := ih sl'' _ _ hwf'' hops' q.1 q.2.1 q.2.2.1 q.2.2.2 (by rw [hrec])
          have hlpos : 1 ≤ sl.len := by
            rw [hwf.len_eq]
            omega
          omega
      · rw [remove_key_absent sl l lvs hwf k hk] at h
        simp only [] at h
        cases hrec : runSC sl ops with
        | none =>
          rw [hrec] at h
          exact Option.noConfusion h
        | some q =>
          rw [hrec] at h
          rw [Option.map_some'] at h
          have h0 := Option.some.inj h
          have e1 : q.1 = sl' := congrArg Prod.fst h0
          have e1l : q.1.len = sl'.len := congrArg SkipList.len e1
          have e2 : q.2.1 = ins := congrArg (fun z => z.2.1) h0
          have e3 : q.2.2.2 + 0 = rem := congrArg (fun z => z.2.2.2) h0
          have hq := ih sl _ _ hwf hops' q.1 q.2.1 q.2.2.1 q.2.2.2 (by rw [hrec])
          omega
    | removeIndex i =>
      unfold runSC at h
      simp only [] at h
      by_cases hi : i < l.length
      · obtain ⟨sl'', hrem, hlen'', _, hwf''⟩ := remove_index_wf sl l lvs hwf i hi
        rw [hrem] at h
        simp only [] at h
        cases hrec : runSC sl'' ops with
        | none =>
          rw [hrec] at h
          exact Option.noConfusion h
        | some q =>
          rw [hrec] at h
          rw [Option.map_some'] at h
          have h0 := Option.some.inj h
          have e1 : q.1 = sl' := congrArg Prod.fst h0
          have e1l : q.1.len = sl'.len := congrArg SkipList.len e1
          have e2 : q.2.1 = ins := congrArg (fun z => z.2.1) h0
          have e3 : q.2.2.2 + 1 = rem := congrArg (fun z => z.2.2.2) h0
          have hq := ih sl'' _ _ hwf'' hops' q.1 q.2.1 q.2.2.1 q.2.2.2 (by rw [hrec])
          have hlpos : 1 ≤ sl.len := by
            rw [hwf.len_eq]
            omega
          omega
      · rw [remove_index_oob sl i (by rw [hwf.len_eq]; omega)] at h
        simp only [] at h
        cases hrec : runSC sl ops with
        | none =>
          rw [hrec] at h
          exact Option.noConfusion h
        | some q =>
          rw [hrec] at h
          rw [Option.map_some'] at h
          have h0 := Option.some.inj h
          have e1 : q.1 = sl' := congrArg Prod.fst h0
          have e1l : q.1.len = sl'.len := congrArg SkipList.len e1
          have e2 : q.2.1 = ins := congrArg (fun z => z.2.1) h0
          have e3 : q.2.2.2 + 0 = rem := congrArg (fun z => z.2.2.2) h0
          have hq := ih sl _ _ hwf hops' q.1 q.2.1 q.2.2.1 q.2.2.2 (by rw [hrec])
          omega

theorem runVC_len (ops : List (TraitOp K)) :
    ∀ (v : VecOrderedSet K) v' ins insSome rem,
      runVC v ops = some (v', ins, insSome, rem) →
      v'.keys.length + rem = v.keys.length + ins := by
  induction ops with
  | nil =>
    intro v v' ins insSome rem h
    have h0 := Option.some.inj h
    have e1 : v = v' := congrArg Prod.fst h0
    have e2 : (0 : Nat) = ins := congrArg (fun z => z.2.1) h0
    have e3 : (0 : Nat) = rem := congrArg (fun z => z.2.2.2) h0
    rw [← e1, ← e2, ← e3]
  | cons op ops ih =>
    intro v v' ins insSome rem h
    cases op with
    | insertIndex i k lvl =>
      unfold runVC at h
      simp only [] at h
      by_cases hi : i ≤ v.keys.length
      · rw [vec_insert_index_eq v i k hi] at h
        simp only [] at h
        cases hrec : runVC (⟨v.keys.insertIdx i k⟩ : VecOrderedSet K) ops with
        | none =>
          rw [hrec] at h
          exact Option.noConfusion h
        | some q =>
          rw [hrec] at h
          rw [Option.map_some'] at h
          have h0 := Option.some.inj h
          have e1 : q.1 = v' := congrArg Prod.fst h0
          have e1l : q.1.keys.length = v'.keys.length := congrArg (fun z => z.keys.length) e1
          have e2 : q.2.1 + 1 = ins := congrArg (fun z => z.2.1) h0
          have e3 : q.2.2.2 = rem := congrArg (fun z => z.2.2.2) h0
          have hq := ih _ q.1 q.2.1 q.2.2.1 q.2.2.2 (by rw [hrec])
          simp only [] at hq
          have hlen : (v.keys.insertIdx i k).length = v.keys.length + 1 :=
            List.length_insertIdx i v.keys hi
          rw [← e1, ← e2, ← e3]
          show q.1.keys.length + q.2.2.2 = v.keys.length + (q.2.1 + 1)
          omega
      · rw [vec_insert_index_oob v i k (by omega)] at h
        exact Option.noConfusion h
    | removeKey k =>
      unfold runVC at h
      simp only [] at h
      cases hf : List.findIdx? (· = k) v.keys 0 with
      | none =>
        have hvr : v.remove_key k = (none, v) := by
          unfold VecOrderedSet.remove_key
          rw [hf]
        rw [hvr] at h
        simp only [] at h
        cases hrec : runVC v ops with
        | none =>
          rw [hrec] at h
          exact Option.noConfusion h
        | some q =>
          rw [hrec] at h
          rw [Option.map_some'] at h
          have h0 := Option.some.inj h
          have e1 : q.1 = v' := congrArg Prod.fst h0
          have e1l : q.1.keys.length = v'.keys.length := congrArg (fun z => z.keys.length) e1
          have e2 : q.2.1 = ins := congrArg (fun z => z.2.1) h0
          have e3 : q.2.2.2 + 0 = rem := congrArg (fun z => z.2.2.2) h0
          have hq := ih v q.1 q.2.1 q.2.2.1 q.2.2.2 (by rw [hrec])
          simp only [] at hq
          omega
      | some j =>
        have hjl := findIdxQ_lt k v.keys 0 j hf
        have hvr : v.remove_key k = (some j, ⟨v.keys.eraseIdx j⟩) := by
          unfold VecOrderedSet.remove_key
          rw [hf]
        rw [hvr] at h
        simp only [] at h
        cases hrec : runVC (⟨v.keys.eraseIdx j⟩ : VecOrderedSet K) ops with
        | none =>
          rw [hrec] at h
          exact Option.noConfusion h
        | some q =>
          rw [hrec] at h
          rw [Option.map_some'] at h
          have h0 := Option.some.inj h
          have e1 : q.1 = v' := congrArg Prod.fst h0
          have e1l : q.1.keys.length = v'.keys.length := congrArg (fun z => z.keys.length) e1
          have e2 : q.2.1 = ins := congrArg (fun z => z.2.1) h0
          have e3 : q.2.2.2 + 1 = rem := congrArg (fun z => z.2.2.2) h0
          have hq := ih _ q.1 q.2.1 q.2.2.1 q.2.2.2 (by rw [hrec])
          simp only [] at hq
          have hlen : (v.keys.eraseIdx j).length = v.keys.length - 1 :=
            eraseIdx_length v.keys j (by omega)
          omega
    | removeIndex i =>
      unfold runVC at h
      simp only [] at h
      by_cases hi : i < v.keys.length
      · rw [vec_remove_index_lt v i hi] at h
        simp only [] at h
        cases hrec : runVC (⟨v.keys.eraseIdx i⟩ : VecOrderedSet K) ops with
        | none =>
          rw [hrec] at h
          exact Option.noConfusion h
        | some q =>
          rw [hrec] at h
          rw [Option.map_some'] at h
          have h0 := Option.some.inj h
          have e1 : q.1 = v' := congrArg Prod.fst h0
          have e1l : q.1.keys.length = v'.keys.length := congrArg (fun z => z.keys.length) e1
          have e2 : q.2.1 = ins := congrArg (fun z => z.2.1) h0
          have hsome : (v.keys.get? i).isSome = true := by
            rw [List.get?_eq_get hi]
            rfl
          have e3 : q.2.2.2 + 1 = rem := by
            have e3' := congrArg (fun z => z.2.2.2) h0
            have e3'' : q.2.2.2 + (if (v.keys.get? i).isSome then 1 else 0) = rem := e3'
            rwa [if_pos hsome] at e3''
          have hq := ih _ q.1 q.2.1 q.2.2.1 q.2.2.2 (by rw [hrec])
          simp only [] at hq
          have hlen : (v.keys.eraseIdx i).length = v.keys.length - 1 :=
            eraseIdx_length v.keys i hi
          omega
      · rw [vec_remove_index_ge v i (by omega)] at h
        simp only [] at h
        cases hrec : runVC v ops with
        | none =>
          rw [hrec] at h
          exact Option.noConfusion h
        | some q =>
          rw [hrec] at h
          rw [Option.map_some'] at h
          have h0 := Option.some.inj h
          have e1 : q.1 = v' := congrArg Prod.fst h0
          have e1l : q.1.keys.length = v'.keys.length := congrArg (fun z => z.keys.length) e1
          have e2 : q.2.1 = ins := congrArg (fun z => z.2.1) h0
          have e3 : q.2.2.2 + 0 = rem := congrArg (fun z => z.2.2.2) h0
          have hq := ih v q.1 q.2.1 q.2.2.1 q.2.2.2 (by rw [hrec])
          simp only [] at hq
          omega

/-- The rank/key round trip on a duplicate-free vector. -/
theorem vec_roundtrip (v : VecOrderedSet K) (hnd : v.keys.Nodup) :
    (∀ r, r < v.keys.length →
      ∃ k, v.key_of r = some k ∧ v.index_of k = some r) ∧
    (∀ k, k ∈ v.keys → ∃ r, v.index_of k = some r ∧ v.key_of r = some k) := by
  constructor
  · intro r hr
    refine ⟨v.keys.get ⟨r, hr⟩, ?_, vec_index_of_get v hnd r hr⟩
    unfold VecOrderedSet.key_of
    exact List.get?_eq_get hr
  · intro k hk
    obtain ⟨⟨j, hj⟩, hget⟩ := List.mem_iff_get.mp hk
    refine ⟨j, ?_, ?_⟩
    · rw [← hget]
      exact vec_index_of_get v hnd j hj
    · unfold VecOrderedSet.key_of
      rw [List.get?_eq_get hj, hget]

/-! ### `random_level` as a function of the drawn 32-bit value -/

theorem randomLevelLoop_stop (rand : Nat) (fuel lvl : Nat)
    (h : 2 ^ (32 - 2 * lvl) ≤ rand ∨ 16 ≤ lvl) :
    randomLevelLoop rand fuel lvl = lvl := by
  cases fuel with
  | zero => rfl
  | succ f =>
    show (if rand < 2 ^ (32 - 2 * lvl) ∧ lvl < 16 then randomLevelLoop rand f (lvl + 1)
      else lvl) = lvl
    rw [if_neg (by omega)]

theorem randomLevelLoop_go (rand : Nat) :
    ∀ (fuel lvl k : Nat), lvl ≤ k → k ≤ 16 → k - lvl ≤ fuel →
      (∀ j, lvl ≤ j → j < k → rand < 2 ^ (32 - 2 * j)) →
      (2 ^ (32 - 2 * k) ≤ rand ∨ k = 16) →
      randomLevelLoop rand fuel lvl = k := by
  intro fuel
  induction fuel with
  | zero =>
    intro lvl k h1 h2 h3 h4 h5
    have he : lvl = k := by omega
    rw [he]
    rfl
  | succ f ih =>
    intro lvl k h1 h2 h3 h4 h5
    rcases Nat.eq_or_lt_of_le h1 with he | hlt
    · rw [he]
      refine randomLevelLoop_stop rand (f + 1) k ?_
      rcases h5 with h | h
      · exact Or.inl h
      · exact Or.inr (by omega)
    · show (if rand < 2 ^ (32 - 2 * lvl) ∧ lvl < 16 then randomLevelLoop rand f (lvl + 1)
        else lvl) = k
      rw [if_pos ⟨h4 lvl (le_refl _) hlt, by omega⟩]
      exact ih (lvl + 1) k (by omega) h2 (by omega)
        (fun j hj1 hj2 => h4 j (by omega) hj2) h5

theorem randomLevelLoop_ge (rand : Nat) :
    ∀ fuel lvl, lvl ≤ randomLevelLoop rand fuel lvl := by
  intro fuel
  induction fuel with
  | zero =>
    intro lvl
    exact le_refl _
  | succ f ih =>
    intro lvl
    show lvl ≤ (if rand < 2 ^ (32 - 2 * lvl) ∧ lvl < 16
      then randomLevelLoop rand f (lvl + 1) else lvl)
    by_cases hc : rand < 2 ^ (32 - 2 * lvl) ∧ lvl < 16
    · rw [if_pos hc]
      have := ih (lvl + 1)
      omega
    · rw [if_neg hc]

theorem randomLevelLoop_le (rand : Nat) :
    ∀ fuel lvl, lvl ≤ 16 → randomLevelLoop rand fuel lvl ≤ 16 := by
  intro fuel
  induction fuel with
  | zero =>
    intro lvl h
    exact h
  | succ f ih =>
    intro lvl h
    show (if rand < 2 ^ (32 - 2 * lvl) ∧ lvl < 16
      then randomLevelLoop rand f (lvl + 1) else lvl) ≤ 16
    by_cases hc : rand < 2 ^ (32 - 2 * lvl) ∧ lvl < 16
    · rw [if_pos hc]
      exact ih (lvl + 1) (by omega)
    · rw [if_neg hc]
      exact h

theorem randomLevelLoop_result_stop (rand : Nat) :
    ∀ fuel lvl, lvl ≤ 16 → 16 ≤ lvl + fuel →
      randomLevelLoop rand fuel lvl = 16 ∨
        2 ^ (32 - 2 * randomLevelLoop rand fuel lvl) ≤ rand := by
  intro fuel
  induction fuel with
  | zero =>
    intro lvl h1 h2
    left
    show lvl = 16
    omega
  | succ f ih =>
    intro lvl h1 h2
    by_cases hc : rand < 2 ^ (32 - 2 * lvl) ∧ lvl < 16
    · have hstep : randomLevelLoop rand (f + 1) lvl = randomLevelLoop rand f (lvl + 1) := by
        show (if rand < 2 ^ (32 - 2 * lvl) ∧ lvl < 16
          then randomLevelLoop rand f (lvl + 1) else lvl) = _
        rw [if_pos hc]
      rw [hstep]
      exact ih (lvl + 1) (by omega) (by omega)
    · have hstep : randomLevelLoop rand (f + 1) lvl = lvl := by
        show (if rand < 2 ^ (32 - 2 * lvl) ∧ lvl < 16
          then randomLevelLoop rand f (lvl + 1) else lvl) = _
        rw [if_neg hc]
      rw [hstep]
      by_cases hA : rand < 2 ^ (32 - 2 * lvl)
      · left
        omega
      · right
        omega

theorem randomLevelLoop_result_entry (rand : Nat) :
    ∀ fuel lvl, randomLevelLoop rand fuel lvl = lvl ∨
      (lvl < randomLevelLoop rand fuel lvl ∧
        rand < 2 ^ (32 - 2 * (randomLevelLoop rand fuel lvl - 1))) := by
  intro fuel
  induction fuel with
  | zero =>
    intro lvl
    exact Or.inl rfl
  | succ f ih =>
    intro lvl
    by_cases hc : rand < 2 ^ (32 - 2 * lvl) ∧ lvl < 16
    · have hstep : randomLevelLoop rand (f + 1) lvl = randomLevelLoop rand f (lvl + 1) := by
        show (if rand < 2 ^ (32 - 2 * lvl) ∧ lvl < 16
          then randomLevelLoop rand f (lvl + 1) else lvl) = _
        rw [if_pos hc]
      rw [hstep]
      rcases ih (lvl + 1) with h | ⟨h1, h2⟩
      · right
        rw [h]
        refine ⟨by omega, ?_⟩
        rw [show lvl + 1 - 1 = lvl from by omega]
        exact hc.1
      · right
        exact ⟨by omega, h2⟩
    · have hstep : randomLevelLoop rand (f + 1) lvl = lvl := by
        show (if rand < 2 ^ (32 - 2 * lvl) ∧ lvl < 16
          then randomLevelLoop rand f (lvl + 1) else lvl) = _
        rw [if_neg hc]
      rw [hstep]
      exact Or.inl rfl

theorem random_level_bounds (rand : Nat) :
    1 ≤ random_level rand ∧ random_level rand ≤ 16 := by
  unfold random_level
  exact ⟨randomLevelLoop_ge rand 16 1, randomLevelLoop_le rand 16 1 (by omega)⟩

theorem random_level_eq_iff (rand : Nat) (hrand : rand < 2 ^ 32) (k : Nat)
    (hk1 : 1 ≤ k) (hk2 : k < 16) :
    random_level rand = k ↔
      2 ^ (32 - 2 * k) ≤ rand ∧ rand < 2 ^ (32 - 2 * (k - 1)) := by
  constructor
  · intro h
    unfold random_level at h
    constructor
    · rcases randomLevelLoop_result_stop rand 16 1 (by omega) (by omega) with h16 | hle
      · rw [h] at h16
        omega
      · rw [h] at hle
        exact hle
    · rcases randomLevelLoop_result_entry rand 16 1 with h1 | ⟨h1, h2⟩
      · rw [h] at h1
        rw [h1]
        rw [show 32 - 2 * (1 - 1) = 32 from by norm_num]
        exact hrand
      · rw [h] at h2
        exact h2
  · rintro ⟨hlo, hhi⟩
    unfold random_level
    refine randomLevelLoop_go rand 16 1 k hk1 (by omega) (by omega) ?_ (Or.inl hlo)
    intro j hj1 hj2
    have hmono : 2 ^ (32 - 2 * (k - 1)) ≤ 2 ^ (32 - 2 * j) :=
      Nat.pow_le_pow_right (by omega) (by omega)
    omega

theorem random_level_16_iff (rand : Nat) :
    random_level rand = 16 ↔ rand < 2 ^ 2 := by
  constructor
  · intro h
    unfold random_level at h
    rcases randomLevelLoop_result_entry rand 16 1 with h1 | ⟨h1, h2⟩
    · rw [h] at h1
      omega
    · rw [h] at h2
      rw [show 32 - 2 * (16 - 1) = 2 from by norm_num] at h2
      exact h2
  · intro h
    unfold random_level
    refine randomLevelLoop_go rand 16 1 16 (by omega) (le_refl _) (by omega) ?_ (Or.inr rfl)
    intro j hj1 hj2
    have hmono : (2 : Nat) ^ 2 ≤ 2 ^ (32 - 2 * j) :=
      Nat.pow_le_pow_right (by omega) (by omega)
    omega

theorem random_level_filter_card (k : Nat) (hk1 : 1 ≤ k) (hk2 : k < 16) :
    ((Finset.range (2 ^ 32)).filter (fun rand => random_level rand = k)).card
      = 3 * 2 ^ (32 - 2 * k) := by
  have hset : (Finset.range (2 ^ 32)).filter (fun rand => random_level rand = k)
      = Finset.Ico (2 ^ (32 - 2 * k)) (2 ^ (32 - 2 * (k - 1))) := by
    refine Finset.ext fun rand => ?_
    rw [Finset.mem_filter, Finset.mem_range, Finset.mem_Ico]
    constructor
    · rintro ⟨h1, h2⟩
      exact (random_level_eq_iff rand h1 k hk1 hk2).mp h2
    · rintro ⟨h1, h2⟩
      have hub : 2 ^ (32 - 2 * (k - 1)) ≤ 2 ^ 32 :=
        Nat.pow_le_pow_right (by omega) (by omega)
      have hrand : rand < 2 ^ 32 := by omega
      exact ⟨hrand, (random_level_eq_iff rand hrand k hk1 hk2).mpr ⟨h1, h2⟩⟩
  rw [hset, Nat.card_Ico]
  have he : 32 - 2 * (k - 1) = (32 - 2 * k) + 2 := by omega
  rw [he, pow_add]
  have h4 : (2 : Nat) ^ 2 = 4 := by norm_num
  rw [h4]
  omega

/-! ### Concrete fixtures for the scenario claims -/

def slOne : SkipList Nat :=
  { nodes := [(5, mkNode [5] [1] 0)], head := mkHead [5] [1] 1, len := 1 }

theorem slOne_wf : Wf slOne [5] [1] := by
  refine { len_eq := rfl, lvs_len := rfl, nodup := by decide, lv_pos := ?_,
           lv_le := ?_, head_pos := le_refl 1, head_eq := Or.inl rfl,
           keys_perm := List.Perm.refl _, lookup_eq := ?_ }
  · intro v hv
    have := List.mem_singleton.mp hv
    omega
  · intro v hv
    have := List.mem_singleton.mp hv
    show v ≤ 1
    omega
  · intro i h
    have h0 : i = 0 := by
      have h1 : i < 1 := h
      omega
    subst h0
    rfl

def slABC : SkipList Nat :=
  { nodes := [(0, mkNode [0, 1, 2] [1, 1, 1] 0), (1, mkNode [0, 1, 2] [1, 1, 1] 1),
              (2, mkNode [0, 1, 2] [1, 1, 1] 2)],
    head := mkHead [0, 1, 2] [1, 1, 1] 1,
    len := 3 }

/-! ### `insert_index` behaviour on well-formed states, spelt with `key_of` -/

theorem insert_index_spec (sl : SkipList K) (l : List K) (lvs : List Nat)
    (hwf : Wf sl l lvs) (rank : Nat) (hrank : rank ≤ l.length) (k : K) (hk : k ∉ l)
    (nl : Nat) (hnl : 1 ≤ nl) :
    ∃ ret sl', sl.insert_index rank k nl = some (ret, sl') ∧
      sl'.len = sl.len + 1 ∧
      sl'.key_of rank = some (some k) ∧
      (∀ j, j < rank → sl'.key_of j = sl.key_of j) ∧
      (∀ j, rank ≤ j → sl'.key_of (j + 1) = sl.key_of j) ∧
      (rank = 0 → ret = none) ∧
      (1 ≤ rank → ret.isSome = true ∧ sl'.key_of (rank - 1) = some ret) := by
  obtain ⟨sl', hins, hlen, _, hwf'⟩ := insert_index_wf sl l lvs hwf rank hrank k hk nl hnl
  refine ⟨_, sl', hins, hlen, ?_, ?_, ?_, ?_, ?_⟩
  · rw [keyOf_wf hwf', get?_insertIdx_self k l rank hrank]
  · intro j hj
    rw [keyOf_wf hwf', keyOf_wf hwf, get?_insertIdx_lt k l rank j hj]
  · intro j hj
    rw [keyOf_wf hwf', keyOf_wf hwf, get?_insertIdx_ge k l rank j hj hrank]
  · intro h0
    rw [if_pos h0]
  · intro h1
    rw [if_neg (by omega)]
    have hlt : rank - 1 < l.length := by omega
    constructor
    · rw [List.get?_eq_get hlt]
      rfl
    · rw [keyOf_wf hwf', get?_insertIdx_lt k l rank (rank - 1) (by omega)]

theorem vec_insert_index_spec (v : VecOrderedSet K) (rank : Nat)
    (hrank : rank ≤ v.keys.length) (k : K) :
    ∃ ret v', v.insert_index rank k = some (ret, v') ∧
      v'.keys.length = v.keys.length + 1 ∧
      v'.key_of rank = some k ∧
      (∀ j, j < rank → v'.key_of j = v.key_of j) ∧
      (∀ j, rank ≤ j → v'.key_of (j + 1) = v.key_of j) ∧
      (rank = 0 → ret = none) ∧
      (1 ≤ rank → ret.isSome = true ∧ v'.key_of (rank - 1) = ret) := by
  refine ⟨_, _, vec_insert_index_eq v rank k hrank, ?_, ?_, ?_, ?_, ?_, ?_⟩
  · exact List.length_insertIdx rank v.keys hrank
  · show (v.keys.insertIdx rank k).get? rank = some k
    exact get?_insertIdx_self k v.keys rank hrank
  · intro j hj
    show (v.keys.insertIdx rank k).get? j = v.keys.get? j
    exact get?_insertIdx_lt k v.keys rank j hj
  · intro j hj
    show (v.keys.insertIdx rank k).get? (j + 1) = v.keys.get? j
    exact get?_insertIdx_ge k v.keys rank j hj hrank
  · intro h0
    rw [if_pos h0]
  · intro h1
    rw [if_neg (by omega)]
    constructor
    · have hlt : rank - 1 < (v.keys.insertIdx rank k).length := by
        rw [List.length_insertIdx rank v.keys hrank]
        omega
      rw [List.get?_eq_get hlt]
      rfl
    · rfl

/-! ## The claims -/

def slC1 : SkipList Nat :=
  ((SkipList.new.insert_index 0 9 1).map Prod.snd).getD SkipList.new

/-- Counterexample to claim C1: on the vector implementation the rank/key
round trip fails once a duplicate key has been inserted. After inserting `0`
twice (both inserts succeed: the vector performs no duplicate check), rank `1`
holds key `0`, yet `index_of 0` finds the first copy at rank `0`, so
`index_of (key_of 1) = some 0 ≠ some 1`. -/
theorem C1_roundtrip_counterexample :
    VecOrderedSet.new.insert_index 0 (0 : Nat)
        = some (none, (⟨[0]⟩ : VecOrderedSet Nat)) ∧
    (⟨[0]⟩ : VecOrderedSet Nat).insert_index 1 0 = some (some 0, ⟨[0, 0]⟩) ∧
    (1 : Nat) < (⟨[0, 0]⟩ : VecOrderedSet Nat).keys.length ∧
    (⟨[0, 0]⟩ : VecOrderedSet Nat).key_of 1 = some 0 ∧
    ¬((⟨[0, 0]⟩ : VecOrderedSet Nat).index_of 0 = some 1) := by
  decide

/-- Claim C1, amended: the rank/key round trip (`index_of` after `key_of`
gives back the rank, `key_of` after `index_of` gives back the key) holds on
every skip list reachable from empty by a sequence of insert/remove
operations whose node levels are at least `1` (every value `random_level`
can draw); on the vector it holds whenever the stored keys are
duplicate-free, and the counterexample shows it can fail otherwise, since
vector inserts never reject duplicates. -/
theorem C1_roundtrip :
    (∀ (ops : List (Op K)) (sl : SkipList K), (∀ op ∈ ops, op.lvlOk) →
      runS SkipList.new ops = some sl →
      (∀ r, r < sl.len →
        ∃ k, sl.key_of r = some (some k) ∧ sl.index_of k = some (some r)) ∧
      (∀ k, containsN sl.nodes k = true →
        ∃ r, sl.index_of k = some (some r) ∧ sl.key_of r = some (some k))) ∧
    (∀ v : VecOrderedSet K, v.keys.Nodup →
      (∀ r, r < v.keys.length →
        ∃ k, v.key_of r = some k ∧ v.index_of k = some r) ∧
      (∀ k, k ∈ v.keys → ∃ r, v.index_of k = some r ∧ v.key_of r = some k)) := by
  constructor
  · intro ops sl hops hrun
    obtain ⟨l, lvs, hwf⟩ := runS_wf ops SkipList.new [] [] new_wf hops sl hrun
    exact roundtrip_wf sl l lvs hwf
  · intro v hnd
    exact vec_roundtrip v hnd

/-- Witness for `C1_roundtrip`: a one-insert run of the skip list, and a
two-element duplicate-free vector. -/
theorem C1_roundtrip_witness :
    (∃ k, slC1.key_of 0 = some (some k) ∧ slC1.index_of k = some (some 0)) ∧
    (∃ r, (⟨[4, 7]⟩ : VecOrderedSet Nat).index_of 7 = some r ∧
      (⟨[4, 7]⟩ : VecOrderedSet Nat).key_of r = some 7) :=
  ⟨(C1_roundtrip.1 [Op.insertIndex 0 9 1] slC1
      (by
        intro op hop
        rcases List.mem_singleton.mp hop with rfl
        exact le_refl 1)
      (by decide)).1 0 (by decide),
   (C1_roundtrip.2 ⟨[4, 7]⟩ (by decide)).2 7 (by decide)⟩

def pC2 : SkipList Nat × VecOrderedSet Nat :=
  (runPair (SkipList.new, VecOrderedSet.new) [Op.insertHead 5 1]).getD
    (SkipList.new, VecOrderedSet.new)

/-- Claim C2: running any sequence of insert-head / insert-after /
insert-index / remove-key / remove-index operations (with any node levels
`≥ 1` for the skip list) in lockstep on a skip list and a vector, both
starting from empty, leaves `key_of` and `index_of` agreeing at every rank
and every key.  Since the sequence is arbitrary, this holds after every step
of any run.  The lockstep driver is not part of the repository sources; it is
modelled by `applyPair`/`runPair`. -/
theorem C2_lockstep_agree :
    ∀ (ops : List (Op K)) (p : SkipList K × VecOrderedSet K),
      (∀ op ∈ ops, op.lvlOk) →
      runPair (SkipList.new, VecOrderedSet.new) ops = some p →
      (∀ i, p.1.key_of i = some (p.2.key_of i)) ∧
      (∀ k, p.1.index_of k = some (p.2.index_of k)) := by
  intro ops p hops hrun
  obtain ⟨lvs, hwf⟩ := runPair_wf ops (SkipList.new, VecOrderedSet.new)
    ⟨[], new_wf⟩ hops p hrun
  exact agree_wf p.1 p.2 lvs hwf

/-- Witness for `C2_lockstep_agree` after one `insert_head`. -/
theorem C2_lockstep_agree_witness :
    pC2.1.key_of 0 = some (pC2.2.key_of 0) ∧
    pC2.1.index_of 5 = some (pC2.2.index_of 5) :=
  ⟨(C2_lockstep_agree [Op.insertHead 5 1] pC2
      (by
        intro op hop
        rcases List.mem_singleton.mp hop with rfl
        exact le_refl 1)
      (by decide)).1 0,
   (C2_lockstep_agree [Op.insertHead 5 1] pC2
      (by
        intro op hop
        rcases List.mem_singleton.mp hop with rfl
        exact le_refl 1)
      (by decide)).2 5⟩

/-- Claim C3: inserting a key already present — via `insert_after` with any
predecessor, or via `insert_head` — returns the duplicate-key error together
with the very same skip list, so nodes, head, `len` and hence every rank are
unchanged. -/
theorem C3_duplicate_insert :
    ∀ (sl : SkipList K) (l : List K) (lvs : List Nat), Wf sl l lvs →
    ∀ k, k ∈ l → ∀ nl,
      (∀ pred, sl.insert_after pred k nl
        = some (sl, .error (.skipListError "DuplicateKey"))) ∧
      sl.insert_head k nl = some (sl, .error (.skipListError "DuplicateKey")) := by
  intro sl l lvs hwf k hk nl
  exact ⟨fun pred => insert_dup sl l lvs hwf k hk (some pred) nl,
    insert_dup sl l lvs hwf k hk none nl⟩

/-- Witness for `C3_duplicate_insert` on a one-element skip list. -/
theorem C3_duplicate_insert_witness :
    slOne.insert_after 5 5 1 = some (slOne, .error (.skipListError "DuplicateKey")) ∧
    slOne.insert_head 5 1 = some (slOne, .error (.skipListError "DuplicateKey")) :=
  ⟨(C3_duplicate_insert slOne [5] [1] slOne_wf 5 (by decide) 1).1 5,
   (C3_duplicate_insert slOne [5] [1] slOne_wf 5 (by decide) 1).2⟩

def slC4 : SkipList Nat :=
  ((SkipList.new.insert_index 0 (5 : Nat) 1).map Prod.snd).getD SkipList.new

/-- Counterexample to claim C4: a successful `insert_index` at rank `0`
returns `None` (there is no predecessor to report), so after one such insert
`len = 1` while the number of `Some`-returning inserts minus the number of
successful removals is `0 - 0 = 0`.  The run counters are
`(state, completed inserts, Some-returning inserts, Some-returning removals)`. -/
theorem C4_len_counterexample :
    runSC (SkipList.new : SkipList Nat) [TraitOp.insertIndex 0 5 1]
        = some (slC4, 1, 0, 0) ∧
    slC4.len = 1 ∧ ¬(slC4.len = 0 - 0) := by
  decide

/-- Claim C4, amended: after any operation sequence from empty, `len` equals
the number of `insert_index` calls that completed (did not panic) minus the
number of `Some`-returning removals — not the number of inserts whose
`Option` return value was `Some`, since an insert at rank `0` succeeds yet
returns `None`.  Stated without subtraction:
`len + successful removals = completed inserts`, on both implementations. -/
theorem C4_len_amended :
    (∀ (ops : List (TraitOp K)), (∀ op ∈ ops, op.lvlOk) →
      ∀ sl ins insSome rem, runSC SkipList.new ops = some (sl, ins, insSome, rem) →
        sl.len + rem = ins) ∧
    (∀ (ops : List (TraitOp K)) (v : VecOrderedSet K) ins insSome rem,
      runVC VecOrderedSet.new ops = some (v, ins, insSome, rem) →
        v.keys.length + rem = ins) := by
  constructor
  · intro ops hops sl ins insSome rem h
    have h1 := runSC_len ops SkipList.new [] [] new_wf hops sl ins insSome rem h
    have h0 : (SkipList.new : SkipList K).len = 0 := rfl
    omega
  · intro ops v ins insSome rem h
    have h1 := runVC_len ops VecOrderedSet.new v ins insSome rem h
    have h0 : (VecOrderedSet.new : VecOrderedSet K).keys.length = 0 := rfl
    omega

/-- Witness for `C4_len_amended` on a one-insert run of each implementation. -/
theorem C4_len_amended_witness :
    slC4.len + 0 = 1 ∧ (⟨[5]⟩ : VecOrderedSet Nat).keys.length + 0 = 1 :=
  ⟨C4_len_amended.1 [TraitOp.insertIndex 0 5 1]
      (by
        intro op hop
        rcases List.mem_singleton.mp hop with rfl
        exact le_refl 1)
      slC4 1 0 0 (by decide),
   C4_len_amended.2 [TraitOp.insertIndex 0 5 1] ⟨[5]⟩ 1 0 0 (by decide)⟩

def odC5 : OrdDelta Nat := (OrdDelta.new (some slABC)).insert_index 1 10

/-- Claim C5: on an `OrdDelta` over a base skip list holding `[a, b, c]`
(here `[0, 1, 2]`), `insert_index 1 x` (here `x = 10`) makes
`key_of 1 = some x` and `key_of 2 = some b`; a subsequent `remove_index 0`
returns `some a` and shifts every later position down by one, so afterwards
`key_of 0 = some x`, `key_of 1 = some b` and `key_of 2 = some c`. -/
theorem C5_orddelta_scenario :
    odC5.key_of 0 = some (some 0) ∧
    odC5.key_of 1 = some (some 10) ∧
    odC5.key_of 2 = some (some 1) ∧
    odC5.key_of 3 = some (some 2) ∧
    (odC5.remove_index 0).map Prod.fst = some (some 0) ∧
    (odC5.remove_index 0).map (fun q => q.2.key_of 0) = some (some (some 10)) ∧
    (odC5.remove_index 0).map (fun q => q.2.key_of 1) = some (odC5.key_of 2) ∧
    (odC5.remove_index 0).map (fun q => q.2.key_of 2) = some (odC5.key_of 3) := by
  decide

/-- Claim C6: for every rank within `0 ≤ rank ≤ len` and absent key `k`
(and, for the skip list, any node level `≥ 1`), `insert_index rank k` places
`k` at `rank`, keeps every earlier rank, shifts every rank `≥ rank` up by
one, grows `len` by one, and returns the key now at `rank - 1` — the new
predecessor — or `None` when `rank = 0`; on both implementations. -/
theorem C6_insert_index_behaviour :
    (∀ (sl : SkipList K) (l : List K) (lvs : List Nat), Wf sl l lvs →
      ∀ rank, rank ≤ sl.len → ∀ k, k ∉ l → ∀ nl, 1 ≤ nl →
      ∃ ret sl', sl.insert_index rank k nl = some (ret, sl') ∧
        sl'.len = sl.len + 1 ∧
        sl'.key_of rank = some (some k) ∧
        (∀ j, j < rank → sl'.key_of j = sl.key_of j) ∧
        (∀ j, rank ≤ j → sl'.key_of (j + 1) = sl.key_of j) ∧
        (rank = 0 → ret = none) ∧
        (1 ≤ rank → ret.isSome = true ∧ sl'.key_of (rank - 1) = some ret)) ∧
    (∀ (v : VecOrderedSet K) rank, rank ≤ v.keys.length → ∀ k,
      ∃ ret v', v.insert_index rank k = some (ret, v') ∧
        v'.keys.length = v.keys.length + 1 ∧
        v'.key_of rank = some k ∧
        (∀ j, j < rank → v'.key_of j = v.key_of j) ∧
        (∀ j, rank ≤ j → v'.key_of (j + 1) = v.key_of j) ∧
        (rank = 0 → ret = none) ∧
        (1 ≤ rank → ret.isSome = true ∧ v'.key_of (rank - 1) = ret)) := by
  constructor
  · intro sl l lvs hwf rank hrank k hk nl hnl
    rw [hwf.len_eq] at hrank
    exact insert_index_spec sl l lvs hwf rank hrank k hk nl hnl
  · intro v rank hrank k
    exact vec_insert_index_spec v rank hrank k

/-- Witness for `C6_insert_index_behaviour`: insert `7` at rank `1` of a
one-element skip list and of a one-element vector. -/
theorem C6_insert_index_behaviour_witness :
    (∃ ret sl', slOne.insert_index 1 7 1 = some (ret, sl') ∧
      sl'.len = slOne.len + 1 ∧
      sl'.key_of 1 = some (some 7) ∧
      (∀ j, j < 1 → sl'.key_of j = slOne.key_of j) ∧
      (∀ j, 1 ≤ j → sl'.key_of (j + 1) = slOne.key_of j) ∧
      ((1 : Nat) = 0 → ret = none) ∧
      ((1 : Nat) ≤ 1 → ret.isSome = true ∧ sl'.key_of (1 - 1) = some ret)) ∧
    (∃ ret v', (⟨[4]⟩ : VecOrderedSet Nat).insert_index 1 7 = some (ret, v') ∧
      v'.keys.length = (⟨[4]⟩ : VecOrderedSet Nat).keys.length + 1 ∧
      v'.key_of 1 = some 7 ∧
      (∀ j, j < 1 → v'.key_of j = (⟨[4]⟩ : VecOrderedSet Nat).key_of j) ∧
      (∀ j, 1 ≤ j → v'.key_of (j + 1) = (⟨[4]⟩ : VecOrderedSet Nat).key_of j) ∧
      ((1 : Nat) = 0 → ret = none) ∧
      ((1 : Nat) ≤ 1 → ret.isSome = true ∧ v'.key_of (1 - 1) = ret)) :=
  ⟨C6_insert_index_behaviour.1 slOne [5] [1] slOne_wf 1 (by decide) 7 (by decide)
      1 (le_refl 1),
   C6_insert_index_behaviour.2 ⟨[4]⟩ 1 (by decide) 7⟩

/-- Claim C7: `remove_key` on an absent key and `remove_index` on a rank
`≥ len` return `None` together with the very same state (so `len`, the key at
every rank and the rank of every key are unchanged), on both
implementations. -/
theorem C7_remove_absent_noop :
    (∀ (sl : SkipList K) (l : List K) (lvs : List Nat), Wf sl l lvs →
      ∀ k, k ∉ l → sl.remove_key k = some (none, sl)) ∧
    (∀ (sl : SkipList K) (i : Nat), sl.len ≤ i → sl.remove_index i = some (none, sl)) ∧
    (∀ (v : VecOrderedSet K) (k : K), k ∉ v.keys → v.remove_key k = (none, v)) ∧
    (∀ (v : VecOrderedSet K) (i : Nat), v.keys.length ≤ i →
      v.remove_index i = (none, v)) := by
  refine ⟨?_, ?_, ?_, ?_⟩
  · intro sl l lvs hwf k hk
    exact remove_key_absent sl l lvs hwf k hk
  · intro sl i hi
    exact remove_index_oob sl i hi
  · intro v k hk
    exact vec_remove_key_absent v k hk
  · intro v i hi
    exact vec_remove_index_ge v i hi

/-- Witness for `C7_remove_absent_noop` on one-element states. -/
theorem C7_remove_absent_noop_witness :
    slOne.remove_key 9 = some (none, slOne) ∧
    slOne.remove_index 4 = some (none, slOne) ∧
    (⟨[5]⟩ : VecOrderedSet Nat).remove_key 9 = (none, ⟨[5]⟩) ∧
    (⟨[5]⟩ : VecOrderedSet Nat).remove_index 4 = (none, ⟨[5]⟩) :=
  ⟨C7_remove_absent_noop.1 slOne [5] [1] slOne_wf 9 (by decide),
   C7_remove_absent_noop.2.1 slOne 4 (by decide),
   C7_remove_absent_noop.2.2.1 ⟨[5]⟩ 9 (by decide),
   C7_remove_absent_noop.2.2.2 ⟨[5]⟩ 4 (by decide)⟩

/-- Counterexample to claim C8: inserting an already-present key at an
in-bounds rank does NOT panic on the vector — the call succeeds and stores
the duplicate. -/
theorem C8_panic_counterexample :
    (⟨[0]⟩ : VecOrderedSet Nat).insert_index 1 0 = some (some 0, ⟨[0, 0]⟩) ∧
    ¬((⟨[0]⟩ : VecOrderedSet Nat).insert_index 1 0 = none) := by
  decide

/-- Claim C8, amended: the vector variant indeed performs no duplicate check,
but as a consequence an in-bounds `insert_index` NEVER panics, duplicate key
or not: it always returns the inserted state, with `Vec::insert` bounds
semantics only rejecting `index > len`. -/
theorem C8_vec_no_dup_check :
    ∀ (v : VecOrderedSet K) (i : Nat) (k : K), i ≤ v.keys.length →
      v.insert_index i k
        = some ((if i = 0 then none else (v.keys.insertIdx i k).get? (i - 1)),
            ⟨v.keys.insertIdx i k⟩) := by
  intro v i k hi
  exact vec_insert_index_eq v i k hi

/-- Witness for `C8_vec_no_dup_check` at an in-bounds duplicate insert. -/
theorem C8_vec_no_dup_check_witness :
    (⟨[3]⟩ : VecOrderedSet Nat).insert_index 1 3
      = some ((if 1 = 0 then none
          else ((⟨[3]⟩ : VecOrderedSet Nat).keys.insertIdx 1 3).get? (1 - 1)),
        ⟨(⟨[3]⟩ : VecOrderedSet Nat).keys.insertIdx 1 3⟩) :=
  C8_vec_no_dup_check ⟨[3]⟩ 1 3 (by decide)

/-- Claim C9: `random_level`, as a function of the drawn 32-bit value, always
returns a level in `[1, 16]`; for `1 ≤ k < 16` it returns `k` exactly when
`2 ^ (32 - 2k) ≤ rand < 2 ^ (32 - 2(k - 1))`, and `16` exactly when
`rand < 2 ^ 2`; hence exactly a `0.75 * 0.25 ^ (k - 1)` fraction of the
`2 ^ 32` draws yields level `k < 16`, stated integrally as
`count * 4 ^ k = 3 * 2 ^ 32`. -/
theorem C9_random_level_distribution :
    (∀ rand : Nat, 1 ≤ random_level rand ∧ random_level rand ≤ 16) ∧
    (∀ rand : Nat, rand < 2 ^ 32 → ∀ k, 1 ≤ k → k < 16 →
      (random_level rand = k ↔
        2 ^ (32 - 2 * k) ≤ rand ∧ rand < 2 ^ (32 - 2 * (k - 1)))) ∧
    (∀ rand : Nat, random_level rand = 16 ↔ rand < 2 ^ 2) ∧
    (∀ k, 1 ≤ k → k < 16 →
      ((Finset.range (2 ^ 32)).filter (fun rand => random_level rand = k)).card
          * 4 ^ k
        = 3 * 2 ^ 32) := by
  refine ⟨fun rand => random_level_bounds rand,
    fun rand h k hk1 hk2 => random_level_eq_iff rand h k hk1 hk2,
    fun rand => random_level_16_iff rand, ?_⟩
  intro k hk1 hk2
  rw [random_level_filter_card k hk1 hk2]
  rw [show (4 : Nat) ^ k = 2 ^ (2 * k) from by
    rw [show (4 : Nat) = 2 ^ 2 from by norm_num, ← pow_mul]]
  rw [mul_assoc, ← pow_add]
  congr 1
  congr 1
  omega

/-- Witness for `C9_random_level_distribution` at concrete draws and level
`1`. -/
theorem C9_random_level_distribution_witness :
    (1 ≤ random_level 5 ∧ random_level 5 ≤ 16) ∧
    (random_level (2 ^ 31) = 1 ↔
      2 ^ (32 - 2 * 1) ≤ 2 ^ 31 ∧ (2 ^ 31 : Nat) < 2 ^ (32 - 2 * (1 - 1))) ∧
    (random_level 3 = 16 ↔ (3 : Nat) < 2 ^ 2) ∧
    (((Finset.range (2 ^ 32)).filter (fun rand => random_level rand = 1)).card
        * 4 ^ 1
      = 3 * 2 ^ 32) :=
  ⟨C9_random_level_distribution.1 5,
   C9_random_level_distribution.2.1 (2 ^ 31) (by norm_num) 1 (le_refl 1) (by norm_num),
   C9_random_level_distribution.2.2.1 3,
   C9_random_level_distribution.2.2.2 1 (le_refl 1) (by norm_num)⟩

/-- Claim C10: `insert_index` at an index strictly greater than `len` panics
(the panic — unwrap of a `None` lookup on the skip list, the `Vec::insert`
bounds check on the vector — is modelled as `none`), rather than returning an
error value or a usable state; on every state of both implementations. -/
theorem C10_insert_index_panic :
    (∀ (sl : SkipList K) (index : Nat) (k : K) (nl : Nat),
      sl.len < index → sl.insert_index index k nl = none) ∧
    (∀ (v : VecOrderedSet K) (index : Nat) (k : K),
      v.keys.length < index → v.insert_index index k = none) := by
  constructor
  · intro sl index k nl h
    exact insert_index_oob sl index k nl h
  · intro v index k h
    exact vec_insert_index_oob v index k h

/-- Witness for `C10_insert_index_panic` at the empty states and index `2`. -/
theorem C10_insert_index_panic_witness :
    (SkipList.new : SkipList Nat).insert_index 2 7 1 = none ∧
    (VecOrderedSet.new : VecOrderedSet Nat).insert_index 2 7 = none :=
  ⟨C10_insert_index_panic.1 SkipList.new 2 7 1 (by decide),
   C10_insert_index_panic.2 VecOrderedSet.new 2 7 (by decide)⟩

end Automerge
